import Mathlib

/-!
# goleveldb: journal framing, table blocks, block iterator, table reader

A shallow embedding of `leveldb/journal/writer.go` and `leveldb/table/reader.go`.
Go `int`/`uint64` values are `Int`/`Nat`, with explicit wrap-around to 64 bits
where a conversion or a sum can overflow.  Bytes are natural numbers below 256.
A Go function that can panic (slice bounds) returns `Option`; `none` is the panic.
-/

namespace journal

/-- Record type `tFull` of `writer.go` (`iota` after `tZero`). -/
def tFull : Nat := 1
/-- Record type `tFirst`. -/
def tFirst : Nat := 2
/-- Record type `tMiddle`. -/
def tMiddle : Nat := 3
/-- Record type `tLast`. -/
def tLast : Nat := 4

/-- Journal block size. -/
def BlockSize : Int := 32768
/-- Header is checksum (4 bytes), length (2 bytes), type (1 byte). -/
def kHeaderSize : Int := 4 + 2 + 1

/-- One call on the underlying `io.Writer` stream made by `Append`:
`zeros n` is `w.w.Write(sixZero[:n])`, `record rtype payload` is the call
`w.write(rtype, payload)`, which emits the 7 header bytes and then the payload. -/
inductive Out where
  | zeros (n : Nat)
  | record (rtype : Nat) (payload : List Nat)
  deriving DecidableEq, Repr

/-- The journal writer: `w` is everything handed to the (in-memory, never failing)
sink so far, oldest first; `boff` is the offset in the current block. -/
structure Writer where
  w : List Out
  boff : Int
  deriving DecidableEq, Repr

/-- `NewWriter`. -/
def NewWriter : Writer := { w := [], boff := 0 }

/-- `Writer.write`: hands one physical record (header, then payload) to the sink. -/
def Writer.write (w : Writer) (rtype : Nat) (record : List Nat) : Writer :=
  { w with w := w.w ++ [Out.record rtype record] }

/-- The `for` loop of `Writer.Append`; one unit of fuel is one iteration, and the
loop is left by `break` when nothing of the record remains.  `none` only when the
fuel runs out. -/
def appendLoop : Nat → Writer → Bool → List Nat → Option Writer
  | 0, _, _, _ => none
  | fuel + 1, w, begin, record =>
    let leftover := BlockSize - w.boff
    let w1 : Writer :=
      if leftover < kHeaderSize then
        { w := if leftover > 0 then w.w ++ [Out.zeros leftover.toNat] else w.w, boff := 0 }
      else w
    let avail := BlockSize - w1.boff - kHeaderSize
    let len : Int := record.length
    let fragLen : Int := if len > avail then avail else len
    let isEnd : Bool := if len > avail then false else true
    let rtype :=
      if begin && isEnd then tFull
      else if begin then tFirst
      else if isEnd then tLast
      else tMiddle
    let w2 := w1.write rtype (record.take fragLen.toNat)
    let record1 := record.drop fragLen.toNat
    let w3 : Writer := { w2 with boff := w2.boff + kHeaderSize + fragLen }
    if record1.length ≤ 0 then some w3 else appendLoop fuel w3 false record1

/-- `Writer.Append`: append a record to the journal.  The loop runs at most
`len(record) + 2` times, which is the fuel given. -/
def Writer.Append (w : Writer) (record : List Nat) : Option Writer :=
  appendLoop (record.length + 2) w true record

/-- Payloads of the physical records of an output, in emission order. -/
def payloads : List Out → List (List Nat)
  | [] => []
  | Out.zeros _ :: rest => payloads rest
  | Out.record _ p :: rest => p :: payloads rest

/-- Type tags of the physical records of an output, in emission order. -/
def tags : List Out → List Nat
  | [] => []
  | Out.zeros _ :: rest => tags rest
  | Out.record t _ :: rest => t :: tags rest

/-- Number of bytes a call puts on the stream. -/
def Out.size : Out → Int
  | Out.zeros n => n
  | Out.record _ p => kHeaderSize + p.length

/-- Total number of bytes of an output. -/
def outSize : List Out → Int
  | [] => 0
  | o :: rest => o.size + outSize rest

/-- For each physical record of an output that starts at stream position `pos`
(counted from the start of a block): its in-block start offset and payload length. -/
def recordSpans : Int → List Out → List (Int × Int)
  | _, [] => []
  | pos, Out.zeros n :: rest => recordSpans (pos + n) rest
  | pos, Out.record _ p :: rest =>
    (pos % BlockSize, (p.length : Int)) :: recordSpans (pos + kHeaderSize + p.length) rest

/-- Payload space of the block in which the next header is written: the value of
`avail` in `Append` when the loop is entered with in-block offset `boff`. -/
def availOf (boff : Int) : Int :=
  BlockSize - (if BlockSize - boff < kHeaderSize then 0 else boff) - kHeaderSize

/-- Zero bytes written before the next header when the loop of `Append` is entered
with in-block offset `boff`: the `sixZero[:leftover]` call, made when fewer than
`kHeaderSize` but more than zero bytes remain. -/
def padOf (boff : Int) : List Out :=
  if BlockSize - boff < kHeaderSize ∧ BlockSize - boff > 0 then
    [Out.zeros (BlockSize - boff).toNat]
  else []

/-- Whether a call on the stream is a physical record (and not zero padding). -/
def Out.isRecord : Out → Bool
  | Out.zeros _ => false
  | Out.record _ _ => true

end journal

namespace journal

/-- Go `binary.Write(buf, binary.LittleEndian, v)` for a `uint32`: the four bytes of
`v`, least significant first. -/
def le32 (v : Nat) : List Nat :=
  [v % 256, v / 2 ^ 8 % 256, v / 2 ^ 16 % 256, v / 2 ^ 24 % 256]

/-- The bytes that `Writer.write` hands to the sink for one physical record.
`maskedCrc b` stands for `hash.MaskCRC32` of the CRC-32C sum of the bytes `b` written
to `hash.NewCRC32C()` (package hash is a collaborator); `byte(x)` keeps the low eight
bits. -/
def writeBytes (maskedCrc : List Nat → Nat) (rtype : Nat) (record : List Nat) : List Nat :=
  let rlen := record.length
  le32 (maskedCrc ([rtype % 256] ++ record)) ++
    [(rlen &&& 0xff) % 256, (rlen >>> 8) % 256, rtype % 256] ++ record

/-- The bytes of one call on the stream: zero padding, or a physical record. -/
def Out.bytes (maskedCrc : List Nat → Nat) : Out → List Nat
  | Out.zeros n => List.replicate n 0
  | Out.record rtype payload => writeBytes maskedCrc rtype payload

/-- The bytes that have reached the underlying `io.Writer`: those of every call that
`Append` made through `w.w.Write` and `w.write`, in order. -/
def Writer.stream (maskedCrc : List Nat → Nat) (w : Writer) : List Nat :=
  (w.w.map (Out.bytes maskedCrc)).flatten

/-- The physical records of an output in emission order: type and payload of each. -/
def fragments : List Out → List (Nat × List Nat)
  | [] => []
  | Out.zeros _ :: rest => fragments rest
  | Out.record t p :: rest => (t, p) :: fragments rest

/-- For each physical record of an output that starts at stream position `pos`: the
block it lies in, its offset in that block, its type and the length of its payload. -/
def recordPlaces : Int → List Out → List (Int × Int × Nat × Nat)
  | _, [] => []
  | pos, Out.zeros n :: rest => recordPlaces (pos + n) rest
  | pos, Out.record t p :: rest =>
    (pos / BlockSize, pos % BlockSize, t, p.length) ::
      recordPlaces (pos + kHeaderSize + p.length) rest

/-- Appends the records one after the other, starting from the given writer. -/
def appendAll (w : Writer) (records : List (List Nat)) : Option Writer :=
  records.foldl (fun acc r => acc.bind (fun w1 => w1.Append r)) (some w)

end journal

namespace journal

/-- The fragments after the first in the words of the specification: as long as the
remainder of the record is not empty, the next fragment consumes
`min(remaining, 32761)` of its bytes.  The first argument bounds the number of
fragments; the length of the remainder is enough. -/
def laterFragments : Nat → List Nat → List (List Nat)
  | 0, _ => []
  | fuel + 1, rem =>
    if rem = [] then []
    else rem.take (min rem.length 32761) :: laterFragments fuel (rem.drop (min rem.length 32761))

end journal

namespace table

/-- Two's-complement reading of an integer as a Go `int` (64 bits): what a sum or
a conversion from `uint64` yields after wrap-around. -/
def wrap64 (x : Int) : Int := (x + 2 ^ 63) % 2 ^ 64 - 2 ^ 63

/-- Go `int(v)` for a `uint64` value `v`. -/
def toInt64 (v : Nat) : Int := wrap64 (v : Int)

/-- Go `s[lo:]`: panics (`none`) unless `0 ≤ lo ≤ len(s)`. -/
def sliceFrom (s : List Nat) (lo : Int) : Option (List Nat) :=
  if 0 ≤ lo ∧ lo ≤ s.length then some (s.drop lo.toNat) else none

/-- Go `s[:hi]`: `none` unless `0 ≤ hi ≤ len(s)`.  (Go allows `hi` up to the
capacity; what lies between length and capacity depends on the allocator, so the
embedding treats such a reslice as a failure.) -/
def sliceTo (s : List Nat) (hi : Int) : Option (List Nat) :=
  if 0 ≤ hi ∧ hi ≤ s.length then some (s.take hi.toNat) else none

/-- Go `s[lo:hi]`: `none` unless `0 ≤ lo ≤ hi ≤ len(s)` (capacity taken as the length). -/
def slice (s : List Nat) (lo hi : Int) : Option (List Nat) :=
  if 0 ≤ lo ∧ lo ≤ hi ∧ hi ≤ s.length then some ((s.take hi.toNat).drop lo.toNat) else none

/-- Go `binary.LittleEndian.Uint32(b)`: panics (`none`) on fewer than 4 bytes. -/
def leUint32 (b : List Nat) : Option Nat :=
  match b with
  | b0 :: b1 :: b2 :: b3 :: _ => some (b0 + b1 * 2 ^ 8 + b2 * 2 ^ 16 + b3 * 2 ^ 24)
  | _ => none

/-- Loop of Go `binary.Uvarint`: `i` is the index of the next byte, `x` the value
accumulated so far and `s` the shift. -/
def uvarintLoop : List Nat → Nat → Nat → Nat → Nat × Int
  | [], _, _, _ => (0, 0)
  | b :: rest, i, x, s =>
    if i = 10 then (0, -((i : Int) + 1))
    else if b < 0x80 then
      if i = 9 ∧ b > 1 then (0, -((i : Int) + 1))
      else ((x ||| (b <<< s)) % 2 ^ 64, (i : Int) + 1)
    else uvarintLoop rest (i + 1) ((x ||| ((b &&& 0x7f) <<< s)) % 2 ^ 64) (s + 7)

/-- Go `binary.Uvarint(buf)`: the decoded value and the number of bytes read
(`0`: buffer too small, negative: overflow of 64 bits). -/
def Uvarint (buf : List Nat) : Nat × Int := uvarintLoop buf 0 0 0

/-- Loop of Go `sort.Search`: the smallest index in `[i, j)` at which `f` is true,
`j` if there is none, for monotone `f`.  The interval at least halves each round, so
fuel `j - i` is never used up; `f` may panic. -/
def searchLoop (f : Int → Option Bool) : Nat → Int → Int → Option Int
  | 0, i, _ => some i
  | fuel + 1, i, j =>
    if i < j then
      let h := (i + j) / 2
      match f h with
      | none => none
      | some false => searchLoop f fuel (h + 1) j
      | some true => searchLoop f fuel i h
    else some i

/-- Go `sort.Search(n, f)`. -/
def sortSearch (n : Int) (f : Int → Option Bool) : Option Int :=
  searchLoop f n.toNat 0 n

/-- Errors of the table reader.  `corruptedRaw` is the package's `*ErrCorrupted` with
only `Reason` set, as `block.entry` returns it; `corrupted` is that error stamped with
position, size and kind and wrapped in `errors.ErrCorrupted` (the file descriptor is
left out); `other` stands for `errors.New` values and I/O errors. -/
inductive Err where
  | ErrNotFound
  | ErrReaderReleased
  | ErrIterReleased
  | corruptedRaw (reason : String)
  | corrupted (pos size : Int) (kind reason : String)
  | other (msg : String)
  deriving DecidableEq, Repr

/-- Location of a block in the file: `blockHandle` of the table package. -/
structure blockHandle where
  offset : Nat
  length : Nat
  deriving DecidableEq, Repr

/-- A decoded data or index block. -/
structure block where
  bh : blockHandle
  data : List Nat
  restartsLen : Int
  restartsOffset : Int
  deriving DecidableEq, Repr

/-- Result tuple `(key, value, nShared, n, err)` of `block.entry`; `value` is `none`
for a nil slice. -/
structure entryResult where
  key : List Nat
  value : Option (List Nat)
  nShared : Int
  n : Int
  err : Option Err
  deriving DecidableEq, Repr

/-- The closure that `block.seek` hands to `sort.Search`: whether the key stored at
restart point `rstart + i` is greater than `key`. -/
def block.seekGreater (b : block) (cmp : List Nat → List Nat → Int) (rstart : Int)
    (key : List Nat) (i : Int) : Option Bool :=
  match sliceFrom b.data (b.restartsOffset + 4 * (rstart + i)) with
  | none => none
  | some o =>
    match leUint32 o with
    | none => none
    | some u =>
      let offset : Int := (u : Int) + 1
      match sliceFrom b.data offset with
      | none => none
      | some d1 =>
        let v1 := (Uvarint d1).1
        let n1 := (Uvarint d1).2
        match sliceFrom b.data (offset + n1) with
        | none => none
        | some d2 =>
          let n2 := (Uvarint d2).2
          let m := offset + n1 + n2
          match slice b.data m (wrap64 (m + toInt64 v1)) with
          | none => none
          | some k => some (decide (cmp k key > 0))

/-- `block.seek`: index and offset of the last restart point in `[rstart, rlimit)`
whose key is not greater than `key` (`rstart` if there is none). -/
def block.seek (b : block) (cmp : List Nat → List Nat → Int) (rstart rlimit : Int)
    (key : List Nat) : Option (Int × Int × Option Err) :=
  match sortSearch (b.restartsLen - rstart - (b.restartsLen - rlimit))
      (b.seekGreater cmp rstart key) with
  | none => none
  | some found =>
    let index0 := found + rstart - 1
    let index := if index0 < rstart then rstart else index0
    match sliceFrom b.data (b.restartsOffset + 4 * index) with
    | none => none
    | some o =>
      match leUint32 o with
      | none => none
      | some u => some (index, (u : Int), none)

/-- The closure that `block.restartIndex` hands to `sort.Search`: whether restart
point `rstart + i` lies beyond `offset`. -/
def block.restartBeyond (b : block) (rstart offset : Int) (i : Int) : Option Bool :=
  match sliceFrom b.data (b.restartsOffset + 4 * (rstart + i)) with
  | none => none
  | some o =>
    match leUint32 o with
    | none => none
    | some u => some (decide ((u : Int) > offset))

/-- `block.restartIndex`: index of the last restart point in `[rstart, rlimit)` whose
offset is not greater than `offset` (`rstart - 1` if there is none). -/
def block.restartIndex (b : block) (rstart rlimit offset : Int) : Option Int :=
  match sortSearch (b.restartsLen - rstart - (b.restartsLen - rlimit))
      (b.restartBeyond rstart offset) with
  | none => none
  | some found => some (found + rstart - 1)

/-- `block.restartOffset`. -/
def block.restartOffset (b : block) (index : Int) : Option Int :=
  match sliceFrom b.data (b.restartsOffset + 4 * index) with
  | none => none
  | some o =>
    match leUint32 o with
    | none => none
    | some u => some (u : Int)

/-- `block.entry`: decodes the entry at `offset`.  `n` is the stored size of the
whole entry; at `offset = restartsOffset` everything is zero and there is no error. -/
def block.entry (b : block) (offset : Int) : Option entryResult :=
  if offset ≥ b.restartsOffset then
    some { key := [], value := none, nShared := 0, n := 0,
           err := if offset ≠ b.restartsOffset then
                    some (Err.corruptedRaw "entries offset not aligned") else none }
  else
    match sliceFrom b.data offset with
    | none => none
    | some d0 =>
      let v0 := (Uvarint d0).1
      let n0 := (Uvarint d0).2
      match sliceFrom b.data (offset + n0) with
      | none => none
      | some d1 =>
        let v1 := (Uvarint d1).1
        let n1 := (Uvarint d1).2
        match sliceFrom b.data (offset + n0 + n1) with
        | none => none
        | some d2 =>
          let v2 := (Uvarint d2).1
          let n2 := (Uvarint d2).2
          let m := n0 + n1 + n2
          let n := wrap64 (m + toInt64 v1 + toInt64 v2)
          if n0 ≤ 0 ∨ n1 ≤ 0 ∨ n2 ≤ 0 ∨ wrap64 (offset + n) > b.restartsOffset then
            some { key := [], value := none, nShared := 0, n := n,
                   err := some (Err.corruptedRaw "entries corrupted") }
          else
            match slice b.data (offset + m) (wrap64 (offset + m + toInt64 v1)) with
            | none => none
            | some key =>
              match slice b.data (wrap64 (offset + m + toInt64 v1)) (wrap64 (offset + n)) with
              | none => none
              | some value =>
                some { key := key, value := some value, nShared := toInt64 v0, n := n,
                       err := none }

/-- Iterator direction and state: `dir` of the table package. -/
inductive dir where
  | dirReleased
  | dirSOI
  | dirEOI
  | dirBackward
  | dirForward
  deriving DecidableEq, Repr

/-- Filter block: `data` holds the filters, then the offsets array starting at
`oOffset`, then `oOffset` itself (4 bytes) and the `baseLg` byte. -/
structure filterBlock where
  data : List Nat
  oOffset : Int
  baseLg : Nat
  filtersNum : Int
  deriving DecidableEq, Repr

/-- `filterBlock.contains`; `filter` is the `Contains` method of the filter policy
and `offset` a `uint64`.  `int(offset >> baseLg)` and `i*4` wrap to 64 bits. -/
def filterBlock.contains (b : filterBlock) (filter : List Nat → List Nat → Bool)
    (offset : Nat) (key : List Nat) : Option Bool :=
  let i : Int := toInt64 (offset >>> b.baseLg)
  if i < b.filtersNum then
    match sliceFrom b.data (wrap64 (b.oOffset + wrap64 (i * 4))) with
    | none => none
    | some o =>
      match leUint32 o with
      | none => none
      | some n =>
        match sliceFrom o 4 with
        | none => none
        | some o4 =>
          match leUint32 o4 with
          | none => none
          | some m =>
            if n < m ∧ (m : Int) ≤ b.oOffset then
              match slice b.data n m with
              | none => none
              | some d => some (filter d key)
            else if n = m then some false
            else some true
  else some true

end table

namespace table

/-- The table reader.  The last three fields are the collaborators behind
`readRawBlock`: `readAt n off` is the buffer of `n` bytes after
`r.reader.ReadAt(buf, off)` (`io.EOF` counts as success), `crc` is
`util.NewCRC(b).Value()` and `snappyDecode` is `snappy.DecodedLen` followed by
`snappy.Decode`.  The block cache is taken to be transparent and the mutex and the
buffer pool's recycling are not modelled; `bpool` only says whether a pool is set. -/
structure Reader where
  err : Option Err
  cmp : List Nat → List Nat → Int
  filter : Option (List Nat → List Nat → Bool)
  verifyChecksum : Bool
  dataEnd : Int
  metaBH : blockHandle
  indexBH : blockHandle
  filterBH : blockHandle
  indexBlock : Option block
  filterBlock : Option filterBlock
  bpool : Bool
  readAt : Nat → Int → Except Err (List Nat)
  crc : List Nat → Nat
  snappyDecode : List Nat → Except String (List Nat)

/-- `Reader.blockKind`. -/
def Reader.blockKind (r : Reader) (bh : blockHandle) : String :=
  if bh.offset = r.metaBH.offset then "meta-block"
  else if bh.offset = r.indexBH.offset then "index-block"
  else if bh.offset = r.filterBH.offset ∧ r.filterBH.length > 0 then "filter-block"
  else "data-block"

/-- `Reader.newErrCorrupted`. -/
def Reader.newErrCorrupted (_r : Reader) (pos size : Int) (kind reason : String) : Err :=
  Err.corrupted pos size kind reason

/-- `Reader.newErrCorruptedBH`. -/
def Reader.newErrCorruptedBH (r : Reader) (bh : blockHandle) (reason : String) : Err :=
  r.newErrCorrupted (toInt64 bh.offset) (toInt64 bh.length) (r.blockKind bh) reason

/-- `Reader.fixErrCorruptedBH`: stamps a raw corruption error with the block's
position, size and kind; any other error is passed on unchanged. -/
def Reader.fixErrCorruptedBH (r : Reader) (bh : blockHandle) (err : Err) : Err :=
  match err with
  | Err.corruptedRaw reason =>
    Err.corrupted (toInt64 bh.offset) (toInt64 bh.length) (r.blockKind bh) reason
  | e => e

/-- Cursor over one block: `blockIter` of the table package (the releasers are not
modelled).  `key` is the Go slice with nil and empty identified; `value` is `none`
for nil. -/
structure blockIter where
  tr : Reader
  block : block
  key : List Nat
  value : Option (List Nat)
  offset : Int
  prevOffset : Int
  prevNode : List Int
  prevKeys : List Nat
  restartIndex : Int
  dir : dir
  riStart : Int
  riLimit : Int
  offsetStart : Int
  offsetRealStart : Int
  offsetLimit : Int
  err : Option Err

/-- `blockIter.sErr`. -/
def blockIter.sErr (i : blockIter) (err : Err) : blockIter :=
  { i with err := some err, key := [], value := none, prevNode := [], prevKeys := [] }

/-- `blockIter.reset`. -/
def blockIter.reset (i : blockIter) : blockIter :=
  let i1 := if i.dir = dir.dirBackward then { i with prevNode := [], prevKeys := [] } else i
  { i1 with restartIndex := i1.riStart, offset := i1.offsetStart, dir := dir.dirSOI,
            key := [], value := none }

/-- `blockIter.isFirst`. -/
def blockIter.isFirst (i : blockIter) : Bool :=
  match i.dir with
  | dir.dirForward => decide (i.prevOffset = i.offsetRealStart)
  | dir.dirBackward => decide (i.prevNode.length = 1 ∧ i.restartIndex = i.riStart)
  | _ => false

/-- `blockIter.isLast`. -/
def blockIter.isLast (i : blockIter) : Bool :=
  match i.dir with
  | dir.dirForward => decide (i.offset = i.offsetLimit)
  | dir.dirBackward => decide (i.offset = i.offsetLimit)
  | _ => false

/-- How a loop inside an iterator method ends: `cont` falls through to the code
after the loop, `ret` is a `return` of the method with the given result. -/
inductive Flow where
  | cont (i : blockIter)
  | ret (res : Bool) (i : blockIter)

/-- The loop `for i.offset < i.offsetRealStart` of `Next`, which walks a sliced
iterator from the restart point to its first entry.  Every round moves `offset`
forward, so fuel `offsetRealStart - offset` is never used up. -/
def nextSkip : Nat → blockIter → Option Flow
  | 0, i => if i.offset < i.offsetRealStart then none else some (Flow.cont i)
  | fuel + 1, i =>
    if i.offset < i.offsetRealStart then
      match i.block.entry i.offset with
      | none => none
      | some e =>
        match e.err with
        | some err => some (Flow.ret false (i.sErr (i.tr.fixErrCorruptedBH i.block.bh err)))
        | none =>
          if e.n = 0 then some (Flow.ret false { i with dir := dir.dirEOI })
          else
            match sliceTo i.key e.nShared with
            | none => none
            | some k =>
              nextSkip fuel { i with key := k ++ e.key, value := e.value,
                                     offset := i.offset + e.n }
    else some (Flow.cont i)

/-- `blockIter.Next`: the result and the iterator afterwards. -/
def blockIter.Next (i : blockIter) : Option (Bool × blockIter) :=
  if i.dir = dir.dirEOI ∨ i.err ≠ none then some (false, i)
  else if i.dir = dir.dirReleased then some (false, { i with err := some Err.ErrIterReleased })
  else
    let i1 : blockIter :=
      if i.dir = dir.dirSOI then { i with restartIndex := i.riStart, offset := i.offsetStart }
      else if i.dir = dir.dirBackward then { i with prevNode := [], prevKeys := [] }
      else i
    match nextSkip (i1.offsetRealStart - i1.offset).toNat i1 with
    | none => none
    | some (Flow.ret res i2) => some (res, i2)
    | some (Flow.cont i2) =>
      if i2.offset ≥ i2.offsetLimit then
        let i3 : blockIter := { i2 with dir := dir.dirEOI }
        if i3.offset ≠ i3.offsetLimit then
          some (false, i3.sErr (i3.tr.newErrCorruptedBH i3.block.bh "entries offset not aligned"))
        else some (false, i3)
      else
        match i2.block.entry i2.offset with
        | none => none
        | some e =>
          match e.err with
          | some err => some (false, i2.sErr (i2.tr.fixErrCorruptedBH i2.block.bh err))
          | none =>
            if e.n = 0 then some (false, { i2 with dir := dir.dirEOI })
            else
              match sliceTo i2.key e.nShared with
              | none => none
              | some k =>
                some (true, { i2 with key := k ++ e.key, value := e.value,
                                      prevOffset := i2.offset, offset := i2.offset + e.n,
                                      dir := dir.dirForward })

/-- `blockIter.First`. -/
def blockIter.First (i : blockIter) : Option (Bool × blockIter) :=
  if i.err ≠ none then some (false, i)
  else if i.dir = dir.dirReleased then some (false, { i with err := some Err.ErrIterReleased })
  else
    let i1 : blockIter :=
      if i.dir = dir.dirBackward then { i with prevNode := [], prevKeys := [] } else i
    blockIter.Next { i1 with dir := dir.dirSOI }

/-- The loop `for i.Next()` of `Seek`: stops on the first entry whose key is not
below `key`.  Every successful `Next` moves `offset` forward, so the fuel given by
`Seek` is never used up. -/
def seekLoop : Nat → blockIter → List Nat → Option (Bool × blockIter)
  | 0, _, _ => none
  | fuel + 1, i, key =>
    match i.Next with
    | none => none
    | some (false, i1) => some (false, i1)
    | some (true, i1) =>
      if i1.tr.cmp i1.key key ≥ 0 then some (true, i1) else seekLoop fuel i1 key

/-- `blockIter.Seek`. -/
def blockIter.Seek (i : blockIter) (key : List Nat) : Option (Bool × blockIter) :=
  if i.err ≠ none then some (false, i)
  else if i.dir = dir.dirReleased then some (false, { i with err := some Err.ErrIterReleased })
  else
    match i.block.seek i.tr.cmp i.riStart i.riLimit key with
    | none => none
    | some (_, _, some err) => some (false, i.sErr err)
    | some (ri, offset, none) =>
      let i1 : blockIter := { i with restartIndex := ri, offset := max i.offsetStart offset }
      let i2 : blockIter :=
        if i1.dir = dir.dirSOI ∨ i1.dir = dir.dirEOI then { i1 with dir := dir.dirForward }
        else i1
      seekLoop (i.block.data.length + 1) i2 key

/-- How the cache-building loop of `Prev` ends: `done` is the `break` with the
offset reached, `fail` the `return false` after an error was latched. -/
inductive BuildFlow where
  | done (i : blockIter) (offset : Int)
  | fail (i : blockIter)

/-- The loop of `Prev` that rebuilds the backward cache: it decodes forward from
`offset` up to the target `i.offset`, pushing every entry but the last onto
`prevNode` and `prevKeys`.  Every round moves `offset` forward, so the fuel given by
`Prev` is never used up. -/
def prevBuild : Nat → blockIter → Int → Option BuildFlow
  | 0, _, _ => none
  | fuel + 1, i, offset =>
    match i.block.entry offset with
    | none => none
    | some e =>
      match e.err with
      | some err => some (BuildFlow.fail (i.sErr (i.tr.fixErrCorruptedBH i.block.bh err)))
      | none =>
        let i1 : blockIter :=
          if offset ≥ i.offsetRealStart then
            let i0 : blockIter :=
              match i.value with
              | some v =>
                { i with prevNode := i.prevNode ++
                            [(i.prevKeys.length : Int), offset - v.length, (v.length : Int)],
                         prevKeys := i.prevKeys ++ i.key }
              | none => i
            { i0 with value := e.value }
          else i
        match sliceTo i1.key e.nShared with
        | none => none
        | some k =>
          let i2 : blockIter := { i1 with key := k ++ e.key }
          let offset1 := offset + e.n
          if offset1 ≥ i2.offset then
            if offset1 ≠ i2.offset then
              some (BuildFlow.fail
                (i2.sErr (i2.tr.newErrCorruptedBH i2.block.bh "entries offset not aligned")))
            else some (BuildFlow.done i2 offset1)
          else prevBuild fuel i2 offset1

/-- Second half of `Prev`, from the comment "Build entries cache" on: `ri` is the
restart point to rebuild from. -/
def prevRebuild (i : blockIter) (ri : Int) : Option (Bool × blockIter) :=
  let i1 : blockIter := { i with key := [], value := none }
  match i1.block.restartOffset ri with
  | none => none
  | some offset =>
    let step (i2 : blockIter) (ri2 offset2 : Int) : Option (Bool × blockIter) :=
      let i3 : blockIter := { i2 with prevNode := i2.prevNode ++ [offset2] }
      match prevBuild (i3.block.data.length + 1) i3 offset2 with
      | none => none
      | some (BuildFlow.fail i4) => some (false, i4)
      | some (BuildFlow.done i4 offset4) =>
        some (true, { i4 with restartIndex := ri2, offset := offset4 })
    if offset = i1.offset then
      let ri1 := ri - 1
      if ri1 < 0 then some (false, { i1 with dir := dir.dirSOI })
      else
        match i1.block.restartOffset ri1 with
        | none => none
        | some offset1 => step i1 ri1 offset1
    else step i1 ri offset

/-- `blockIter.Prev`. -/
def blockIter.Prev (i : blockIter) : Option (Bool × blockIter) :=
  if i.dir = dir.dirSOI ∨ i.err ≠ none then some (false, i)
  else if i.dir = dir.dirReleased then some (false, { i with err := some Err.ErrIterReleased })
  else if i.dir = dir.dirForward then
    let i1 : blockIter := { i with offset := i.prevOffset }
    if i1.offset = i1.offsetRealStart then some (false, { i1 with dir := dir.dirSOI })
    else
      match i1.block.restartIndex i1.restartIndex i1.riLimit i1.offset with
      | none => none
      | some ri => prevRebuild { i1 with dir := dir.dirBackward } ri
  else if i.dir = dir.dirEOI then
    let i1 : blockIter := { i with restartIndex := i.riLimit, offset := i.offsetLimit }
    if i1.offset = i1.offsetRealStart then some (false, { i1 with dir := dir.dirSOI })
    else prevRebuild { i1 with dir := dir.dirBackward } (i1.riLimit - 1)
  else if i.prevNode.length = 1 then
    match i.prevNode with
    | [] => none
    | p0 :: _ =>
      let i1 : blockIter := { i with offset := p0, prevNode := [] }
      if i1.restartIndex = i1.riStart then some (false, { i1 with dir := dir.dirSOI })
      else
        let i2 : blockIter := { i1 with restartIndex := i1.restartIndex - 1 }
        prevRebuild i2 i2.restartIndex
  else
    let n : Int := (i.prevNode.length : Int) - 3
    if n < 0 then none
    else
      match i.prevNode.drop n.toNat with
      | [ko, vo, vlen] =>
        let i1 : blockIter := { i with prevNode := i.prevNode.take n.toNat }
        match sliceFrom i1.prevKeys ko, sliceTo i1.prevKeys ko with
        | some k, some pk =>
          let i2 : blockIter := { i1 with key := k, prevKeys := pk }
          let vl := vo + vlen
          match slice i2.block.data vo vl with
          | none => none
          | some v => some (true, { i2 with value := some v, offset := vl })
        | _, _ => none
      | _ => none

/-- `blockIter.Last`. -/
def blockIter.Last (i : blockIter) : Option (Bool × blockIter) :=
  if i.err ≠ none then some (false, i)
  else if i.dir = dir.dirReleased then some (false, { i with err := some Err.ErrIterReleased })
  else
    let i1 : blockIter :=
      if i.dir = dir.dirBackward then { i with prevNode := [], prevKeys := [] } else i
    blockIter.Prev { i1 with dir := dir.dirEOI }

/-- `blockIter.Key`: `none` is the nil slice. -/
def blockIter.Key (i : blockIter) : Option (List Nat) :=
  if i.err ≠ none ∨ i.dir = dir.dirReleased ∨ i.dir = dir.dirSOI ∨ i.dir = dir.dirEOI then none
  else some i.key

/-- `blockIter.Value`: `none` is the nil slice. -/
def blockIter.Value (i : blockIter) : Option (List Nat) :=
  if i.err ≠ none ∨ i.dir = dir.dirReleased ∨ i.dir = dir.dirSOI ∨ i.dir = dir.dirEOI then none
  else i.value

/-- `blockIter.Valid`. -/
def blockIter.Valid (i : blockIter) : Bool :=
  decide (i.err = none ∧ (i.dir = dir.dirBackward ∨ i.dir = dir.dirForward))

/-- `blockIter.Error`. -/
def blockIter.Error (i : blockIter) : Option Err := i.err

/-- Key range of a sliced iterator: `util.Range`; `none` is a nil bound. -/
structure Range where
  Start : Option (List Nat)
  Limit : Option (List Nat)
  deriving DecidableEq, Repr

/-- `Reader.newBlockIter`; `slice = none` is the nil slice.  `none` as result is a
panic in one of the seeks. -/
def Reader.newBlockIter (r : Reader) (b : block) (slice : Option Range) (inclLimit : Bool) :
    Option blockIter :=
  let bi : blockIter :=
    { tr := r, block := b, key := [], value := none, offset := 0, prevOffset := 0,
      prevNode := [], prevKeys := [], restartIndex := 0, dir := dir.dirSOI,
      riStart := 0, riLimit := b.restartsLen, offsetStart := 0, offsetRealStart := 0,
      offsetLimit := b.restartsOffset, err := none }
  match slice with
  | none => some bi
  | some s =>
    let afterStart : Option blockIter :=
      match s.Start with
      | none => some bi
      | some start =>
        match bi.Seek start with
        | none => none
        | some (true, bi1) =>
          match b.restartIndex bi1.restartIndex b.restartsLen bi1.prevOffset with
          | none => none
          | some ri =>
            match b.restartOffset ri with
            | none => none
            | some off =>
              some { bi1 with riStart := ri, offsetStart := off,
                              offsetRealStart := bi1.prevOffset }
        | some (false, bi1) =>
          some { bi1 with riStart := b.restartsLen, offsetStart := b.restartsOffset,
                          offsetRealStart := b.restartsOffset }
    match afterStart with
    | none => none
    | some bi2 =>
      let afterLimit : Option blockIter :=
        match s.Limit with
        | none => some bi2
        | some limit =>
          match bi2.Seek limit with
          | none => none
          | some (false, bi3) => some bi3
          | some (true, bi3) =>
            if inclLimit then
              match bi3.Next with
              | none => none
              | some (false, bi4) => some bi4
              | some (true, bi4) =>
                some { bi4 with offsetLimit := bi4.prevOffset,
                                riLimit := bi4.restartIndex + 1 }
            else
              some { bi3 with offsetLimit := bi3.prevOffset, riLimit := bi3.restartIndex + 1 }
      match afterLimit with
      | none => none
      | some bi5 =>
        let bi6 := bi5.reset
        if bi6.offsetStart > bi6.offsetLimit then
          some (bi6.sErr (Err.other "leveldb/table: invalid slice range"))
        else some bi6

end table

namespace table

/-- A block iterator together with its two releasers.  A `util.Releaser` is
identified by a number (`none` is nil), and a call of its `Release()` is recorded by
appending that number to a log. -/
structure heldIter where
  i : blockIter
  blockReleaser : Option Nat
  releaser : Option Nat

/-- `Reader.newBlockIter` with its `bReleaser` argument. -/
def Reader.newHeldIter (r : Reader) (b : block) (bReleaser : Option Nat)
    (slice : Option Range) (inclLimit : Bool) : Option heldIter :=
  match r.newBlockIter b slice inclLimit with
  | none => none
  | some i => some { i := i, blockReleaser := bReleaser, releaser := none }

/-- `blockIter.Release`: the iterator and the log of releaser calls afterwards;
`none` would be a panic.  The source also sets the pointers `tr` and `block` to nil;
they are kept here, because no method reads them once `dir` is `dirReleased`. -/
def heldIter.Release (h : heldIter) (log : List Nat) : Option (heldIter × List Nat) :=
  if h.i.dir ≠ dir.dirReleased then
    let i1 : blockIter :=
      { h.i with prevNode := [], prevKeys := [], key := [], value := none,
                 dir := dir.dirReleased }
    let log1 : List Nat :=
      match h.blockReleaser with
      | some b => log ++ [b]
      | none => log
    let log2 : List Nat :=
      match h.releaser with
      | some x => log1 ++ [x]
      | none => log1
    some ({ i := i1, blockReleaser := none, releaser := none }, log2)
  else some (h, log)

/-- `blockIter.SetReleaser`; `none` is a panic (`util.ErrReleased` or
`util.ErrHasReleaser`). -/
def heldIter.SetReleaser (h : heldIter) (releaser : Option Nat) : Option heldIter :=
  if h.i.dir = dir.dirReleased then none
  else if h.releaser ≠ none ∧ releaser ≠ none then none
  else some { h with releaser := releaser }

/-- The latched error of a released iterator after one more move: the error it
already had, or `ErrIterReleased` when it had none. -/
def releasedErr (e : Option Err) : Option Err :=
  match e with
  | none => some Err.ErrIterReleased
  | some e => some e

end table

namespace table

/-- Size of the block trailer: compression type (1 byte) and checksum (4 bytes). -/
def blockTrailerLen : Nat := 5
/-- Compression type byte of an uncompressed block. -/
def blockTypeNoCompression : Nat := 0
/-- Compression type byte of a Snappy-compressed block. -/
def blockTypeSnappyCompression : Nat := 1

/-- Modelled from the spec: `decodeBlockHandle` (table.go is not under src).  A block
handle is `(offset, length)` encoded as two varints; the second result is the number
of bytes read, `0` when either varint cannot be read. -/
def decodeBlockHandle (src : List Nat) : Option (blockHandle × Int) :=
  let offset := (Uvarint src).1
  let n := (Uvarint src).2
  match sliceFrom src n with
  | none => none
  | some rest =>
    let length := (Uvarint rest).1
    let m := (Uvarint rest).2
    if n = 0 ∨ m = 0 then some ({ offset := 0, length := 0 }, 0)
    else some ({ offset := offset, length := length }, n + m)

/-- Modelled from the spec: `errors.IsCorrupted` (package errors is not under src):
whether the error is a corruption error. -/
def IsCorrupted (e : Err) : Bool :=
  match e with
  | Err.corrupted _ _ _ _ => true
  | _ => false

/-- `Reader.readRawBlock`: reads `bh.length + 5` bytes at `bh.offset`, verifies the
checksum of `data[:length+1]` against the trailing little-endian word if asked, and
undoes the compression.  The numbers in the checksum message are left out. -/
def Reader.readRawBlock (r : Reader) (bh : blockHandle) (verifyChecksum : Bool) :
    Option (Except Err (List Nat)) :=
  match r.readAt (bh.length + blockTrailerLen) (toInt64 bh.offset) with
  | Except.error e => some (Except.error e)
  | Except.ok data =>
    let checked : Option (Option Err) :=
      if verifyChecksum then
        let n : Int := (bh.length : Int) + 1
        match sliceFrom data n, sliceTo data n with
        | some tail, some body =>
          match leUint32 tail with
          | none => none
          | some checksum0 =>
            if checksum0 ≠ r.crc body then
              some (some (r.newErrCorruptedBH bh "checksum mismatch"))
            else some none
        | _, _ => none
      else some none
    match checked with
    | none => none
    | some (some e) => some (Except.error e)
    | some none =>
      match data.get? bh.length with
      | none => none
      | some ty =>
        if ty = blockTypeNoCompression then some (Except.ok (data.take bh.length))
        else if ty = blockTypeSnappyCompression then
          match r.snappyDecode (data.take bh.length) with
          | Except.error msg => some (Except.error (r.newErrCorruptedBH bh msg))
          | Except.ok dec => some (Except.ok dec)
        else some (Except.error (r.newErrCorruptedBH bh "unknown compression type"))

/-- `Reader.readBlock`. -/
def Reader.readBlock (r : Reader) (bh : blockHandle) (verifyChecksum : Bool) :
    Option (Except Err block) :=
  match r.readRawBlock bh verifyChecksum with
  | none => none
  | some (Except.error e) => some (Except.error e)
  | some (Except.ok data) =>
    match sliceFrom data ((data.length : Int) - 4) with
    | none => none
    | some tail =>
      match leUint32 tail with
      | none => none
      | some u =>
        let restartsLen : Int := (u : Int)
        some (Except.ok { bh := bh, data := data, restartsLen := restartsLen,
                          restartsOffset := (data.length : Int) - (restartsLen + 1) * 4 })

/-- `Reader.readBlockCached`, with a transparent cache: the block read from the file. -/
def Reader.readBlockCached (r : Reader) (bh : blockHandle) (verifyChecksum : Bool) :
    Option (Except Err block) :=
  r.readBlock bh verifyChecksum

/-- `Reader.readFilterBlock`. -/
def Reader.readFilterBlock (r : Reader) (bh : blockHandle) : Option (Except Err table.filterBlock) :=
  match r.readRawBlock bh true with
  | none => none
  | some (Except.error e) => some (Except.error e)
  | some (Except.ok data) =>
    let n : Int := data.length
    if n < 5 then some (Except.error (r.newErrCorruptedBH bh "too short"))
    else
      let m := n - 5
      match sliceFrom data m with
      | none => none
      | some tail =>
        match leUint32 tail with
        | none => none
        | some u =>
          let oOffset : Int := (u : Int)
          if oOffset > m then
            some (Except.error (r.newErrCorruptedBH bh "invalid data-offsets offset"))
          else
            match data.get? (n - 1).toNat with
            | none => none
            | some lg =>
              some (Except.ok { data := data, oOffset := oOffset, baseLg := lg,
                                filtersNum := (m - oOffset) / 4 })

/-- `Reader.readFilterBlockCached`, with a transparent cache. -/
def Reader.readFilterBlockCached (r : Reader) (bh : blockHandle) :
    Option (Except Err table.filterBlock) :=
  r.readFilterBlock bh

/-- `Reader.getIndexBlock`. -/
def Reader.getIndexBlock (r : Reader) : Option (Except Err block) :=
  match r.indexBlock with
  | none => r.readBlockCached r.indexBH true
  | some b => some (Except.ok b)

/-- `Reader.getFilterBlock`. -/
def Reader.getFilterBlock (r : Reader) : Option (Except Err table.filterBlock) :=
  match r.filterBlock with
  | none => r.readFilterBlockCached r.filterBH
  | some b => some (Except.ok b)

/-- Modelled from the spec: the `iterator.Iterator` values that `getDataIter` returns
(package iterator is not under src): a block iterator, or the empty iterator of
`iterator.NewEmptyIterator(err)`, on which every move returns false and `Error`
returns `err`. -/
inductive dataIter where
  | empty (err : Option Err)
  | blk (i : blockIter)

/-- `Seek` on the iterator interface. -/
def dataIter.Seek (d : dataIter) (key : List Nat) : Option (Bool × dataIter) :=
  match d with
  | dataIter.empty e => some (false, dataIter.empty e)
  | dataIter.blk i =>
    match i.Seek key with
    | none => none
    | some (res, i1) => some (res, dataIter.blk i1)

/-- `Next` on the iterator interface. -/
def dataIter.Next (d : dataIter) : Option (Bool × dataIter) :=
  match d with
  | dataIter.empty e => some (false, dataIter.empty e)
  | dataIter.blk i =>
    match i.Next with
    | none => none
    | some (res, i1) => some (res, dataIter.blk i1)

/-- `Error` on the iterator interface. -/
def dataIter.Error (d : dataIter) : Option Err :=
  match d with
  | dataIter.empty e => e
  | dataIter.blk i => i.Error

/-- `Key` on the iterator interface. -/
def dataIter.Key (d : dataIter) : Option (List Nat) :=
  match d with
  | dataIter.empty _ => none
  | dataIter.blk i => i.Key

/-- `Value` on the iterator interface. -/
def dataIter.Value (d : dataIter) : Option (List Nat) :=
  match d with
  | dataIter.empty _ => none
  | dataIter.blk i => i.Value

/-- `Reader.getDataIter` with a nil slice. -/
def Reader.getDataIter (r : Reader) (dataBH : blockHandle) (verifyChecksum : Bool) :
    Option dataIter :=
  match r.readBlockCached dataBH verifyChecksum with
  | none => none
  | some (Except.error e) => some (dataIter.empty (some e))
  | some (Except.ok b) =>
    match r.newBlockIter b none false with
    | none => none
    | some i => some (dataIter.blk i)

/-- Result tuple `(rkey, value, err)` of `Reader.find`; `none` is nil. -/
structure findResult where
  rkey : Option (List Nat)
  value : Option (List Nat)
  err : Option Err
  deriving DecidableEq, Repr

/-- Go `append([]byte(nil), v...)`: a copy, nil when there is nothing to copy. -/
def copyBytes (v : Option (List Nat)) : Option (List Nat) :=
  match v with
  | none => none
  | some [] => none
  | some (x :: xs) => some (x :: xs)

/-- Tail of `Reader.find`: the key and value under the data iterator. -/
def Reader.findTail (r : Reader) (data : dataIter) (noValue : Bool) : findResult :=
  { rkey := data.Key,
    value := if noValue then none
             else if r.bpool then copyBytes data.Value else data.Value,
    err := none }

/-- `Reader.find`: the result and the reader afterwards (`r.err` may get latched).
The read options only steer the cache and are left out. -/
def Reader.find (r : Reader) (key : List Nat) (filtered : Bool) (noValue : Bool) :
    Option (findResult × Reader) :=
  match r.err with
  | some e => some ({ rkey := none, value := none, err := some e }, r)
  | none =>
    match r.getIndexBlock with
    | none => none
    | some (Except.error e) => some ({ rkey := none, value := none, err := some e }, r)
    | some (Except.ok indexBlock) =>
      match r.newBlockIter indexBlock none true with
      | none => none
      | some index0 =>
        match index0.Seek key with
        | none => none
        | some (false, index) =>
          some ({ rkey := none, value := none,
                  err := some (match index.Error with
                               | none => Err.ErrNotFound
                               | some e => e) }, r)
        | some (true, index) =>
          match decodeBlockHandle (index.Value.getD []) with
          | none => none
          | some (dataBH, n) =>
            if n = 0 then
              let e := r.newErrCorruptedBH r.indexBH "bad data block handle"
              some ({ rkey := none, value := none, err := some e }, { r with err := some e })
            else
              let filterVerdict : Option (Option findResult) :=
                match filtered, r.filter with
                | true, some flt =>
                  match r.getFilterBlock with
                  | none => none
                  | some (Except.ok fb) =>
                    match fb.contains flt dataBH.offset key with
                    | none => none
                    | some false =>
                      some (some { rkey := none, value := none, err := some Err.ErrNotFound })
                    | some true => some none
                  | some (Except.error ferr) =>
                    if IsCorrupted ferr then some none
                    else some (some { rkey := none, value := none, err := some ferr })
                | _, _ => some none
              match filterVerdict with
              | none => none
              | some (some res) => some (res, r)
              | some none =>
                match r.getDataIter dataBH r.verifyChecksum with
                | none => none
                | some data0 =>
                  match data0.Seek key with
                  | none => none
                  | some (true, data) => some (r.findTail data noValue, r)
                  | some (false, data) =>
                    match data.Error with
                    | some e => some ({ rkey := none, value := none, err := some e }, r)
                    | none =>
                      match index.Next with
                      | none => none
                      | some (false, index1) =>
                        some ({ rkey := none, value := none,
                                err := some (match index1.Error with
                                             | none => Err.ErrNotFound
                                             | some e => e) }, r)
                      | some (true, index1) =>
                        match decodeBlockHandle (index1.Value.getD []) with
                        | none => none
                        | some (dataBH1, n1) =>
                          if n1 = 0 then
                            let e := r.newErrCorruptedBH r.indexBH "bad data block handle"
                            some ({ rkey := none, value := none, err := some e },
                                  { r with err := some e })
                          else
                            match r.getDataIter dataBH1 r.verifyChecksum with
                            | none => none
                            | some data1 =>
                              match data1.Next with
                              | none => none
                              | some (false, data2) =>
                                some ({ rkey := none, value := none,
                                        err := some (match data2.Error with
                                                     | none => Err.ErrNotFound
                                                     | some e => e) }, r)
                              | some (true, data2) => some (r.findTail data2 noValue, r)

/-- `Reader.Find`. -/
def Reader.Find (r : Reader) (key : List Nat) (filtered : Bool) :
    Option (findResult × Reader) :=
  r.find key filtered false

/-- `Reader.FindKey`: the key and the error. -/
def Reader.FindKey (r : Reader) (key : List Nat) (filtered : Bool) :
    Option ((Option (List Nat) × Option Err) × Reader) :=
  match r.find key filtered true with
  | none => none
  | some (res, r1) => some ((res.rkey, res.err), r1)

/-- `Reader.Get`: the value, the error, and the reader afterwards. -/
def Reader.Get (r : Reader) (key : List Nat) :
    Option ((Option (List Nat) × Option Err) × Reader) :=
  match r.err with
  | some e => some ((none, some e), r)
  | none =>
    match r.find key false false with
    | none => none
    | some (res, r1) =>
      if res.err = none ∧ r1.cmp (res.rkey.getD []) key ≠ 0 then
        some ((none, some Err.ErrNotFound), r1)
      else some ((res.value, res.err), r1)

end table

namespace table

/-- Modelled from the spec: `footerLen` (table.go is not under src); the footer is the
last 48 bytes of the file. -/
def footerLen : Nat := 48

/-- Modelled from the spec: `magic` (table.go is not under src), the eight bytes of
`0xdb4775248b80fb57` in little-endian order that end the footer. -/
def magic : List Nat := [0x57, 0xfb, 0x80, 0x8b, 0x24, 0x75, 0x47, 0xdb]

/-- Modelled from the spec: a `filter.Filter` of the options (package filter is not
under src): its `Name()` as bytes and its `Contains`. -/
structure Filter where
  name : List Nat
  contains : List Nat → List Nat → Bool

/-- Modelled from the spec: the part of `opt.Options` that `NewReader` reads (package
opt is given only in part under src): `GetComparer()`,
`GetStrict(opt.StrictBlockChecksum)`, `GetFilter()` and `GetAltFilters()`. -/
structure Options where
  comparer : List Nat → List Nat → Int
  strictBlockChecksum : Bool
  filter : Option Filter
  altFilters : List Filter

/-- The bytes of the string `filter.`, the head of a filter's key in the metaindex. -/
def filterKeyHead : List Nat := [102, 105, 108, 116, 101, 114, 46]

/-- The filter choice in the metaindex loop of `NewReader`: the main filter if its name
is `fn`, else the first alternative filter with that name, else what `r.filter` was. -/
def chooseFilter (o : Options) (fn : List Nat)
    (cur : Option (List Nat → List Nat → Bool)) : Option (List Nat → List Nat → Bool) :=
  let alt : Option (List Nat → List Nat → Bool) :=
    match o.altFilters.find? (fun f0 => decide (f0.name = fn)) with
    | some f0 => some f0.contains
    | none => cur
  match o.filter with
  | some f0 => if f0.name = fn then some f0.contains else alt
  | none => alt

/-- The loop `for metaIter.Next()` of `NewReader`: the reader when the loop is left.
`none` is a panic or the fuel running out. -/
def metaLoop (o : Options) : Nat → blockIter → Reader → Option Reader
  | 0, _, _ => none
  | fuel + 1, metaIter, r =>
    match metaIter.Next with
    | none => none
    | some (false, _) => some r
    | some (true, it1) =>
      let key := it1.Key.getD []
      if key.take 7 ≠ filterKeyHead then metaLoop o fuel it1 r
      else
        let r1 : Reader := { r with filter := chooseFilter o (key.drop 7) r.filter }
        match r1.filter with
        | none => metaLoop o fuel it1 r1
        | some _ =>
          match decodeBlockHandle (it1.Value.getD []) with
          | none => none
          | some (filterBH, n) =>
            if n = 0 then metaLoop o fuel it1 r1
            else some { r1 with filterBH := filterBH, dataEnd := toInt64 filterBH.offset }

/-- The end of `NewReader`: without a block cache the index block and, when a filter
was chosen, the filter block are read and kept in the reader. -/
def openBlocks (r : Reader) (cache : Bool) : Option (Except Err Reader) :=
  if cache then some (Except.ok r)
  else
    match r.readBlock r.indexBH true with
    | none => none
    | some (Except.error e) =>
      if IsCorrupted e then some (Except.ok { r with indexBlock := none, err := some e })
      else some (Except.error e)
    | some (Except.ok ib) =>
      let r1 : Reader := { r with indexBlock := some ib }
      match r1.filter with
      | none => some (Except.ok r1)
      | some _ =>
        match r1.readFilterBlock r1.filterBH with
        | none => none
        | some (Except.error e) =>
          if IsCorrupted e then some (Except.ok { r1 with filterBlock := none, filter := none })
          else some (Except.error e)
        | some (Except.ok fb) => some (Except.ok { r1 with filterBlock := some fb })

/-- `NewReader`.  `f` is the file (`none` is nil) given by its `ReadAt`, `cache` and
`bpool` say whether a block cache and a buffer pool are given; the file descriptor,
which only labels errors, is left out.  `Except.ok r` is the result `(r, nil)`,
`Except.error e` is `(nil, e)`, and `none` is a panic or the fuel of the metaindex
loop running out. -/
def NewReader (f : Option (Nat → Int → Except Err (List Nat))) (size : Int)
    (cache bpool : Bool) (o : Options) (crc : List Nat → Nat)
    (snappyDecode : List Nat → Except String (List Nat)) : Option (Except Err Reader) :=
  match f with
  | none => some (Except.error (Err.other "leveldb/table: nil file"))
  | some reader =>
    let r : Reader :=
      { err := none, cmp := o.comparer, filter := none,
        verifyChecksum := o.strictBlockChecksum, dataEnd := 0,
        metaBH := { offset := 0, length := 0 }, indexBH := { offset := 0, length := 0 },
        filterBH := { offset := 0, length := 0 }, indexBlock := none, filterBlock := none,
        bpool := bpool, readAt := reader, crc := crc, snappyDecode := snappyDecode }
    if size < footerLen then
      some (Except.ok { r with err := some (r.newErrCorrupted 0 size "table" "too small") })
    else
      let footerPos : Int := size - footerLen
      match r.readAt footerLen footerPos with
      | Except.error e => some (Except.error e)
      | Except.ok buf =>
        let footer : List Nat := (buf ++ List.replicate footerLen 0).take footerLen
        if (footer.take footerLen).drop (footerLen - magic.length) ≠ magic then
          some (Except.ok { r with err := some (r.newErrCorrupted footerPos footerLen
                                                  "table-footer" "bad magic number") })
        else
          match decodeBlockHandle footer with
          | none => none
          | some (metaBH, n) =>
            let r1 : Reader := { r with metaBH := metaBH }
            if n = 0 then
              some (Except.ok { r1 with err := some (r1.newErrCorrupted footerPos footerLen
                                                  "table-footer" "bad metaindex block handle") })
            else
              match sliceFrom footer n with
              | none => none
              | some rest =>
                match decodeBlockHandle rest with
                | none => none
                | some (indexBH, n1) =>
                  let r2 : Reader := { r1 with indexBH := indexBH }
                  if n1 = 0 then
                    some (Except.ok { r2 with err := some (r2.newErrCorrupted footerPos
                                        footerLen "table-footer" "bad index block handle") })
                  else
                    match r2.readBlock r2.metaBH true with
                    | none => none
                    | some (Except.error e) =>
                      if IsCorrupted e then some (Except.ok { r2 with err := some e })
                      else some (Except.error e)
                    | some (Except.ok metaBlock) =>
                      let r3 : Reader := { r2 with dataEnd := toInt64 r2.metaBH.offset }
                      match r3.newBlockIter metaBlock none true with
                      | none => none
                      | some metaIter =>
                        match metaLoop o (metaBlock.data.length + 1) metaIter r3 with
                        | none => none
                        | some r4 => openBlocks r4 cache

/-- `Reader.Release`: the reader afterwards.  Closing the file and handing the blocks
back are not modelled; the file (`readAt`) is kept, because no method reads it once
`err` is set. -/
def Reader.Release (r : Reader) : Reader :=
  { r with indexBlock := none, filterBlock := none, bpool := false,
           err := some Err.ErrReaderReleased }

/-- Modelled from the spec: the `iterator.Iterator` values that `Reader.NewIterator`
returns (package iterator and `indexIter` are not under src): the empty iterator of
`iterator.NewEmptyIterator(err)`, or the indexed iterator, given by the block iterator
over the index block that it is built on. -/
inductive tableIter where
  | empty (err : Option Err)
  | indexed (index : blockIter)

/-- `Error` of a table iterator before any move. -/
def tableIter.Error (t : tableIter) : Option Err :=
  match t with
  | tableIter.empty e => e
  | tableIter.indexed i => i.Error

/-- `Reader.NewIterator`; the read options only steer the cache and strictness and
are left out. -/
def Reader.NewIterator (r : Reader) (slice : Option Range) : Option tableIter :=
  match r.err with
  | some e => some (tableIter.empty (some e))
  | none =>
    match r.getIndexBlock with
    | none => none
    | some (Except.error e) => some (tableIter.empty (some e))
    | some (Except.ok indexBlock) =>
      match r.newBlockIter indexBlock slice true with
      | none => none
      | some index => some (tableIter.indexed index)

/-- `Reader.OffsetOf`: the offset, the error, and the reader afterwards (`r.err` gets
latched on a bad block handle, while the call itself returns a nil error). -/
def Reader.OffsetOf (r : Reader) (key : List Nat) : Option ((Int × Option Err) × Reader) :=
  match r.err with
  | some e => some ((0, some e), r)
  | none =>
    match r.readBlockCached r.indexBH true with
    | none => none
    | some (Except.error e) => some ((0, some e), r)
    | some (Except.ok indexBlock) =>
      match r.newBlockIter indexBlock none true with
      | none => none
      | some index0 =>
        match index0.Seek key with
        | none => none
        | some (true, index) =>
          match decodeBlockHandle (index.Value.getD []) with
          | none => none
          | some (dataBH, n) =>
            if n = 0 then
              some ((0, none),
                    { r with err := some (r.newErrCorruptedBH r.indexBH "bad data block handle") })
            else some ((toInt64 dataBH.offset, none), r)
        | some (false, index) =>
          match index.Error with
          | some e => some ((0, some e), r)
          | none => some ((r.dataEnd, none), r)

end table

namespace table

/-- Loop of Go `binary.PutUvarint`; a `uint64` needs at most nine continuation bytes. -/
def putUvarintLoop : Nat → Nat → List Nat
  | 0, x => [x]
  | fuel + 1, x => if x ≥ 0x80 then (x % 0x80 + 0x80) :: putUvarintLoop fuel (x / 0x80) else [x]

/-- Go `binary.PutUvarint` for a `uint64`. -/
def putUvarint (x : Nat) : List Nat := putUvarintLoop 9 x

/-- Go `binary.LittleEndian.PutUint32`. -/
def putUint32 (v : Nat) : List Nat :=
  [v % 256, v / 2 ^ 8 % 256, v / 2 ^ 16 % 256, v / 2 ^ 24 % 256]

/-- Modelled from the spec: one stored entry of a data or index block (the block
writer is not under src): the length of the prefix shared with the previous key, the
rest of the key, and the value. -/
structure RawEntry where
  shared : Nat
  unshared : List Nat
  value : List Nat
  deriving DecidableEq, Repr

/-- Modelled from the spec: the bytes of one entry, `varint shared_prefix_len`,
`varint unshared_len`, `varint value_len`, `unshared_key_bytes`, `value_bytes`. -/
def encodeEntry (e : RawEntry) : List Nat :=
  putUvarint e.shared ++ putUvarint e.unshared.length ++ putUvarint e.value.length ++
    e.unshared ++ e.value

/-- Modelled from the spec: the entry region of a block. -/
def encodeEntries : List RawEntry → List Nat
  | [] => []
  | e :: rest => encodeEntry e ++ encodeEntries rest

/-- Offset of entry `j` in the entry region (its end for `j = len`). -/
def entryOffset (es : List RawEntry) (j : Nat) : Nat := (encodeEntries (es.take j)).length

/-- Modelled from the spec: the restart-point array, little-endian offsets of the
entries with the given indices. -/
def encodeRestarts (es : List RawEntry) : List Nat → List Nat
  | [] => []
  | r :: rest => putUint32 (entryOffset es r) ++ encodeRestarts es rest

/-- Modelled from the spec: a block is the entries, then the restart-point array,
then the number of restart points. -/
def encodeBlock (es : List RawEntry) (ris : List Nat) : List Nat :=
  encodeEntries es ++ encodeRestarts es ris ++ putUint32 ris.length

/-- The decoded block for a layout, as `readBlock` builds it from the bytes. -/
def blockOf (bh : blockHandle) (es : List RawEntry) (ris : List Nat) : block :=
  { bh := bh, data := encodeBlock es ris, restartsLen := (ris.length : Int),
    restartsOffset := ((encodeEntries es).length : Int) }

/-- The keys of the entries after `prev`: each key keeps `shared` bytes of the key
before it and appends the unshared bytes. -/
def keysFrom (prev : List Nat) : List RawEntry → List (List Nat)
  | [] => []
  | e :: rest => (prev.take e.shared ++ e.unshared) :: keysFrom (prev.take e.shared ++ e.unshared) rest

/-- The keys a layout stores, in stored order. -/
def keysOf (es : List RawEntry) : List (List Nat) := keysFrom [] es

/-- The values a layout stores, in stored order. -/
def valuesOf (es : List RawEntry) : List (List Nat) := es.map (fun e => e.value)

/-- The (key, value) pairs a layout stores, in stored order. -/
def pairsOf (es : List RawEntry) : List (List Nat × List Nat) := (keysOf es).zip (valuesOf es)

/-- Entry `j` of a layout (an empty entry past the end). -/
def entryAt (es : List RawEntry) (j : Nat) : RawEntry :=
  es.getD j { shared := 0, unshared := [], value := [] }

/-- Key of entry `j` of the entries that follow the key `prev`. -/
def keyFrom (prev : List Nat) (es : List RawEntry) : Nat → List Nat
  | 0 => prev.take (entryAt es 0).shared ++ (entryAt es 0).unshared
  | j + 1 => (keyFrom prev es j).take (entryAt es (j + 1)).shared ++ (entryAt es (j + 1)).unshared

/-- Key of entry `j` of a layout. -/
def keyAt (es : List RawEntry) (j : Nat) : List Nat := keyFrom [] es j

/-- Value of entry `j` of a layout. -/
def valueAt (es : List RawEntry) (j : Nat) : List Nat := (entryAt es j).value

/-- Entry index of restart point `s` (0 past the end of the array). -/
def rAt (ris : List Nat) (s : Nat) : Nat := ris.getD s 0

/-- No entry shares more bytes than the key before it has. -/
def sharedOk (prev : List Nat) : List RawEntry → Bool
  | [] => true
  | e :: rest => decide (e.shared ≤ prev.length) && sharedOk (prev.take e.shared ++ e.unshared) rest

/-- Every restart index points at an entry that stores its key in full. -/
def restartsOk (es : List RawEntry) : List Nat → Bool
  | [] => true
  | r :: rest =>
    (match es.get? r with
     | some e => decide (e.shared = 0)
     | none => false) && restartsOk es rest

/-- Modelled from the spec: a well-formed block layout.  The first restart point is
entry 0, restart indices increase strictly, every restart entry has shared length 0,
shared lengths stay within the previous key, and the block is shorter than 2^32 bytes
(restart offsets are 32-bit).  The empty block has the single restart offset 0. -/
structure WellFormed (es : List RawEntry) (ris : List Nat) : Prop where
  head : ris.head? = some 0
  incr : ris.Pairwise (fun a b => a < b)
  restarts : (es = [] ∧ ris = [0]) ∨ restartsOk es ris = true
  shared : sharedOk [] es = true
  size : (encodeBlock es ris).length < 2 ^ 32

/-- Length of the longest common prefix: `sharedPrefixLen` of the block writer. -/
def sharedPrefixLen : List Nat → List Nat → Nat
  | a :: as, b :: bs => if a = b then sharedPrefixLen as bs + 1 else 0
  | _, _ => 0

/-- Modelled from the spec: the entries the block writer stores for a list of
(key, value) pairs with the given restart interval; `idx` is the number of entries
already written and `prev` the key before. -/
def buildEntries (interval : Nat) : Nat → List Nat → List (List Nat × List Nat) → List RawEntry
  | _, _, [] => []
  | idx, prev, (k, v) :: rest =>
    let nShared := if idx % interval = 0 then 0 else sharedPrefixLen prev k
    { shared := nShared, unshared := k.drop nShared, value := v } ::
      buildEntries interval (idx + 1) k rest

/-- Modelled from the spec: the restart indices the block writer records, every
`interval`-th entry, and the single restart point 0 for an empty block. -/
def buildRestarts (interval n : Nat) : List Nat :=
  if n = 0 then [0] else (List.range n).filter (fun i => i % interval = 0)

/-- Go `bytes.Compare`, the default comparer. -/
def bytesCompare : List Nat → List Nat → Int
  | [], [] => 0
  | [], _ :: _ => -1
  | _ :: _, [] => 1
  | a :: as, b :: bs => if a < b then -1 else if a > b then 1 else bytesCompare as bs

/-- What the comparer has to satisfy: `cmp a b ≤ 0` is a total preorder and the sign
flips with the arguments. -/
structure IsComparer (cmp : List Nat → List Nat → Int) : Prop where
  flip : ∀ a b, cmp a b < 0 ↔ cmp b a > 0
  trans : ∀ a b c, cmp a b ≤ 0 → cmp b c ≤ 0 → cmp a c ≤ 0

/-- The keys increase strictly under the comparer. -/
def StrictSorted (cmp : List Nat → List Nat → Int) (ks : List (List Nat)) : Prop :=
  ks.Pairwise (fun a b => cmp a b < 0)

/-- `First()` and then `Next()` until it returns false, collecting `Key()` and
`Value()` at every stop: the pairs seen and the iterator at the end. -/
def forwardLoop : Nat → blockIter → List (Option (List Nat) × Option (List Nat)) →
    Option (List (Option (List Nat) × Option (List Nat)) × blockIter)
  | 0, _, _ => none
  | fuel + 1, i, acc =>
    match i.Next with
    | none => none
    | some (false, i1) => some (acc, i1)
    | some (true, i1) => forwardLoop fuel i1 (acc ++ [(i1.Key, i1.Value)])

/-- Forward traversal of a whole block from `First()`; a traversal ends within
`len(data) + 1` calls. -/
def forwardAll (i : blockIter) : Option (List (Option (List Nat) × Option (List Nat)) × blockIter) :=
  match i.First with
  | none => none
  | some (false, i1) => some ([], i1)
  | some (true, i1) => forwardLoop (i.block.data.length + 1) i1 [(i1.Key, i1.Value)]

/-- Calls `Prev()` until it returns false, collecting `Key()` and `Value()` at every
stop. -/
def backwardLoop : Nat → blockIter → List (Option (List Nat) × Option (List Nat)) →
    Option (List (Option (List Nat) × Option (List Nat)) × blockIter)
  | 0, _, _ => none
  | fuel + 1, i, acc =>
    match i.Prev with
    | none => none
    | some (false, i1) => some (acc, i1)
    | some (true, i1) => backwardLoop fuel i1 (acc ++ [(i1.Key, i1.Value)])

/-- Backward traversal from `Last()`: calls `Prev()` until it returns false,
collecting `Key()` and `Value()` at every stop. -/
def backwardAll (i : blockIter) : Option (List (Option (List Nat) × Option (List Nat)) × blockIter) :=
  match i.Last with
  | none => none
  | some (false, i1) => some ([], i1)
  | some (true, i1) => backwardLoop (i.block.data.length + 1) i1 [(i1.Key, i1.Value)]

/-- `First()` followed by `k` calls of `Next()`, stopping at the first call that
returns false. -/
def firstNext (i : blockIter) : Nat → Option (Bool × blockIter)
  | 0 => i.First
  | k + 1 =>
    match firstNext i k with
    | some (true, i1) => i1.Next
    | other => other

/-- A reader over nothing, with the given comparer: enough to drive block iterators. -/
def plainReader (cmp : List Nat → List Nat → Int) : Reader :=
  { err := none, cmp := cmp, filter := none, verifyChecksum := false, dataEnd := 0,
    metaBH := { offset := 0, length := 0 }, indexBH := { offset := 0, length := 0 },
    filterBH := { offset := 0, length := 0 }, indexBlock := none, filterBlock := none,
    bpool := false, readAt := fun _ _ => Except.ok [], crc := fun _ => 0,
    snappyDecode := fun _ => Except.error "no snappy" }

end table

namespace table

/-- The loop of the reference driver: with the cursor on an entry, stop when `stop`
holds of its key, else collect `Key()` and `Value()` and call `Next()`, until `Next()`
returns false. -/
def nextUntil (stop : List Nat → Bool) : Nat → blockIter →
    List (Option (List Nat) × Option (List Nat)) →
    Option (List (Option (List Nat) × Option (List Nat)))
  | 0, _, _ => none
  | fuel + 1, i, acc =>
    if stop (i.Key.getD []) then some acc
    else
      match i.Next with
      | none => none
      | some (false, _) => some (acc ++ [(i.Key, i.Value)])
      | some (true, i1) => nextUntil stop fuel i1 (acc ++ [(i.Key, i.Value)])

/-- Reference definition in the words of the spec: an iterator without a slice over
the block, driven by `Seek(start)` and then `Next()` until `stop` holds of the key
under the cursor; the entries passed on the way.  A traversal ends within
`len(data) + 1` calls. -/
def seekNextUntil (r : Reader) (b : block) (start : List Nat) (stop : List Nat → Bool) :
    Option (List (Option (List Nat) × Option (List Nat))) :=
  match r.newBlockIter b none false with
  | none => none
  | some i0 =>
    match i0.Seek start with
    | none => none
    | some (false, _) => some []
    | some (true, i) => nextUntil stop (b.data.length + 1) i []

end table

namespace table

/-- Slice window of an iterator over a layout: `a` is the index of the first entry of
the slice, `c` the index of the entry at which it ends, `sS` and `sL` the restart
range `riStart` and `riLimit`, and `oS` the offset `offsetStart`. -/
structure Win where
  a : Nat
  c : Nat
  sS : Nat
  sL : Nat
  oS : Nat
  deriving DecidableEq, Repr

/-- The window of an iterator without a slice. -/
def Win.full (es : List RawEntry) (ris : List Nat) : Win :=
  { a := 0, c := es.length, sS := 0, sL := ris.length, oS := 0 }

/-- A window that fits a layout: the slice is `[a, c)`, restart point `sS` is the one
whose range holds entry `a` (or the window starts at the end of the block), and the
restart points from `sL` on lie at or beyond `c`. -/
structure WinOk (es : List RawEntry) (ris : List Nat) (w : Win) : Prop where
  ac : w.a ≤ w.c
  cn : w.c ≤ es.length
  sSL : w.sS ≤ w.sL
  sLn : w.sL ≤ ris.length
  start : (w.sS < ris.length ∧ rAt ris w.sS ≤ w.a ∧
      (∀ t, w.sS < t → t < ris.length → w.a < rAt ris t) ∧
      w.oS = entryOffset es (rAt ris w.sS)) ∨
    (w.sS = ris.length ∧ w.a = es.length ∧ w.oS = (encodeEntries es).length)
  limit : ∀ t, w.sL ≤ t → t < ris.length → w.c ≤ rAt ris t
  inside : ∀ t, t < w.sL → rAt ris t ≤ w.c
  nonempty : w.a < w.c → w.sS < w.sL

/-- The iterator belongs to the reader, runs over the block, has no error latched and
has the window as its bounds. -/
structure Framed (r : Reader) (b : block) (es : List RawEntry) (w : Win) (it : blockIter) :
    Prop where
  tr : it.tr = r
  block : it.block = b
  err : it.err = none
  riStart : it.riStart = (w.sS : Int)
  riLimit : it.riLimit = (w.sL : Int)
  offsetStart : it.offsetStart = (w.oS : Int)
  offsetRealStart : it.offsetRealStart = (entryOffset es w.a : Int)
  offsetLimit : it.offsetLimit = (entryOffset es w.c : Int)

/-- The key `K` held by an iterator is one from which the key of entry `j` can be
rebuilt: entry `j` stores its key in full, or `K` is the key of the entry before. -/
def KeyOk (es : List RawEntry) (j : Nat) (K : List Nat) : Prop :=
  (entryAt es j).shared = 0 ∨ (0 < j ∧ K = keyAt es (j - 1))

/-- The iterator stands on entry `j` after a forward move. -/
structure FwdAt (r : Reader) (b : block) (es : List RawEntry) (ris : List Nat) (w : Win)
    (it : blockIter) (j : Nat) : Prop where
  framed : Framed r b es w it
  dir : it.dir = dir.dirForward
  lo : w.a ≤ j
  hi : j < w.c
  offset : it.offset = (entryOffset es (j + 1) : Int)
  prevOffset : it.prevOffset = (entryOffset es j : Int)
  key : it.key = keyAt es j
  value : it.value = some (valueAt es j)
  prevNode : it.prevNode = []
  prevKeys : it.prevKeys = []
  ri : ∃ s : Nat, it.restartIndex = (s : Int) ∧ w.sS ≤ s ∧ s < ris.length ∧ rAt ris s ≤ j

/-- The iterator is usable and its backward cache is empty unless it moves backward. -/
structure Ready (r : Reader) (b : block) (es : List RawEntry) (w : Win) (it : blockIter) :
    Prop where
  framed : Framed r b es w it
  live : it.dir ≠ dir.dirReleased
  cache : it.dir ≠ dir.dirBackward → it.prevNode = [] ∧ it.prevKeys = []

/-- The iterator is before the first entry (`d = dirSOI`) or after the last one
(`d = dirEOI`) of its window. -/
structure AtEnd (r : Reader) (b : block) (es : List RawEntry) (w : Win) (it : blockIter)
    (d : dir) : Prop where
  framed : Framed r b es w it
  dir : it.dir = d
  prevNode : it.prevNode = []
  prevKeys : it.prevKeys = []

/-- Keys of the `k` entries from `lo` on, concatenated: the contents of `prevKeys`. -/
def cacheKeys (es : List RawEntry) (lo : Nat) : Nat → List Nat
  | 0 => []
  | k + 1 => cacheKeys es lo k ++ keyAt es (lo + k)

/-- The triples (key offset in `prevKeys`, value offset, value length) of the `k`
entries from `lo` on: the contents of `prevNode` after its first element. -/
def cacheNodes (es : List RawEntry) (lo : Nat) : Nat → List Int
  | 0 => []
  | k + 1 => cacheNodes es lo k ++
      [((cacheKeys es lo k).length : Int),
       (entryOffset es (lo + k + 1) : Int) - ((valueAt es (lo + k)).length : Int),
       ((valueAt es (lo + k)).length : Int)]

/-- The iterator stands on entry `j` after a backward move: `s` is the restart range
of `j`, and the cache holds the entries of that range (from `a` on) before `j`. -/
structure BwdAt (r : Reader) (b : block) (es : List RawEntry) (ris : List Nat) (w : Win)
    (it : blockIter) (j : Nat) : Prop where
  framed : Framed r b es w it
  dir : it.dir = dir.dirBackward
  lo : w.a ≤ j
  hi : j < w.c
  offset : it.offset = (entryOffset es (j + 1) : Int)
  key : it.key = keyAt es j
  value : it.value = some (valueAt es j)
  ri : ∃ s : Nat, it.restartIndex = (s : Int) ∧ w.sS ≤ s ∧ s < ris.length ∧ rAt ris s ≤ j ∧
    (∀ t, s < t → t < ris.length → j < rAt ris t) ∧
    it.prevNode = (entryOffset es (rAt ris s) : Int) ::
      cacheNodes es (max (rAt ris s) w.a) (j - max (rAt ris s) w.a) ∧
    it.prevKeys = cacheKeys es (max (rAt ris s) w.a) (j - max (rAt ris s) w.a)

/-- What `Key()` and `Value()` give on entry `x` of a layout. -/
def entryPair (es : List RawEntry) (x : Nat) : Option (List Nat) × Option (List Nat) :=
  (some (keyAt es x), some (valueAt es x))

/-- The entries `a`, ..., `c - 1` of a layout as `Key()` and `Value()` give them. -/
def windowPairs (es : List RawEntry) (a c : Nat) :
    List (Option (List Nat) × Option (List Nat)) :=
  (List.range' a (c - a)).map (entryPair es)

end table

namespace table

/-- The part of `WinOk` that holds for the bounds of every sliced iterator, whether
its limit is exclusive or inclusive: the slice `[a, c)` lies in the block, the restart
range `[sS, sL)` lies in the restart array, and `oS` is the offset of restart point
`sS`, which is the one whose range holds entry `a`, unless the window starts at the
end of the block. -/
structure WinBounds (es : List RawEntry) (ris : List Nat) (w : Win) : Prop where
  ac : w.a ≤ w.c
  cn : w.c ≤ es.length
  sSL : w.sS ≤ w.sL
  sLn : w.sL ≤ ris.length
  start : (w.sS < ris.length ∧ rAt ris w.sS ≤ w.a ∧
      (∀ t, w.sS < t → t < ris.length → w.a < rAt ris t) ∧
      w.oS = entryOffset es (rAt ris w.sS)) ∨
    (w.sS = ris.length ∧ w.a = es.length ∧ w.oS = (encodeEntries es).length)

/-- Entry `x` is the first one from `lo` on whose key is not below `key`; `x` is the
number of entries when there is none. -/
def FirstNotBelow (cmp : List Nat → List Nat → Int) (es : List RawEntry) (key : List Nat)
    (lo x : Nat) : Prop :=
  lo ≤ x ∧ x ≤ es.length ∧ (∀ y, lo ≤ y → y < x → cmp (keyAt es y) key < 0) ∧
    (x < es.length → cmp (keyAt es x) key ≥ 0)

/-- The entry at which the linear scan of `blockIter.Seek` starts when `block.seek`
returned restart index `idx` and the slice starts at entry `a`: the later one of
restart point `idx` and entry `a`, as the code takes the greater one of the restart
offset and `offsetRealStart`. -/
def scanFrom (es : List RawEntry) (ris : List Nat) (idx a : Nat) : Nat :=
  max (if idx < ris.length then rAt ris idx else es.length) a

/-- The keys do not decrease under the comparer; equal keys may follow each other. -/
def NonDecreasing (cmp : List Nat → List Nat → Int) (ks : List (List Nat)) : Prop :=
  ks.Pairwise (fun a b => cmp a b ≤ 0)

/-- What the binary search of `block.seek` over the restart points `[sS, sL)` yields
whatever the order of the keys: `m` is the result of `sort.Search` and `idx` the
restart index returned.  The key of the last restart point probed below `m` is not
greater than `key`, and the key of restart point `sS + m`, if there is one, is greater
than `key`. -/
def SeekPick (cmp : List Nat → List Nat → Int) (es : List RawEntry) (ris : List Nat)
    (key : List Nat) (sS sL m idx : Nat) : Prop :=
  m ≤ sL - sS ∧ idx = (if m = 0 then sS else sS + m - 1) ∧
    (0 < m → ¬ (cmp (keyAt es (rAt ris (sS + m - 1))) key > 0)) ∧
    (sS + m < sL → cmp (keyAt es (rAt ris (sS + m))) key > 0)

end table

namespace table

/-- A valid table behind the reader `r`.  The index block is the well-formed layout
`ies`, `iris` with strictly increasing keys; the value of index entry `m` is the
encoded handle `hd m`, under which the reader gets the data block `m`, the well-formed
layout `des m`, `dris m` with strictly increasing keys and at least one entry; the key
of index entry `m` is not below the last key of data block `m` and is below the first
key of data block `m + 1`. -/
structure ValidTable (r : Reader) (ies : List RawEntry) (iris : List Nat)
    (hd : Nat → blockHandle) (des : Nat → List RawEntry) (dris : Nat → List Nat) : Prop where
  noErr : r.err = none
  index : ∃ ibh, r.getIndexBlock = some (Except.ok (blockOf ibh ies iris))
  indexWf : WellFormed ies iris
  indexSorted : StrictSorted r.cmp (keysOf ies)
  handle : ∀ m, m < ies.length →
    valueAt ies m = putUvarint (hd m).offset ++ putUvarint (hd m).length ∧
      (hd m).offset < 2 ^ 64 ∧ (hd m).length < 2 ^ 64
  data : ∀ m, m < ies.length → r.readBlockCached (hd m) r.verifyChecksum =
    some (Except.ok (blockOf (hd m) (des m) (dris m)))
  dataWf : ∀ m, m < ies.length → WellFormed (des m) (dris m)
  dataSorted : ∀ m, m < ies.length → StrictSorted r.cmp (keysOf (des m))
  dataNonempty : ∀ m, m < ies.length → des m ≠ []
  lastLe : ∀ m, m < ies.length →
    r.cmp (keyAt (des m) ((des m).length - 1)) (keyAt ies m) ≤ 0
  nextGt : ∀ m, m + 1 < ies.length → r.cmp (keyAt ies m) (keyAt (des (m + 1)) 0) < 0

/-- What `find` returns when it stops on an entry with key `k` and value `v`: the key,
the value (copied when a buffer pool is set, left out when `noValue`), and no error. -/
def foundResult (r : Reader) (k v : List Nat) (noValue : Bool) : findResult :=
  { rkey := some k,
    value := if noValue then none else if r.bpool then copyBytes (some v) else some v,
    err := none }

/-- What `find` returns when no entry is found. -/
def notFoundResult : findResult :=
  { rkey := none, value := none, err := some Err.ErrNotFound }

end table

namespace table

/-- The offsets pair that a filter block stores for filter `i`, in the words of the
specification: the little-endian words at `oOffset + 4 i` and `oOffset + 4 i + 4`. -/
def filterBlock.offsetsPair (b : filterBlock) (i : Nat) : Option (Nat × Nat) :=
  match leUint32 (b.data.drop (b.oOffset.toNat + 4 * i)),
        leUint32 (b.data.drop (b.oOffset.toNat + 4 * i + 4)) with
  | some n, some m => some (n, m)
  | _, _ => none

/-- The filter block `fb` was built from the keys of the data blocks `des m` at the
handles `hd m` by a policy `flt` without false negatives.  The block has the layout
that `readFilterBlock` accepts and is shorter than `2^63` bytes, the offsets of the
data blocks are below `2^63`, and for every data block whose filter index
`offset >> baseLg` is below `filtersNum`, the offsets pair of that index encloses `q - p > 0`
bytes of filter data within `[0, oOffset]`, on which the policy answers true for every
key stored in the data block. -/
structure FilterBuilt (flt : List Nat → List Nat → Bool) (fb : filterBlock) (blocks : Nat)
    (hd : Nat → blockHandle) (des : Nat → List RawEntry) : Prop where
  size : fb.data.length < 2 ^ 63
  layout : (5 : Int) ≤ fb.data.length ∧ 0 ≤ fb.oOffset ∧
    fb.oOffset ≤ (fb.data.length : Int) - 5 ∧
    fb.filtersNum = ((fb.data.length : Int) - 5 - fb.oOffset) / 4
  offsets : ∀ m, m < blocks → (hd m).offset < 2 ^ 63
  covered : ∀ m, m < blocks → (((hd m).offset >>> fb.baseLg : Nat) : Int) < fb.filtersNum →
    ∃ p q, fb.offsetsPair ((hd m).offset >>> fb.baseLg) = some (p, q) ∧ p < q ∧
      (q : Int) ≤ fb.oOffset ∧
      ∀ e, e < (des m).length → flt ((fb.data.take q).drop p) (keyAt (des m) e) = true

end table

namespace leveldb

/-- Entry of the snapshot registry: `snapEntry` (the `elem` pointer is the entry's
place in the list). -/
structure snapEntry where
  seq : Nat
  ref : Int
  deriving DecidableEq, Repr

/-- The snapshot registry `snaps`.  `heap` holds every `snapEntry` allocated so far,
and a `*snapEntry` is an index into it; `list` is the embedded `list.List`, the
pointers of its elements from front to back.  The mutex is not modelled. -/
structure snaps where
  heap : List snapEntry
  list : List Nat
  deriving DecidableEq, Repr

/-- `newSnaps`. -/
def newSnaps : snaps := { heap := [], list := [] }

/-- `p.Back()` followed by `back.Value.(*snapEntry)`: the entry at the back, `none`
for an empty list. -/
def snaps.Back (p : snaps) : Option Nat := p.list.getLast?

/-- `snaps.acquire`: the entry returned and the registry afterwards. -/
def snaps.acquire (p : snaps) (seq : Nat) : Nat × snaps :=
  let sameSeq : Bool :=
    match p.Back with
    | none => false
    | some b =>
      match p.heap.get? b with
      | none => false
      | some ent => decide (ent.seq = seq)
  let e : Nat := if sameSeq then p.Back.getD 0 else p.heap.length
  let p1 : snaps :=
    if sameSeq then p
    else { heap := p.heap ++ [{ seq := seq, ref := 0 }], list := p.list ++ [p.heap.length] }
  match p1.heap.get? e with
  | none => (e, p1)
  | some ent => (e, { p1 with heap := p1.heap.set e { ent with ref := ent.ref + 1 } })

/-- `snaps.release`: the registry afterwards. -/
def snaps.release (p : snaps) (e : Nat) : snaps :=
  match p.heap.get? e with
  | none => p
  | some ent =>
    let ent1 : snapEntry := { ent with ref := ent.ref - 1 }
    let heap1 := p.heap.set e ent1
    if ent1.ref = 0 then { heap := heap1, list := p.list.erase e }
    else { heap := heap1, list := p.list }

/-- `snaps.seq`. -/
def snaps.seq (p : snaps) (seq : Nat) : Nat :=
  match p.Back with
  | none => seq
  | some b =>
    match p.heap.get? b with
    | none => seq
    | some ent => ent.seq

/-- Sequence numbers of the entries in the list, front to back. -/
def snaps.seqs (p : snaps) : List Nat :=
  p.list.filterMap (fun e => (p.heap.get? e).map (fun ent => ent.seq))

/-- Every element of the list points at an allocated entry. -/
def snaps.Valid (p : snaps) : Prop := ∀ e ∈ p.list, e < p.heap.length

/-- One call on the registry. -/
inductive snapOp where
  | acquire (seq : Nat)
  | release (e : Nat)
  deriving DecidableEq, Repr

/-- The registry after a sequence of calls, oldest first. -/
def runOps : snaps → List snapOp → snaps
  | p, [] => p
  | p, snapOp.acquire seq :: rest => runOps (p.acquire seq).2 rest
  | p, snapOp.release e :: rest => runOps (p.release e) rest

/-- The acquired sequence numbers of a sequence of calls, in time order. -/
def acquiredSeqs : List snapOp → List Nat
  | [] => []
  | snapOp.acquire seq :: rest => seq :: acquiredSeqs rest
  | snapOp.release _ :: rest => acquiredSeqs rest

end leveldb

namespace leveldb

/-- The `Snapshot` handle.  Of the database `d` points to, only the snapshot registry
matters here and it is passed along explicitly; `d` records whether the pointer is
set, `entry` is the `*snapEntry` (`none` is nil) and `released` the atomic flag. -/
structure Snapshot where
  d : Bool
  entry : Option Nat
  released : Nat
  deriving DecidableEq, Repr

/-- `DB.newSnapshot`, with `seq` the value of `d.getSeq()`: the handle and the
registry afterwards. -/
def newSnapshot (db : snaps) (seq : Nat) : Snapshot × snaps :=
  ({ d := true, entry := some (db.acquire seq).1, released := 0 }, (db.acquire seq).2)

/-- `Snapshot.Release`: the handle and the registry afterwards.
`atomic.CompareAndSwapUint32(&p.released, 0, 1)` succeeds exactly when `released` is
0; `none` is the nil dereference of `p.d` or `p.entry`. -/
def Snapshot.Release (p : Snapshot) (db : snaps) : Option (Snapshot × snaps) :=
  if p.released = 0 then
    match p.d, p.entry with
    | true, some e => some ({ d := false, entry := none, released := 1 }, db.release e)
    | _, _ => none
  else some (p, db)

/-- `Snapshot.Release` called `n` times in a row. -/
def releaseTimes : Nat → Snapshot → snaps → Option (Snapshot × snaps)
  | 0, p, db => some (p, db)
  | n + 1, p, db =>
    match p.Release db with
    | none => none
    | some (p1, db1) => releaseTimes n p1 db1

end leveldb

namespace leveldb

/-- Go `int` arithmetic: what a product or a sum yields after wrap-around to 64 bits. -/
def wrapInt (x : Int) : Int := (x + 2 ^ 63) % 2 ^ 64 - 2 ^ 63

/-- Whether the bit pattern of a `float64` is a NaN: exponent bits all ones and a
mantissa that is not zero. -/
def float64IsNaN (a : Nat) : Bool :=
  decide ((a / 2 ^ 52) % 2 ^ 11 = 2 ^ 11 - 1) && decide (a % 2 ^ 52 ≠ 0)

/-- Whether the bit pattern of a `float64` is `+0` or `-0`. -/
def float64IsZero (a : Nat) : Bool := decide (a % 2 ^ 63 = 0)

/-- Go `a != b` on `float64` values given by their 64-bit patterns: a NaN differs from
every value, itself included, and the two zeros are equal. -/
def float64Ne (a b : Nat) : Bool :=
  float64IsNaN a || float64IsNaN b ||
    (decide (a ≠ b) && !(float64IsZero a && float64IsZero b))

/-- The process environment and the `strconv` parsers, which lie outside the
repository: `getenv` is `os.Getenv` (the empty string for a variable that is not set),
`atoi` is `strconv.Atoi`, `parseFloat` is `strconv.ParseFloat(s, 64)` (the result as
its 64-bit pattern) and `parseBool` is `strconv.ParseBool`; `none` is a parse error. -/
structure Env where
  getenv : String → String
  atoi : String → Option Int
  parseFloat : String → Option Nat
  parseBool : String → Option Bool

/-- `setIntFromEnv`: the value behind `dest` afterwards (`none` is the nil pointer) and
the result `changed`.  The warnings written to the log are left out. -/
def setIntFromEnv (env : Env) (key : String) (dest : Option Int) : Option Int × Bool :=
  let strVal := env.getenv key
  if strVal = "" then (dest, false)
  else
    match dest with
    | none => (none, false)
    | some initialVal =>
      match env.atoi strVal with
      | none => (some initialVal, false)
      | some val => (some val, decide (initialVal ≠ val))

/-- `setFloatFromEnv`; a `float64` is given by its 64-bit pattern. -/
def setFloatFromEnv (env : Env) (key : String) (dest : Option Nat) : Option Nat × Bool :=
  let strVal := env.getenv key
  if strVal = "" then (dest, false)
  else
    match dest with
    | none => (none, false)
    | some initialVal =>
      match env.parseFloat strVal with
      | none => (some initialVal, false)
      | some val => (some val, float64Ne initialVal val)

/-- `setBoolFromEnv`; the bare `return` after a parse error yields the zero value
`false` of the named result `changed`. -/
def setBoolFromEnv (env : Env) (key : String) (dest : Option Bool) : Option Bool × Bool :=
  let strVal := env.getenv key
  if strVal = "" then (dest, false)
  else
    match dest with
    | none => (none, false)
    | some initialVal =>
      match env.parseBool strVal with
      | none => (some initialVal, false)
      | some val => (some val, decide (initialVal ≠ val))

/-- Modelled from the spec: `opt.NoCompression` (package opt is not under src), the
second value of the `Compression` enumeration. -/
def NoCompression : Nat := 1

/-- Modelled from the spec: the fields of `opt.Options` that `readOptionsFromEnv`
writes (package opt is not under src).  An `int` is an `Int`, a `float64` its 64-bit
pattern, `Compression` its number. -/
structure Options where
  BlockSize : Int
  CompactionTableSize : Int
  CompactionTableSizeMultiplier : Nat
  CompactionTotalSize : Int
  CompactionTotalSizeMultiplier : Nat
  Compression : Nat
  NoSync : Bool
  BlockCacheEvictRemoved : Bool
  DisableBufferPool : Bool
  DisableBlockCache : Bool
  DisableCompactionBackoff : Bool
  DisableLargeBatchTransaction : Bool
  DisableSeeksCompaction : Bool
  ErrorIfExist : Bool
  ErrorIfMissing : Bool
  NoWriteMerge : Bool
  ReadOnly : Bool
  BlockCacheCapacity : Int
  BlockRestartInterval : Int
  CompactionExpandLimitFactor : Int
  CompactionGPOverlapsFactor : Int
  CompactionL0Trigger : Int
  CompactionSourceLimitFactor : Int
  IteratorSamplingRate : Int
  WriteBuffer : Int
  WriteL0PauseTrigger : Int
  WriteL0SlowdownTrigger : Int
  FilterBaseLg : Int
  OpenFilesCacheCapacity : Int
  deriving DecidableEq, Repr

/-- The call `setIntFromEnv(key, &field)` on a field of the options, whose address is
never nil: the field afterwards and `changed`. -/
def intFieldFromEnv (env : Env) (key : String) (field : Int) : Int × Bool :=
  let r := setIntFromEnv env key (some field)
  (r.1.getD field, r.2)

/-- The call `setFloatFromEnv(key, &field)` on a field of the options. -/
def floatFieldFromEnv (env : Env) (key : String) (field : Nat) : Nat × Bool :=
  let r := setFloatFromEnv env key (some field)
  (r.1.getD field, r.2)

/-- The call `setBoolFromEnv(key, &field)` on a field of the options. -/
def boolFieldFromEnv (env : Env) (key : String) (field : Bool) : Bool × Bool :=
  let r := setBoolFromEnv env key (some field)
  (r.1.getD field, r.2)

/-- `readOptionsFromEnv`: the options afterwards.  The listing printed under
`LDB_DEBUG_OPTIONS` is left out. -/
def readOptionsFromEnv (env : Env) (options : Options) : Options :=
  let o1 := { options with
    BlockSize := (intFieldFromEnv env "LDB_BLOCK_SIZE" options.BlockSize).1 }
  let tableSize := intFieldFromEnv env "LDB_COMPACTION_TABLE_SIZE" o1.CompactionTableSize
  let tableSizeSet := tableSize.2
  let o2 := { o1 with CompactionTableSize := tableSize.1 }
  let o3 := { o2 with
    CompactionTableSizeMultiplier :=
      (floatFieldFromEnv env "LDB_COMPACTION_TABLE_SIZE_MULTIPLIER"
        o2.CompactionTableSizeMultiplier).1 }
  let totalSize := intFieldFromEnv env "LDB_COMPACTION_TOTAL_SIZE" o3.CompactionTotalSize
  let totalSizeSet := totalSize.2
  let o4 := { o3 with CompactionTotalSize := totalSize.1 }
  let o5 := { o4 with
    CompactionTotalSizeMultiplier :=
      (floatFieldFromEnv env "LDB_COMPACTION_TOTAL_SIZE_MULTIPLIER"
        o4.CompactionTotalSizeMultiplier).1 }
  let o6 :=
    if tableSizeSet && !totalSizeSet then
      { o5 with CompactionTotalSize := wrapInt (o5.CompactionTableSize * 5) }
    else o5
  let o7 :=
    if env.getenv "LDB_DISABLE_COMPRESSION" = "1" then { o6 with Compression := NoCompression }
    else o6
  let o8 := { o7 with
    NoSync := (boolFieldFromEnv env "LDB_NO_SYNC" o7.NoSync).1
    BlockCacheEvictRemoved :=
      (boolFieldFromEnv env "LDB_BLOCK_CACHE_EVICT_REMOVED" o7.BlockCacheEvictRemoved).1
    DisableBufferPool :=
      (boolFieldFromEnv env "LDB_DISABLE_BUFFER_POOL" o7.DisableBufferPool).1
    DisableBlockCache :=
      (boolFieldFromEnv env "LDB_DISABLE_BLOCK_CACHE" o7.DisableBlockCache).1
    DisableCompactionBackoff :=
      (boolFieldFromEnv env "LDB_DISABLE_COMPACTION_BACKOFF" o7.DisableCompactionBackoff).1
    DisableLargeBatchTransaction :=
      (boolFieldFromEnv env "LDB_DISABLE_LARGE_BATCH_TRANSACTION"
        o7.DisableLargeBatchTransaction).1
    DisableSeeksCompaction :=
      (boolFieldFromEnv env "LDB_DISABLE_SEEKS_COMPACTION" o7.DisableSeeksCompaction).1
    ErrorIfExist := (boolFieldFromEnv env "LDB_ERROR_IF_EXIST" o7.ErrorIfExist).1
    ErrorIfMissing := (boolFieldFromEnv env "LDB_ERROR_IF_MISSING" o7.ErrorIfMissing).1
    NoWriteMerge := (boolFieldFromEnv env "LDB_NO_WRITE_MERGE" o7.NoWriteMerge).1
    ReadOnly := (boolFieldFromEnv env "LDB_READ_ONLY" o7.ReadOnly).1 }
  { o8 with
    BlockCacheCapacity :=
      (intFieldFromEnv env "LDB_BLOCK_CACHE_CAPACITY" o8.BlockCacheCapacity).1
    BlockRestartInterval :=
      (intFieldFromEnv env "LDB_BLOCK_RESTART_INTERVAL" o8.BlockRestartInterval).1
    CompactionExpandLimitFactor :=
      (intFieldFromEnv env "LDB_COMPACTION_EXPAND_LIMIT_FACTOR"
        o8.CompactionExpandLimitFactor).1
    CompactionGPOverlapsFactor :=
      (intFieldFromEnv env "LDB_COMPACTION_GP_OVERLAPS_FACTOR"
        o8.CompactionGPOverlapsFactor).1
    CompactionL0Trigger :=
      (intFieldFromEnv env "LDB_COMPACTION_L0_TRIGGER" o8.CompactionL0Trigger).1
    CompactionSourceLimitFactor :=
      (intFieldFromEnv env "LDB_COMPACTION_SOURCE_LIMIT_FACTOR"
        o8.CompactionSourceLimitFactor).1
    IteratorSamplingRate :=
      (intFieldFromEnv env "LDB_ITERATOR_SAMPLING_RATE" o8.IteratorSamplingRate).1
    WriteBuffer := (intFieldFromEnv env "LDB_WRITE_BUFFER" o8.WriteBuffer).1
    WriteL0PauseTrigger :=
      (intFieldFromEnv env "LDB_WRITE_L0_PAUSE_TRIGGER" o8.WriteL0PauseTrigger).1
    WriteL0SlowdownTrigger :=
      (intFieldFromEnv env "LDB_WRITE_L0_SLOWDOWN_TRIGGER" o8.WriteL0SlowdownTrigger).1
    FilterBaseLg := (intFieldFromEnv env "LDB_FILTER_BASE_LG" o8.FilterBaseLg).1
    OpenFilesCacheCapacity :=
      (intFieldFromEnv env "LDB_OPEN_FILES_CACHE_CAPACITY" o8.OpenFilesCacheCapacity).1 }

/-- Value of a string of decimal digits read after the digits already worth `acc`;
`none` when a character is not a digit. -/
def decimalDigits : List Char → Nat → Option Nat
  | [], acc => some acc
  | c :: rest, acc =>
    if 48 ≤ c.toNat ∧ c.toNat ≤ 57 then decimalDigits rest (acc * 10 + (c.toNat - 48))
    else none

/-- A decimal reading of `strconv.Atoi` for the examples: an optional sign, then at
least one digit, and a value that fits in 64 bits. -/
def decimalAtoi (s : String) : Option Int :=
  let signed : Bool × List Char :=
    match s.data with
    | '-' :: rest => (true, rest)
    | '+' :: rest => (false, rest)
    | cs => (false, cs)
  if signed.2 = [] then none
  else
    match decimalDigits signed.2 0 with
    | none => none
    | some n =>
      let v : Int := if signed.1 then -(n : Int) else (n : Int)
      if -(2 ^ 63 : Int) ≤ v ∧ v < 2 ^ 63 then some v else none

/-- A reading of `strconv.ParseBool` for the examples. -/
def wordParseBool (s : String) : Option Bool :=
  if s ∈ ["1", "t", "T", "TRUE", "true", "True"] then some true
  else if s ∈ ["0", "f", "F", "FALSE", "false", "False"] then some false
  else none

/-- An environment for the examples: the variables of the list are set, every other
one is not; floats are not parsed. -/
def listEnv (vars : List (String × String)) : Env :=
  { getenv := fun k => ((vars.find? (fun p => decide (p.1 = k))).map Prod.snd).getD ""
    atoi := decimalAtoi
    parseFloat := fun _ => none
    parseBool := wordParseBool }

/-- Options in which every field is zero, as `&opt.Options\x7b\x7d` gives them. -/
def zeroOptions : Options :=
  { BlockSize := 0, CompactionTableSize := 0, CompactionTableSizeMultiplier := 0,
    CompactionTotalSize := 0, CompactionTotalSizeMultiplier := 0, Compression := 0,
    NoSync := false, BlockCacheEvictRemoved := false, DisableBufferPool := false,
    DisableBlockCache := false, DisableCompactionBackoff := false,
    DisableLargeBatchTransaction := false, DisableSeeksCompaction := false,
    ErrorIfExist := false, ErrorIfMissing := false, NoWriteMerge := false, ReadOnly := false,
    BlockCacheCapacity := 0, BlockRestartInterval := 0, CompactionExpandLimitFactor := 0,
    CompactionGPOverlapsFactor := 0, CompactionL0Trigger := 0,
    CompactionSourceLimitFactor := 0, IteratorSamplingRate := 0, WriteBuffer := 0,
    WriteL0PauseTrigger := 0, WriteL0SlowdownTrigger := 0, FilterBaseLg := 0,
    OpenFilesCacheCapacity := 0 }

end leveldb

namespace table

/-- Reference definition of `filterBlock.contains` in the words of the spec: with
`i = offset >> baseLg`, the answer is true when `i ≥ filtersNum`; otherwise, with
`n = offsets[i]` and `m = offsets[i+1]` (little-endian words at `oOffset + 4i`), it is
false when `n = m`, the policy's answer on `data[n:m]` when `n < m ≤ oOffset`, and
true in every remaining case. -/
def filterBlock.containsRef (b : filterBlock) (filter : List Nat → List Nat → Bool)
    (offset : Nat) (key : List Nat) : Option Bool :=
  let i : Nat := offset >>> b.baseLg
  if (i : Int) ≥ b.filtersNum then some true
  else
    match sliceFrom b.data (b.oOffset + 4 * (i : Int)), sliceFrom b.data (b.oOffset + 4 * ((i : Int) + 1)) with
    | some o, some o4 =>
      match leUint32 o, leUint32 o4 with
      | some n, some m =>
        if n = m then some false
        else if n < m ∧ (m : Int) ≤ b.oOffset then
          match slice b.data n m with
          | none => none
          | some d => some (filter d key)
        else some true
      | _, _ => none
    | _, _ => none

/-- A reader over a file of zero bytes whose checksum function is constantly zero. -/
def zeroReader : Reader :=
  { err := none, cmp := bytesCompare, filter := none, verifyChecksum := false, dataEnd := 0,
    metaBH := { offset := 0, length := 0 }, indexBH := { offset := 0, length := 0 },
    filterBH := { offset := 0, length := 0 }, indexBlock := none, filterBlock := none,
    bpool := false, readAt := fun n _ => Except.ok (List.replicate n 0), crc := fun _ => 0,
    snappyDecode := fun _ => Except.error "no snappy" }

/-- The filter block read from nine zero bytes: no filter bytes, one offsets entry
(0), the offsets array at 0, `baseLg` 0. -/
def zeroFilterBlock : filterBlock :=
  { data := [0, 0, 0, 0, 0, 0, 0, 0, 0], oOffset := 0, baseLg := 0, filtersNum := 1 }

/-- The empty block: no entries and the single restart point 0. -/
def emptyBlock : block := blockOf { offset := 64, length := 8 } [] [0]

/-- A filter policy for one-byte keys: the filter is the list of the keys added, and
a key may be present when its first byte is listed. -/
def firstBytePolicy (filter key : List Nat) : Bool :=
  match key with
  | [] => true
  | k :: _ => decide (k ∈ filter)

/-- The data block of the example table: keys `a` and `c`. -/
def exampleDataBlock : List Nat :=
  encodeBlock [{ shared := 0, unshared := [97], value := [49] },
               { shared := 0, unshared := [99], value := [51] }] [0]

/-- The index block of the example table: one entry with key `c`, pointing at the
data block at offset 0. -/
def exampleIndexBlock : block :=
  blockOf { offset := 100, length := 0 }
    [{ shared := 0, unshared := [99],
       value := putUvarint 0 ++ putUvarint exampleDataBlock.length }] [0]

/-- The filter block of the example table: the filter `[a, c]` for the data block at
offset 0, `baseLg` 11. -/
def exampleFilterBlock : filterBlock :=
  { data := [97, 99] ++ putUint32 0 ++ putUint32 2 ++ [11], oOffset := 2, baseLg := 11,
    filtersNum := 1 }

/-- The example table: one data block with the keys `a` and `c`, its index block and
a filter block built from the two keys; the file holds the data block at offset 0,
uncompressed. -/
def exampleTable : Reader :=
  { err := none, cmp := bytesCompare, filter := some firstBytePolicy, verifyChecksum := false,
    dataEnd := 0, metaBH := { offset := 200, length := 0 },
    indexBH := { offset := 100, length := 0 }, filterBH := { offset := 300, length := 0 },
    indexBlock := some exampleIndexBlock, filterBlock := some exampleFilterBlock,
    bpool := false,
    readAt := fun n off =>
      Except.ok (((exampleDataBlock ++ [0, 0, 0, 0, 0]).drop off.toNat).take n),
    crc := fun _ => 0, snappyDecode := fun _ => Except.error "no snappy" }

/-- A block whose only entry announces a key of 5 bytes although one byte is left
before the restart array. -/
def corruptBlock : block :=
  { bh := { offset := 64, length := 12 }, data := [0, 5, 0, 1, 0, 0, 0, 0, 1, 0, 0, 0],
    restartsLen := 1, restartsOffset := 4 }

/-- The ten pairs `k0`/`v0`, ..., `k9`/`v9` of the backward-traversal scenario. -/
def tenPairs : List (List Nat × List Nat) :=
  (List.range 10).map (fun i => ([107, 48 + i], [118, 48 + i]))

/-- The entries the block writer stores for `tenPairs` with restart interval 4. -/
def tenEntries : List RawEntry := buildEntries 4 0 [] tenPairs

/-- The restart points of `tenEntries`: the entries 0, 4 and 8. -/
def tenRestarts : List Nat := buildRestarts 4 10

/-- The block of the backward-traversal scenario. -/
def tenBlock : block := blockOf { offset := 0, length := 82 } tenEntries tenRestarts

/-- Three entries with the keys `a`, `b`, `b`: sorted, but not strictly. -/
def dupEntries : List RawEntry :=
  [{ shared := 0, unshared := [97], value := [1] },
   { shared := 0, unshared := [98], value := [2] },
   { shared := 0, unshared := [98], value := [3] }]

/-- Restart points of `dupEntries`: the entries 0 and 2. -/
def dupRestarts : List Nat := [0, 2]

/-- A filter block whose offsets array starts at 0 and whose first offset pair is
(5, 5): both offsets lie beyond `oOffset`. -/
def equalPairFilterBlock : filterBlock :=
  { data := [5, 0, 0, 0, 5, 0, 0, 0, 0, 0, 0, 0, 0], oOffset := 0, baseLg := 0,
    filtersNum := 2 }

/-- A filter block whose first offset pair is (1, 5), with `oOffset = 0`. -/
def beyondPairFilterBlock : filterBlock :=
  { data := [1, 0, 0, 0, 5, 0, 0, 0, 0, 0, 0, 0, 0], oOffset := 0, baseLg := 0,
    filtersNum := 2 }

/-- The iterator that `newBlockIter` returns for the ten-entry block without a
slice, held together with block releaser 1 and extra releaser 2. -/
def exampleHeld : heldIter :=
  { i := { tr := plainReader bytesCompare, block := tenBlock, key := [], value := none,
           offset := 0, prevOffset := 0, prevNode := [], prevKeys := [], restartIndex := 0,
           dir := dir.dirSOI, riStart := 0, riLimit := tenBlock.restartsLen,
           offsetStart := 0, offsetRealStart := 0, offsetLimit := tenBlock.restartsOffset,
           err := none },
    blockReleaser := some 1, releaser := some 2 }

/-- Handles of the two data blocks that the index of `offsetTable` points at. -/
def offsetHandles (j : Nat) : blockHandle :=
  if j = 0 then { offset := 0, length := 10 } else { offset := 15, length := 10 }

/-- Entries of the index block of `offsetTable`: the keys `c` and `f` with the encoded
handles of the data blocks at offsets 0 and 15. -/
def offsetEntries : List RawEntry :=
  [{ shared := 0, unshared := [99],
     value := putUvarint (offsetHandles 0).offset ++ putUvarint (offsetHandles 0).length },
   { shared := 0, unshared := [102],
     value := putUvarint (offsetHandles 1).offset ++ putUvarint (offsetHandles 1).length }]

/-- A table whose file holds, at offset 100 and uncompressed, the index block
`offsetEntries`; the data ends at offset 30. -/
def offsetTable : Reader :=
  { err := none, cmp := bytesCompare, filter := none, verifyChecksum := false, dataEnd := 30,
    metaBH := { offset := 30, length := 0 },
    indexBH := { offset := 100, length := (encodeBlock offsetEntries [0]).length },
    filterBH := { offset := 0, length := 0 }, indexBlock := none, filterBlock := none,
    bpool := false,
    readAt := fun n off =>
      Except.ok (((List.replicate 100 0 ++ encodeBlock offsetEntries [0] ++
        [0, 0, 0, 0, 0]).drop off.toNat).take n),
    crc := fun _ => 0, snappyDecode := fun _ => Except.error "no snappy" }

/-- Entries of an index block whose only entry, with key `c`, has an empty value:
no block handle can be decoded from it. -/
def badHandleEntries : List RawEntry := [{ shared := 0, unshared := [99], value := [] }]

/-- A table without latched error whose file holds, at offset 100 and uncompressed,
the index block `badHandleEntries`; the data ends at offset 90. -/
def badHandleTable : Reader :=
  { err := none, cmp := bytesCompare, filter := none, verifyChecksum := false, dataEnd := 90,
    metaBH := { offset := 90, length := 0 },
    indexBH := { offset := 100, length := (encodeBlock badHandleEntries [0]).length },
    filterBH := { offset := 0, length := 0 }, indexBlock := none, filterBlock := none,
    bpool := false,
    readAt := fun n off =>
      Except.ok (((List.replicate 100 0 ++ encodeBlock badHandleEntries [0] ++
        [0, 0, 0, 0, 0]).drop off.toNat).take n),
    crc := fun _ => 0, snappyDecode := fun _ => Except.error "no snappy" }

/-- Entries of the data blocks of `twoBlockTable`: the keys `a`, `c` in block 0 and
`e`, `g` in block 1. -/
def twoBlockData (m : Nat) : List RawEntry :=
  if m = 0 then [{ shared := 0, unshared := [97], value := [49] },
                 { shared := 0, unshared := [99], value := [51] }]
  else [{ shared := 0, unshared := [101], value := [53] },
        { shared := 0, unshared := [103], value := [55] }]

/-- Handles of the data blocks of `twoBlockTable`: 18 bytes each, at offsets 0 and 23. -/
def twoBlockHandles (m : Nat) : blockHandle :=
  if m = 0 then { offset := 0, length := 18 } else { offset := 23, length := 18 }

/-- Entries of the index block of `twoBlockTable`: the separator `d` for block 0 and
the last key `g` for block 1. -/
def twoBlockIndex : List RawEntry :=
  [{ shared := 0, unshared := [100],
     value := putUvarint (twoBlockHandles 0).offset ++ putUvarint (twoBlockHandles 0).length },
   { shared := 0, unshared := [103],
     value := putUvarint (twoBlockHandles 1).offset ++ putUvarint (twoBlockHandles 1).length }]

/-- A table of two data blocks, each followed by its 5-byte trailer in the file, with
the index block held by the reader. -/
def twoBlockTable : Reader :=
  { err := none, cmp := bytesCompare, filter := none, verifyChecksum := true, dataEnd := 46,
    metaBH := { offset := 46, length := 0 }, indexBH := { offset := 100, length := 0 },
    filterBH := { offset := 0, length := 0 },
    indexBlock := some (blockOf { offset := 100, length := 0 } twoBlockIndex [0]),
    filterBlock := none, bpool := false,
    readAt := fun n off =>
      Except.ok (((encodeBlock (twoBlockData 0) [0] ++ [0, 0, 0, 0, 0] ++
        encodeBlock (twoBlockData 1) [0] ++ [0, 0, 0, 0, 0]).drop off.toNat).take n),
    crc := fun _ => 0, snappyDecode := fun _ => Except.error "no snappy" }

end table

namespace table

/-- A block as `readBlock` decodes it from 18 bytes: ten bytes of entries, one restart
point at offset 0, and the count 1, so `restartsOffset = 10`.  The entry bytes are nine
bytes `0x80` and a byte 2: a varint whose tenth byte overflows 64 bits. -/
def overflowBlock : block :=
  { bh := { offset := 0, length := 18 },
    data := List.replicate 9 0x80 ++ [2] ++ [0, 0, 0, 0] ++ [1, 0, 0, 0],
    restartsLen := 1, restartsOffset := 10 }

/-- A block as `readBlock` decodes it from 20 bytes, `restartsOffset = 12`.  The entry
bytes are: shared length 0, unshared key length `2^64 - 1` (nine bytes `0xff` and a
byte 1), value length 1. -/
def wrapLengthBlock : block :=
  { bh := { offset := 0, length := 20 },
    data := [0] ++ List.replicate 9 0xff ++ [1] ++ [1] ++ [0, 0, 0, 0] ++ [1, 0, 0, 0],
    restartsLen := 1, restartsOffset := 12 }

/-- A reader over a file that holds, at offset 0 and uncompressed, the bytes of
`exampleFilterBlock` and a block trailer of zero bytes; the checksum function is
constantly zero. -/
def filterFileReader : Reader :=
  { err := none, cmp := bytesCompare, filter := some firstBytePolicy, verifyChecksum := false,
    dataEnd := 0, metaBH := { offset := 0, length := 0 },
    indexBH := { offset := 0, length := 0 }, filterBH := { offset := 0, length := 11 },
    indexBlock := none, filterBlock := none, bpool := false,
    readAt := fun n off =>
      Except.ok (((exampleFilterBlock.data ++ [0, 0, 0, 0, 0]).drop off.toNat).take n),
    crc := fun _ => 0, snappyDecode := fun _ => Except.error "no snappy" }

/-- A reader without latched error over a file on which every read fails; the index
block is not cached. -/
def unreadableIndexTable : Reader :=
  { err := none, cmp := bytesCompare, filter := none, verifyChecksum := false, dataEnd := 90,
    metaBH := { offset := 90, length := 0 }, indexBH := { offset := 100, length := 12 },
    filterBH := { offset := 0, length := 0 }, indexBlock := none, filterBlock := none,
    bpool := false, readAt := fun _ _ => Except.error (Err.other "input/output error"),
    crc := fun _ => 0, snappyDecode := fun _ => Except.error "no snappy" }

/-- The filter block of `filteredTable`: one filter, the list of the first bytes of the
four keys, for both data blocks (their offsets 0 and 23 have filter index 0 under
`baseLg` 11). -/
def twoBlockFilter : filterBlock :=
  { data := [97, 99, 101, 103] ++ putUint32 0 ++ putUint32 4 ++ [11], oOffset := 4,
    baseLg := 11, filtersNum := 1 }

/-- The table `twoBlockTable` with the filter policy `firstBytePolicy` and the filter
block `twoBlockFilter` held by the reader. -/
def filteredTable : Reader :=
  { twoBlockTable with filter := some firstBytePolicy, filterBlock := some twoBlockFilter }

/-- Five entries with the keys `z`, `a`, `z`, `a`, `a`, each stored in full: the keys
are not in order. -/
def unsortedEntries : List RawEntry :=
  [{ shared := 0, unshared := [122], value := [1] },
   { shared := 0, unshared := [97], value := [2] },
   { shared := 0, unshared := [122], value := [3] },
   { shared := 0, unshared := [97], value := [4] },
   { shared := 0, unshared := [97], value := [5] }]

/-- Restart points of `unsortedEntries`: every entry. -/
def unsortedRestarts : List Nat := [0, 1, 2, 3, 4]

/-- The block of `unsortedEntries`: 25 bytes of entries, five restart offsets and the
restart count. -/
def unsortedBlock : block :=
  blockOf { offset := 0, length := 49 } unsortedEntries unsortedRestarts

/-- The block of `dupEntries`: 15 bytes of entries, two restart offsets and the restart
count. -/
def dupBlock : block := blockOf { offset := 0, length := 27 } dupEntries dupRestarts

end table
namespace journal

theorem recordSpans_congr (outs : List Out) : ∀ (p q : Int), p % BlockSize = q % BlockSize →
    recordSpans p outs = recordSpans q outs := by
  induction outs with
  | nil => intro p q _; rfl
  | cons o rest ih =>
    intro p q h
    cases o with
    | zeros n =>
      simp only [recordSpans]
      apply ih
      simp only [BlockSize] at h ⊢
      omega
    | record t pl =>
      simp only [recordSpans]
      rw [h]
      congr 1
      apply ih
      simp only [BlockSize, kHeaderSize] at h ⊢
      omega

theorem payloads_append (a b : List Out) : payloads (a ++ b) = payloads a ++ payloads b := by
  induction a with
  | nil => rfl
  | cons o rest ih => cases o <;> simp [payloads, ih]

theorem tags_append (a b : List Out) : tags (a ++ b) = tags a ++ tags b := by
  induction a with
  | nil => rfl
  | cons o rest ih => cases o <;> simp [tags, ih]

theorem outSize_append (a b : List Out) : outSize (a ++ b) = outSize a + outSize b := by
  induction a with
  | nil => simp [outSize]
  | cons o rest ih => simp [outSize, ih]; omega

theorem recordSpans_append (a b : List Out) : ∀ p : Int,
    recordSpans p (a ++ b) = recordSpans p a ++ recordSpans (p + outSize a) b := by
  induction a with
  | nil => intro p; simp [recordSpans, outSize]
  | cons o rest ih =>
    intro p
    cases o with
    | zeros n => simp [recordSpans, outSize, Out.size, ih, add_assoc]
    | record t pl => simp [recordSpans, outSize, Out.size, ih, add_assoc]


theorem availOf_nonneg (boff : Int) : 0 ≤ availOf boff := by
  unfold availOf BlockSize kHeaderSize
  split <;> omega

theorem appendLoop_fits (fuel : Nat) (w : Writer) (begin : Bool) (record : List Nat)
    (h : (record.length : Int) ≤ availOf w.boff) :
    appendLoop (fuel + 1) w begin record =
      some ⟨w.w ++ padOf w.boff ++ [Out.record (if begin then tFull else tLast) record],
            (BlockSize - kHeaderSize - availOf w.boff) + kHeaderSize + record.length⟩ := by
  have hav := availOf_nonneg w.boff
  unfold availOf at h hav
  simp only [appendLoop, padOf, availOf, Writer.write]
  unfold BlockSize kHeaderSize at *
  by_cases h1 : (32768 : Int) - w.boff < 4 + 2 + 1
  · by_cases h2 : (32768 : Int) - w.boff > 0
    · simp only [h1, h2, if_true] at h ⊢
      have h3 : ¬ ((record.length : Int) > 32768 - 0 - (4 + 2 + 1)) := by omega
      simp only [h3, if_false]
      cases begin <;> simp
    · simp only [h1, h2, if_true, if_false] at h ⊢
      have h3 : ¬ ((record.length : Int) > 32768 - 0 - (4 + 2 + 1)) := by omega
      simp only [h3, if_false]
      cases begin <;> simp
  · simp only [h1, if_false] at h ⊢
    have h3 : ¬ ((record.length : Int) > 32768 - w.boff - (4 + 2 + 1)) := by omega
    simp only [h3, if_false]
    cases begin <;> simp <;> omega

theorem appendLoop_splits (fuel : Nat) (w : Writer) (begin : Bool) (record : List Nat)
    (h : availOf w.boff < (record.length : Int)) :
    appendLoop (fuel + 1) w begin record =
      appendLoop fuel
        ⟨w.w ++ padOf w.boff ++
          [Out.record (if begin then tFirst else tMiddle) (record.take (availOf w.boff).toNat)],
          BlockSize⟩ false (record.drop (availOf w.boff).toNat) := by
  have hav := availOf_nonneg w.boff
  unfold availOf at h hav
  simp only [appendLoop, padOf, availOf, Writer.write]
  unfold BlockSize kHeaderSize at *
  by_cases h1 : (32768 : Int) - w.boff < 4 + 2 + 1
  · by_cases h2 : (32768 : Int) - w.boff > 0
    · simp only [h1, h2, if_true] at h ⊢
      have h3 : ((record.length : Int) > 32768 - 0 - (4 + 2 + 1)) := by omega
      simp only [h3, if_true]
      have h4 : ¬ (record.length ≤ (32768 - 0 - (4 + 2 + 1) : Int).toNat) := by omega
      cases begin <;> simp [h4] <;> intro h5 <;> omega
    · simp only [h1, h2, if_true, if_false] at h ⊢
      have h3 : ((record.length : Int) > 32768 - 0 - (4 + 2 + 1)) := by omega
      simp only [h3, if_true]
      have h4 : ¬ (record.length ≤ (32768 - 0 - (4 + 2 + 1) : Int).toNat) := by omega
      cases begin <;> simp [h4] <;> intro h5 <;> omega
  · simp only [h1, if_false] at h ⊢
    have h3 : ((record.length : Int) > 32768 - w.boff - (4 + 2 + 1)) := by omega
    simp only [h3, if_true]
    have h4 : ¬ (record.length ≤ (32768 - w.boff - (4 + 2 + 1) : Int).toNat) := by omega
    cases begin <;> simp [h4] <;> intro h5 <;> omega

theorem outSize_nil : outSize [] = 0 := rfl

theorem outSize_cons (o : Out) (rest : List Out) : outSize (o :: rest) = o.size + outSize rest := rfl

theorem payloads_padOf (boff : Int) : payloads (padOf boff) = [] := by
  unfold padOf; split <;> rfl

theorem tags_padOf (boff : Int) : tags (padOf boff) = [] := by
  unfold padOf; split <;> rfl

theorem regime (boff : Int) (h0 : 0 ≤ boff) (h1 : boff ≤ BlockSize) :
    (boff ≤ 32761 ∧ padOf boff = [] ∧ availOf boff = 32761 - boff) ∨
    (32761 < boff ∧ boff < 32768 ∧ padOf boff = [Out.zeros (32768 - boff).toNat] ∧ availOf boff = 32761) ∨
    (boff = 32768 ∧ padOf boff = [] ∧ availOf boff = 32761) := by
  unfold padOf availOf BlockSize kHeaderSize at *
  by_cases a : boff ≤ 32761
  · left
    refine ⟨a, ?_, ?_⟩
    · rw [if_neg]; omega
    · rw [if_neg] <;> omega
  · by_cases b : boff < 32768
    · right; left
      refine ⟨by omega, b, ?_, ?_⟩
      · rw [if_pos]; omega
      · rw [if_pos] <;> omega
    · right; right
      have : boff = 32768 := by omega
      subst this
      simp

theorem appendLoop_spec : ∀ (fuel : Nat) (w : Writer) (begin : Bool) (record : List Nat),
    0 ≤ w.boff → w.boff ≤ BlockSize →
    (record.length + 2 ≤ fuel ∨ (record.length + 1 ≤ fuel ∧ 0 < availOf w.boff)) →
    ∃ outs b1, appendLoop fuel w begin record = some ⟨w.w ++ outs, b1⟩ ∧
      (payloads outs).flatten = record ∧
      (∃ k, tags outs =
        if (record.length : Int) ≤ availOf w.boff then [if begin then tFull else tLast]
        else (if begin then tFirst else tMiddle) :: (List.replicate k tMiddle ++ [tLast])) ∧
      (∀ s ∈ recordSpans w.boff outs, 0 ≤ s.1 ∧ s.1 + kHeaderSize + s.2 ≤ BlockSize) ∧
      0 < b1 ∧ b1 ≤ BlockSize ∧ b1 % BlockSize = (w.boff + outSize outs) % BlockSize := by
  intro fuel
  induction fuel with
  | zero => intro w begin record _ _ hf; omega
  | succ fuel ih =>
    intro w begin record h0 h1 hf
    by_cases hfit : (record.length : Int) ≤ availOf w.boff
    · rw [appendLoop_fits fuel w begin record hfit]
      refine ⟨padOf w.boff ++ [Out.record (if begin then tFull else tLast) record],
        (BlockSize - kHeaderSize - availOf w.boff) + kHeaderSize + record.length, ?_, ?_, ⟨0, ?_⟩, ?_, ?_⟩
      · simp
      · simp [payloads_append, payloads, payloads_padOf]
      · simp [tags_append, tags, hfit, tags_padOf]
      · intro s hs
        rcases regime w.boff h0 h1 with ⟨a, hp, ha⟩ | ⟨a, b, hp, ha⟩ | ⟨a, hp, ha⟩
        all_goals
          rw [hp] at hs
          rw [ha] at hfit
          simp [recordSpans] at hs
          subst hs
          simp only [BlockSize, kHeaderSize] at *
          omega
      · rcases regime w.boff h0 h1 with ⟨a, hp, ha⟩ | ⟨a, b, hp, ha⟩ | ⟨a, hp, ha⟩
        all_goals
          rw [hp, ha]
          rw [ha] at hfit
          simp only [outSize_append, outSize_cons, outSize_nil, Out.size, BlockSize, kHeaderSize] at *
          omega
    · have hlt : availOf w.boff < (record.length : Int) := by omega
      have hav := availOf_nonneg w.boff
      rw [appendLoop_splits fuel w begin record hlt]
      have hB : availOf BlockSize = 32761 := by simp [availOf, BlockSize, kHeaderSize]
      obtain ⟨outs, b1, he, hp, ⟨k, ht⟩, hs, hb0, hb1, hbm⟩ :=
        ih ⟨w.w ++ padOf w.boff ++
          [Out.record (if begin then tFirst else tMiddle) (record.take (availOf w.boff).toNat)],
          BlockSize⟩ false (record.drop (availOf w.boff).toNat)
          (by simp [BlockSize]) (by simp)
          (by
            right
            refine ⟨?_, by simp [hB]⟩
            simp only [List.length_drop]
            rcases hf with hf | ⟨hf, hpos⟩ <;> omega)
      refine ⟨padOf w.boff ++ [Out.record (if begin then tFirst else tMiddle)
          (record.take (availOf w.boff).toNat)] ++ outs, b1, ?_, ?_, ?_, ?_, hb0, hb1, ?_⟩
      · rw [he]; simp
      · simp [payloads_append, payloads, hp, payloads_padOf]
      · simp only [hfit, if_false]
        simp only [hB, Bool.false_eq_true, if_false] at ht
        by_cases hl : ((record.drop (availOf w.boff).toNat).length : Int) ≤ 32761
        · refine ⟨0, ?_⟩
          simp only [hl, if_true] at ht
          simp [tags_append, tags, ht, tags_padOf]
        · refine ⟨k + 1, ?_⟩
          simp only [hl, if_false] at ht
          simp [tags_append, tags, ht, List.replicate_succ, tags_padOf]
      · intro s hs'
        rw [recordSpans_append] at hs'
        rcases List.mem_append.1 hs' with hs' | hs'
        · rcases regime w.boff h0 h1 with ⟨a, hp, ha⟩ | ⟨a, b, hp, ha⟩ | ⟨a, hp, ha⟩
          all_goals
            rw [hp] at hs'
            rw [ha] at hlt
            simp [recordSpans, ha] at hs'
            subst hs'
            simp only [BlockSize, kHeaderSize] at *
            omega
        · apply hs
          simp only at hs' ⊢
          rw [recordSpans_congr outs BlockSize
            (w.boff + outSize (padOf w.boff ++ [Out.record (if begin then tFirst else tMiddle)
              (record.take (availOf w.boff).toNat)]))]
          · exact hs'
          · rcases regime w.boff h0 h1 with ⟨a, hp, ha⟩ | ⟨a, b, hp, ha⟩ | ⟨a, hp, ha⟩
            all_goals
              rw [hp, ha]
              rw [ha] at hlt
              simp only [outSize_append, outSize_cons, outSize_nil, Out.size, BlockSize, kHeaderSize, List.length_take] at *
              omega
      · rw [hbm]
        rcases regime w.boff h0 h1 with ⟨a, hp, ha⟩ | ⟨a, b, hp, ha⟩ | ⟨a, hp, ha⟩
        all_goals
          rw [hp, ha]
          rw [ha] at hlt
          simp only [outSize_append, outSize_cons, outSize_nil, Out.size, BlockSize, kHeaderSize, List.length_take] at *
          omega


theorem payloads_length_eq_tags (outs : List Out) : (payloads outs).length = (tags outs).length := by
  induction outs with
  | nil => rfl
  | cons o rest ih => cases o <;> simp [payloads, tags, ih]

/-- C4 (journal round trip): for every record and every writer whose in-block offset
lies in [0, 32768], `Append` returns, and the payloads of the physical records it
emitted, concatenated in emission order, are exactly the record. -/
theorem journal_append_roundtrip (w : Writer) (record : List Nat)
    (h0 : 0 ≤ w.boff) (h1 : w.boff ≤ BlockSize) :
    ∃ outs b1, w.Append record = some ⟨w.w ++ outs, b1⟩ ∧
      (payloads outs).flatten = record := by
  obtain ⟨outs, b1, he, hp, _⟩ :=
    appendLoop_spec (record.length + 2) w true record h0 h1 (Or.inl (le_refl _))
  exact ⟨outs, b1, he, hp⟩

theorem journal_append_roundtrip_witness :
    (0 : Int) ≤ (Writer.mk [] 32760).boff ∧ (Writer.mk [] 32760).boff ≤ BlockSize ∧
    ∃ outs b1, (Writer.mk [] 32760).Append [1, 2, 3] = some ⟨[] ++ outs, b1⟩ ∧
      (payloads outs).flatten = [1, 2, 3] :=
  ⟨by decide, by decide,
    journal_append_roundtrip (Writer.mk [] 32760) [1, 2, 3] (by decide) (by decide)⟩

/-- C5 (record types): for every record and every starting offset in [0, 32768] the
tags emitted by `Append` are the single tag FULL exactly when the record fits in the
payload space of the block the first header goes to (after any padding), and otherwise
FIRST, then zero or more MIDDLE, then LAST; an empty record gives exactly one FULL
record with empty payload. -/
theorem journal_append_tags (w : Writer) (record : List Nat)
    (h0 : 0 ≤ w.boff) (h1 : w.boff ≤ BlockSize) :
    ∃ outs b1, w.Append record = some ⟨w.w ++ outs, b1⟩ ∧
      (((record.length : Int) ≤ availOf w.boff ∧ tags outs = [tFull]) ∨
       (availOf w.boff < (record.length : Int) ∧
         ∃ k, tags outs = tFirst :: (List.replicate k tMiddle ++ [tLast]))) ∧
      (record = [] → tags outs = [tFull] ∧ payloads outs = [[]]) := by
  obtain ⟨outs, b1, he, hp, ⟨k, ht⟩, _⟩ :=
    appendLoop_spec (record.length + 2) w true record h0 h1 (Or.inl (le_refl _))
  refine ⟨outs, b1, he, ?_, ?_⟩
  · by_cases hfit : (record.length : Int) ≤ availOf w.boff
    · left
      simp only [hfit, if_true] at ht
      exact ⟨hfit, ht⟩
    · right
      simp only [hfit, if_false, if_true] at ht
      exact ⟨by omega, k, ht⟩
  · intro hr
    subst hr
    have hfit : ((([] : List Nat).length : Nat) : Int) ≤ availOf w.boff := by
      have := availOf_nonneg w.boff
      simpa using this
    simp only [hfit, if_true] at ht
    refine ⟨ht, ?_⟩
    have hl := payloads_length_eq_tags outs
    rw [ht] at hl
    match hpl : payloads outs, hl with
    | [p], _ =>
      rw [hpl] at hp
      simp at hp
      rw [hp]

theorem journal_append_tags_witness :
    (0 : Int) ≤ (Writer.mk [] 32765).boff ∧ (Writer.mk [] 32765).boff ≤ BlockSize ∧
    ∃ outs b1, (Writer.mk [] 32765).Append [] = some ⟨[] ++ outs, b1⟩ ∧
      (((([] : List Nat).length : Int) ≤ availOf (Writer.mk [] 32765).boff ∧ tags outs = [tFull]) ∨
       (availOf (Writer.mk [] 32765).boff < (([] : List Nat).length : Int) ∧
         ∃ k, tags outs = tFirst :: (List.replicate k tMiddle ++ [tLast]))) ∧
      (([] : List Nat) = [] → tags outs = [tFull] ∧ payloads outs = [[]]) :=
  ⟨by decide, by decide,
    journal_append_tags (Writer.mk [] 32765) [] (by decide) (by decide)⟩

/-- C6 (no record straddles a block boundary): for every writer with in-block offset
in [0, 32768] and every record, each physical record emitted by `Append` starts at an
in-block offset `b` with `b + 7 + len(payload) ≤ 32768`; afterwards `boff` is again in
[0, 32768] and is the in-block position of the end of the output. -/
theorem journal_append_within_block (w : Writer) (record : List Nat)
    (h0 : 0 ≤ w.boff) (h1 : w.boff ≤ BlockSize) :
    ∃ outs b1, w.Append record = some ⟨w.w ++ outs, b1⟩ ∧
      (∀ s ∈ recordSpans w.boff outs, 0 ≤ s.1 ∧ s.1 + kHeaderSize + s.2 ≤ BlockSize) ∧
      0 ≤ b1 ∧ b1 ≤ BlockSize ∧ b1 % BlockSize = (w.boff + outSize outs) % BlockSize := by
  obtain ⟨outs, b1, he, _, _, hs, hb0, hb1, hbm⟩ :=
    appendLoop_spec (record.length + 2) w true record h0 h1 (Or.inl (le_refl _))
  exact ⟨outs, b1, he, hs, le_of_lt hb0, hb1, hbm⟩

theorem journal_append_within_block_witness :
    (0 : Int) ≤ (Writer.mk [] 32758).boff ∧ (Writer.mk [] 32758).boff ≤ BlockSize ∧
    ∃ outs b1, (Writer.mk [] 32758).Append [1, 2, 3, 4, 5] = some ⟨[] ++ outs, b1⟩ ∧
      (∀ s ∈ recordSpans (Writer.mk [] 32758).boff outs,
        0 ≤ s.1 ∧ s.1 + kHeaderSize + s.2 ≤ BlockSize) ∧
      0 ≤ b1 ∧ b1 ≤ BlockSize ∧
      b1 % BlockSize = ((Writer.mk [] 32758).boff + outSize outs) % BlockSize :=
  ⟨by decide, by decide,
    journal_append_within_block (Writer.mk [] 32758) [1, 2, 3, 4, 5] (by decide) (by decide)⟩

end journal

namespace journal
theorem padOf_blockSize : padOf BlockSize = [] := by
  simp [padOf, BlockSize, kHeaderSize]

theorem appendLoop_records : ∀ (fuel : Nat) (w : Writer) (begin : Bool) (record : List Nat),
    (record.length + 2 ≤ fuel ∨ (record.length + 1 ≤ fuel ∧ 0 < availOf w.boff)) →
    ∃ t pl rest b1, appendLoop fuel w begin record =
        some ⟨w.w ++ padOf w.boff ++ Out.record t pl :: rest, b1⟩ ∧
      ∀ o ∈ rest, o.isRecord = true := by
  intro fuel
  induction fuel with
  | zero => intro w begin record hf; omega
  | succ fuel ih =>
    intro w begin record hf
    by_cases hfit : (record.length : Int) ≤ availOf w.boff
    · rw [appendLoop_fits fuel w begin record hfit]
      exact ⟨_, _, [], _, rfl, by simp⟩
    · have hlt : availOf w.boff < (record.length : Int) := by omega
      have hav := availOf_nonneg w.boff
      rw [appendLoop_splits fuel w begin record hlt]
      have hB : availOf BlockSize = 32761 := by simp [availOf, BlockSize, kHeaderSize]
      obtain ⟨t, pl, rest, b1, he, hr⟩ :=
        ih ⟨w.w ++ padOf w.boff ++
          [Out.record (if begin then tFirst else tMiddle) (record.take (availOf w.boff).toNat)],
          BlockSize⟩ false (record.drop (availOf w.boff).toNat)
          (by
            right
            refine ⟨?_, by simp [hB]⟩
            simp only [List.length_drop]
            rcases hf with hf | ⟨hf, hpos⟩ <;> omega)
      refine ⟨(if begin then tFirst else tMiddle), record.take (availOf w.boff).toNat,
        Out.record t pl :: rest, b1, ?_, ?_⟩
      · rw [he]
        simp [padOf_blockSize]
      · intro o ho
        simp only [List.mem_cons] at ho
        rcases ho with ho | ho
        · subst ho; rfl
        · exact hr o ho

/-- C20 (padding): when fewer than 7 bytes remain in the block (`32768 - boff < 7`),
`Append` first writes exactly `32768 - boff` zero bytes (nothing when that is 0) and
the first header then starts at offset 0 of the next block; when 7 or more bytes
remain it writes no padding; nothing but records follows. -/
theorem journal_append_padding (w : Writer) (record : List Nat)
    (h0 : 0 ≤ w.boff) (h1 : w.boff ≤ BlockSize) :
    ∃ recs b1, w.Append record = some ⟨w.w ++
        (if BlockSize - w.boff < kHeaderSize ∧ BlockSize - w.boff > 0 then
          [Out.zeros (BlockSize - w.boff).toNat] else []) ++ recs, b1⟩ ∧
      (∀ o ∈ recs, o.isRecord = true) ∧
      (BlockSize - w.boff < kHeaderSize →
        ((recordSpans w.boff
          ((if BlockSize - w.boff < kHeaderSize ∧ BlockSize - w.boff > 0 then
            [Out.zeros (BlockSize - w.boff).toNat] else []) ++ recs)).head?).map Prod.fst
          = some 0) := by
  obtain ⟨t, pl, rest, b1, he, hr⟩ :=
    appendLoop_records (record.length + 2) w true record (Or.inl (le_refl _))
  refine ⟨Out.record t pl :: rest, b1, he, ?_, ?_⟩
  · intro o ho
    simp only [List.mem_cons] at ho
    rcases ho with ho | ho
    · subst ho; rfl
    · exact hr o ho
  · intro hlt
    by_cases hpos : BlockSize - w.boff > 0
    · rw [if_pos ⟨hlt, hpos⟩]
      simp only [List.singleton_append, recordSpans, List.head?_cons, Option.map_some']
      congr 1
      simp only [BlockSize, kHeaderSize] at *
      omega
    · rw [if_neg (by tauto)]
      simp only [List.nil_append, recordSpans, List.head?_cons, Option.map_some']
      congr 1
      simp only [BlockSize, kHeaderSize] at *
      omega

theorem journal_append_padding_witness :
    (0 : Int) ≤ (Writer.mk [] 32765).boff ∧ (Writer.mk [] 32765).boff ≤ BlockSize ∧
    ∃ recs b1, (Writer.mk [] 32765).Append [1, 2] = some ⟨[] ++
        (if BlockSize - (Writer.mk [] 32765).boff < kHeaderSize ∧
            BlockSize - (Writer.mk [] 32765).boff > 0 then
          [Out.zeros (BlockSize - (Writer.mk [] 32765).boff).toNat] else []) ++ recs, b1⟩ ∧
      (∀ o ∈ recs, o.isRecord = true) ∧
      (BlockSize - (Writer.mk [] 32765).boff < kHeaderSize →
        ((recordSpans (Writer.mk [] 32765).boff
          ((if BlockSize - (Writer.mk [] 32765).boff < kHeaderSize ∧
              BlockSize - (Writer.mk [] 32765).boff > 0 then
            [Out.zeros (BlockSize - (Writer.mk [] 32765).boff).toNat] else []) ++ recs)).head?).map
          Prod.fst = some 0) :=
  ⟨by decide, by decide,
    journal_append_padding (Writer.mk [] 32765) [1, 2] (by decide) (by decide)⟩

end journal
namespace journal

theorem availOf_le (boff : Int) (h0 : 0 ≤ boff) : availOf boff ≤ 32761 := by
  unfold availOf BlockSize kHeaderSize
  split <;> omega

theorem mem_padOf (boff : Int) (t : Nat) (p : List Nat) : Out.record t p ∉ padOf boff := by
  unfold padOf
  split <;> simp

theorem appendLoop_mem : ∀ (fuel : Nat) (w : Writer) (begin : Bool) (record : List Nat),
    0 ≤ w.boff → w.boff ≤ BlockSize →
    (record.length + 2 ≤ fuel ∨ (record.length + 1 ≤ fuel ∧ 0 < availOf w.boff)) →
    ∃ outs b1, appendLoop fuel w begin record = some ⟨w.w ++ outs, b1⟩ ∧
      ∀ t p, Out.record t p ∈ outs → 1 ≤ t ∧ t ≤ 4 ∧ p.length ≤ 32761 := by
  intro fuel
  induction fuel with
  | zero => intro w begin record _ _ hf; omega
  | succ fuel ih =>
    intro w begin record h0 h1 hf
    have hle := availOf_le w.boff h0
    by_cases hfit : (record.length : Int) ≤ availOf w.boff
    · rw [appendLoop_fits fuel w begin record hfit]
      refine ⟨padOf w.boff ++ [Out.record (if begin then tFull else tLast) record],
        (BlockSize - kHeaderSize - availOf w.boff) + kHeaderSize + record.length, ?_, ?_⟩
      · simp
      · intro t p hmem
        rcases List.mem_append.1 hmem with hm | hm
        · exact absurd hm (mem_padOf _ _ _)
        · simp only [List.mem_singleton, Out.record.injEq] at hm
          obtain ⟨ht, hp⟩ := hm
          subst hp
          subst ht
          refine ⟨?_, ?_, by omega⟩ <;> cases begin <;> simp [tFull, tLast]
    · have hlt : availOf w.boff < (record.length : Int) := by omega
      have hav := availOf_nonneg w.boff
      rw [appendLoop_splits fuel w begin record hlt]
      have hB : availOf BlockSize = 32761 := by simp [availOf, BlockSize, kHeaderSize]
      obtain ⟨outs, b1, he, hm⟩ :=
        ih ⟨w.w ++ padOf w.boff ++
          [Out.record (if begin then tFirst else tMiddle) (record.take (availOf w.boff).toNat)],
          BlockSize⟩ false (record.drop (availOf w.boff).toNat)
          (by simp [BlockSize]) (by simp)
          (by
            right
            refine ⟨?_, by simp [hB]⟩
            simp only [List.length_drop]
            rcases hf with hf | ⟨hf, hpos⟩ <;> omega)
      refine ⟨padOf w.boff ++ [Out.record (if begin then tFirst else tMiddle)
          (record.take (availOf w.boff).toNat)] ++ outs, b1, ?_, ?_⟩
      · rw [he]; simp
      · intro t p hmem
        rcases List.mem_append.1 hmem with hm1 | hm1
        · rcases List.mem_append.1 hm1 with hm2 | hm2
          · exact absurd hm2 (mem_padOf _ _ _)
          · simp only [List.mem_singleton, Out.record.injEq] at hm2
            obtain ⟨ht, hp⟩ := hm2
            subst hp
            subst ht
            refine ⟨?_, ?_, ?_⟩
            · cases begin <;> simp [tFirst, tMiddle]
            · cases begin <;> simp [tFirst, tMiddle]
            · rw [List.length_take]
              omega
        · exact hm t p hm1

theorem le32_decode (v : Nat) :
    (le32 v).length = 4 ∧
    (le32 v).getD 0 0 + (le32 v).getD 1 0 * 2 ^ 8 + (le32 v).getD 2 0 * 2 ^ 16 +
      (le32 v).getD 3 0 * 2 ^ 24 = v % 2 ^ 32 := by
  refine ⟨rfl, ?_⟩
  simp only [le32, List.getD_cons_zero, List.getD_cons_succ]
  omega

theorem writeBytes_layout (maskedCrc : List Nat → Nat) (t : Nat) (p : List Nat)
    (ht : t ≤ 4) (hp : p.length ≤ 32761) :
    (writeBytes maskedCrc t p).length = 7 + p.length ∧
    (writeBytes maskedCrc t p).take 4 = le32 (maskedCrc (t :: p)) ∧
    (writeBytes maskedCrc t p).getD 4 0 + (writeBytes maskedCrc t p).getD 5 0 * 2 ^ 8 =
      p.length ∧
    (writeBytes maskedCrc t p).getD 6 0 = t ∧
    (writeBytes maskedCrc t p).drop 7 = p := by
  have ht256 : t % 256 = t := Nat.mod_eq_of_lt (by omega)
  have hand : p.length &&& 0xff = p.length % 256 := Nat.and_pow_two_sub_one_eq_mod p.length 8
  have hshift : p.length >>> 8 = p.length / 256 := Nat.shiftRight_eq_div_pow p.length 8
  unfold writeBytes
  simp only [ht256, hand, hshift, le32]
  refine ⟨by simp; omega, by simp, ?_, by simp, by simp⟩
  simp only [List.cons_append, List.nil_append, List.getD_cons_succ, List.getD_cons_zero,
    List.singleton_append]
  omega


theorem fragments_append (a b : List Out) : fragments (a ++ b) = fragments a ++ fragments b := by
  induction a with
  | nil => rfl
  | cons o rest ih => cases o <;> simp [fragments, ih]

theorem fragments_padOf (boff : Int) : fragments (padOf boff) = [] := by
  unfold padOf
  split <;> rfl

theorem fragments_snd (outs : List Out) : (fragments outs).map Prod.snd = payloads outs := by
  induction outs with
  | nil => rfl
  | cons o rest ih => cases o <;> simp [fragments, payloads, ih]

theorem mem_fragments (outs : List Out) (f : Nat × List Nat) (h : f ∈ fragments outs) :
    Out.record f.1 f.2 ∈ outs := by
  induction outs with
  | nil => simp [fragments] at h
  | cons o rest ih =>
    cases o with
    | zeros n =>
      simp only [fragments] at h
      exact List.mem_cons_of_mem _ (ih h)
    | record t p =>
      simp only [fragments, List.mem_cons] at h
      rcases h with h | h
      · subst h
        exact List.mem_cons_self _ _
      · exact List.mem_cons_of_mem _ (ih h)

theorem writeBytes_explicit (maskedCrc : List Nat → Nat) (t : Nat) (p : List Nat)
    (ht : t ≤ 4) (hp : p.length ≤ 32761) :
    writeBytes maskedCrc t p =
      [maskedCrc (t :: p) % 256, maskedCrc (t :: p) / 2 ^ 8 % 256,
        maskedCrc (t :: p) / 2 ^ 16 % 256, maskedCrc (t :: p) / 2 ^ 24 % 256,
        p.length % 256, p.length / 256, t] ++ p := by
  have ht256 : t % 256 = t := Nat.mod_eq_of_lt (by omega)
  have hand : p.length &&& 0xff = p.length % 256 := Nat.and_pow_two_sub_one_eq_mod p.length 8
  have hshift : p.length >>> 8 = p.length / 256 := Nat.shiftRight_eq_div_pow p.length 8
  have hdiv : p.length / 256 % 256 = p.length / 256 := Nat.mod_eq_of_lt (by omega)
  have hmm : p.length % 256 % 256 = p.length % 256 := Nat.mod_mod _ _
  unfold writeBytes
  simp only [ht256, hand, hshift, hdiv, hmm, le32, List.cons_append, List.nil_append,
    List.singleton_append]

theorem records_stream (maskedCrc : List Nat → Nat) (recs : List Out)
    (hr : ∀ o ∈ recs, o.isRecord = true)
    (hm : ∀ t p, Out.record t p ∈ recs → 1 ≤ t ∧ t ≤ 4 ∧ p.length ≤ 32761) :
    (recs.map (Out.bytes maskedCrc)).flatten =
      ((fragments recs).map (fun f =>
        [maskedCrc (f.1 :: f.2) % 256, maskedCrc (f.1 :: f.2) / 2 ^ 8 % 256,
          maskedCrc (f.1 :: f.2) / 2 ^ 16 % 256, maskedCrc (f.1 :: f.2) / 2 ^ 24 % 256,
          f.2.length % 256, f.2.length / 256, f.1] ++ f.2)).flatten := by
  induction recs with
  | nil => rfl
  | cons o rest ih =>
    have ih2 := ih (fun o1 ho1 => hr o1 (List.mem_cons_of_mem _ ho1))
      (fun t p hmem => hm t p (List.mem_cons_of_mem _ hmem))
    cases o with
    | zeros n =>
      have := hr (Out.zeros n) (List.mem_cons_self _ _)
      simp [Out.isRecord] at this
    | record t p =>
      obtain ⟨_, ht4, hp⟩ := hm t p (List.mem_cons_self _ _)
      simp only [List.map_cons, List.flatten_cons, fragments, Out.bytes]
      rw [ih2, writeBytes_explicit maskedCrc t p ht4 hp]

theorem padOf_bytes (maskedCrc : List Nat → Nat) (boff : Int) (h1 : boff ≤ BlockSize) :
    ((padOf boff).map (Out.bytes maskedCrc)).flatten =
      List.replicate (if BlockSize - boff < kHeaderSize then (BlockSize - boff).toNat else 0)
        0 := by
  unfold padOf
  by_cases ha : BlockSize - boff < kHeaderSize
  · by_cases hb : BlockSize - boff > 0
    · rw [if_pos ⟨ha, hb⟩, if_pos ha]
      simp [Out.bytes]
    · rw [if_neg (by tauto), if_pos ha]
      have : (BlockSize - boff).toNat = 0 := by omega
      rw [this]
      rfl
  · rw [if_neg (by tauto), if_neg ha]
    rfl

/-- C21: for every record and every writer with in-block offset in [0, 32768],
`Append` returns and writes at least one physical record; the payloads of the records
written, in order, make up the record; every record written has a type in 1..4 and a
payload of at most 32761 bytes, so that the two length bytes hold the payload length
exactly; and the bytes that `Append` puts on the stream are the zero padding (when
fewer than 7 bytes remained in the block) followed, for each record in turn, by 7
header bytes and the payload: bytes 0-3 the little-endian masked CRC-32C of the type
byte followed by the payload, bytes 4-5 the payload length in little-endian, byte 6
the type. -/
theorem journal_record_bytes (maskedCrc : List Nat → Nat) (w : Writer) (record : List Nat)
    (h0 : 0 ≤ w.boff) (h1 : w.boff ≤ BlockSize) :
    ∃ w1 frags, w.Append record = some w1 ∧ frags ≠ [] ∧
      (frags.map Prod.snd).flatten = record ∧
      (∀ f ∈ frags, 1 ≤ f.1 ∧ f.1 ≤ 4 ∧ f.2.length ≤ 32761 ∧
        f.2.length % 256 + f.2.length / 256 * 2 ^ 8 = f.2.length ∧ f.2.length / 256 < 256) ∧
      w1.stream maskedCrc = w.stream maskedCrc ++
        List.replicate
          (if BlockSize - w.boff < kHeaderSize then (BlockSize - w.boff).toNat else 0) 0 ++
        (frags.map (fun f =>
          [maskedCrc (f.1 :: f.2) % 256, maskedCrc (f.1 :: f.2) / 2 ^ 8 % 256,
            maskedCrc (f.1 :: f.2) / 2 ^ 16 % 256, maskedCrc (f.1 :: f.2) / 2 ^ 24 % 256,
            f.2.length % 256, f.2.length / 256, f.1] ++ f.2)).flatten := by
  obtain ⟨outs, b1, he, hm⟩ :=
    appendLoop_mem (record.length + 2) w true record h0 h1 (Or.inl (le_refl _))
  obtain ⟨outs2, b2, he2, hp2, _⟩ :=
    appendLoop_spec (record.length + 2) w true record h0 h1 (Or.inl (le_refl _))
  obtain ⟨t, pl, rest, b3, he3, hr3⟩ :=
    appendLoop_records (record.length + 2) w true record (Or.inl (le_refl _))
  have ho2 : outs2 = outs := by
    rw [he] at he2
    have := congrArg Writer.w (Option.some.inj he2)
    exact (List.append_cancel_left this).symm
  have ho3 : outs = padOf w.boff ++ Out.record t pl :: rest := by
    rw [he] at he3
    have := congrArg Writer.w (Option.some.inj he3)
    simp only [List.append_assoc] at this
    exact List.append_cancel_left this
  subst ho2
  have hrec : ∀ o ∈ Out.record t pl :: rest, o.isRecord = true := by
    intro o ho
    simp only [List.mem_cons] at ho
    rcases ho with ho | ho
    · subst ho; rfl
    · exact hr3 o ho
  have hmr : ∀ t1 p1, Out.record t1 p1 ∈ Out.record t pl :: rest →
      1 ≤ t1 ∧ t1 ≤ 4 ∧ p1.length ≤ 32761 := by
    intro t1 p1 hmem
    apply hm t1 p1
    rw [ho3]
    exact List.mem_append_right _ hmem
  have hfr : fragments outs2 = fragments (Out.record t pl :: rest) := by
    rw [ho3, fragments_append, fragments_padOf, List.nil_append]
  refine ⟨⟨w.w ++ outs2, b1⟩, fragments (Out.record t pl :: rest), he, ?_, ?_, ?_, ?_⟩
  · simp [fragments]
  · rw [← hfr, fragments_snd]
    exact hp2
  · intro f hf
    obtain ⟨a1, a2, a3⟩ := hmr f.1 f.2 (mem_fragments _ f hf)
    refine ⟨a1, a2, a3, ?_, ?_⟩ <;> omega
  · show ((w.w ++ outs2).map (Out.bytes maskedCrc)).flatten = _
    rw [ho3, List.map_append, List.flatten_append, List.map_append, List.flatten_append,
      padOf_bytes maskedCrc w.boff h1, records_stream maskedCrc _ hrec hmr]
    simp only [Writer.stream, List.append_assoc]

theorem journal_record_bytes_witness :
    ∃ w1 frags, (Writer.mk [] 32758).Append [1, 2, 3, 4, 5] = some w1 ∧ frags ≠ [] ∧
      (frags.map Prod.snd).flatten = [1, 2, 3, 4, 5] ∧
      (∀ f ∈ frags, 1 ≤ f.1 ∧ f.1 ≤ 4 ∧ f.2.length ≤ 32761 ∧
        f.2.length % 256 + f.2.length / 256 * 2 ^ 8 = f.2.length ∧ f.2.length / 256 < 256) ∧
      w1.stream (fun b => b.sum) = (Writer.mk [] 32758).stream (fun b => b.sum) ++
        List.replicate
          (if BlockSize - (Writer.mk [] 32758).boff < kHeaderSize then
            (BlockSize - (Writer.mk [] 32758).boff).toNat else 0) 0 ++
        (frags.map (fun f =>
          [(fun b => b.sum) (f.1 :: f.2) % 256, (fun b => b.sum) (f.1 :: f.2) / 2 ^ 8 % 256,
            (fun b => b.sum) (f.1 :: f.2) / 2 ^ 16 % 256,
            (fun b => b.sum) (f.1 :: f.2) / 2 ^ 24 % 256,
            f.2.length % 256, f.2.length / 256, f.1] ++ f.2)).flatten :=
  journal_record_bytes (fun b => b.sum) (Writer.mk [] 32758) [1, 2, 3, 4, 5] (by decide)
    (by decide)

theorem appendAll_cons_some (w w1 : Writer) (r : List Nat) (rest : List (List Nat))
    (h : w.Append r = some w1) : appendAll w (r :: rest) = appendAll w1 rest := by
  unfold appendAll
  rw [List.foldl_cons, Option.some_bind, h]

theorem append_three (r1 r2 r3 : List Nat) (h1 : r1.length = 100) (h2 : r2.length = 32761)
    (h3 : r3.length = 1) :
    appendAll NewWriter [r1, r2, r3] =
      some ⟨[Out.record tFull r1, Out.record tFirst (r2.take 32654),
             Out.record tLast (r2.drop 32654), Out.record tFull r3], 122⟩ := by
  have ha0 : availOf 0 = 32761 := by simp [availOf, BlockSize, kHeaderSize]
  have ha107 : availOf 107 = 32654 := by simp [availOf, BlockSize, kHeaderSize]
  have ha114 : availOf 114 = 32647 := by simp [availOf, BlockSize, kHeaderSize]
  have haB : availOf BlockSize = 32761 := by simp [availOf, BlockSize, kHeaderSize]
  have hp0 : padOf 0 = [] := by simp [padOf, BlockSize, kHeaderSize]
  have hp107 : padOf 107 = [] := by simp [padOf, BlockSize, kHeaderSize]
  have hp114 : padOf 114 = [] := by simp [padOf, BlockSize, kHeaderSize]
  have hpB : padOf BlockSize = [] := by simp [padOf, BlockSize, kHeaderSize]
  have hdl : (r2.drop 32654).length = 107 := by rw [List.length_drop, h2]
  have f1 : (r1.length : Int) ≤ availOf NewWriter.boff := by
    show (r1.length : Int) ≤ availOf 0
    rw [ha0, h1]
    decide
  have f2 : availOf (Writer.mk [Out.record tFull r1] 107).boff < (r2.length : Int) := by
    show availOf 107 < (r2.length : Int)
    rw [ha107, h2]
    decide
  have f3 : ((r2.drop 32654).length : Int) ≤ availOf (Writer.mk
      [Out.record tFull r1, Out.record tFirst (r2.take 32654)] BlockSize).boff := by
    show ((r2.drop 32654).length : Int) ≤ availOf BlockSize
    rw [haB, hdl]
    decide
  have f4 : (r3.length : Int) ≤ availOf (Writer.mk [Out.record tFull r1,
      Out.record tFirst (r2.take 32654), Out.record tLast (r2.drop 32654)] 114).boff := by
    show (r3.length : Int) ≤ availOf 114
    rw [ha114, h3]
    decide
  have e1 : NewWriter.Append r1 = some ⟨[Out.record tFull r1], 107⟩ := by
    show appendLoop (r1.length + 1 + 1) NewWriter true r1 = _
    rw [appendLoop_fits _ _ _ _ f1]
    show some (Writer.mk ([] ++ padOf 0 ++ _) (BlockSize - kHeaderSize - availOf 0 +
      kHeaderSize + r1.length)) = _
    rw [hp0, ha0, h1]
    rfl
  have e2 : (Writer.mk [Out.record tFull r1] 107).Append r2 =
      some ⟨[Out.record tFull r1, Out.record tFirst (r2.take 32654),
             Out.record tLast (r2.drop 32654)], 114⟩ := by
    show appendLoop (r2.length + 1 + 1) (Writer.mk [Out.record tFull r1] 107) true r2 = _
    rw [appendLoop_splits _ _ _ _ f2]
    show appendLoop (r2.length + 1) (Writer.mk ([Out.record tFull r1] ++ padOf 107 ++
      [Out.record tFirst (r2.take (availOf 107).toNat)]) BlockSize) false
      (r2.drop (availOf 107).toNat) = _
    rw [hp107, ha107]
    show appendLoop (r2.length + 1) (Writer.mk
      [Out.record tFull r1, Out.record tFirst (r2.take 32654)] BlockSize) false
      (r2.drop 32654) = _
    rw [appendLoop_fits _ _ _ _ f3]
    show some (Writer.mk (_ ++ padOf BlockSize ++ _) (BlockSize - kHeaderSize -
      availOf BlockSize + kHeaderSize + ((r2.drop 32654).length : Int))) = _
    rw [hpB, haB, hdl]
    rfl
  have e3 : (Writer.mk [Out.record tFull r1, Out.record tFirst (r2.take 32654),
      Out.record tLast (r2.drop 32654)] 114).Append r3 =
      some ⟨[Out.record tFull r1, Out.record tFirst (r2.take 32654),
             Out.record tLast (r2.drop 32654), Out.record tFull r3], 122⟩ := by
    show appendLoop (r3.length + 1 + 1) _ true r3 = _
    rw [appendLoop_fits _ _ _ _ f4]
    show some (Writer.mk (_ ++ padOf 114 ++ _) (BlockSize - kHeaderSize - availOf 114 +
      kHeaderSize + r3.length)) = _
    rw [hp114, ha114, h3]
    rfl
  rw [appendAll_cons_some _ _ _ _ e1, appendAll_cons_some _ _ _ _ e2,
    appendAll_cons_some _ _ _ _ e3]
  rfl

theorem places_three (r1 r2 r3 : List Nat) (h1 : r1.length = 100) (h2 : r2.length = 32761)
    (h3 : r3.length = 1) :
    recordPlaces 0 [Out.record tFull r1, Out.record tFirst (r2.take 32654),
      Out.record tLast (r2.drop 32654), Out.record tFull r3] =
      [(0, 0, tFull, 100), (0, 107, tFirst, 32654), (1, 0, tLast, 107), (1, 114, tFull, 1)] := by
  have ht : (r2.take 32654).length = 32654 := by rw [List.length_take, h2]; rfl
  have hd : (r2.drop 32654).length = 107 := by rw [List.length_drop, h2]
  simp only [recordPlaces, h1, h3, ht, hd, BlockSize, kHeaderSize]
  norm_num


/-- C22 (as amended): appending records of 100, 32761 and 1 bytes to a fresh writer
returns and emits four physical records: a FULL record of 100 bytes at block 0
offset 0; a FIRST record of 32654 bytes at block 0 offset 107, which fills block 0; a
LAST record with the remaining 107 bytes at block 1 offset 0; and the third record
as a FULL record at block 1 offset 114, right after the end of the second record.
No MIDDLE fragment is written and nothing lies in block 2; the writer ends at
in-block offset 122. -/
theorem journal_three_records (r1 r2 r3 : List Nat) (h1 : r1.length = 100)
    (h2 : r2.length = 32761) (h3 : r3.length = 1) :
    ∃ w, appendAll NewWriter [r1, r2, r3] = some w ∧
      w.w = [Out.record tFull r1, Out.record tFirst (r2.take 32654),
             Out.record tLast (r2.drop 32654), Out.record tFull r3] ∧
      w.boff = 122 ∧
      recordPlaces 0 w.w =
        [(0, 0, tFull, 100), (0, 107, tFirst, 32654), (1, 0, tLast, 107),
         (1, 114, tFull, 1)] :=
  ⟨_, append_three r1 r2 r3 h1 h2 h3, rfl, rfl, places_three r1 r2 r3 h1 h2 h3⟩

theorem journal_three_records_witness :
    ∃ w, appendAll NewWriter
        [List.replicate 100 7, List.replicate 32761 8, List.replicate 1 9] = some w ∧
      w.w = [Out.record tFull (List.replicate 100 7),
             Out.record tFirst ((List.replicate 32761 8).take 32654),
             Out.record tLast ((List.replicate 32761 8).drop 32654),
             Out.record tFull (List.replicate 1 9)] ∧
      w.boff = 122 ∧
      recordPlaces 0 w.w =
        [(0, 0, tFull, 100), (0, 107, tFirst, 32654), (1, 0, tLast, 107),
         (1, 114, tFull, 1)] :=
  journal_three_records (List.replicate 100 7) (List.replicate 32761 8) (List.replicate 1 9)
    (List.length_replicate _ _) (List.length_replicate _ _) (List.length_replicate _ _)

/-- C22 (counterexample): for records of 100, 32761 and 1 zero bytes appended to a
fresh writer, the blocks and types of the physical records are (0, FULL),
(0, FIRST), (1, LAST), (1, FULL): the second record ends in block 1 with a single
LAST fragment, and the third record is a FULL record in block 1, not in block 2. -/
theorem journal_third_record_in_block_one :
    (appendAll NewWriter
        [List.replicate 100 0, List.replicate 32761 0, List.replicate 1 0]).map
      (fun w => (recordPlaces 0 w.w).map (fun p => (p.1, p.2.2.1))) =
      some [(0, tFull), (0, tFirst), (1, tLast), (1, tFull)] := by
  rw [append_three _ _ _ (List.length_replicate _ _) (List.length_replicate _ _)
    (List.length_replicate _ _)]
  show some ((recordPlaces 0 _).map _) = _
  rw [places_three _ _ _ (List.length_replicate _ _) (List.length_replicate _ _)
    (List.length_replicate _ _)]
  rfl

end journal

namespace journal

theorem laterFragments_nil (n : Nat) : laterFragments n [] = [] := by
  cases n <;> simp [laterFragments]

theorem availOf_blockSize : availOf BlockSize = 32761 := by
  simp [availOf, BlockSize, kHeaderSize]

theorem later_loop : ∀ (fuel : Nat) (rem : List Nat) (ws : List Out), rem ≠ [] →
    rem.length + 1 ≤ fuel →
    ∃ outs b1, appendLoop fuel ⟨ws, BlockSize⟩ false rem = some ⟨ws ++ outs, b1⟩ ∧
      (∀ n, rem.length ≤ n → payloads outs = laterFragments n rem) ∧
      (∀ o ∈ outs, o.isRecord = true) ∧
      (∀ p : Int, p % BlockSize = 0 →
        recordSpans p outs = (payloads outs).map (fun q => ((0 : Int), (q.length : Int)))) := by
  intro fuel
  induction fuel with
  | zero => intro rem ws _ hf; omega
  | succ fuel ih =>
    intro rem ws hne hf
    have hpos : 0 < rem.length := List.length_pos.mpr hne
    by_cases hfit : (rem.length : Int) ≤ availOf (Writer.mk ws BlockSize).boff
    · have hfit2 : rem.length ≤ 32761 := by
        have : (rem.length : Int) ≤ 32761 := by rw [← availOf_blockSize]; exact hfit
        omega
      rw [appendLoop_fits fuel ⟨ws, BlockSize⟩ false rem hfit]
      refine ⟨[Out.record tLast rem], (BlockSize - kHeaderSize - availOf (Writer.mk ws BlockSize).boff) + kHeaderSize + rem.length, ?_, ?_, ?_, ?_⟩
      · simp [padOf_blockSize]
      · intro n hn
        obtain ⟨n1, rfl⟩ : ∃ n1, n = n1 + 1 := ⟨n - 1, by omega⟩
        simp only [payloads, laterFragments, if_neg hne, Nat.min_eq_left hfit2,
          List.take_length, List.drop_length, laterFragments_nil]
      · intro o ho
        simp only [List.mem_singleton] at ho
        subst ho
        rfl
      · intro p hp
        simp only [recordSpans, payloads, List.map_cons, List.map_nil, hp]
    · have hlt : availOf (Writer.mk ws BlockSize).boff < (rem.length : Int) := by omega
      have hlt2 : 32761 < rem.length := by
        have : (32761 : Int) < rem.length := by rw [← availOf_blockSize]; exact hlt
        omega
      rw [appendLoop_splits fuel ⟨ws, BlockSize⟩ false rem hlt]
      have hav : (availOf (Writer.mk ws BlockSize).boff).toNat = 32761 := by
        show (availOf BlockSize).toNat = 32761
        rw [availOf_blockSize]
        rfl
      have hpad : padOf (Writer.mk ws BlockSize).boff = [] := padOf_blockSize
      rw [hav, hpad]
      have hdne : rem.drop 32761 ≠ [] := by
        intro h0
        have := congrArg List.length h0
        simp only [List.length_drop, List.length_nil] at this
        omega
      obtain ⟨outs, b1, he, hp, hr, hs⟩ := ih (rem.drop 32761)
        (ws ++ [] ++ [Out.record (if false = true then tFirst else tMiddle) (rem.take 32761)])
        hdne (by simp only [List.length_drop]; omega)
      refine ⟨Out.record tMiddle (rem.take 32761) :: outs, b1, ?_, ?_, ?_, ?_⟩
      · rw [he]
        simp
      · intro n hn
        obtain ⟨n1, rfl⟩ : ∃ n1, n = n1 + 1 := ⟨n - 1, by omega⟩
        have hmin : min rem.length 32761 = 32761 := by omega
        simp only [payloads, laterFragments, if_neg hne, hmin]
        rw [hp n1 (by simp only [List.length_drop]; omega)]
      · intro o ho
        simp only [List.mem_cons] at ho
        rcases ho with ho | ho
        · subst ho; rfl
        · exact hr o ho
      · intro p hp0
        have hlen : ((rem.take 32761).length : Int) = 32761 := by
          rw [List.length_take]
          omega
        simp only [recordSpans, payloads, List.map_cons, hp0]
        rw [hs (p + kHeaderSize + ((rem.take 32761).length : Int)) (by
          rw [hlen]
          simp only [BlockSize, kHeaderSize] at *
          omega)]

theorem laterFragments_pos : ∀ (n : Nat) (rem : List Nat),
    ∀ q ∈ laterFragments n rem, 0 < q.length ∧ q.length ≤ 32761 := by
  intro n
  induction n with
  | zero => intro rem q hq; simp [laterFragments] at hq
  | succ n ih =>
    intro rem q hq
    by_cases hne : rem = []
    · simp [laterFragments, hne] at hq
    · simp only [laterFragments, if_neg hne, List.mem_cons] at hq
      have hpos : 0 < rem.length := List.length_pos.mpr hne
      rcases hq with hq | hq
      · subst hq
        rw [List.length_take]
        omega
      · exact ih _ q hq

/-- C34: for every record and every writer whose in-block offset lies in [0, 32768],
`Append` returns.  Its output is the padding, the first fragment with the first
`avail` bytes of the record (`avail` the payload space of the block the first header
goes to), and then nothing but records whose payloads are the fragments that the
specification describes: each consumes `min(remaining, 32761) > 0` bytes of a
remainder that is not empty, and each starts at offset 0 of a block.  When exactly 7
bytes remain in the block (`boff = 32761`) and the record is not empty, the first
fragment is a FIRST record with an empty payload and at least one fragment follows. -/
theorem journal_append_terminates (w : Writer) (record : List Nat)
    (h0 : 0 ≤ w.boff) (h1 : w.boff ≤ BlockSize) :
    ∃ t0 later b1,
      w.Append record = some ⟨w.w ++ padOf w.boff ++
        Out.record t0 (record.take (availOf w.boff).toNat) :: later, b1⟩ ∧
      payloads later = laterFragments record.length (record.drop (availOf w.boff).toNat) ∧
      (∀ o ∈ later, o.isRecord = true) ∧
      (∀ q ∈ payloads later, 0 < q.length ∧ q.length ≤ 32761) ∧
      recordSpans (w.boff + outSize (padOf w.boff ++
          [Out.record t0 (record.take (availOf w.boff).toNat)])) later =
        (payloads later).map (fun q => ((0 : Int), (q.length : Int))) ∧
      (w.boff = 32761 → record ≠ [] →
        t0 = tFirst ∧ record.take (availOf w.boff).toNat = [] ∧ later ≠ []) := by
  have hav := availOf_nonneg w.boff
  by_cases hfit : (record.length : Int) ≤ availOf w.boff
  · have hfit2 : record.length ≤ (availOf w.boff).toNat := by omega
    refine ⟨tFull, [], (BlockSize - kHeaderSize - availOf w.boff) + kHeaderSize + record.length, ?_, ?_, ?_, ?_, ?_, ?_⟩
    · unfold Writer.Append
      rw [appendLoop_fits _ w true record hfit, List.take_of_length_le hfit2]
      rfl
    · rw [List.drop_of_length_le hfit2, laterFragments_nil]
      rfl
    · intro o ho
      simp at ho
    · intro q hq
      simp [payloads] at hq
    · rfl
    · intro hb hne
      have hpos : 0 < record.length := List.length_pos.mpr hne
      have : availOf w.boff = 0 := by
        rw [hb]
        simp [availOf, BlockSize, kHeaderSize]
      omega
  · have hlt : availOf w.boff < (record.length : Int) := by omega
    have hdne : record.drop (availOf w.boff).toNat ≠ [] := by
      intro h0
      have := congrArg List.length h0
      simp only [List.length_drop, List.length_nil] at this
      omega
    obtain ⟨outs, b1, he, hp, hr, hs⟩ := later_loop (record.length + 1)
      (record.drop (availOf w.boff).toNat)
      (w.w ++ padOf w.boff ++
        [Out.record (if true = true then tFirst else tMiddle)
          (record.take (availOf w.boff).toNat)])
      hdne (by simp only [List.length_drop]; omega)
    have hpl := hp record.length (by simp only [List.length_drop]; omega)
    refine ⟨tFirst, outs, b1, ?_, hpl, hr, ?_, ?_, ?_⟩
    · unfold Writer.Append
      rw [appendLoop_splits _ w true record hlt, he]
      simp
    · intro q hq
      rw [hpl] at hq
      exact laterFragments_pos _ _ q hq
    · apply hs
      have hlen : ((record.take (availOf w.boff).toNat).length : Int) = availOf w.boff := by
        rw [List.length_take]
        omega
      simp only [outSize_append, outSize_cons, outSize_nil, Out.size, hlen]
      rcases regime w.boff h0 h1 with ⟨_, hp0, ha⟩ | ⟨_, _, hp0, ha⟩ | ⟨hb, hp0, ha⟩
      · rw [hp0, ha]
        simp only [outSize_nil, BlockSize, kHeaderSize]
        omega
      · rw [hp0, ha]
        simp only [outSize_cons, outSize_nil, Out.size, BlockSize, kHeaderSize]
        omega
      · rw [hp0, ha, hb]
        simp only [outSize_nil, BlockSize, kHeaderSize]
        omega
    · intro hb hne
      have ha0 : availOf w.boff = 0 := by
        rw [hb]
        simp [availOf, BlockSize, kHeaderSize]
      refine ⟨rfl, ?_, ?_⟩
      · rw [ha0]
        rfl
      · intro hnil
        rw [hnil] at hpl
        have hpos : 0 < record.length := List.length_pos.mpr hne
        obtain ⟨n1, hn1⟩ : ∃ n1, record.length = n1 + 1 := ⟨record.length - 1, by omega⟩
        rw [hn1] at hpl
        simp [payloads, laterFragments, hdne] at hpl

theorem journal_append_terminates_witness :
    ∃ t0 later b1,
      (Writer.mk [] 32761).Append [1, 2, 3] = some ⟨[] ++ padOf (Writer.mk [] 32761).boff ++
        Out.record t0 ([1, 2, 3].take (availOf (Writer.mk [] 32761).boff).toNat) :: later, b1⟩ ∧
      payloads later = laterFragments [1, 2, 3].length
        ([1, 2, 3].drop (availOf (Writer.mk [] 32761).boff).toNat) ∧
      (∀ o ∈ later, o.isRecord = true) ∧
      (∀ q ∈ payloads later, 0 < q.length ∧ q.length ≤ 32761) ∧
      recordSpans ((Writer.mk [] 32761).boff + outSize (padOf (Writer.mk [] 32761).boff ++
          [Out.record t0 ([1, 2, 3].take (availOf (Writer.mk [] 32761).boff).toNat)])) later =
        (payloads later).map (fun q => ((0 : Int), (q.length : Int))) ∧
      ((Writer.mk [] 32761).boff = 32761 → [1, 2, 3] ≠ [] →
        t0 = tFirst ∧ [1, 2, 3].take (availOf (Writer.mk [] 32761).boff).toNat = [] ∧
          later ≠ []) :=
  journal_append_terminates (Writer.mk [] 32761) [1, 2, 3] (by decide) (by decide)

end journal

namespace table

theorem wrap64_of_small (x : Int) (h0 : -(2 ^ 63) ≤ x) (h1 : x < 2 ^ 63) : wrap64 x = x := by
  unfold wrap64
  omega

theorem toInt64_of_small (v : Nat) (h : v < 2 ^ 63) : toInt64 v = (v : Int) := by
  unfold toInt64
  apply wrap64_of_small <;> omega

theorem lor_shift_eq_add (x b s : Nat) (h : x < 2 ^ s) : x ||| (b <<< s) = x + b * 2 ^ s := by
  rw [Nat.shiftLeft_eq, Nat.lor_comm, Nat.mul_comm, ← Nat.mul_add_lt_is_or h b, Nat.add_comm]

theorem and_7f (v : Nat) : (v % 0x80 + 0x80) &&& 0x7f = v % 0x80 := by
  have := Nat.and_pow_two_sub_one_eq_mod (v % 0x80 + 0x80) 7
  simp at this
  rw [this]

theorem uvarintLoop_put (fuel : Nat) : ∀ (v i x s : Nat) (rest : List Nat),
    i + fuel = 9 → s = 7 * i → x < 2 ^ s → x + v * 2 ^ s < 2 ^ 64 →
    uvarintLoop (putUvarintLoop fuel v ++ rest) i x s =
      (x + v * 2 ^ s, (i : Int) + (putUvarintLoop fuel v).length) := by
  induction fuel with
  | zero =>
    intro v i x s rest hi hs hx hv
    have hi9 : i = 9 := by omega
    subst hi9
    subst hs
    have hv1 : v ≤ 1 := by
      by_contra hc
      have : 2 * 2 ^ (7 * 9) ≤ v * 2 ^ (7 * 9) := Nat.mul_le_mul_right _ (by omega)
      norm_num at this hv
      omega
    simp only [putUvarintLoop, List.singleton_append, uvarintLoop, List.append_eq]
    rw [if_neg (by omega), if_pos (by omega), if_neg (by omega)]
    rw [lor_shift_eq_add _ _ _ hx, Nat.mod_eq_of_lt hv]
    simp
  | succ fuel ih =>
    intro v i x s rest hi hs hx hv
    simp only [putUvarintLoop]
    by_cases hge : v ≥ 0x80
    · rw [if_pos hge]
      simp only [List.cons_append, uvarintLoop, List.append_eq]
      rw [if_neg (by omega), if_neg (by omega), and_7f]
      have hlt : x + (v % 0x80) * 2 ^ s < 2 ^ (s + 7) := by
        have h1 : (v % 0x80) * 2 ^ s ≤ 127 * 2 ^ s := Nat.mul_le_mul_right _ (by omega)
        rw [pow_add]
        omega
      have hle : x + (v % 0x80) * 2 ^ s + (v / 0x80) * 2 ^ (s + 7) = x + v * 2 ^ s := by
        have hv' : v = v / 0x80 * 0x80 + v % 0x80 := by omega
        rw [pow_add]
        conv_rhs => rw [hv']
        ring
      rw [lor_shift_eq_add _ _ _ hx]
      have hlt64 : x + (v % 0x80) * 2 ^ s < 2 ^ 64 := by
        have : x + (v % 0x80) * 2 ^ s ≤ x + v * 2 ^ s := by
          have : (v % 0x80) * 2 ^ s ≤ v * 2 ^ s := Nat.mul_le_mul_right _ (Nat.mod_le _ _)
          omega
        omega
      rw [Nat.mod_eq_of_lt hlt64]
      rw [ih (v / 0x80) (i + 1) (x + (v % 0x80) * 2 ^ s) (s + 7) rest (by omega) (by omega) hlt
        (by rw [hle]; exact hv)]
      rw [hle]
      simp
      omega
    · rw [if_neg hge]
      simp only [List.singleton_append, uvarintLoop, List.append_eq]
      rw [if_neg (by omega), if_pos (by omega), if_neg (by omega)]
      rw [lor_shift_eq_add _ _ _ hx, Nat.mod_eq_of_lt hv]
      simp

theorem putUvarintLoop_length (fuel v : Nat) :
    1 ≤ (putUvarintLoop fuel v).length ∧ (putUvarintLoop fuel v).length ≤ fuel + 1 := by
  induction fuel generalizing v with
  | zero => simp [putUvarintLoop]
  | succ fuel ih =>
    simp only [putUvarintLoop]
    split
    · have := ih (v / 0x80)
      simp
      omega
    · simp

theorem putUvarint_length (v : Nat) :
    1 ≤ (putUvarint v).length ∧ (putUvarint v).length ≤ 10 :=
  putUvarintLoop_length 9 v

theorem Uvarint_putUvarint (v : Nat) (rest : List Nat) (h : v < 2 ^ 64) :
    Uvarint (putUvarint v ++ rest) = (v, ((putUvarint v).length : Int)) := by
  unfold Uvarint putUvarint
  rw [uvarintLoop_put 9 v 0 0 0 rest (by omega) (by omega) (by norm_num) (by simpa using h)]
  simp

theorem leUint32_putUint32 (v : Nat) (rest : List Nat) (h : v < 2 ^ 32) :
    leUint32 (putUint32 v ++ rest) = some v := by
  simp only [putUint32, List.cons_append, List.nil_append, leUint32]
  congr 1
  omega

theorem putUint32_length (v : Nat) : (putUint32 v).length = 4 := rfl

end table

namespace table

theorem sliceFrom_eq (s pre rest : List Nat) (lo : Int) (h : s = pre ++ rest)
    (hl : lo = (pre.length : Int)) : sliceFrom s lo = some rest := by
  subst h; subst hl
  unfold sliceFrom
  rw [if_pos (by simp)]
  simp

theorem sliceTo_eq (s pre rest : List Nat) (hi : Int) (h : s = pre ++ rest)
    (hl : hi = (pre.length : Int)) : sliceTo s hi = some pre := by
  subst h; subst hl
  unfold sliceTo
  rw [if_pos (by simp)]
  simp

theorem slice_eq (s pre mid rest : List Nat) (lo hi : Int) (h : s = pre ++ (mid ++ rest))
    (hlo : lo = (pre.length : Int)) (hhi : hi = (pre.length : Int) + (mid.length : Int)) :
    slice s lo hi = some mid := by
  subst h; subst hlo; subst hhi
  unfold slice
  rw [if_pos (by simp)]
  have : ((pre.length : Int) + (mid.length : Int)).toNat = pre.length + mid.length := by omega
  rw [this]
  simp
  rw [← List.append_assoc, List.take_left' (by simp)]
  simp

theorem encodeEntry_length (e : RawEntry) :
    (encodeEntry e).length = (putUvarint e.shared).length + (putUvarint e.unshared.length).length +
      (putUvarint e.value.length).length + e.unshared.length + e.value.length := by
  simp [encodeEntry]
  omega

/-- The success path of `block.entry`, with the three varints read abstractly. -/
theorem entry_ok (b : block) (offset : Int) (d0 d1 d2 key value : List Nat)
    (v0 v1 v2 : Nat) (n0 n1 n2 : Int)
    (hlt : offset < b.restartsOffset)
    (h0 : sliceFrom b.data offset = some d0) (hu0 : Uvarint d0 = (v0, n0))
    (h1 : sliceFrom b.data (offset + n0) = some d1) (hu1 : Uvarint d1 = (v1, n1))
    (h2 : sliceFrom b.data (offset + n0 + n1) = some d2) (hu2 : Uvarint d2 = (v2, n2))
    (hpos : 0 < n0 ∧ 0 < n1 ∧ 0 < n2)
    (hin : wrap64 (offset + wrap64 (n0 + n1 + n2 + toInt64 v1 + toInt64 v2)) ≤ b.restartsOffset)
    (hk : slice b.data (offset + (n0 + n1 + n2)) (wrap64 (offset + (n0 + n1 + n2) + toInt64 v1))
      = some key)
    (hv : slice b.data (wrap64 (offset + (n0 + n1 + n2) + toInt64 v1))
      (wrap64 (offset + wrap64 (n0 + n1 + n2 + toInt64 v1 + toInt64 v2))) = some value) :
    b.entry offset =
      some { key := key, value := some value, nShared := toInt64 v0,
             n := wrap64 (n0 + n1 + n2 + toInt64 v1 + toInt64 v2), err := none } := by
  have e0 : (Uvarint d0).1 = v0 := by rw [hu0]
  have e0' : (Uvarint d0).2 = n0 := by rw [hu0]
  have e1 : (Uvarint d1).1 = v1 := by rw [hu1]
  have e1' : (Uvarint d1).2 = n1 := by rw [hu1]
  have e2 : (Uvarint d2).1 = v2 := by rw [hu2]
  have e2' : (Uvarint d2).2 = n2 := by rw [hu2]
  unfold block.entry
  rw [if_neg (by omega)]
  simp only [h0, e0']
  simp only [h1, e1']
  simp only [h2, e2', e0, e1, e2]
  rw [if_neg (by omega)]
  simp only [hk, hv]


theorem encodeEntries_append (a b : List RawEntry) :
    encodeEntries (a ++ b) = encodeEntries a ++ encodeEntries b := by
  induction a with
  | nil => rfl
  | cons e rest ih => simp [encodeEntries, ih]

theorem entryAt_lt (es : List RawEntry) (j : Nat) (h : j < es.length) :
    entryAt es j = es.get ⟨j, h⟩ := by
  unfold entryAt
  simp [List.getD_eq_getElem?_getD, List.getElem?_eq_getElem h]

theorem take_succ_entryAt (es : List RawEntry) (j : Nat) (h : j < es.length) :
    es.take (j + 1) = es.take j ++ [entryAt es j] := by
  rw [entryAt_lt es j h, List.take_succ, List.getElem?_eq_getElem h]
  rfl

theorem split_at_entry (es : List RawEntry) (j : Nat) (h : j < es.length) :
    es = es.take j ++ entryAt es j :: es.drop (j + 1) := by
  rw [entryAt_lt es j h]
  have := List.take_append_drop j es
  rw [List.drop_eq_getElem_cons h] at this
  exact this.symm

theorem entryOffset_succ (es : List RawEntry) (j : Nat) (h : j < es.length) :
    entryOffset es (j + 1) = entryOffset es j + (encodeEntry (entryAt es j)).length := by
  unfold entryOffset
  rw [take_succ_entryAt es j h, encodeEntries_append]
  simp [encodeEntries]

theorem entryOffset_zero (es : List RawEntry) : entryOffset es 0 = 0 := by
  simp [entryOffset, encodeEntries]

theorem entryOffset_length (es : List RawEntry) :
    entryOffset es es.length = (encodeEntries es).length := by
  simp [entryOffset]

theorem entryOffset_ge_length (es : List RawEntry) (j : Nat) (h : es.length ≤ j) :
    entryOffset es j = (encodeEntries es).length := by
  simp [entryOffset, List.take_of_length_le h]

theorem encodeEntry_length_ge (e : RawEntry) : 3 ≤ (encodeEntry e).length := by
  have hA := putUvarint_length e.shared
  have hB := putUvarint_length e.unshared.length
  have hC := putUvarint_length e.value.length
  rw [encodeEntry_length]
  omega

theorem entryOffset_mono (es : List RawEntry) : ∀ (i j : Nat), i ≤ j →
    entryOffset es i ≤ entryOffset es j := by
  intro i j hij
  induction j with
  | zero =>
    have : i = 0 := by omega
    subst this
    exact le_refl _
  | succ j ih =>
    by_cases h : i = j + 1
    · subst h; exact le_refl _
    · have hle := ih (by omega)
      by_cases hj : j < es.length
      · rw [entryOffset_succ es j hj]; omega
      · rw [entryOffset_ge_length es (j + 1) (by omega)]
        rw [entryOffset_ge_length es j (by omega)] at hle
        exact hle

theorem entryOffset_lt (es : List RawEntry) (i j : Nat) (hij : i < j) (hj : j ≤ es.length) :
    entryOffset es i + 3 ≤ entryOffset es j := by
  have h1 := entryOffset_succ es i (by omega)
  have h2 := encodeEntry_length_ge (entryAt es i)
  have h3 := entryOffset_mono es (i + 1) j (by omega)
  omega

theorem entryOffset_le_total (es : List RawEntry) (j : Nat) :
    entryOffset es j ≤ (encodeEntries es).length := by
  by_cases h : j ≤ es.length
  · rw [← entryOffset_length]
    exact entryOffset_mono es j es.length h
  · rw [entryOffset_ge_length es j (by omega)]

theorem entryOffset_inj (es : List RawEntry) (i j : Nat) (hi : i ≤ es.length)
    (hj : j ≤ es.length) (h : entryOffset es i = entryOffset es j) : i = j := by
  by_contra hne
  rcases Nat.lt_or_gt_of_ne hne with hlt | hlt
  · have := entryOffset_lt es i j hlt hj; omega
  · have := entryOffset_lt es j i hlt hi; omega

theorem encodeBlock_split (es : List RawEntry) (ris : List Nat) (j : Nat) (h : j < es.length) :
    encodeBlock es ris = encodeEntries (es.take j) ++ (encodeEntry (entryAt es j) ++
      (encodeEntries (es.drop (j + 1)) ++ (encodeRestarts es ris ++ putUint32 ris.length))) := by
  unfold encodeBlock
  have he : encodeEntries es = encodeEntries (es.take j) ++
      (encodeEntry (entryAt es j) ++ encodeEntries (es.drop (j + 1))) := by
    conv_lhs => rw [split_at_entry es j h]
    rw [encodeEntries_append]
    simp [encodeEntries]
  rw [he]
  simp [List.append_assoc]

theorem encodeRestarts_length (es : List RawEntry) (ris : List Nat) :
    (encodeRestarts es ris).length = 4 * ris.length := by
  induction ris with
  | nil => rfl
  | cons r rest ih => simp [encodeRestarts, putUint32_length, ih]; omega

theorem encodeRestarts_append (es : List RawEntry) (a b : List Nat) :
    encodeRestarts es (a ++ b) = encodeRestarts es a ++ encodeRestarts es b := by
  induction a with
  | nil => rfl
  | cons r rest ih => simp [encodeRestarts, ih]

theorem encodeBlock_length (es : List RawEntry) (ris : List Nat) :
    (encodeBlock es ris).length = (encodeEntries es).length + 4 * ris.length + 4 := by
  simp [encodeBlock, encodeRestarts_length, putUint32_length]
  omega

/-- Keys: shifting past the first entry. -/
theorem keyFrom_cons (prev : List Nat) (e : RawEntry) (rest : List RawEntry) (j : Nat) :
    keyFrom prev (e :: rest) (j + 1) = keyFrom (prev.take e.shared ++ e.unshared) rest j := by
  induction j with
  | zero => simp [keyFrom, entryAt]
  | succ j ih =>
    simp only [keyFrom] at ih ⊢
    rw [ih]
    simp [entryAt]

theorem keysFrom_eq_map (es : List RawEntry) : ∀ prev : List Nat,
    keysFrom prev es = (List.range es.length).map (keyFrom prev es) := by
  induction es with
  | nil => intro prev; rfl
  | cons e rest ih =>
    intro prev
    simp only [keysFrom, List.length_cons, List.range_succ_eq_map, List.map_cons, List.map_map]
    rw [ih]
    congr 1
    apply List.map_congr_left
    intro j _
    simp only [Function.comp]
    rw [keyFrom_cons]

theorem keysOf_eq_map (es : List RawEntry) :
    keysOf es = (List.range es.length).map (keyAt es) :=
  keysFrom_eq_map es []

theorem keyFrom_length_le (es : List RawEntry) : ∀ (prev : List Nat) (j : Nat),
    (keyFrom prev es j).length ≤ prev.length + (encodeEntries es).length := by
  induction es with
  | nil =>
    intro prev j
    cases j <;> simp [keyFrom, entryAt, encodeEntries]
  | cons e rest ih =>
    intro prev j
    have hl := encodeEntry_length e
    cases j with
    | zero =>
      simp [keyFrom, entryAt, encodeEntries]
      omega
    | succ j =>
      rw [keyFrom_cons]
      have := ih (prev.take e.shared ++ e.unshared) j
      simp [encodeEntries] at this ⊢
      omega

theorem sharedOk_spec (es : List RawEntry) : ∀ prev : List Nat, sharedOk prev es = true →
    (es ≠ [] → (entryAt es 0).shared ≤ prev.length) ∧
    ∀ j, j + 1 < es.length → (entryAt es (j + 1)).shared ≤ (keyFrom prev es j).length := by
  induction es with
  | nil => intro prev _; simp
  | cons e rest ih =>
    intro prev h
    simp only [sharedOk, Bool.and_eq_true, decide_eq_true_eq] at h
    obtain ⟨h1, h2⟩ := ih _ h.2
    refine ⟨fun _ => by simpa [entryAt] using h.1, ?_⟩
    intro j hj
    cases j with
    | zero =>
      have : rest ≠ [] := by
        intro hr; simp [hr] at hj
      have := h1 this
      simpa [keyFrom, entryAt] using this
    | succ j =>
      rw [keyFrom_cons]
      have := h2 j (by simpa using hj)
      simpa [entryAt] using this


theorem wf_shared_le (es : List RawEntry) (ris : List Nat) (hwf : WellFormed es ris) (j : Nat)
    (hj : j < es.length) :
    (entryAt es j).shared ≤ (if j = 0 then 0 else (keyAt es (j - 1)).length) := by
  obtain ⟨h1, h2⟩ := sharedOk_spec es [] hwf.shared
  cases j with
  | zero =>
    have : es ≠ [] := by intro h; simp [h] at hj
    simpa using h1 this
  | succ j =>
    simpa [keyAt] using h2 j hj

theorem wf_total_lt (es : List RawEntry) (ris : List Nat) (hwf : WellFormed es ris) :
    (encodeEntries es).length + 4 * ris.length + 4 < 2 ^ 32 := by
  have := hwf.size
  rw [encodeBlock_length] at this
  exact this

theorem wf_shared_lt (es : List RawEntry) (ris : List Nat) (hwf : WellFormed es ris) (j : Nat)
    (hj : j < es.length) : (entryAt es j).shared < 2 ^ 32 := by
  have h := wf_shared_le es ris hwf j hj
  have ht := wf_total_lt es ris hwf
  by_cases h0 : j = 0
  · subst h0
    simp at h
    omega
  · simp [h0] at h
    have := keyFrom_length_le es [] (j - 1)
    simp [keyAt] at h
    simp at this
    omega

theorem entry_decode (b : block) (pre post : List Nat) (e : RawEntry)
    (hdata : b.data = pre ++ (encodeEntry e ++ post))
    (hro : (pre.length : Int) + ((encodeEntry e).length : Int) ≤ b.restartsOffset)
    (hsz : b.restartsOffset < 2 ^ 32)
    (hshared : e.shared < 2 ^ 32) :
    b.entry (pre.length : Int) =
      some { key := e.unshared, value := some e.value, nShared := (e.shared : Int),
             n := ((encodeEntry e).length : Int), err := none } := by
  have hlen := encodeEntry_length e
  have hA := putUvarint_length e.shared
  have hB := putUvarint_length e.unshared.length
  have hC := putUvarint_length e.value.length
  have hd0 : b.data = pre ++ (putUvarint e.shared ++ (putUvarint e.unshared.length ++
      (putUvarint e.value.length ++ (e.unshared ++ (e.value ++ post))))) := by
    rw [hdata]; simp [encodeEntry]
  generalize hLA : (putUvarint e.shared).length = la at *
  generalize hLB : (putUvarint e.unshared.length).length = lb at *
  generalize hLC : (putUvarint e.value.length).length = lc at *
  generalize hLU : e.unshared.length = lu at *
  generalize hLV : e.value.length = lv at *
  generalize hLE : (encodeEntry e).length = le at *
  generalize hLP : pre.length = lp at *
  generalize hR : b.restartsOffset = ro at *
  have hb : e.shared < 2 ^ 63 ∧ lu < 2 ^ 63 ∧ lv < 2 ^ 63 := by omega
  have b1 : -(2 ^ 63) ≤ (la : Int) + (lb : Int) + (lc : Int) + (lu : Int) + (lv : Int) ∧
      (la : Int) + (lb : Int) + (lc : Int) + (lu : Int) + (lv : Int) < 2 ^ 63 := by omega
  have b2 : -(2 ^ 63) ≤ (lp : Int) + (le : Int) ∧ (lp : Int) + (le : Int) < 2 ^ 63 := by omega
  have b3 : -(2 ^ 63) ≤ (lp : Int) + ((la : Int) + (lb : Int) + (lc : Int)) + (lu : Int) ∧
      (lp : Int) + ((la : Int) + (lb : Int) + (lc : Int)) + (lu : Int) < 2 ^ 63 := by omega
  have hle2 : (la : Int) + (lb : Int) + (lc : Int) + (lu : Int) + (lv : Int) = (le : Int) := by omega
  have hlt0 : (lp : Int) < ro := by omega
  have hpos : (0 : Int) < (la : Int) ∧ (0 : Int) < (lb : Int) ∧ (0 : Int) < (lc : Int) := by omega
  have hsum : (lp : Int) + ((la : Int) + (lb : Int) + (lc : Int)) + (lu : Int) + (lv : Int) =
      (lp : Int) + (le : Int) := by omega
  have hs64 : e.shared < 2 ^ 64 := by omega
  have hu64 : lu < 2 ^ 64 := by omega
  have hv64 : lv < 2 ^ 64 := by omega
  have hn0 : wrap64 ((la : Int) + (lb : Int) + (lc : Int) + (lu : Int) + (lv : Int)) = (le : Int) := by
    rw [wrap64_of_small _ b1.1 b1.2, hle2]
  have hw3 : wrap64 ((lp : Int) + (le : Int)) = (lp : Int) + (le : Int) :=
    wrap64_of_small _ b2.1 b2.2
  have hw40 : wrap64 ((lp : Int) + ((la : Int) + (lb : Int) + (lc : Int)) + (lu : Int)) =
      (lp : Int) + ((la : Int) + (lb : Int) + (lc : Int)) + (lu : Int) :=
    wrap64_of_small _ b3.1 b3.2
  have hw1 : toInt64 lu = (lu : Int) := toInt64_of_small lu hb.2.1
  have hw2 : toInt64 lv = (lv : Int) := toInt64_of_small lv hb.2.2
  have hw0 := toInt64_of_small e.shared hb.1
  clear hlen hA hB hC hb hsz hshared
  subst hLA hLB hLC hLU hLV hLP
  have key := entry_ok b (pre.length : Int)
    (putUvarint e.shared ++ (putUvarint e.unshared.length ++
      (putUvarint e.value.length ++ (e.unshared ++ (e.value ++ post)))))
    (putUvarint e.unshared.length ++ (putUvarint e.value.length ++ (e.unshared ++ (e.value ++ post))))
    (putUvarint e.value.length ++ (e.unshared ++ (e.value ++ post)))
    e.unshared e.value e.shared e.unshared.length e.value.length
    (putUvarint e.shared).length (putUvarint e.unshared.length).length
    (putUvarint e.value.length).length
    (by rw [hR]; exact hlt0)
    (sliceFrom_eq _ pre _ _ hd0 rfl)
    (Uvarint_putUvarint _ _ hs64)
    (sliceFrom_eq _ (pre ++ putUvarint e.shared) _ _ (by rw [hd0]; simp) (by simp))
    (Uvarint_putUvarint _ _ hu64)
    (sliceFrom_eq _ (pre ++ putUvarint e.shared ++ putUvarint e.unshared.length) _ _
      (by rw [hd0]; simp) (by simp; ring))
    (Uvarint_putUvarint _ _ hv64)
    hpos
    (by rw [hw1, hw2, hn0, hw3, hR]; exact hro)
    (by
      rw [hw1, hw40]
      exact slice_eq _ (pre ++ putUvarint e.shared ++ putUvarint e.unshared.length ++
        putUvarint e.value.length) e.unshared (e.value ++ post) _ _ (by rw [hd0]; simp)
        (by simp; ring) (by simp; ring))
    (by
      rw [hw1, hw2, hw40, hn0, hw3]
      exact slice_eq _ (pre ++ putUvarint e.shared ++ putUvarint e.unshared.length ++
        putUvarint e.value.length ++ e.unshared) e.value post _ _ (by rw [hd0]; simp)
        (by simp; ring) (by rw [← hsum]; simp; ring))
  rw [key, hw1, hw2, hn0, hw0]

theorem layout_entry (bh : blockHandle) (es : List RawEntry) (ris : List Nat)
    (hwf : WellFormed es ris) (j : Nat) (hj : j < es.length) :
    (blockOf bh es ris).entry (entryOffset es j : Int) =
      some { key := (entryAt es j).unshared, value := some (entryAt es j).value,
             nShared := ((entryAt es j).shared : Int),
             n := ((encodeEntry (entryAt es j)).length : Int), err := none } := by
  have ht := wf_total_lt es ris hwf
  have hsh := wf_shared_lt es ris hwf j hj
  have hsucc := entryOffset_succ es j hj
  have hle := entryOffset_le_total es (j + 1)
  have hro : (blockOf bh es ris).restartsOffset = ((encodeEntries es).length : Int) := rfl
  have hdata : (blockOf bh es ris).data = encodeEntries (es.take j) ++
      (encodeEntry (entryAt es j) ++ (encodeEntries (es.drop (j + 1)) ++
        (encodeRestarts es ris ++ putUint32 ris.length))) :=
    encodeBlock_split es ris j hj
  have h := entry_decode (blockOf bh es ris) (encodeEntries (es.take j)) _ (entryAt es j) hdata
    (by rw [hro]; unfold entryOffset at hsucc hle; omega) (by rw [hro]; omega) hsh
  exact h

theorem layout_entry_end (bh : blockHandle) (es : List RawEntry) (ris : List Nat) :
    (blockOf bh es ris).entry ((encodeEntries es).length : Int) =
      some { key := [], value := none, nShared := 0, n := 0, err := none } := by
  unfold block.entry
  have hro : (blockOf bh es ris).restartsOffset = ((encodeEntries es).length : Int) := rfl
  rw [hro, if_pos (le_refl _)]
  simp


theorem putUvarint_zero : putUvarint 0 = [0] := by decide

theorem restartsOk_spec (es : List RawEntry) : ∀ (ris : List Nat), restartsOk es ris = true →
    ∀ s, s < ris.length → rAt ris s < es.length ∧ (entryAt es (rAt ris s)).shared = 0 := by
  intro ris
  induction ris with
  | nil => intro _ s hs; simp at hs
  | cons r rest ih =>
    intro h s hs
    simp only [restartsOk, Bool.and_eq_true] at h
    cases s with
    | zero =>
      simp only [rAt, List.getD_cons_zero]
      rw [List.get?_eq_getElem?] at h
      cases hr : es[r]? with
      | none => simp [hr] at h
      | some e =>
        simp only [hr, decide_eq_true_eq] at h
        have hlt : r < es.length := (List.getElem?_eq_some_iff.1 hr).1
        refine ⟨hlt, ?_⟩
        rw [entryAt_lt es r hlt]
        rw [List.getElem?_eq_getElem hlt] at hr
        simp only [Option.some.injEq] at hr
        rw [List.get_eq_getElem, hr]
        exact h.1
    | succ s =>
      have := ih h.2 s (by simpa using hs)
      simpa [rAt] using this

theorem rAt_lt_of_lt (ris : List Nat) (h : ris.Pairwise (fun a b => a < b)) (s t : Nat)
    (hst : s < t) (ht : t < ris.length) : rAt ris s < rAt ris t := by
  have hs : s < ris.length := by omega
  unfold rAt
  rw [List.getD_eq_getElem?_getD, List.getD_eq_getElem?_getD,
    List.getElem?_eq_getElem hs, List.getElem?_eq_getElem ht]
  simp only [Option.getD_some]
  exact List.pairwise_iff_getElem.1 h s t hs ht hst

theorem rAt_zero (ris : List Nat) (h : ris.head? = some 0) : rAt ris 0 = 0 := by
  cases ris with
  | nil => simp at h
  | cons r rest => simp at h; simp [rAt, h]

theorem ris_split (ris : List Nat) (s : Nat) (hs : s < ris.length) :
    ris = ris.take s ++ rAt ris s :: ris.drop (s + 1) := by
  have := List.take_append_drop s ris
  rw [List.drop_eq_getElem_cons hs] at this
  unfold rAt
  rw [List.getD_eq_getElem?_getD, List.getElem?_eq_getElem hs]
  exact this.symm

theorem layout_restartOffset (bh : blockHandle) (es : List RawEntry) (ris : List Nat)
    (hwf : WellFormed es ris) (s : Nat) (hs : s < ris.length) :
    (blockOf bh es ris).restartOffset (s : Int) = some (entryOffset es (rAt ris s) : Int) := by
  have ht := wf_total_lt es ris hwf
  have hle := entryOffset_le_total es (rAt ris s)
  have hdata : (blockOf bh es ris).data = (encodeEntries es ++ encodeRestarts es (ris.take s)) ++
      (putUint32 (entryOffset es (rAt ris s)) ++
        (encodeRestarts es (ris.drop (s + 1)) ++ putUint32 ris.length)) := by
    show encodeBlock es ris = _
    have hr : encodeRestarts es ris = encodeRestarts es (ris.take s) ++
        (putUint32 (entryOffset es (rAt ris s)) ++ encodeRestarts es (ris.drop (s + 1))) := by
      conv_lhs => rw [ris_split ris s hs]
      rw [encodeRestarts_append]
      simp [encodeRestarts]
    unfold encodeBlock
    rw [hr]
    simp
  have hlen : ((encodeEntries es ++ encodeRestarts es (ris.take s)).length : Int) =
      ((encodeEntries es).length : Int) + 4 * (s : Int) := by
    simp [encodeRestarts_length, List.length_take]
    omega
  unfold block.restartOffset
  have hro : (blockOf bh es ris).restartsOffset = ((encodeEntries es).length : Int) := rfl
  rw [hro, sliceFrom_eq _ _ _ _ hdata hlen.symm]
  simp only
  rw [leUint32_putUint32 _ _ (by omega)]

theorem layout_restartOffset_end (bh : blockHandle) (es : List RawEntry) (ris : List Nat)
    (hwf : WellFormed es ris) :
    (blockOf bh es ris).restartOffset (ris.length : Int) = some (ris.length : Int) := by
  have ht := wf_total_lt es ris hwf
  have hdata : (blockOf bh es ris).data = (encodeEntries es ++ encodeRestarts es ris) ++
      (putUint32 ris.length ++ []) := by
    show encodeBlock es ris = _
    unfold encodeBlock
    simp
  have hlen : ((encodeEntries es ++ encodeRestarts es ris).length : Int) =
      ((encodeEntries es).length : Int) + 4 * (ris.length : Int) := by
    simp [encodeRestarts_length]
  unfold block.restartOffset
  have hro : (blockOf bh es ris).restartsOffset = ((encodeEntries es).length : Int) := rfl
  rw [hro, sliceFrom_eq _ _ _ _ hdata hlen.symm]
  simp only
  rw [leUint32_putUint32 _ _ (by omega)]

theorem keyAt_restart (es : List RawEntry) (j : Nat) (h : (entryAt es j).shared = 0) :
    keyAt es j = (entryAt es j).unshared := by
  cases j with
  | zero => simp [keyAt, keyFrom, h]
  | succ j => simp [keyAt, keyFrom, h]

theorem keyAt_succ (es : List RawEntry) (j : Nat) :
    keyAt es (j + 1) = (keyAt es j).take (entryAt es (j + 1)).shared ++ (entryAt es (j + 1)).unshared :=
  rfl


theorem restart_key_read (b : block) (pre post : List Nat) (e : RawEntry)
    (cmp : List Nat → List Nat → Int) (key : List Nat)
    (hdata : b.data = pre ++ (encodeEntry e ++ post)) (hsh : e.shared = 0)
    (hsz : b.data.length < 2 ^ 32) :
    (match sliceFrom b.data ((pre.length : Int) + 1) with
      | none => none
      | some d1 =>
        match sliceFrom b.data ((pre.length : Int) + 1 + (Uvarint d1).2) with
        | none => none
        | some d2 =>
          match slice b.data ((pre.length : Int) + 1 + (Uvarint d1).2 + (Uvarint d2).2)
              (wrap64 ((pre.length : Int) + 1 + (Uvarint d1).2 + (Uvarint d2).2 +
                toInt64 (Uvarint d1).1)) with
          | none => none
          | some k => some (decide (cmp k key > 0))) = some (decide (cmp e.unshared key > 0)) := by
  have hB := putUvarint_length e.unshared.length
  have hC := putUvarint_length e.value.length
  have hd0 : b.data = pre ++ ([0] ++ (putUvarint e.unshared.length ++
      (putUvarint e.value.length ++ (e.unshared ++ (e.value ++ post))))) := by
    rw [hdata]; simp [encodeEntry, hsh, putUvarint_zero]
  have hlen : b.data.length = pre.length + 1 + (putUvarint e.unshared.length).length +
      (putUvarint e.value.length).length + e.unshared.length + e.value.length + post.length := by
    rw [hd0]; simp; omega
  have hu64 : e.unshared.length < 2 ^ 64 := by omega
  have hv64 : e.value.length < 2 ^ 64 := by omega
  have hu63 : e.unshared.length < 2 ^ 63 := by omega
  have b3 : -(2 ^ 63) ≤ (pre.length : Int) + 1 + ((putUvarint e.unshared.length).length : Int) +
        ((putUvarint e.value.length).length : Int) + (e.unshared.length : Int) ∧
      (pre.length : Int) + 1 + ((putUvarint e.unshared.length).length : Int) +
        ((putUvarint e.value.length).length : Int) + (e.unshared.length : Int) < 2 ^ 63 := by omega
  have h1 := sliceFrom_eq b.data (pre ++ [0]) (putUvarint e.unshared.length ++
      (putUvarint e.value.length ++ (e.unshared ++ (e.value ++ post))))
      ((pre.length : Int) + 1) (by rw [hd0]; simp) (by simp)
  have hU1 := Uvarint_putUvarint e.unshared.length
      (putUvarint e.value.length ++ (e.unshared ++ (e.value ++ post))) hu64
  have h2 := sliceFrom_eq b.data (pre ++ [0] ++ putUvarint e.unshared.length)
      (putUvarint e.value.length ++ (e.unshared ++ (e.value ++ post)))
      ((pre.length : Int) + 1 + ((putUvarint e.unshared.length).length : Int))
      (by rw [hd0]; simp) (by simp; ring)
  have hU2 := Uvarint_putUvarint e.value.length (e.unshared ++ (e.value ++ post)) hv64
  have hk := slice_eq b.data (pre ++ [0] ++ putUvarint e.unshared.length ++
      putUvarint e.value.length) e.unshared (e.value ++ post)
      ((pre.length : Int) + 1 + ((putUvarint e.unshared.length).length : Int) +
        ((putUvarint e.value.length).length : Int))
      ((pre.length : Int) + 1 + ((putUvarint e.unshared.length).length : Int) +
        ((putUvarint e.value.length).length : Int) + (e.unshared.length : Int))
      (by rw [hd0]; simp) (by simp; ring) (by simp; ring)
  have e1 : (Uvarint (putUvarint e.unshared.length ++
      (putUvarint e.value.length ++ (e.unshared ++ (e.value ++ post))))).1 = e.unshared.length := by
    rw [hU1]
  have e1' : (Uvarint (putUvarint e.unshared.length ++
      (putUvarint e.value.length ++ (e.unshared ++ (e.value ++ post))))).2 =
      ((putUvarint e.unshared.length).length : Int) := by
    rw [hU1]
  have e2' : (Uvarint (putUvarint e.value.length ++ (e.unshared ++ (e.value ++ post)))).2 =
      ((putUvarint e.value.length).length : Int) := by
    rw [hU2]
  rw [h1]
  simp only [e1, e1']
  rw [h2]
  simp only [e2']
  rw [toInt64_of_small _ hu63, wrap64_of_small _ b3.1 b3.2, hk]


theorem cmp_ge_flip (cmp : List Nat → List Nat → Int) (hc : IsComparer cmp) (a b : List Nat)
    (h : cmp a b ≥ 0) : cmp b a ≤ 0 := by
  by_contra hn
  have : cmp b a > 0 := by omega
  have := (hc.flip a b).2 this
  omega

theorem cmp_lt_of_lt_of_le (cmp : List Nat → List Nat → Int) (hc : IsComparer cmp)
    (a b c : List Nat) (h1 : cmp a b < 0) (h2 : cmp b c ≤ 0) : cmp a c < 0 := by
  by_contra hn
  have h3 : cmp c a ≤ 0 := cmp_ge_flip cmp hc a c (by omega)
  have h4 : cmp b a ≤ 0 := hc.trans b c a h2 h3
  have h5 := (hc.flip a b).1 h1
  omega

theorem cmp_lt_of_le_of_lt (cmp : List Nat → List Nat → Int) (hc : IsComparer cmp)
    (a b c : List Nat) (h1 : cmp a b ≤ 0) (h2 : cmp b c < 0) : cmp a c < 0 := by
  by_contra hn
  have h3 : cmp c a ≤ 0 := cmp_ge_flip cmp hc a c (by omega)
  have h4 : cmp c b ≤ 0 := hc.trans c a b h3 h1
  have h5 := (hc.flip b c).1 h2
  omega

theorem cmp_lt_trans (cmp : List Nat → List Nat → Int) (hc : IsComparer cmp)
    (a b c : List Nat) (h1 : cmp a b < 0) (h2 : cmp b c < 0) : cmp a c < 0 :=
  cmp_lt_of_lt_of_le cmp hc a b c h1 (by omega)

theorem searchLoop_spec (f : Int → Option Bool) (p : Int → Bool) (n : Int)
    (hf : ∀ h, 0 ≤ h → h < n → f h = some (p h))
    (hmono : ∀ h k, 0 ≤ h → h ≤ k → k < n → p h = true → p k = true) :
    ∀ (fuel : Nat) (i j : Int), 0 ≤ i → i ≤ j → j ≤ n → (j - i).toNat ≤ fuel →
      (∀ h, 0 ≤ h → h < i → p h = false) → (j < n → p j = true) →
      ∃ m, searchLoop f fuel i j = some m ∧ i ≤ m ∧ m ≤ j ∧
        (∀ h, 0 ≤ h → h < m → p h = false) ∧ (m < n → p m = true) := by
  intro fuel
  induction fuel with
  | zero =>
    intro i j hi hij hjn hfu hlo hhi
    have : i = j := by omega
    subst this
    exact ⟨i, rfl, le_refl _, le_refl _, hlo, hhi⟩
  | succ fuel ih =>
    intro i j hi hij hjn hfu hlo hhi
    simp only [searchLoop]
    by_cases hlt : i < j
    · rw [if_pos hlt]
      have hh0 : 0 ≤ (i + j) / 2 := by omega
      have hh1 : i ≤ (i + j) / 2 := by omega
      have hh2 : (i + j) / 2 < j := by omega
      rw [hf ((i + j) / 2) hh0 (by omega)]
      cases hp : p ((i + j) / 2) with
      | false =>
        simp only
        obtain ⟨m, hm, h1, h2, h3, h4⟩ := ih ((i + j) / 2 + 1) j (by omega) (by omega) hjn
          (by omega)
          (by
            intro h hh0' hh
            by_contra hc
            have hpt : p h = true := by
              cases hph : p h with
              | true => rfl
              | false => exact absurd hph hc
            have := hmono h ((i + j) / 2) hh0' (by omega) (by omega) hpt
            rw [hp] at this
            exact Bool.noConfusion this)
          hhi
        exact ⟨m, hm, by omega, h2, h3, h4⟩
      | true =>
        simp only
        obtain ⟨m, hm, h1, h2, h3, h4⟩ := ih i ((i + j) / 2) hi hh1 (by omega) (by omega) hlo
          (fun _ => hp)
        exact ⟨m, hm, h1, by omega, h3, h4⟩
    · rw [if_neg hlt]
      have : i = j := by omega
      subst this
      exact ⟨i, rfl, le_refl _, le_refl _, hlo, hhi⟩

theorem sortSearch_spec (f : Int → Option Bool) (p : Int → Bool) (n : Int) (hn : 0 ≤ n)
    (hf : ∀ h, 0 ≤ h → h < n → f h = some (p h))
    (hmono : ∀ h k, 0 ≤ h → h ≤ k → k < n → p h = true → p k = true) :
    ∃ m, sortSearch n f = some m ∧ 0 ≤ m ∧ m ≤ n ∧
      (∀ h, 0 ≤ h → h < m → p h = false) ∧ (m < n → p m = true) := by
  unfold sortSearch
  exact searchLoop_spec f p n hf hmono n.toNat 0 n (le_refl _) hn (le_refl _) (by omega)
    (by intro h h0 h1; omega) (by intro h; omega)


theorem sorted_keyAt (cmp : List Nat → List Nat → Int) (es : List RawEntry)
    (hs : StrictSorted cmp (keysOf es)) (i j : Nat) (hij : i < j) (hj : j < es.length) :
    cmp (keyAt es i) (keyAt es j) < 0 := by
  unfold StrictSorted at hs
  rw [keysOf_eq_map, List.pairwise_map] at hs
  have h := List.pairwise_iff_getElem.1 hs i j (by simp; omega) (by simp; omega) hij
  simpa using h

theorem layout_restart_slice (bh : blockHandle) (es : List RawEntry) (ris : List Nat)
    (s : Nat) (hs : s < ris.length) :
    ∃ rest, sliceFrom (blockOf bh es ris).data (((encodeEntries es).length : Int) + 4 * (s : Int)) =
      some (putUint32 (entryOffset es (rAt ris s)) ++ rest) := by
  have hdata : (blockOf bh es ris).data = (encodeEntries es ++ encodeRestarts es (ris.take s)) ++
      (putUint32 (entryOffset es (rAt ris s)) ++
        (encodeRestarts es (ris.drop (s + 1)) ++ putUint32 ris.length)) := by
    show encodeBlock es ris = _
    have hr : encodeRestarts es ris = encodeRestarts es (ris.take s) ++
        (putUint32 (entryOffset es (rAt ris s)) ++ encodeRestarts es (ris.drop (s + 1))) := by
      conv_lhs => rw [ris_split ris s hs]
      rw [encodeRestarts_append]
      simp [encodeRestarts]
    unfold encodeBlock
    rw [hr]
    simp
  have hlen : ((encodeEntries es ++ encodeRestarts es (ris.take s)).length : Int) =
      ((encodeEntries es).length : Int) + 4 * (s : Int) := by
    simp [encodeRestarts_length, List.length_take]
    omega
  exact ⟨_, sliceFrom_eq _ _ _ _ hdata hlen.symm⟩

theorem layout_seekGreater (bh : blockHandle) (es : List RawEntry) (ris : List Nat)
    (hwf : WellFormed es ris) (hne : es ≠ []) (cmp : List Nat → List Nat → Int) (key : List Nat)
    (rstart i : Int) (s : Nat) (hs : s < ris.length) (hsi : rstart + i = (s : Int)) :
    (blockOf bh es ris).seekGreater cmp rstart key i =
      some (decide (cmp (keyAt es (rAt ris s)) key > 0)) := by
  have ht := wf_total_lt es ris hwf
  have hrok : restartsOk es ris = true := by
    rcases hwf.restarts with ⟨h, _⟩ | h
    · exact absurd h hne
    · exact h
  obtain ⟨hq, hsh⟩ := restartsOk_spec es ris hrok s hs
  obtain ⟨rest, hsl⟩ := layout_restart_slice bh es ris s hs
  have hle := entryOffset_le_total es (rAt ris s)
  have hro : (blockOf bh es ris).restartsOffset = ((encodeEntries es).length : Int) := rfl
  have hdata : (blockOf bh es ris).data = encodeEntries (es.take (rAt ris s)) ++
      (encodeEntry (entryAt es (rAt ris s)) ++ (encodeEntries (es.drop (rAt ris s + 1)) ++
        (encodeRestarts es ris ++ putUint32 ris.length))) :=
    encodeBlock_split es ris (rAt ris s) hq
  have hlen : (blockOf bh es ris).data.length < 2 ^ 32 := by
    show (encodeBlock es ris).length < 2 ^ 32
    exact hwf.size
  have hread := restart_key_read (blockOf bh es ris) _ _ (entryAt es (rAt ris s)) cmp key hdata hsh hlen
  unfold block.seekGreater
  rw [hro, hsi, hsl]
  simp only
  rw [leUint32_putUint32 _ _ (by omega)]
  simp only
  rw [keyAt_restart es _ hsh]
  exact hread

theorem layout_restartBeyond (bh : blockHandle) (es : List RawEntry) (ris : List Nat)
    (hwf : WellFormed es ris) (offset rstart i : Int) (s : Nat) (hs : s < ris.length)
    (hsi : rstart + i = (s : Int)) :
    (blockOf bh es ris).restartBeyond rstart offset i =
      some (decide ((entryOffset es (rAt ris s) : Int) > offset)) := by
  have ht := wf_total_lt es ris hwf
  obtain ⟨rest, hsl⟩ := layout_restart_slice bh es ris s hs
  have hle := entryOffset_le_total es (rAt ris s)
  have hro : (blockOf bh es ris).restartsOffset = ((encodeEntries es).length : Int) := rfl
  unfold block.restartBeyond
  rw [hro, hsi, hsl]
  simp only
  rw [leUint32_putUint32 _ _ (by omega)]


theorem seek_eq_search (b : block) (cmp : List Nat → List Nat → Int) (rstart rlimit : Int)
    (key : List Nat) (found : Int)
    (h : sortSearch (b.restartsLen - rstart - (b.restartsLen - rlimit))
      (b.seekGreater cmp rstart key) = some found) :
    b.seek cmp rstart rlimit key =
      (b.restartOffset (if found + rstart - 1 < rstart then rstart else found + rstart - 1)).map
        (fun u => ((if found + rstart - 1 < rstart then rstart else found + rstart - 1), u, none)) := by
  unfold block.seek block.restartOffset
  rw [h]
  simp only
  cases sliceFrom b.data (b.restartsOffset +
      4 * (if found + rstart - 1 < rstart then rstart else found + rstart - 1)) with
  | none => rfl
  | some o =>
    simp only
    cases leUint32 o with
    | none => rfl
    | some u => rfl

theorem wf_restart_lt (es : List RawEntry) (ris : List Nat) (hwf : WellFormed es ris)
    (hne : es ≠ []) (s : Nat) (hs : s < ris.length) :
    rAt ris s < es.length ∧ (entryAt es (rAt ris s)).shared = 0 := by
  have hrok : restartsOk es ris = true := by
    rcases hwf.restarts with ⟨h, _⟩ | h
    · exact absurd h hne
    · exact h
  exact restartsOk_spec es ris hrok s hs

theorem layout_seek (bh : blockHandle) (es : List RawEntry) (ris : List Nat)
    (hwf : WellFormed es ris) (hne : es ≠ []) (cmp : List Nat → List Nat → Int)
    (hc : IsComparer cmp) (hs : StrictSorted cmp (keysOf es)) (sS sL : Nat) (h1 : sS ≤ sL)
    (h2 : sL ≤ ris.length) (key : List Nat) :
    ∃ idx : Nat, (blockOf bh es ris).seek cmp (sS : Int) (sL : Int) key =
        some ((idx : Int), (if idx < ris.length then (entryOffset es (rAt ris idx) : Int)
          else (ris.length : Int)), none) ∧
      sS ≤ idx ∧ (idx < sL ∨ idx = sS) ∧
      (∀ s, idx < s → s < sL → cmp (keyAt es (rAt ris s)) key > 0) ∧
      (sS < idx → cmp (keyAt es (rAt ris idx)) key ≤ 0) := by
  have hf : ∀ h : Int, 0 ≤ h → h < ((ris.length : Int) - (sS : Int) - ((ris.length : Int) - (sL : Int))) →
      (blockOf bh es ris).seekGreater cmp (sS : Int) key h =
        some (decide (cmp (keyAt es (rAt ris (sS + h.toNat))) key > 0)) := by
    intro h h0 hn
    exact layout_seekGreater bh es ris hwf hne cmp key _ _ (sS + h.toNat) (by omega) (by omega)
  have hmono : ∀ h k : Int, 0 ≤ h → h ≤ k →
      k < ((ris.length : Int) - (sS : Int) - ((ris.length : Int) - (sL : Int))) →
      decide (cmp (keyAt es (rAt ris (sS + h.toNat))) key > 0) = true →
      decide (cmp (keyAt es (rAt ris (sS + k.toNat))) key > 0) = true := by
    intro h k h0 hk hn hp
    by_cases he : h = k
    · subst he; exact hp
    · have hr := rAt_lt_of_lt ris hwf.incr (sS + h.toNat) (sS + k.toNat) (by omega) (by omega)
      have hq := (wf_restart_lt es ris hwf hne (sS + k.toNat) (by omega)).1
      have hlt := sorted_keyAt cmp es hs _ _ hr hq
      simp only [decide_eq_true_eq] at hp ⊢
      have h3 := (hc.flip key (keyAt es (rAt ris (sS + h.toNat)))).2 hp
      have h4 := cmp_lt_trans cmp hc _ _ _ h3 hlt
      exact (hc.flip _ _).1 h4
  obtain ⟨m, hm, hm0, hmn, hlo, hhi⟩ := sortSearch_spec _ _ _ (by omega) hf hmono
  have hhi2 : ∀ k : Int, m ≤ k →
      k < ((ris.length : Int) - (sS : Int) - ((ris.length : Int) - (sL : Int))) →
      decide (cmp (keyAt es (rAt ris (sS + k.toNat))) key > 0) = true := by
    intro k hk hkn
    exact hmono m k hm0 hk hkn (hhi (by omega))
  have hrl : (blockOf bh es ris).restartsLen = (ris.length : Int) := rfl
  rw [seek_eq_search _ _ _ _ _ m (by rw [hrl]; exact hm)]
  by_cases hz : m = 0
  · subst hz
    refine ⟨sS, ?_, le_refl _, Or.inr rfl, ?_, by omega⟩
    · rw [if_pos (by omega)]
      by_cases hl : sS < ris.length
      · rw [layout_restartOffset bh es ris hwf sS hl, if_pos hl]
        rfl
      · have : sS = ris.length := by omega
        subst this
        rw [layout_restartOffset_end bh es ris hwf, if_neg hl]
        rfl
    · intro s hs1 hs2
      have := hhi2 ((s : Int) - (sS : Int)) (by omega) (by omega)
      simp only [decide_eq_true_eq] at this
      have e : sS + ((s : Int) - (sS : Int)).toNat = s := by omega
      rw [e] at this
      exact this
  · have hidx : m + (sS : Int) - 1 = ((sS + m.toNat - 1 : Nat) : Int) := by omega
    refine ⟨sS + m.toNat - 1, ?_, by omega, Or.inl (by omega), ?_, ?_⟩
    · rw [if_neg (by omega), hidx]
      have hl : sS + m.toNat - 1 < ris.length := by omega
      rw [layout_restartOffset bh es ris hwf _ hl, if_pos hl]
      rfl
    · intro s hs1 hs2
      have := hhi2 ((s : Int) - (sS : Int)) (by omega) (by omega)
      simp only [decide_eq_true_eq] at this
      have e : sS + ((s : Int) - (sS : Int)).toNat = s := by omega
      rw [e] at this
      exact this
    · intro _
      have := hlo (m - 1) (by omega) (by omega)
      simp only [decide_eq_false_iff_not, not_lt] at this
      have e : sS + (m - 1).toNat = sS + m.toNat - 1 := by omega
      rw [e] at this
      exact this

theorem layout_restartIndex (bh : blockHandle) (es : List RawEntry) (ris : List Nat)
    (hwf : WellFormed es ris) (sS sL : Nat) (h1 : sS ≤ sL)
    (h2 : sL ≤ ris.length) (offset : Int) :
    ∃ m : Nat, (blockOf bh es ris).restartIndex (sS : Int) (sL : Int) offset =
        some ((sS : Int) + (m : Int) - 1) ∧ sS + m ≤ sL ∧
      (∀ s, sS ≤ s → s < sS + m → (entryOffset es (rAt ris s) : Int) ≤ offset) ∧
      (∀ s, sS + m ≤ s → s < sL → offset < (entryOffset es (rAt ris s) : Int)) := by
  have hf : ∀ h : Int, 0 ≤ h → h < ((ris.length : Int) - (sS : Int) - ((ris.length : Int) - (sL : Int))) →
      (blockOf bh es ris).restartBeyond (sS : Int) offset h =
        some (decide ((entryOffset es (rAt ris (sS + h.toNat)) : Int) > offset)) := by
    intro h h0 hn
    exact layout_restartBeyond bh es ris hwf offset _ _ (sS + h.toNat) (by omega) (by omega)
  have hmono : ∀ h k : Int, 0 ≤ h → h ≤ k →
      k < ((ris.length : Int) - (sS : Int) - ((ris.length : Int) - (sL : Int))) →
      decide ((entryOffset es (rAt ris (sS + h.toNat)) : Int) > offset) = true →
      decide ((entryOffset es (rAt ris (sS + k.toNat)) : Int) > offset) = true := by
    intro h k h0 hk hn hp
    by_cases he : h = k
    · subst he; exact hp
    · have hr := rAt_lt_of_lt ris hwf.incr (sS + h.toNat) (sS + k.toNat) (by omega) (by omega)
      have hmo := entryOffset_mono es _ _ (le_of_lt hr)
      simp only [decide_eq_true_eq] at hp ⊢
      omega
  obtain ⟨m, hm, hm0, hmn, hlo, hhi⟩ := sortSearch_spec _ _ _ (by omega) hf hmono
  have hhi2 : ∀ k : Int, m ≤ k →
      k < ((ris.length : Int) - (sS : Int) - ((ris.length : Int) - (sL : Int))) →
      decide ((entryOffset es (rAt ris (sS + k.toNat)) : Int) > offset) = true := by
    intro k hk hkn
    exact hmono m k hm0 hk hkn (hhi (by omega))
  have hrl : (blockOf bh es ris).restartsLen = (ris.length : Int) := rfl
  refine ⟨m.toNat, ?_, by omega, ?_, ?_⟩
  · unfold block.restartIndex
    rw [hrl, hm]
    simp only [Option.some.injEq]
    omega
  · intro s hs1 hs2
    have := hlo ((s : Int) - (sS : Int)) (by omega) (by omega)
    simp only [decide_eq_false_iff_not, not_lt] at this
    have e : sS + ((s : Int) - (sS : Int)).toNat = s := by omega
    rw [e] at this
    omega
  · intro s hs1 hs2
    have := hhi2 ((s : Int) - (sS : Int)) (by omega) (by omega)
    simp only [decide_eq_true_eq] at this
    have e : sS + ((s : Int) - (sS : Int)).toNat = s := by omega
    rw [e] at this
    omega

end table

namespace table

theorem entry_corrupted (b : block) (offset : Int) (d0 d1 d2 : List Nat)
    (hlt : offset < b.restartsOffset)
    (h0 : sliceFrom b.data offset = some d0)
    (h1 : sliceFrom b.data (offset + (Uvarint d0).2) = some d1)
    (h2 : sliceFrom b.data (offset + (Uvarint d0).2 + (Uvarint d1).2) = some d2)
    (hbad : (Uvarint d0).2 ≤ 0 ∨ (Uvarint d1).2 ≤ 0 ∨ (Uvarint d2).2 ≤ 0 ∨
      wrap64 (offset + wrap64 ((Uvarint d0).2 + (Uvarint d1).2 + (Uvarint d2).2 +
        toInt64 (Uvarint d1).1 + toInt64 (Uvarint d2).1)) > b.restartsOffset) :
    ∃ n, b.entry offset =
      some { key := [], value := none, nShared := 0, n := n,
             err := some (Err.corruptedRaw "entries corrupted") } := by
  unfold block.entry
  rw [if_neg (by omega)]
  simp only [h0, h1, h2]
  rw [if_pos hbad]
  exact ⟨_, rfl⟩


theorem nextSkip_done (fuel : Nat) (i : blockIter) (h : i.offsetRealStart ≤ i.offset) :
    nextSkip fuel i = some (Flow.cont i) := by
  cases fuel with
  | zero => simp only [nextSkip]; rw [if_neg (by omega)]
  | succ f => simp only [nextSkip]; rw [if_neg (by omega)]

theorem Next_entry_error (i : blockIter) (e : entryResult) (err : Err)
    (hd : i.dir = dir.dirForward ∨ i.dir = dir.dirBackward) (herr : i.err = none)
    (hpos : i.offset < i.offsetRealStart ∨ i.offset < i.offsetLimit)
    (he : i.block.entry i.offset = some e) (hee : e.err = some err) :
    ∃ i2, i.Next = some (false, i2) ∧
      i2.err = some (i.tr.fixErrCorruptedBH i.block.bh err) ∧ i2.key = [] ∧ i2.value = none := by
  unfold blockIter.Next
  have h1 : ¬ (i.dir = dir.dirEOI ∨ i.err ≠ none) := by
    rcases hd with hd | hd <;> simp [hd, herr]
  have h2 : ¬ (i.dir = dir.dirReleased) := by
    rcases hd with hd | hd <;> simp [hd]
  have h3 : ¬ (i.dir = dir.dirSOI) := by
    rcases hd with hd | hd <;> simp [hd]
  rw [if_neg h1, if_neg h2]
  simp only [h3, if_false]
  by_cases hb : i.dir = dir.dirBackward
  · simp only [hb, if_true]
    by_cases hs : i.offset < i.offsetRealStart
    · obtain ⟨f, hf⟩ : ∃ f, (i.offsetRealStart - i.offset).toNat = f + 1 :=
        ⟨(i.offsetRealStart - i.offset).toNat - 1, by omega⟩
      rw [hf]
      simp only [nextSkip, hs, if_true, he, hee]
      exact ⟨_, rfl, rfl, rfl, rfl⟩
    · rw [nextSkip_done _ _ (by simpa using hs)]
      simp only
      have hl : i.offset < i.offsetLimit := by
        rcases hpos with h | h
        · exact absurd h hs
        · exact h
      rw [if_neg (by omega)]
      simp only [he, hee]
      exact ⟨_, rfl, rfl, rfl, rfl⟩
  · simp only [hb, if_false]
    by_cases hs : i.offset < i.offsetRealStart
    · obtain ⟨f, hf⟩ : ∃ f, (i.offsetRealStart - i.offset).toNat = f + 1 :=
        ⟨(i.offsetRealStart - i.offset).toNat - 1, by omega⟩
      rw [hf]
      simp only [nextSkip, hs, if_true, he, hee]
      exact ⟨_, rfl, rfl, rfl, rfl⟩
    · rw [nextSkip_done _ _ (by simpa using hs)]
      simp only
      have hl : i.offset < i.offsetLimit := by
        rcases hpos with h | h
        · exact absurd h hs
        · exact h
      rw [if_neg (by omega)]
      simp only [he, hee]
      exact ⟨_, rfl, rfl, rfl, rfl⟩

theorem prevBuild_entry_error (fuel : Nat) (i : blockIter) (offset : Int) (e : entryResult)
    (err : Err) (he : i.block.entry offset = some e) (hee : e.err = some err) :
    prevBuild (fuel + 1) i offset =
      some (BuildFlow.fail (i.sErr (i.tr.fixErrCorruptedBH i.block.bh err))) := by
  simp only [prevBuild, he, hee]

theorem Prev_entry_error (i : blockIter) (offset : Int) (e : entryResult) (err : Err)
    (hd : i.dir = dir.dirEOI) (herr : i.err = none)
    (hne : i.offsetLimit ≠ i.offsetRealStart)
    (hro : i.block.restartOffset (i.riLimit - 1) = some offset) (hoff : offset ≠ i.offsetLimit)
    (he : i.block.entry offset = some e) (hee : e.err = some err) :
    ∃ i2, i.Prev = some (false, i2) ∧
      i2.err = some (i.tr.fixErrCorruptedBH i.block.bh err) ∧ i2.key = [] ∧ i2.value = none := by
  unfold blockIter.Prev
  have h1 : ¬ (i.dir = dir.dirSOI ∨ i.err ≠ none) := by simp [hd, herr]
  have h2 : ¬ (i.dir = dir.dirReleased) := by simp [hd]
  have h3 : ¬ (i.dir = dir.dirForward) := by simp [hd]
  rw [if_neg h1, if_neg h2, if_neg h3, if_pos hd]
  simp only
  rw [if_neg hne]
  unfold prevRebuild
  simp only [hro]
  rw [if_neg hoff]
  simp only [prevBuild, he, hee]
  exact ⟨_, rfl, rfl, rfl, rfl⟩


/-- C19: for every block and every offset below `restartsOffset` at which one of the
three length varints is read with a byte count of zero (or below), or at which the
entry's total length would carry it past `restartsOffset`, `block.entry` returns the
error "entries corrupted"; a `Next` that reads the entry, a `Prev` from the end that
starts on it, and any round of the loop of `Prev` that reaches it return false with
that error latched, stamped with the block's offset, length and kind, and with key
and value cleared. -/
theorem entry_corruption_latched (b : block) (offset : Int) (d0 d1 d2 : List Nat)
    (hlt : offset < b.restartsOffset)
    (h0 : sliceFrom b.data offset = some d0)
    (h1 : sliceFrom b.data (offset + (Uvarint d0).2) = some d1)
    (h2 : sliceFrom b.data (offset + (Uvarint d0).2 + (Uvarint d1).2) = some d2)
    (hbad : (Uvarint d0).2 ≤ 0 ∨ (Uvarint d1).2 ≤ 0 ∨ (Uvarint d2).2 ≤ 0 ∨
      wrap64 (offset + wrap64 ((Uvarint d0).2 + (Uvarint d1).2 + (Uvarint d2).2 +
        toInt64 (Uvarint d1).1 + toInt64 (Uvarint d2).1)) > b.restartsOffset) :
    (∃ n, b.entry offset =
      some { key := [], value := none, nShared := 0, n := n,
             err := some (Err.corruptedRaw "entries corrupted") }) ∧
    (∀ i : blockIter, i.block = b → i.offset = offset → i.err = none →
      (i.dir = dir.dirForward ∨ i.dir = dir.dirBackward) →
      (i.offset < i.offsetRealStart ∨ i.offset < i.offsetLimit) →
      ∃ i2, i.Next = some (false, i2) ∧
        i2.err = some (Err.corrupted (toInt64 b.bh.offset) (toInt64 b.bh.length)
          (i.tr.blockKind b.bh) "entries corrupted") ∧ i2.key = [] ∧ i2.value = none) ∧
    (∀ i : blockIter, i.block = b → i.err = none → i.dir = dir.dirEOI →
      i.offsetLimit ≠ i.offsetRealStart → b.restartOffset (i.riLimit - 1) = some offset →
      offset ≠ i.offsetLimit →
      ∃ i2, i.Prev = some (false, i2) ∧
        i2.err = some (Err.corrupted (toInt64 b.bh.offset) (toInt64 b.bh.length)
          (i.tr.blockKind b.bh) "entries corrupted") ∧ i2.key = [] ∧ i2.value = none) ∧
    (∀ (fuel : Nat) (i : blockIter), i.block = b →
      ∃ i2, prevBuild (fuel + 1) i offset = some (BuildFlow.fail i2) ∧
        i2.err = some (Err.corrupted (toInt64 b.bh.offset) (toInt64 b.bh.length)
          (i.tr.blockKind b.bh) "entries corrupted") ∧ i2.key = [] ∧ i2.value = none) := by
  obtain ⟨n, hn⟩ := entry_corrupted b offset d0 d1 d2 hlt h0 h1 h2 hbad
  refine ⟨⟨n, hn⟩, ?_, ?_, ?_⟩
  · intro i hb ho herr hd hpos
    subst hb
    subst ho
    exact Next_entry_error i _ _ hd herr hpos hn rfl
  · intro i hb herr hd hne hro hoff
    subst hb
    exact Prev_entry_error i offset _ _ hd herr hne hro hoff hn rfl
  · intro fuel i hb
    subst hb
    rw [prevBuild_entry_error fuel i offset _ _ hn rfl]
    exact ⟨_, rfl, rfl, rfl, rfl⟩

theorem entry_corruption_latched_witness :
    (∃ i2, ((plainReader bytesCompare).newBlockIter corruptBlock none false).bind
        (fun i => i.Seek [1]) = some (false, i2) ∧
      i2.err = some (Err.corrupted 64 12 "data-block" "entries corrupted") ∧
      i2.key = [] ∧ i2.value = none) ∧
    ∃ n, corruptBlock.entry 0 =
      some { key := [], value := none, nShared := 0, n := n,
             err := some (Err.corruptedRaw "entries corrupted") } :=
  ⟨⟨_, rfl, by decide, rfl, rfl⟩,
   (entry_corruption_latched corruptBlock 0 corruptBlock.data (corruptBlock.data.drop 1)
      (corruptBlock.data.drop 2) (by decide) (by decide) (by decide) (by decide)
      (by decide)).1⟩

end table
namespace table


theorem key_step (es : List RawEntry) (ris : List Nat) (hwf : WellFormed es ris) (j : Nat)
    (hj : j < es.length) (K : List Nat) (hk : KeyOk es j K) :
    sliceTo K ((entryAt es j).shared : Int) = some (K.take (entryAt es j).shared) ∧
      K.take (entryAt es j).shared ++ (entryAt es j).unshared = keyAt es j := by
  rcases hk with h0 | ⟨hpos, hK⟩
  · rw [h0]
    refine ⟨sliceTo_eq K [] K _ rfl rfl, ?_⟩
    rw [keyAt_restart es j h0]
    simp
  · have hle := wf_shared_le es ris hwf j hj
    rw [if_neg (by omega)] at hle
    rw [← hK] at hle
    refine ⟨sliceTo_eq K (K.take (entryAt es j).shared) (K.drop (entryAt es j).shared) _
      (List.take_append_drop _ _).symm ?_, ?_⟩
    · rw [List.length_take]
      congr 1
      omega
    · obtain ⟨j0, rfl⟩ : ∃ j0, j = j0 + 1 := ⟨j - 1, by omega⟩
      rw [keyAt_succ, hK]
      rfl

theorem entryOffset_diff (es : List RawEntry) (x a : Nat) (h : x ≤ a) (ha : a ≤ es.length) :
    a + entryOffset es x ≤ x + entryOffset es a := by
  induction a with
  | zero => simp at h; subst h; simp
  | succ a ih =>
    by_cases hxa : x = a + 1
    · subst hxa; simp
    · have := ih (by omega) (by omega)
      have h3 := entryOffset_lt es a (a + 1) (by omega) ha
      omega

theorem nextSkip_layout (bh : blockHandle) (es : List RawEntry) (ris : List Nat)
    (hwf : WellFormed es ris) (a : Nat) (ha : a ≤ es.length) :
    ∀ (fuel : Nat) (i : blockIter) (x : Nat), i.block = blockOf bh es ris →
      i.offset = (entryOffset es x : Int) → i.offsetRealStart = (entryOffset es a : Int) →
      x ≤ a → a - x ≤ fuel → (x < es.length → KeyOk es x i.key) →
      ∃ K V, nextSkip fuel i =
          some (Flow.cont { i with key := K, value := V, offset := (entryOffset es a : Int) }) ∧
        (a < es.length → KeyOk es a K) := by
  intro fuel
  induction fuel with
  | zero =>
    intro i x hb hx hra hxa hf hk
    have : x = a := by omega
    subst this
    refine ⟨i.key, i.value, ?_, hk⟩
    rw [nextSkip_done _ _ (by omega), ← hx]
  | succ f ih =>
    intro i x hb hx hra hxa hf hk
    by_cases hxe : x = a
    · subst hxe
      refine ⟨i.key, i.value, ?_, hk⟩
      rw [nextSkip_done _ _ (by omega), ← hx]
    · have hlt : x < a := by omega
      have hxn : x < es.length := by omega
      have ho := entryOffset_lt es x a hlt ha
      have he := layout_entry bh es ris hwf x hxn
      rw [← hx, ← hb] at he
      obtain ⟨hs1, hs2⟩ := key_step es ris hwf x hxn i.key (hk hxn)
      have hlen := encodeEntry_length_ge (entryAt es x)
      have hsucc := entryOffset_succ es x hxn
      obtain ⟨K, V, hrec, hK⟩ := ih
        { i with key := i.key.take (entryAt es x).shared ++ (entryAt es x).unshared,
                 value := some (entryAt es x).value,
                 offset := i.offset + ((encodeEntry (entryAt es x)).length : Int) }
        (x + 1) hb (by simp only [hx, hsucc]; push_cast; ring) hra (by omega) (by omega)
        (fun _ => Or.inr ⟨by omega, by simpa using hs2⟩)
      refine ⟨K, V, ?_, hK⟩
      simp only [nextSkip]
      rw [if_pos (by omega), he]
      simp only
      rw [if_neg (by omega), hs1]
      exact hrec


theorem Next_layout (bh : blockHandle) (es : List RawEntry) (ris : List Nat)
    (hwf : WellFormed es ris) (i i1 : blockIter) (x a c : Nat)
    (herr : i.err = none)
    (hd : i.dir = dir.dirSOI ∨ i.dir = dir.dirForward ∨ i.dir = dir.dirBackward)
    (h1 : i1 = (if i.dir = dir.dirSOI then
        { i with restartIndex := i.riStart, offset := i.offsetStart }
      else if i.dir = dir.dirBackward then { i with prevNode := [], prevKeys := [] } else i))
    (hb : i1.block = blockOf bh es ris) (hx : i1.offset = (entryOffset es x : Int))
    (ha : i1.offsetRealStart = (entryOffset es a : Int))
    (hc : i1.offsetLimit = (entryOffset es c : Int))
    (hac : a ≤ c) (hcn : c ≤ es.length) (hxc : x ≤ c)
    (hk : x < es.length → KeyOk es x i1.key) :
    (max x a < c → i.Next = some (true,
      { i1 with key := keyAt es (max x a), value := some (valueAt es (max x a)),
                prevOffset := (entryOffset es (max x a) : Int),
                offset := (entryOffset es (max x a + 1) : Int), dir := dir.dirForward })) ∧
    (max x a = c → ∃ K V, i.Next = some (false,
      { i1 with key := K, value := V, offset := (entryOffset es c : Int),
                dir := dir.dirEOI })) := by
  have hskip : ∃ K V, nextSkip (i1.offsetRealStart - i1.offset).toNat i1 =
      some (Flow.cont { i1 with key := K, value := V,
                                offset := (entryOffset es (max x a) : Int) }) ∧
      (max x a < es.length → KeyOk es (max x a) K) := by
    by_cases hxa : x ≤ a
    · rw [max_eq_right hxa]
      have hdiff := entryOffset_diff es x a hxa (by omega)
      exact nextSkip_layout bh es ris hwf a (by omega) _ i1 x hb hx ha hxa (by omega) hk
    · have hax : a ≤ x := by omega
      rw [max_eq_left hax]
      have hmono := entryOffset_mono es a x hax
      refine ⟨i1.key, i1.value, ?_, hk⟩
      rw [nextSkip_done _ _ (by omega), ← hx]
  obtain ⟨K, V, hsk, hK⟩ := hskip
  have hm : max x a ≤ c := by omega
  generalize max x a = m at *
  have h01 : ¬ (i.dir = dir.dirEOI ∨ i.err ≠ none) := by
    rcases hd with hd | hd | hd <;> simp [hd, herr]
  have h02 : ¬ (i.dir = dir.dirReleased) := by
    rcases hd with hd | hd | hd <;> simp [hd]
  have hN : i.Next = (match nextSkip (i1.offsetRealStart - i1.offset).toNat i1 with
      | none => none
      | some (Flow.ret res i2) => some (res, i2)
      | some (Flow.cont i2) =>
        if i2.offset ≥ i2.offsetLimit then
          let i3 : blockIter := { i2 with dir := dir.dirEOI }
          if i3.offset ≠ i3.offsetLimit then
            some (false, i3.sErr (i3.tr.newErrCorruptedBH i3.block.bh "entries offset not aligned"))
          else some (false, i3)
        else
          match i2.block.entry i2.offset with
          | none => none
          | some e =>
            match e.err with
            | some err => some (false, i2.sErr (i2.tr.fixErrCorruptedBH i2.block.bh err))
            | none =>
              if e.n = 0 then some (false, { i2 with dir := dir.dirEOI })
              else
                match sliceTo i2.key e.nShared with
                | none => none
                | some k =>
                  some (true, { i2 with key := k ++ e.key, value := e.value,
                                        prevOffset := i2.offset, offset := i2.offset + e.n,
                                        dir := dir.dirForward })) := by
    rw [h1]
    unfold blockIter.Next
    rw [if_neg h01, if_neg h02]
    try rfl
  rw [hN, hsk]
  constructor
  · intro hlt
    have hmn : m < es.length := by omega
    have ho := entryOffset_lt es m c hlt hcn
    have he := layout_entry bh es ris hwf m hmn
    rw [← hb] at he
    obtain ⟨hs1, hs2⟩ := key_step es ris hwf m hmn K (hK hmn)
    have hlen := encodeEntry_length_ge (entryAt es m)
    have hsucc := entryOffset_succ es m hmn
    simp only
    rw [if_neg (by rw [hc]; omega), he]
    simp only
    rw [if_neg (by omega), hs1]
    simp only [hs2, hsucc, Nat.cast_add]
    rfl
  · intro heq
    subst heq
    refine ⟨K, V, ?_⟩
    simp only
    rw [if_pos (by rw [hc]), if_neg (by rw [hc]; simp)]


theorem Next_to_fwd (r : Reader) (bh : blockHandle) (es : List RawEntry) (ris : List Nat)
    (hwf : WellFormed es ris) (w : Win) (i i1 : blockIter) (x s : Nat)
    (herr : i.err = none)
    (hd : i.dir = dir.dirSOI ∨ i.dir = dir.dirForward ∨ i.dir = dir.dirBackward)
    (h1 : i1 = (if i.dir = dir.dirSOI then
        { i with restartIndex := i.riStart, offset := i.offsetStart }
      else if i.dir = dir.dirBackward then { i with prevNode := [], prevKeys := [] } else i))
    (hf : Framed r (blockOf bh es ris) es w i1) (hpn : i1.prevNode = [])
    (hpk : i1.prevKeys = []) (hx : i1.offset = (entryOffset es x : Int))
    (hac : w.a ≤ w.c) (hcn : w.c ≤ es.length) (hxc : x ≤ w.c)
    (hk : x < es.length → KeyOk es x i1.key)
    (hs : max x w.a < w.c →
      i1.restartIndex = (s : Int) ∧ w.sS ≤ s ∧ s < ris.length ∧ rAt ris s ≤ max x w.a) :
    (max x w.a < w.c → ∃ it, i.Next = some (true, it) ∧
      FwdAt r (blockOf bh es ris) es ris w it (max x w.a) ∧
      it.restartIndex = i1.restartIndex) ∧
    (max x w.a = w.c → ∃ it, i.Next = some (false, it) ∧
      AtEnd r (blockOf bh es ris) es w it dir.dirEOI) := by
  obtain ⟨hA, hB⟩ := Next_layout bh es ris hwf i i1 x w.a w.c herr hd h1 hf.block hx
    hf.offsetRealStart hf.offsetLimit hac hcn hxc hk
  constructor
  · intro hlt
    refine ⟨_, hA hlt, ?_, rfl⟩
    exact ⟨⟨hf.tr, hf.block, hf.err, hf.riStart, hf.riLimit, hf.offsetStart,
      hf.offsetRealStart, hf.offsetLimit⟩, rfl, le_max_right _ _, hlt, rfl, rfl, rfl, rfl,
      hpn, hpk, ⟨s, hs hlt⟩⟩
  · intro heq
    obtain ⟨K, V, hN⟩ := hB heq
    refine ⟨_, hN, ?_⟩
    exact ⟨⟨hf.tr, hf.block, hf.err, hf.riStart, hf.riLimit, hf.offsetStart,
      hf.offsetRealStart, hf.offsetLimit⟩, rfl, hpn, hpk⟩

theorem Next_fwd (r : Reader) (bh : blockHandle) (es : List RawEntry) (ris : List Nat)
    (hwf : WellFormed es ris) (w : Win) (hcn : w.c ≤ es.length) (i : blockIter) (j : Nat)
    (h : FwdAt r (blockOf bh es ris) es ris w i j) :
    (j + 1 < w.c → ∃ it, i.Next = some (true, it) ∧
      FwdAt r (blockOf bh es ris) es ris w it (j + 1)) ∧
    (j + 1 = w.c → ∃ it, i.Next = some (false, it) ∧
      AtEnd r (blockOf bh es ris) es w it dir.dirEOI) := by
  obtain ⟨s, hs1, hs2, hs3, hs4⟩ := h.ri
  have hlo := h.lo
  have hhi := h.hi
  have hmax : max (j + 1) w.a = j + 1 := max_eq_left (by omega)
  have := Next_to_fwd r bh es ris hwf w i i (j + 1) s h.framed.err (Or.inr (Or.inl h.dir))
    (by simp [h.dir]) h.framed h.prevNode h.prevKeys h.offset (by omega) hcn (by omega)
    (fun _ => Or.inr ⟨by omega, by simpa using h.key⟩)
    (fun _ => ⟨hs1, hs2, hs3, by omega⟩)
  rw [hmax] at this
  exact ⟨fun hh => (this.1 hh).imp (fun _ hx => ⟨hx.1, hx.2.1⟩), this.2⟩

theorem Next_fwd_ri (r : Reader) (bh : blockHandle) (es : List RawEntry) (ris : List Nat)
    (hwf : WellFormed es ris) (w : Win) (hcn : w.c ≤ es.length) (i : blockIter) (j : Nat)
    (h : FwdAt r (blockOf bh es ris) es ris w i j) (hlt : j + 1 < w.c) :
    ∃ it, i.Next = some (true, it) ∧ FwdAt r (blockOf bh es ris) es ris w it (j + 1) ∧
      it.restartIndex = i.restartIndex := by
  obtain ⟨s, hs1, hs2, hs3, hs4⟩ := h.ri
  have hlo := h.lo
  have hhi := h.hi
  have hmax : max (j + 1) w.a = j + 1 := max_eq_left (by omega)
  have := Next_to_fwd r bh es ris hwf w i i (j + 1) s h.framed.err (Or.inr (Or.inl h.dir))
    (by simp [h.dir]) h.framed h.prevNode h.prevKeys h.offset (by omega) hcn (by omega)
    (fun _ => Or.inr ⟨by omega, by simpa using h.key⟩)
    (fun _ => ⟨hs1, hs2, hs3, by omega⟩)
  rw [hmax] at this
  exact this.1 hlt

theorem Next_bwd (r : Reader) (bh : blockHandle) (es : List RawEntry) (ris : List Nat)
    (hwf : WellFormed es ris) (w : Win) (hcn : w.c ≤ es.length) (i : blockIter) (j : Nat)
    (h : BwdAt r (blockOf bh es ris) es ris w i j) :
    (j + 1 < w.c → ∃ it, i.Next = some (true, it) ∧
      FwdAt r (blockOf bh es ris) es ris w it (j + 1)) ∧
    (j + 1 = w.c → ∃ it, i.Next = some (false, it) ∧
      AtEnd r (blockOf bh es ris) es w it dir.dirEOI) := by
  obtain ⟨s, hs1, hs2, hs3, hs4, _⟩ := h.ri
  have hlo := h.lo
  have hhi := h.hi
  have hmax : max (j + 1) w.a = j + 1 := max_eq_left (by omega)
  have hfr := h.framed
  have := Next_to_fwd r bh es ris hwf w i { i with prevNode := [], prevKeys := [] } (j + 1) s
    h.framed.err (Or.inr (Or.inr h.dir))
    (by simp [h.dir])
    ⟨hfr.tr, hfr.block, hfr.err, hfr.riStart, hfr.riLimit, hfr.offsetStart,
      hfr.offsetRealStart, hfr.offsetLimit⟩ rfl rfl h.offset (by omega) hcn (by omega)
    (fun _ => Or.inr ⟨by omega, by simpa using h.key⟩)
    (fun _ => ⟨hs1, hs2, hs3, by omega⟩)
  rw [hmax] at this
  exact ⟨fun hh => (this.1 hh).imp (fun _ hx => ⟨hx.1, hx.2.1⟩), this.2⟩

theorem wf_ris_pos (es : List RawEntry) (ris : List Nat) (hwf : WellFormed es ris) :
    0 < ris.length := by
  have h := hwf.head
  cases ris with
  | nil => simp at h
  | cons a t => simp

theorem winOk_bounds {es : List RawEntry} {ris : List Nat} {w : Win} (hw : WinOk es ris w) :
    WinBounds es ris w :=
  ⟨hw.ac, hw.cn, hw.sSL, hw.sLn, hw.start⟩

theorem Next_soi_bounds (r : Reader) (bh : blockHandle) (es : List RawEntry)
    (ris : List Nat) (hwf : WellFormed es ris) (w : Win) (hw : WinBounds es ris w)
    (i : blockIter) (h : AtEnd r (blockOf bh es ris) es w i dir.dirSOI) :
    (w.a < w.c → ∃ it, i.Next = some (true, it) ∧
      FwdAt r (blockOf bh es ris) es ris w it w.a) ∧
    (w.a = w.c → ∃ it, i.Next = some (false, it) ∧
      AtEnd r (blockOf bh es ris) es w it dir.dirEOI) := by
  have hfr := h.framed
  have hac := hw.ac
  have hcn := hw.cn
  have hf1 : Framed r (blockOf bh es ris) es w
      { i with restartIndex := i.riStart, offset := i.offsetStart } :=
    ⟨hfr.tr, hfr.block, hfr.err, hfr.riStart, hfr.riLimit, hfr.offsetStart,
      hfr.offsetRealStart, hfr.offsetLimit⟩
  rcases hw.start with ⟨h1, h2, h3, h4⟩ | ⟨h1, h2, h3⟩
  · have hmax : max (rAt ris w.sS) w.a = w.a := max_eq_right h2
    have := Next_to_fwd r bh es ris hwf w i
      { i with restartIndex := i.riStart, offset := i.offsetStart } (rAt ris w.sS) w.sS
      hfr.err (Or.inl h.dir) (by simp [h.dir]) hf1 h.prevNode h.prevKeys
      (by show i.offsetStart = _; rw [hfr.offsetStart, h4]) hac hcn (by omega)
      (fun hlt => Or.inl (wf_restart_lt es ris hwf (by intro h0; subst h0; simp at hlt)
        w.sS h1).2)
      (fun _ => ⟨hfr.riStart, le_refl _, h1, by omega⟩)
    rw [hmax] at this
    exact ⟨fun hh => (this.1 hh).imp (fun _ hx => ⟨hx.1, hx.2.1⟩), this.2⟩
  · have hce : w.c = w.a := by omega
    constructor
    · intro hlt; omega
    · intro _
      obtain ⟨_, hB⟩ := Next_layout bh es ris hwf i
        { i with restartIndex := i.riStart, offset := i.offsetStart } es.length w.a w.c
        hfr.err (Or.inl h.dir) (by simp [h.dir]) hfr.block
        (by show i.offsetStart = _; rw [hfr.offsetStart, h3, entryOffset_length])
        hfr.offsetRealStart hfr.offsetLimit hac hcn (by omega) (fun hlt => by omega)
      obtain ⟨K, V, hN⟩ := hB (by rw [h2, hce, h2]; simp)
      exact ⟨_, hN, ⟨hfr.tr, hfr.block, hfr.err, hfr.riStart, hfr.riLimit, hfr.offsetStart,
        hfr.offsetRealStart, hfr.offsetLimit⟩, rfl, h.prevNode, h.prevKeys⟩


theorem Next_soi (r : Reader) (bh : blockHandle) (es : List RawEntry) (ris : List Nat)
    (hwf : WellFormed es ris) (w : Win) (hw : WinOk es ris w) (i : blockIter)
    (h : AtEnd r (blockOf bh es ris) es w i dir.dirSOI) :
    (w.a < w.c → ∃ it, i.Next = some (true, it) ∧
      FwdAt r (blockOf bh es ris) es ris w it w.a) ∧
    (w.a = w.c → ∃ it, i.Next = some (false, it) ∧
      AtEnd r (blockOf bh es ris) es w it dir.dirEOI) :=
  Next_soi_bounds r bh es ris hwf w (winOk_bounds hw) i h

theorem First_bounds (r : Reader) (bh : blockHandle) (es : List RawEntry) (ris : List Nat)
    (hwf : WellFormed es ris) (w : Win) (hw : WinBounds es ris w) (i : blockIter)
    (h : Ready r (blockOf bh es ris) es w i) :
    (w.a < w.c → ∃ it, i.First = some (true, it) ∧
      FwdAt r (blockOf bh es ris) es ris w it w.a) ∧
    (w.a = w.c → ∃ it, i.First = some (false, it) ∧
      AtEnd r (blockOf bh es ris) es w it dir.dirEOI) := by
  have hfr := h.framed
  have hF : i.First = blockIter.Next
      { (if i.dir = dir.dirBackward then { i with prevNode := [], prevKeys := [] } else i)
        with dir := dir.dirSOI } := by
    unfold blockIter.First
    rw [if_neg (by simp [hfr.err]), if_neg h.live]
  rw [hF]
  apply Next_soi_bounds r bh es ris hwf w hw
  by_cases hb : i.dir = dir.dirBackward
  · rw [if_pos hb]
    exact ⟨⟨hfr.tr, hfr.block, hfr.err, hfr.riStart, hfr.riLimit, hfr.offsetStart,
      hfr.offsetRealStart, hfr.offsetLimit⟩, rfl, rfl, rfl⟩
  · rw [if_neg hb]
    exact ⟨⟨hfr.tr, hfr.block, hfr.err, hfr.riStart, hfr.riLimit, hfr.offsetStart,
      hfr.offsetRealStart, hfr.offsetLimit⟩, rfl, (h.cache hb).1, (h.cache hb).2⟩

theorem First_ready (r : Reader) (bh : blockHandle) (es : List RawEntry) (ris : List Nat)
    (hwf : WellFormed es ris) (w : Win) (hw : WinOk es ris w) (i : blockIter)
    (h : Ready r (blockOf bh es ris) es w i) :
    (w.a < w.c → ∃ it, i.First = some (true, it) ∧
      FwdAt r (blockOf bh es ris) es ris w it w.a) ∧
    (w.a = w.c → ∃ it, i.First = some (false, it) ∧
      AtEnd r (blockOf bh es ris) es w it dir.dirEOI) :=
  First_bounds r bh es ris hwf w (winOk_bounds hw) i h

theorem FwdAt_pair (r : Reader) (b : block) (es : List RawEntry) (ris : List Nat) (w : Win)
    (i : blockIter) (j : Nat) (h : FwdAt r b es ris w i j) :
    (i.Key, i.Value) = entryPair es j := by
  unfold blockIter.Key blockIter.Value entryPair
  rw [if_neg (by simp [h.framed.err, h.dir]), if_neg (by simp [h.framed.err, h.dir]),
    h.key, h.value]

theorem BwdAt_pair (r : Reader) (b : block) (es : List RawEntry) (ris : List Nat) (w : Win)
    (i : blockIter) (j : Nat) (h : BwdAt r b es ris w i j) :
    (i.Key, i.Value) = entryPair es j := by
  unfold blockIter.Key blockIter.Value entryPair
  rw [if_neg (by simp [h.framed.err, h.dir]), if_neg (by simp [h.framed.err, h.dir]),
    h.key, h.value]

theorem windowPairs_cons (es : List RawEntry) (a c : Nat) (h : a < c) :
    windowPairs es a c = entryPair es a :: windowPairs es (a + 1) c := by
  unfold windowPairs
  obtain ⟨k, hk⟩ : ∃ k, c - a = k + 1 := ⟨c - a - 1, by omega⟩
  have : c - (a + 1) = k := by omega
  rw [hk, this, List.range'_succ]
  rfl

theorem windowPairs_nil (es : List RawEntry) (a c : Nat) (h : c ≤ a) :
    windowPairs es a c = [] := by
  unfold windowPairs
  have : c - a = 0 := by omega
  rw [this]
  rfl

theorem forwardLoop_layout (r : Reader) (bh : blockHandle) (es : List RawEntry)
    (ris : List Nat) (hwf : WellFormed es ris) (w : Win) (hcn : w.c ≤ es.length) :
    ∀ (fuel : Nat) (i : blockIter) (j : Nat)
      (acc : List (Option (List Nat) × Option (List Nat))),
      FwdAt r (blockOf bh es ris) es ris w i j → w.c - j ≤ fuel →
      ∃ it, forwardLoop fuel i acc = some (acc ++ windowPairs es (j + 1) w.c, it) ∧
        AtEnd r (blockOf bh es ris) es w it dir.dirEOI := by
  intro fuel
  induction fuel with
  | zero =>
    intro i j acc h hf
    have := h.hi
    omega
  | succ f ih =>
    intro i j acc h hf
    have hhi := h.hi
    obtain ⟨hA, hB⟩ := Next_fwd r bh es ris hwf w hcn i j h
    by_cases hlast : j + 1 = w.c
    · obtain ⟨it, hN, hE⟩ := hB hlast
      refine ⟨it, ?_, hE⟩
      simp only [forwardLoop, hN]
      rw [windowPairs_nil es _ _ (by omega), List.append_nil]
    · obtain ⟨it, hN, hFw⟩ := hA (by omega)
      obtain ⟨it2, hL, hE⟩ := ih it (j + 1) (acc ++ [(it.Key, it.Value)]) hFw (by omega)
      refine ⟨it2, ?_, hE⟩
      simp only [forwardLoop, hN]
      rw [hL, windowPairs_cons es (j + 1) w.c (by omega),
        FwdAt_pair r _ es ris w it (j + 1) hFw]
      simp

theorem length_le_encodeEntries (es : List RawEntry) : es.length ≤ (encodeEntries es).length := by
  have := entryOffset_diff es 0 es.length (Nat.zero_le _) (le_refl _)
  rw [entryOffset_zero, entryOffset_length] at this
  omega

theorem forwardAll_layout (r : Reader) (bh : blockHandle) (es : List RawEntry)
    (ris : List Nat) (hwf : WellFormed es ris) (w : Win) (hw : WinOk es ris w)
    (i : blockIter) (h : Ready r (blockOf bh es ris) es w i) :
    ∃ it, forwardAll i = some (windowPairs es w.a w.c, it) ∧
      AtEnd r (blockOf bh es ris) es w it dir.dirEOI := by
  obtain ⟨hA, hB⟩ := First_ready r bh es ris hwf w hw i h
  have hac := hw.ac
  have hcn := hw.cn
  by_cases he : w.a = w.c
  · obtain ⟨it, hN, hE⟩ := hB he
    refine ⟨it, ?_, hE⟩
    simp only [forwardAll, hN]
    rw [windowPairs_nil es _ _ (by omega)]
  · obtain ⟨it, hN, hFw⟩ := hA (by omega)
    have hlen : w.c - w.a ≤ i.block.data.length + 1 := by
      rw [h.framed.block]
      have h1 := length_le_encodeEntries es
      have h2 := encodeBlock_length es ris
      show w.c - w.a ≤ (encodeBlock es ris).length + 1
      omega
    obtain ⟨it2, hL, hE⟩ := forwardLoop_layout r bh es ris hwf w hcn _ it w.a
      [(it.Key, it.Value)] hFw hlen
    refine ⟨it2, ?_, hE⟩
    simp only [forwardAll, hN]
    rw [hL, windowPairs_cons es w.a w.c (by omega), FwdAt_pair r _ es ris w it w.a hFw]
    simp

theorem pairsOf_eq_window (es : List RawEntry) :
    (pairsOf es).map (fun p => (some p.1, some p.2)) = windowPairs es 0 es.length := by
  unfold pairsOf windowPairs valuesOf
  rw [keysOf_eq_map]
  have hv : es.map (fun e => e.value) = (List.range es.length).map (valueAt es) := by
    apply List.ext_getElem
    · simp
    · intro n h1 h2
      simp only [List.getElem_map, List.getElem_range, valueAt, entryAt]
      rw [List.getD_eq_getElem _ _ (by simpa using h1)]
  rw [hv, List.zip_map', List.map_map, List.range_eq_range']
  simp only [Nat.sub_zero]
  rfl


theorem winOk_full (es : List RawEntry) (ris : List Nat) (hwf : WellFormed es ris) :
    WinOk es ris (Win.full es ris) := by
  have hpos := wf_ris_pos es ris hwf
  have h0 := rAt_zero ris hwf.head
  refine ⟨Nat.zero_le _, le_refl _, Nat.zero_le _, le_refl _, Or.inl ⟨hpos, ?_, ?_, ?_⟩, ?_, ?_,
    ?_⟩
  · show rAt ris 0 ≤ 0
    omega
  · intro t ht htl
    have := rAt_lt_of_lt ris hwf.incr 0 t ht htl
    show 0 < rAt ris t
    omega
  · show 0 = entryOffset es (rAt ris 0)
    rw [h0, entryOffset_zero]
  · intro t ht htl
    exact absurd htl (by show ¬ t < ris.length; exact not_lt.mpr ht)
  · intro t ht
    show rAt ris t ≤ es.length
    rcases hwf.restarts with ⟨h1, h2⟩ | h
    · subst h1; subst h2
      have : t = 0 := by simpa [Win.full] using ht
      subst this
      decide
    · exact le_of_lt (restartsOk_spec es ris h t ht).1
  · intro _
    exact hpos

theorem newBlockIter_none (r : Reader) (bh : blockHandle) (es : List RawEntry)
    (ris : List Nat) (incl : Bool) :
    ∃ i0, r.newBlockIter (blockOf bh es ris) none incl = some i0 ∧
      AtEnd r (blockOf bh es ris) es (Win.full es ris) i0 dir.dirSOI := by
  refine ⟨_, rfl, ⟨rfl, rfl, rfl, rfl, rfl, rfl, ?_, ?_⟩, rfl, rfl, rfl⟩
  · show (0 : Int) = ((entryOffset es 0 : Nat) : Int)
    rw [entryOffset_zero]
    rfl
  · show ((encodeEntries es).length : Int) = ((entryOffset es es.length : Nat) : Int)
    rw [entryOffset_length]

theorem atEnd_ready {r : Reader} {b : block} {es : List RawEntry} {w : Win} {i : blockIter}
    {d : dir} (h : AtEnd r b es w i d) (hd : d ≠ dir.dirReleased) : Ready r b es w i :=
  ⟨h.framed, by rw [h.dir]; exact hd, fun _ => ⟨h.prevNode, h.prevKeys⟩⟩

theorem ten_wellFormed : WellFormed tenEntries tenRestarts :=
  ⟨by decide, by decide, Or.inr (by decide), by decide, by decide⟩

/-- C1: for every well-formed block layout (entries stored with shared-prefix lengths,
any set of restart points), the unsliced iterator made by `newBlockIter`, driven by
`First()` and then `Next()` until it returns false, returns: it yields exactly the
stored (key, value) pairs in stored order, each key being the previous key cut to
`shared` bytes followed by the unshared bytes, and ends in state EOI with no error. -/
theorem forward_iteration_yields_entries (r : Reader) (bh : blockHandle)
    (es : List RawEntry) (ris : List Nat) (incl : Bool) (hwf : WellFormed es ris) :
    ∃ i0 it, r.newBlockIter (blockOf bh es ris) none incl = some i0 ∧
      forwardAll i0 = some ((pairsOf es).map (fun p => (some p.1, some p.2)), it) ∧
      it.dir = dir.dirEOI ∧ it.err = none := by
  obtain ⟨i0, h0, hS⟩ := newBlockIter_none r bh es ris incl
  obtain ⟨it, hF, hE⟩ := forwardAll_layout r bh es ris hwf (Win.full es ris)
    (winOk_full es ris hwf) i0 (atEnd_ready hS (by decide))
  refine ⟨i0, it, h0, ?_, hE.dir, hE.framed.err⟩
  rw [hF, pairsOf_eq_window]
  rfl

theorem forward_iteration_yields_entries_witness :
    WellFormed tenEntries tenRestarts ∧
    ∃ i0 it, (plainReader bytesCompare).newBlockIter
        (blockOf { offset := 0, length := 82 } tenEntries tenRestarts) none false = some i0 ∧
      forwardAll i0 = some ((pairsOf tenEntries).map (fun p => (some p.1, some p.2)), it) ∧
      it.dir = dir.dirEOI ∧ it.err = none :=
  ⟨ten_wellFormed, forward_iteration_yields_entries (plainReader bytesCompare)
    { offset := 0, length := 82 } tenEntries tenRestarts false ten_wellFormed⟩


theorem seekLoop_scan (r : Reader) (bh : blockHandle) (es : List RawEntry) (ris : List Nat)
    (hwf : WellFormed es ris) (w : Win) (hcn : w.c ≤ es.length) (key : List Nat) :
    ∀ (fuel : Nat) (i : blockIter) (j : Nat),
      FwdAt r (blockOf bh es ris) es ris w i j → r.cmp (keyAt es j) key < 0 →
      w.c - j ≤ fuel →
      (∀ j2, j < j2 → j2 < w.c → r.cmp (keyAt es j2) key ≥ 0 →
        (∀ y, j < y → y < j2 → r.cmp (keyAt es y) key < 0) →
        ∃ it, seekLoop fuel i key = some (true, it) ∧
          FwdAt r (blockOf bh es ris) es ris w it j2 ∧
          it.restartIndex = i.restartIndex) ∧
      ((∀ y, j < y → y < w.c → r.cmp (keyAt es y) key < 0) →
        ∃ it, seekLoop fuel i key = some (false, it) ∧
          AtEnd r (blockOf bh es ris) es w it dir.dirEOI) := by
  intro fuel
  induction fuel with
  | zero =>
    intro i j h _ hf
    have := h.hi
    omega
  | succ f ih =>
    intro i j h hlt hf
    have hhi := h.hi
    obtain ⟨_, hB⟩ := Next_fwd r bh es ris hwf w hcn i j h
    by_cases hlast : j + 1 = w.c
    · obtain ⟨it, hN, hE⟩ := hB hlast
      constructor
      · intro j2 h1 h2 _ _
        omega
      · intro _
        exact ⟨it, by simp only [seekLoop, hN], hE⟩
    · obtain ⟨it, hN, hFw, hri⟩ := Next_fwd_ri r bh es ris hwf w hcn i j h (by omega)
      have hcmp : it.tr.cmp it.key key = r.cmp (keyAt es (j + 1)) key := by
        rw [hFw.framed.tr, hFw.key]
      by_cases hge : r.cmp (keyAt es (j + 1)) key ≥ 0
      · constructor
        · intro j2 h1 h2 h3 h4
          have : j2 = j + 1 := by
            by_contra hne
            have := h4 (j + 1) (by omega) (by omega)
            omega
          subst this
          refine ⟨it, ?_, hFw, hri⟩
          simp only [seekLoop, hN]
          rw [if_pos (by rw [hcmp]; exact hge)]
        · intro hall
          have := hall (j + 1) (by omega) (by omega)
          omega
      · obtain ⟨ihA, ihB⟩ := ih it (j + 1) hFw (by omega) (by omega)
        have hstep : seekLoop (f + 1) i key = seekLoop f it key := by
          simp only [seekLoop, hN]
          rw [if_neg (by rw [hcmp]; exact hge)]
        rw [hstep]
        constructor
        · intro j2 h1 h2 h3 h4
          have hne : j2 ≠ j + 1 := by
            intro he; subst he; exact hge h3
          obtain ⟨it2, hS2, hF2, hr2⟩ :=
            ihA j2 (by omega) h2 h3 (fun y hy1 hy2 => h4 y (by omega) hy2)
          exact ⟨it2, hS2, hF2, by rw [hr2, hri]⟩
        · intro hall
          exact ihB (fun y hy1 hy2 => hall y (by omega) hy2)

theorem seekLoop_start (r : Reader) (bh : blockHandle) (es : List RawEntry) (ris : List Nat)
    (hwf : WellFormed es ris) (w : Win) (hac : w.a ≤ w.c) (hcn : w.c ≤ es.length)
    (key : List Nat) (i : blockIter) (x s : Nat) (fuel : Nat)
    (hd : i.dir = dir.dirForward ∨ i.dir = dir.dirBackward)
    (hf : Framed r (blockOf bh es ris) es w i)
    (hcache : i.dir ≠ dir.dirBackward → i.prevNode = [] ∧ i.prevKeys = [])
    (hx : i.offset = (entryOffset es x : Int)) (hxc : x ≤ w.c)
    (hk : x < es.length → KeyOk es x i.key)
    (hs : max x w.a < w.c →
      i.restartIndex = (s : Int) ∧ w.sS ≤ s ∧ s < ris.length ∧ rAt ris s ≤ max x w.a)
    (hfuel : w.c - max x w.a ≤ fuel) :
    (∀ j2, max x w.a ≤ j2 → j2 < w.c → r.cmp (keyAt es j2) key ≥ 0 →
      (∀ y, max x w.a ≤ y → y < j2 → r.cmp (keyAt es y) key < 0) →
      ∃ it, seekLoop (fuel + 1) i key = some (true, it) ∧
        FwdAt r (blockOf bh es ris) es ris w it j2 ∧ it.restartIndex = i.restartIndex) ∧
    ((∀ y, max x w.a ≤ y → y < w.c → r.cmp (keyAt es y) key < 0) →
      ∃ it, seekLoop (fuel + 1) i key = some (false, it) ∧
        AtEnd r (blockOf bh es ris) es w it dir.dirEOI) := by
  have hmc : max x w.a ≤ w.c := by omega
  have hnext : (max x w.a < w.c → ∃ it, i.Next = some (true, it) ∧
      FwdAt r (blockOf bh es ris) es ris w it (max x w.a) ∧
      it.restartIndex = i.restartIndex) ∧
    (max x w.a = w.c → ∃ it, i.Next = some (false, it) ∧
      AtEnd r (blockOf bh es ris) es w it dir.dirEOI) := by
    rcases hd with hd | hd
    · exact Next_to_fwd r bh es ris hwf w i i x s hf.err (Or.inr (Or.inl hd))
        (by simp [hd]) hf (hcache (by simp [hd])).1 (hcache (by simp [hd])).2 hx hac hcn hxc
        hk hs
    · exact Next_to_fwd r bh es ris hwf w i { i with prevNode := [], prevKeys := [] } x s
        hf.err (Or.inr (Or.inr hd)) (by simp [hd])
        ⟨hf.tr, hf.block, hf.err, hf.riStart, hf.riLimit, hf.offsetStart,
          hf.offsetRealStart, hf.offsetLimit⟩ rfl rfl hx hac hcn hxc hk hs
  generalize max x w.a = m at *
  obtain ⟨hA, hB⟩ := hnext
  by_cases hlast : m = w.c
  · obtain ⟨it, hN, hE⟩ := hB hlast
    constructor
    · intro j2 h1 h2 _ _
      omega
    · intro _
      exact ⟨it, by simp only [seekLoop, hN], hE⟩
  · obtain ⟨it, hN, hFw, hri⟩ := hA (by omega)
    have hcmp : it.tr.cmp it.key key = r.cmp (keyAt es m) key := by
      rw [hFw.framed.tr, hFw.key]
    by_cases hge : r.cmp (keyAt es m) key ≥ 0
    · constructor
      · intro j2 h1 h2 h3 h4
        have : j2 = m := by
          by_contra hne
          have := h4 m (le_refl _) (by omega)
          omega
        subst this
        refine ⟨it, ?_, hFw, hri⟩
        simp only [seekLoop, hN]
        rw [if_pos (by rw [hcmp]; exact hge)]
      · intro hall
        have := hall m (le_refl _) (by omega)
        omega
    · obtain ⟨ihA, ihB⟩ := seekLoop_scan r bh es ris hwf w hcn key fuel it m hFw (by omega)
        (by omega)
      have hstep : seekLoop (fuel + 1) i key = seekLoop fuel it key := by
        simp only [seekLoop, hN]
        rw [if_neg (by rw [hcmp]; exact hge)]
      rw [hstep]
      constructor
      · intro j2 h1 h2 h3 h4
        have hne : j2 ≠ m := by
          intro he; subst he; exact hge h3
        obtain ⟨it2, hS2, hF2, hr2⟩ :=
          ihA j2 (by omega) h2 h3 (fun y hy1 hy2 => h4 y (by omega) hy2)
        exact ⟨it2, hS2, hF2, by rw [hr2, hri]⟩
      · intro hall
        exact ihB (fun y hy1 hy2 => hall y (by omega) hy2)

theorem ris_length_le (es : List RawEntry) (ris : List Nat) (hwf : WellFormed es ris)
    (hne : es ≠ []) : ris.length ≤ es.length := by
  by_contra hgt
  have hlt : es.length < ris.length := by omega
  have hmono : ∀ t, t < ris.length → t ≤ rAt ris t := by
    intro t
    induction t with
    | zero => intro _; omega
    | succ t ih =>
      intro ht
      have := ih (by omega)
      have := rAt_lt_of_lt ris hwf.incr t (t + 1) (by omega) ht
      omega
  have h1 := hmono es.length hlt
  have h2 := (wf_restart_lt es ris hwf hne es.length hlt).1
  omega

theorem rAt_mono (ris : List Nat) (h : ris.Pairwise (fun a b => a < b)) (s t : Nat)
    (hst : s ≤ t) (ht : t < ris.length) : rAt ris s ≤ rAt ris t := by
  by_cases he : s = t
  · subst he; exact le_refl _
  · exact le_of_lt (rAt_lt_of_lt ris h s t (by omega) ht)


theorem seekGreater_nil_aux (b : block) (cmp : List Nat → List Nat → Int) (key : List Nat)
    (hd : b.data = [0, 0, 0, 0, 1, 0, 0, 0]) (hr : b.restartsOffset = 0) :
    b.seekGreater cmp 0 key 0 = some (decide (cmp [] key > 0)) := by
  unfold block.seekGreater
  rw [hd, hr]
  have h1 : sliceFrom [0, 0, 0, 0, 1, 0, 0, 0] (0 + 4 * (0 + 0)) = some [0, 0, 0, 0, 1, 0, 0, 0] := by
    decide
  rw [h1]
  simp only [leUint32]
  have h2 : sliceFrom [0, 0, 0, 0, 1, 0, 0, 0] (((0 + 0 * 2 ^ 8 + 0 * 2 ^ 16 + 0 * 2 ^ 24 : Nat) : Int) + 1)
      = some [0, 0, 0, 1, 0, 0, 0] := by decide
  rw [h2]
  simp only
  have h3 : Uvarint [0, 0, 0, 1, 0, 0, 0] = (0, 1) := by decide
  rw [h3]
  simp only
  have h4 : sliceFrom [0, 0, 0, 0, 1, 0, 0, 0]
      (((0 + 0 * 2 ^ 8 + 0 * 2 ^ 16 + 0 * 2 ^ 24 : Nat) : Int) + 1 + 1) = some [0, 0, 1, 0, 0, 0] := by
    decide
  rw [h4]
  simp only
  have h5 : Uvarint [0, 0, 1, 0, 0, 0] = (0, 1) := by decide
  rw [h5]
  simp only
  have h6 : slice [0, 0, 0, 0, 1, 0, 0, 0]
      (((0 + 0 * 2 ^ 8 + 0 * 2 ^ 16 + 0 * 2 ^ 24 : Nat) : Int) + 1 + 1 + 1)
      (wrap64 (((0 + 0 * 2 ^ 8 + 0 * 2 ^ 16 + 0 * 2 ^ 24 : Nat) : Int) + 1 + 1 + 1 + toInt64 0)) = some [] := by
    decide
  rw [h6]

theorem seek_nil_aux (b : block) (cmp : List Nat → List Nat → Int) (key : List Nat)
    (hd : b.data = [0, 0, 0, 0, 1, 0, 0, 0]) (hr : b.restartsOffset = 0)
    (hl : b.restartsLen = 1) :
    b.seek cmp 0 1 key = some (0, 0, none) := by
  have hg := seekGreater_nil_aux b cmp key hd hr
  have hs : ∃ found, sortSearch (b.restartsLen - 0 - (b.restartsLen - 1))
      (b.seekGreater cmp 0 key) = some found ∧ (found = 0 ∨ found = 1) := by
    have h1 : b.restartsLen - 0 - (b.restartsLen - 1) = 1 := by
      rw [hl]; rfl
    rw [h1]
    have h2 : ((0 : Int) + 1) / 2 = 0 := by decide
    cases hb : decide (cmp [] key > 0)
    · refine ⟨1, ?_, Or.inr rfl⟩
      rw [hb] at hg
      show searchLoop _ (0 + 1) 0 1 = _
      rw [searchLoop, if_pos (by decide)]
      simp only [h2, hg]
      rfl
    · refine ⟨0, ?_, Or.inl rfl⟩
      rw [hb] at hg
      show searchLoop _ (0 + 1) 0 1 = _
      rw [searchLoop, if_pos (by decide)]
      simp only [h2, hg]
      rfl
  obtain ⟨found, hf, hcase⟩ := hs
  rw [seek_eq_search _ _ _ _ _ _ hf]
  have hro : b.restartOffset 0 = some 0 := by
    unfold block.restartOffset
    rw [hd, hr]
    decide
  rcases hcase with h | h
  · subst h
    rw [if_pos (by decide), hro]
    rfl
  · subst h
    rw [if_neg (by decide)]
    have : (1 : Int) + 0 - 1 = 0 := by decide
    rw [this, hro]
    rfl

theorem seek_nil (bh : blockHandle) (cmp : List Nat → List Nat → Int) (key : List Nat) :
    (blockOf bh [] [0]).seek cmp 0 1 key = some (0, 0, none) :=
  seek_nil_aux _ cmp key rfl rfl rfl

theorem Seek_core_any (r : Reader) (bh : blockHandle) (es : List RawEntry)
    (ris : List Nat) (hwf : WellFormed es ris) (w : Win) (hac : w.a ≤ w.c)
    (hcn : w.c ≤ es.length) (i : blockIter)
    (h : Ready r (blockOf bh es ris) es w i) (key : List Nat) (idx : Nat) (off : Int)
    (x : Nat)
    (hseek : (blockOf bh es ris).seek r.cmp (w.sS : Int) (w.sL : Int) key =
      some ((idx : Int), off, none))
    (hi1 : w.sS ≤ idx)
    (hxoff : max (w.oS : Int) off = (entryOffset es x : Int)) (hxc : x ≤ w.c)
    (hxk : x < es.length → KeyOk es x i.key)
    (hxs : max x w.a < w.c → idx < ris.length ∧ rAt ris idx ≤ max x w.a) :
    (∀ j2, max x w.a ≤ j2 → j2 < w.c → r.cmp (keyAt es j2) key ≥ 0 →
      (∀ y, max x w.a ≤ y → y < j2 → r.cmp (keyAt es y) key < 0) →
      ∃ it, i.Seek key = some (true, it) ∧ FwdAt r (blockOf bh es ris) es ris w it j2 ∧
        it.restartIndex = (idx : Int)) ∧
    ((∀ y, max x w.a ≤ y → y < w.c → r.cmp (keyAt es y) key < 0) →
      ∃ it, i.Seek key = some (false, it) ∧
        AtEnd r (blockOf bh es ris) es w it dir.dirEOI) := by
  have hfr := h.framed
  have htot := length_le_encodeEntries es
  have hseek2 : i.block.seek i.tr.cmp i.riStart i.riLimit key =
      some ((idx : Int), off, none) := by
    rw [hfr.block, hfr.tr, hfr.riStart, hfr.riLimit]; exact hseek
  have hmax2 : max i.offsetStart off = (entryOffset es x : Int) := by
    rw [hfr.offsetStart]; exact hxoff
  have hS : i.Seek key = seekLoop (i.block.data.length + 1)
      { i with restartIndex := (idx : Int), offset := (entryOffset es x : Int),
               dir := if i.dir = dir.dirSOI ∨ i.dir = dir.dirEOI then dir.dirForward
                 else i.dir } key := by
    unfold blockIter.Seek
    rw [if_neg (by simp [hfr.err]), if_neg h.live, hseek2]
    simp only
    rw [hmax2]
    by_cases hcnd : i.dir = dir.dirSOI ∨ i.dir = dir.dirEOI
    · rw [if_pos hcnd, if_pos hcnd]
    · rw [if_neg hcnd, if_neg hcnd]
  have hd2 : (if i.dir = dir.dirSOI ∨ i.dir = dir.dirEOI then dir.dirForward else i.dir) =
      dir.dirForward ∨
      (if i.dir = dir.dirSOI ∨ i.dir = dir.dirEOI then dir.dirForward else i.dir) =
      dir.dirBackward := by
    have hl := h.live
    cases hdd : i.dir <;> simp_all
  have hcache2 : (if i.dir = dir.dirSOI ∨ i.dir = dir.dirEOI then dir.dirForward else i.dir) ≠
      dir.dirBackward → i.prevNode = [] ∧ i.prevKeys = [] := by
    intro hnb
    apply h.cache
    intro hb
    rw [hb] at hnb
    simp at hnb
  have hfuel : w.c - max x w.a ≤ i.block.data.length := by
    rw [hfr.block]
    have h2 := encodeBlock_length es ris
    show w.c - max x w.a ≤ (encodeBlock es ris).length
    omega
  obtain ⟨hA, hB⟩ := seekLoop_start r bh es ris hwf w hac hcn key
    { i with restartIndex := (idx : Int), offset := (entryOffset es x : Int),
             dir := if i.dir = dir.dirSOI ∨ i.dir = dir.dirEOI then dir.dirForward
               else i.dir } x idx i.block.data.length hd2
    ⟨hfr.tr, hfr.block, hfr.err, hfr.riStart, hfr.riLimit, hfr.offsetStart,
      hfr.offsetRealStart, hfr.offsetLimit⟩ hcache2 rfl hxc hxk
    (fun hlt => ⟨rfl, hi1, (hxs hlt).1, (hxs hlt).2⟩) hfuel
  rw [hS]
  exact ⟨hA, hB⟩

theorem Seek_core (r : Reader) (bh : blockHandle) (es : List RawEntry) (ris : List Nat)
    (hwf : WellFormed es ris) (w : Win) (hw : WinOk es ris w) (i : blockIter)
    (h : Ready r (blockOf bh es ris) es w i) (key : List Nat) (idx : Nat) (off : Int)
    (x : Nat)
    (hseek : (blockOf bh es ris).seek r.cmp (w.sS : Int) (w.sL : Int) key =
      some ((idx : Int), off, none))
    (hi1 : w.sS ≤ idx)
    (hxoff : max (w.oS : Int) off = (entryOffset es x : Int)) (hxc : x ≤ w.c)
    (hxk : x < es.length → KeyOk es x i.key)
    (hxs : max x w.a < w.c → idx < ris.length ∧ rAt ris idx ≤ max x w.a)
    (hxlt : ∀ y, w.a ≤ y → y < max x w.a → r.cmp (keyAt es y) key < 0) :
    (∀ j2, w.a ≤ j2 → j2 < w.c → r.cmp (keyAt es j2) key ≥ 0 →
      (∀ y, w.a ≤ y → y < j2 → r.cmp (keyAt es y) key < 0) →
      ∃ it, i.Seek key = some (true, it) ∧ FwdAt r (blockOf bh es ris) es ris w it j2 ∧
        it.restartIndex = (idx : Int)) ∧
    ((∀ y, w.a ≤ y → y < w.c → r.cmp (keyAt es y) key < 0) →
      ∃ it, i.Seek key = some (false, it) ∧
        AtEnd r (blockOf bh es ris) es w it dir.dirEOI) := by
  obtain ⟨hA, hB⟩ := Seek_core_any r bh es ris hwf w hw.ac hw.cn i h key idx off x hseek hi1
    hxoff hxc hxk hxs
  constructor
  · intro j2 h1 h2 h3 h4
    have hge : max x w.a ≤ j2 := by
      by_contra hcon
      have := hxlt j2 h1 (by omega)
      omega
    exact hA j2 hge h2 h3 (fun y hy1 hy2 => h4 y (by omega) hy2)
  · intro hall
    exact hB (fun y hy1 hy2 => hall y (by omega) hy2)

theorem Seek_layout (r : Reader) (bh : blockHandle) (es : List RawEntry) (ris : List Nat)
    (hwf : WellFormed es ris) (hne : es ≠ []) (hc : IsComparer r.cmp)
    (hs : StrictSorted r.cmp (keysOf es)) (w : Win) (hw : WinOk es ris w) (i : blockIter)
    (h : Ready r (blockOf bh es ris) es w i) (key : List Nat) :
    (∀ j2, w.a ≤ j2 → j2 < w.c → r.cmp (keyAt es j2) key ≥ 0 →
      (∀ y, w.a ≤ y → y < j2 → r.cmp (keyAt es y) key < 0) →
      ∃ it, i.Seek key = some (true, it) ∧ FwdAt r (blockOf bh es ris) es ris w it j2 ∧
        ∃ idx : Nat, it.restartIndex = (idx : Int) ∧
          ∀ t, idx < t → t < w.sL → r.cmp (keyAt es (rAt ris t)) key > 0) ∧
    ((∀ y, w.a ≤ y → y < w.c → r.cmp (keyAt es y) key < 0) →
      ∃ it, i.Seek key = some (false, it) ∧
        AtEnd r (blockOf bh es ris) es w it dir.dirEOI) := by
  have hac := hw.ac
  have hcn := hw.cn
  obtain ⟨idx, hseek, hi1, hi2, hi3, hi4⟩ :=
    layout_seek bh es ris hwf hne r.cmp hc hs w.sS w.sL hw.sSL hw.sLn key
  have hsLn := hw.sLn
  have hrl := ris_length_le es ris hwf hne
  have htot := length_le_encodeEntries es
  obtain ⟨x, hxoff, hxc, hxk, hxs, hxlt⟩ : ∃ x : Nat,
      max (w.oS : Int) (if idx < ris.length then (entryOffset es (rAt ris idx) : Int)
        else (ris.length : Int)) = (entryOffset es x : Int) ∧ x ≤ w.c ∧
      (x < es.length → KeyOk es x i.key) ∧
      (max x w.a < w.c → idx < ris.length ∧ rAt ris idx ≤ max x w.a) ∧
      (∀ y, w.a ≤ y → y < max x w.a → r.cmp (keyAt es y) key < 0) := by
    by_cases hil : idx < ris.length
    · rw [if_pos hil]
      have hsl : w.sS < ris.length := by omega
      rcases hw.start with ⟨_, h2, _, h4⟩ | ⟨h1, _, _⟩
      · have hm := rAt_mono ris hwf.incr w.sS idx hi1 hil
        have hmo := entryOffset_mono es _ _ hm
        refine ⟨rAt ris idx, ?_, ?_, ?_, ?_, ?_⟩
        · rw [h4]; omega
        · rcases hi2 with hlt | heq
          · exact hw.inside idx hlt
          · rw [heq]; omega
        · intro _
          exact Or.inl (wf_restart_lt es ris hwf hne idx hil).2
        · intro _
          exact ⟨hil, le_max_left _ _⟩
        · intro y hy1 hy2
          by_cases hxa : rAt ris idx ≤ w.a
          · rw [max_eq_right hxa] at hy2; omega
          · have hlt : y < rAt ris idx := by
              rw [max_eq_left (by omega)] at hy2; exact hy2
            have hidx : w.sS < idx := by
              by_contra hcon
              have : idx = w.sS := by omega
              rw [this] at hxa
              exact hxa h2
            have hle := hi4 hidx
            have hrn := (wf_restart_lt es ris hwf hne idx hil).1
            exact cmp_lt_of_lt_of_le r.cmp hc _ _ _
              (sorted_keyAt r.cmp es hs y (rAt ris idx) hlt hrn) hle
      · omega
    · rw [if_neg hil]
      have hidx : idx = w.sS := by
        rcases hi2 with hlt | heq
        · omega
        · exact heq
      rcases hw.start with ⟨h1, _, _, _⟩ | ⟨_, h2, h3⟩
      · omega
      · refine ⟨es.length, ?_, ?_, ?_, ?_, ?_⟩
        · rw [h3, entryOffset_length]; omega
        · omega
        · intro hlt; omega
        · intro hlt
          rw [max_eq_left (by omega)] at hlt
          omega
        · intro y hy1 hy2
          rw [h2] at hy1
          rw [max_eq_left (by omega)] at hy2
          omega
  obtain ⟨hA, hB⟩ :=
    Seek_core r bh es ris hwf w hw i h key idx _ x hseek hi1 hxoff hxc hxk hxs hxlt
  refine ⟨fun j2 h1 h2 h3 h4 => ?_, hB⟩
  obtain ⟨it, hS, hF, hri⟩ := hA j2 h1 h2 h3 h4
  exact ⟨it, hS, hF, idx, hri, hi3⟩

theorem wf_nil_ris (ris : List Nat) (hwf : WellFormed [] ris) : ris = [0] := by
  rcases hwf.restarts with ⟨_, h⟩ | h
  · exact h
  · have hh := hwf.head
    cases ris with
    | nil => simp at hh
    | cons a t => simp [restartsOk] at h

theorem Seek_full (r : Reader) (bh : blockHandle) (es : List RawEntry) (ris : List Nat)
    (hwf : WellFormed es ris) (hc : IsComparer r.cmp)
    (hs : StrictSorted r.cmp (keysOf es)) (i : blockIter)
    (h : Ready r (blockOf bh es ris) es (Win.full es ris) i) (key : List Nat) :
    (∀ j2, j2 < es.length → r.cmp (keyAt es j2) key ≥ 0 →
      (∀ y, y < j2 → r.cmp (keyAt es y) key < 0) →
      ∃ it, i.Seek key = some (true, it) ∧
        FwdAt r (blockOf bh es ris) es ris (Win.full es ris) it j2) ∧
    ((∀ y, y < es.length → r.cmp (keyAt es y) key < 0) →
      ∃ it, i.Seek key = some (false, it) ∧
        AtEnd r (blockOf bh es ris) es (Win.full es ris) it dir.dirEOI) := by
  have hw := winOk_full es ris hwf
  by_cases hne : es = []
  · subst hne
    have hr := wf_nil_ris ris hwf
    subst hr
    obtain ⟨hA, hB⟩ := Seek_core r bh [] [0] hwf (Win.full [] [0]) hw i h key 0 0 0
      (seek_nil bh r.cmp key) (le_refl _) (by decide) (by decide)
      (fun hlt => absurd hlt (by decide))
      (fun hlt => absurd hlt (by decide))
      (fun y _ hy => absurd hy (by show ¬ y < max 0 0; simp))
    exact ⟨fun j2 h1 h2 h3 =>
        (hA j2 (Nat.zero_le _) h1 h2 (fun y _ hy => h3 y hy)).imp (fun _ hx => ⟨hx.1, hx.2.1⟩),
      fun hall => hB (fun y _ hy => hall y hy)⟩
  · obtain ⟨hA, hB⟩ := Seek_layout r bh es ris hwf hne hc hs (Win.full es ris) hw i h key
    exact ⟨fun j2 h1 h2 h3 =>
        (hA j2 (Nat.zero_le _) h1 h2 (fun y _ hy => h3 y hy)).imp (fun _ hx => ⟨hx.1, hx.2.1⟩),
      fun hall => hB (fun y _ hy => hall y hy)⟩

end table
namespace table

theorem bytesCompare_cases (a b : List Nat) :
    bytesCompare a b = -1 ∨ bytesCompare a b = 0 ∨ bytesCompare a b = 1 := by
  induction a generalizing b with
  | nil => cases b <;> simp [bytesCompare]
  | cons x xs ih =>
    cases b with
    | nil => simp [bytesCompare]
    | cons y ys =>
      simp only [bytesCompare]
      split_ifs
      · simp
      · simp
      · exact ih ys

theorem bytesCompare_flip (a b : List Nat) : bytesCompare a b < 0 ↔ bytesCompare b a > 0 := by
  induction a generalizing b with
  | nil => cases b <;> simp [bytesCompare]
  | cons x xs ih =>
    cases b with
    | nil => simp [bytesCompare]
    | cons y ys =>
      simp only [bytesCompare]
      by_cases h1 : x < y
      · have h2 : ¬ y < x := by omega
        have h3 : y > x := h1
        simp [h1, h2, h3]
      · by_cases h2 : x > y
        · have h3 : y < x := h2
          simp [h1, h2, h3]
        · have h3 : ¬ y < x := h2
          have h4 : ¬ y > x := h1
          simp only [h1, h2, h3, h4, if_false]
          exact ih ys

theorem bytesCompare_trans (a b c : List Nat) (h1 : bytesCompare a b ≤ 0)
    (h2 : bytesCompare b c ≤ 0) : bytesCompare a c ≤ 0 := by
  induction a generalizing b c with
  | nil => cases c <;> simp [bytesCompare]
  | cons x xs ih =>
    cases b with
    | nil => simp [bytesCompare] at h1
    | cons y ys =>
      cases c with
      | nil => simp [bytesCompare] at h2
      | cons z zs =>
        simp only [bytesCompare] at h1 h2 ⊢
        by_cases hxy : x < y
        · by_cases hyz : y < z
          · have : x < z := by omega
            simp [this]
          · by_cases hyz2 : y > z
            · simp [hyz, hyz2] at h2
            · have : x < z := by omega
              simp [this]
        · by_cases hxy2 : x > y
          · simp [hxy, hxy2] at h1
          · have hxe : x = y := by omega
            subst hxe
            simp only [hxy, hxy2, if_false] at h1
            by_cases hyz : x < z
            · simp [hyz]
            · by_cases hyz2 : x > z
              · simp [hyz, hyz2] at h2
              · simp only [hyz, hyz2, if_false] at h2 ⊢
                exact ih ys zs h1 h2

theorem bytesCompare_isComparer : IsComparer bytesCompare :=
  ⟨bytesCompare_flip, bytesCompare_trans⟩

theorem ten_sorted : StrictSorted bytesCompare (keysOf tenEntries) := by
  unfold StrictSorted
  decide

theorem dup_wellFormed : WellFormed dupEntries dupRestarts :=
  ⟨by decide, by decide, Or.inr (by decide), by decide, by decide⟩

/-- Seek on strictly increasing keys: for every well-formed block, the empty one
included, whose keys increase strictly under the comparer and every target key,
`Seek(target)` on the unsliced iterator returns: it returns true standing on the first
stored entry whose key is not below the target (so on a restart entry itself when the
target is its key), with that entry's key and value and no error, and it returns false
in state EOI with no error when every key is below the target. -/
theorem seek_first_not_below (r : Reader) (bh : blockHandle) (es : List RawEntry)
    (ris : List Nat) (incl : Bool) (key : List Nat) (hwf : WellFormed es ris)
    (hc : IsComparer r.cmp) (hs : StrictSorted r.cmp (keysOf es)) :
    ∃ i0, r.newBlockIter (blockOf bh es ris) none incl = some i0 ∧
      (∀ j, j < es.length → r.cmp (keyAt es j) key ≥ 0 →
        (∀ y, y < j → r.cmp (keyAt es y) key < 0) →
        ∃ it, i0.Seek key = some (true, it) ∧ it.Key = some (keyAt es j) ∧
          it.Value = some (valueAt es j) ∧ it.prevOffset = (entryOffset es j : Int) ∧
          it.dir = dir.dirForward ∧ it.err = none) ∧
      ((∀ y, y < es.length → r.cmp (keyAt es y) key < 0) →
        ∃ it, i0.Seek key = some (false, it) ∧ it.dir = dir.dirEOI ∧ it.err = none) := by
  obtain ⟨i0, h0, hS⟩ := newBlockIter_none r bh es ris incl
  obtain ⟨hA, hB⟩ := Seek_full r bh es ris hwf hc hs i0 (atEnd_ready hS (by decide)) key
  refine ⟨i0, h0, ?_, ?_⟩
  · intro j h1 h2 h3
    obtain ⟨it, hSk, hF⟩ := hA j h1 h2 h3
    have hp := FwdAt_pair r _ es ris _ it j hF
    unfold entryPair at hp
    exact ⟨it, hSk, (Prod.ext_iff.mp hp).1, (Prod.ext_iff.mp hp).2, hF.prevOffset, hF.dir,
      hF.framed.err⟩
  · intro hall
    obtain ⟨it, hSk, hE⟩ := hB hall
    exact ⟨it, hSk, hE.dir, hE.framed.err⟩

theorem seek_first_not_below_witness :
    ∃ i0, (plainReader bytesCompare).newBlockIter
        (blockOf { offset := 0, length := 82 } tenEntries tenRestarts) none false = some i0 ∧
      (∀ j, j < tenEntries.length → bytesCompare (keyAt tenEntries j) [107, 52] ≥ 0 →
        (∀ y, y < j → bytesCompare (keyAt tenEntries y) [107, 52] < 0) →
        ∃ it, i0.Seek [107, 52] = some (true, it) ∧ it.Key = some (keyAt tenEntries j) ∧
          it.Value = some (valueAt tenEntries j) ∧
          it.prevOffset = (entryOffset tenEntries j : Int) ∧
          it.dir = dir.dirForward ∧ it.err = none) ∧
      ((∀ y, y < tenEntries.length → bytesCompare (keyAt tenEntries y) [107, 52] < 0) →
        ∃ it, i0.Seek [107, 52] = some (false, it) ∧ it.dir = dir.dirEOI ∧ it.err = none) :=
  seek_first_not_below (plainReader bytesCompare) { offset := 0, length := 82 } tenEntries
    tenRestarts false [107, 52] ten_wellFormed bytesCompare_isComparer ten_sorted

/-- C2, failing input: the well-formed block with the keys `a`, `b`, `b` (values 1, 2,
3; restart points at entries 0 and 2) is sorted under `bytes.Compare`, entry 0 is below
`b` and entry 1 (value 2) is the first entry in stored order whose key is not below
`b`; `Seek(b)` returns true standing on entry 2 (value 3, at the offset of entry 2):
`block.seek` picks the restart point at entry 2, whose key equals the target, and the
scan starts there, past entry 1. -/
theorem seek_skips_equal_key :
    WellFormed dupEntries dupRestarts ∧
    (keysOf dupEntries).Pairwise (fun a b => bytesCompare a b ≤ 0) ∧
    bytesCompare (keyAt dupEntries 0) [98] < 0 ∧ bytesCompare (keyAt dupEntries 1) [98] ≥ 0 ∧
    valueAt dupEntries 1 = [2] ∧
    (((plainReader bytesCompare).newBlockIter
        (blockOf { offset := 0, length := 0 } dupEntries dupRestarts) none false).bind
      (fun i => i.Seek [98])).map (fun p => (p.1, p.2.Key, p.2.Value, p.2.prevOffset)) =
      some (true, some [98], some [3], (entryOffset dupEntries 2 : Int)) :=
  ⟨dup_wellFormed, by decide, by decide, by decide, by decide, by decide⟩

end table
namespace table

/-- C27 (as amended): `blockIter.Release` on an iterator that is not yet released
returns, puts it in state `dirReleased` with its caches, key and value cleared, calls
`Release()` of the block releaser and then of the extra releaser, once each, and
drops both; `Release` on a released iterator returns without a panic and changes
nothing: no releaser is called again. -/
theorem blockIter_release_once (h : heldIter) (log : List Nat) :
    (h.i.dir ≠ dir.dirReleased →
      ∃ h1, h.Release log = some (h1, log ++ h.blockReleaser.toList ++ h.releaser.toList) ∧
        h1.i.dir = dir.dirReleased ∧ h1.blockReleaser = none ∧ h1.releaser = none ∧
        h1.i.key = [] ∧ h1.i.value = none ∧ h1.i.prevNode = [] ∧ h1.i.prevKeys = [] ∧
        h1.i.err = h.i.err ∧
        ∀ log1, h1.Release log1 = some (h1, log1)) ∧
    (h.i.dir = dir.dirReleased → h.Release log = some (h, log)) := by
  constructor
  · intro hd
    let i1 : blockIter :=
      { h.i with prevNode := [], prevKeys := [], key := [], value := none,
                 dir := dir.dirReleased }
    refine ⟨⟨i1, none, none⟩, ?_, rfl, rfl, rfl, rfl, rfl, rfl, rfl, rfl, ?_⟩
    · unfold heldIter.Release
      rw [if_pos hd]
      cases hb : h.blockReleaser <;> cases hr : h.releaser <;> simp
    · intro log1
      unfold heldIter.Release
      rw [if_neg (by simp)]
  · intro hd
    unfold heldIter.Release
    rw [if_neg (by simp [hd])]

/-- C27 (counterexample): the iterator over the ten-entry block with block releaser 1,
released twice: both calls return, the second one changes nothing, and the block
releaser has been called exactly once. -/
theorem blockIter_second_release_no_panic :
    ((((plainReader bytesCompare).newHeldIter tenBlock (some 1) none false).bind
        (fun h => h.Release [])).bind
      (fun p => (p.1.Release p.2).map
        (fun q => (p.1.i.dir, p.2, q.1.i.dir, q.2, q.1.blockReleaser)))) =
      some (dir.dirReleased, [1], dir.dirReleased, [1], none) := by
  decide

/-- C28: `blockIter.SetReleaser` panics exactly when the iterator is released, or a
releaser is already set and the one given is not nil; otherwise it stores the
releaser given and changes nothing else. -/
theorem blockIter_setReleaser (h : heldIter) (releaser : Option Nat) :
    (h.SetReleaser releaser = none ↔
      (h.i.dir = dir.dirReleased ∨ (h.releaser ≠ none ∧ releaser ≠ none))) ∧
    (∀ h1, h.SetReleaser releaser = some h1 →
      h1.releaser = releaser ∧ h1.i = h.i ∧ h1.blockReleaser = h.blockReleaser) := by
  unfold heldIter.SetReleaser
  by_cases hd : h.i.dir = dir.dirReleased
  · rw [if_pos hd]
    exact ⟨⟨fun _ => Or.inl hd, fun _ => rfl⟩, fun h1 hh => by simp at hh⟩
  · rw [if_neg hd]
    by_cases hr : h.releaser ≠ none ∧ releaser ≠ none
    · rw [if_pos hr]
      exact ⟨⟨fun _ => Or.inr hr, fun _ => rfl⟩, fun h1 hh => by simp at hh⟩
    · rw [if_neg hr]
      refine ⟨⟨fun hh => by simp at hh, fun hh => ?_⟩, fun h1 hh => ?_⟩
      · rcases hh with hh | hh
        · exact absurd hh hd
        · exact absurd hh hr
      · simp only [Option.some.injEq] at hh
        subst hh
        exact ⟨rfl, rfl, rfl⟩


theorem blockIter_release_once_witness :
    exampleHeld.i.dir ≠ dir.dirReleased ∧
    ∃ h1, exampleHeld.Release [] =
        some (h1, [] ++ exampleHeld.blockReleaser.toList ++ exampleHeld.releaser.toList) ∧
      h1.i.dir = dir.dirReleased ∧ h1.blockReleaser = none ∧ h1.releaser = none ∧
      h1.i.key = [] ∧ h1.i.value = none ∧ h1.i.prevNode = [] ∧ h1.i.prevKeys = [] ∧
      h1.i.err = exampleHeld.i.err ∧
      ∀ log1, h1.Release log1 = some (h1, log1) :=
  ⟨by decide, (blockIter_release_once exampleHeld []).1 (by decide)⟩

theorem blockIter_setReleaser_witness :
    (exampleHeld.SetReleaser (some 3) = none ↔
      (exampleHeld.i.dir = dir.dirReleased ∨
        (exampleHeld.releaser ≠ none ∧ (some 3 : Option Nat) ≠ none))) ∧
    (∀ h1, exampleHeld.SetReleaser (some 3) = some h1 →
      h1.releaser = some 3 ∧ h1.i = exampleHeld.i ∧
        h1.blockReleaser = exampleHeld.blockReleaser) :=
  blockIter_setReleaser exampleHeld (some 3)

/-- C29 (as amended): on a released `blockIter`, each of `First`, `Last`, `Seek`,
`Next` and `Prev` returns false and changes nothing but the latched error, which
afterwards is the error the iterator already had, or `ErrIterReleased` when it had
none; `Key()` and `Value()` return nil and `Valid()` is false before and after. -/
theorem released_iter_moves (i : blockIter) (key : List Nat) (hd : i.dir = dir.dirReleased) :
    i.First = some (false, { i with err := releasedErr i.err }) ∧
    i.Last = some (false, { i with err := releasedErr i.err }) ∧
    i.Seek key = some (false, { i with err := releasedErr i.err }) ∧
    i.Next = some (false, { i with err := releasedErr i.err }) ∧
    i.Prev = some (false, { i with err := releasedErr i.err }) ∧
    i.Key = none ∧ i.Value = none ∧ i.Valid = false ∧
    blockIter.Key { i with err := releasedErr i.err } = none ∧
    blockIter.Value { i with err := releasedErr i.err } = none ∧
    blockIter.Valid { i with err := releasedErr i.err } = false ∧
    blockIter.Error { i with err := releasedErr i.err } = releasedErr i.err ∧
    (i.err = none → releasedErr i.err = some Err.ErrIterReleased) ∧
    (∀ e, i.err = some e → releasedErr i.err = some e) := by
  have hk : ∀ j : blockIter, j.dir = dir.dirReleased →
      j.Key = none ∧ j.Value = none ∧ j.Valid = false := by
    intro j hj
    unfold blockIter.Key blockIter.Value blockIter.Valid
    simp [hj]
  obtain ⟨k1, k2, k3⟩ := hk i hd
  obtain ⟨k4, k5, k6⟩ := hk { i with err := releasedErr i.err } hd
  refine ⟨?_, ?_, ?_, ?_, ?_, k1, k2, k3, k4, k5, k6, rfl, fun h => by rw [h]; rfl,
    fun e h => by rw [h]; rfl⟩
  · unfold blockIter.First
    cases he : i.err with
    | none => rw [if_neg (by simp), if_pos hd]; rfl
    | some e =>
      rw [if_pos (by simp)]
      have : i = { i with err := releasedErr (some e) } := by
        show i = { i with err := some e }
        rw [← he]
      exact congrArg (fun x => some (false, x)) this
  · unfold blockIter.Last
    cases he : i.err with
    | none => rw [if_neg (by simp), if_pos hd]; rfl
    | some e =>
      rw [if_pos (by simp)]
      have : i = { i with err := releasedErr (some e) } := by
        show i = { i with err := some e }
        rw [← he]
      exact congrArg (fun x => some (false, x)) this
  · unfold blockIter.Seek
    cases he : i.err with
    | none => rw [if_neg (by simp), if_pos hd]; rfl
    | some e =>
      rw [if_pos (by simp)]
      have : i = { i with err := releasedErr (some e) } := by
        show i = { i with err := some e }
        rw [← he]
      exact congrArg (fun x => some (false, x)) this
  · unfold blockIter.Next
    cases he : i.err with
    | none => rw [if_neg (by simp [hd]), if_pos hd]; rfl
    | some e =>
      rw [if_pos (by simp)]
      have : i = { i with err := releasedErr (some e) } := by
        show i = { i with err := some e }
        rw [← he]
      exact congrArg (fun x => some (false, x)) this
  · unfold blockIter.Prev
    cases he : i.err with
    | none => rw [if_neg (by simp [hd]), if_pos hd]; rfl
    | some e =>
      rw [if_pos (by simp)]
      have : i = { i with err := releasedErr (some e) } := by
        show i = { i with err := some e }
        rw [← he]
      exact congrArg (fun x => some (false, x)) this


theorem released_iter_moves_witness :
    blockIter.First { exampleHeld.i with dir := dir.dirReleased } =
      some (false, { exampleHeld.i with dir := dir.dirReleased,
                                        err := some Err.ErrIterReleased }) ∧
    blockIter.Next { exampleHeld.i with dir := dir.dirReleased } =
      some (false, { exampleHeld.i with dir := dir.dirReleased,
                                        err := some Err.ErrIterReleased }) ∧
    blockIter.Key { exampleHeld.i with dir := dir.dirReleased } = none :=
  ⟨(released_iter_moves { exampleHeld.i with dir := dir.dirReleased } [107, 52] rfl).1,
   (released_iter_moves { exampleHeld.i with dir := dir.dirReleased } [107, 52] rfl).2.2.2.1,
   (released_iter_moves { exampleHeld.i with dir := dir.dirReleased } [107, 52]
      rfl).2.2.2.2.2.1⟩

/-- C29 (counterexample): the iterator over the corrupt block latches "entries
corrupted" in `Seek`; after `Release`, `Next` returns false and `Error()` is still
that corruption error, not `ErrIterReleased`. -/
theorem released_iter_keeps_old_error :
    (((plainReader bytesCompare).newHeldIter corruptBlock none none false).bind
      (fun h => (h.i.Seek [1]).bind
        (fun p => (heldIter.Release { h with i := p.2 } []).bind
          (fun q => q.1.i.Next.map (fun r => (q.1.i.dir, r.1, r.2.Error)))))) =
      some (dir.dirReleased, false,
        some (Err.corrupted 64 12 "data-block" "entries corrupted")) := by
  decide

end table
namespace table


theorem layout_value_slice (bh : blockHandle) (es : List RawEntry) (ris : List Nat) (j : Nat)
    (hj : j < es.length) :
    slice (blockOf bh es ris).data
      ((entryOffset es (j + 1) : Int) - ((valueAt es j).length : Int))
      ((entryOffset es (j + 1) : Int) - ((valueAt es j).length : Int) +
        ((valueAt es j).length : Int)) = some (valueAt es j) := by
  have hsplit := encodeBlock_split es ris j hj
  have hsucc := entryOffset_succ es j hj
  have hlen := encodeEntry_length (entryAt es j)
  have hdata : (blockOf bh es ris).data =
      (encodeEntries (es.take j) ++ (putUvarint (entryAt es j).shared ++
        putUvarint (entryAt es j).unshared.length ++ putUvarint (entryAt es j).value.length ++
        (entryAt es j).unshared)) ++ ((entryAt es j).value ++
        (encodeEntries (es.drop (j + 1)) ++ (encodeRestarts es ris ++ putUint32 ris.length))) := by
    show encodeBlock es ris = _
    rw [hsplit]
    unfold encodeEntry
    simp only [List.append_assoc]
  apply slice_eq _ _ _ _ _ _ hdata
  · simp only [List.length_append]
    unfold valueAt
    unfold entryOffset at hsucc ⊢
    simp only [List.length_append] at hlen
    omega
  · simp only [List.length_append]
    unfold valueAt
    unfold entryOffset at hsucc ⊢
    simp only [List.length_append] at hlen
    omega

theorem cacheKeys_succ (es : List RawEntry) (lo k : Nat) :
    cacheKeys es lo (k + 1) = cacheKeys es lo k ++ keyAt es (lo + k) := rfl

theorem cacheNodes_succ (es : List RawEntry) (lo k : Nat) :
    cacheNodes es lo (k + 1) = cacheNodes es lo k ++
      [((cacheKeys es lo k).length : Int),
       (entryOffset es (lo + k + 1) : Int) - ((valueAt es (lo + k)).length : Int),
       ((valueAt es (lo + k)).length : Int)] := rfl

theorem cacheNodes_length (es : List RawEntry) (lo k : Nat) :
    (cacheNodes es lo k).length = 3 * k := by
  induction k with
  | zero => rfl
  | succ k ih => rw [cacheNodes_succ, List.length_append, ih]; simp; omega


theorem prevBuild_step (bh : blockHandle) (es : List RawEntry) (ris : List Nat)
    (hwf : WellFormed es ris) (a st t lo : Nat) (hlo : lo = max st a) (ht : t ≤ es.length)
    (han : a ≤ es.length)
    (hst : (entryAt es st).shared = 0) (base : List Int) (f : Nat) (it : blockIter) (x : Nat)
    (hb : it.block = blockOf bh es ris) (hoff : it.offset = (entryOffset es t : Int))
    (hra : it.offsetRealStart = (entryOffset es a : Int)) (hsx : st ≤ x) (hxt : x < t)
    (hkey : st < x → it.key = keyAt es (x - 1))
    (hval : it.value = (if lo < x then some (valueAt es (x - 1)) else none))
    (hpn : it.prevNode = base ++ cacheNodes es lo (x - 1 - lo))
    (hpk : it.prevKeys = cacheKeys es lo (x - 1 - lo)) :
    prevBuild (f + 1) it (entryOffset es x : Int) =
      (if x + 1 = t then
        some (BuildFlow.done
          { it with key := keyAt es x,
                    value := (if lo < x + 1 then some (valueAt es x) else none),
                    prevNode := base ++ cacheNodes es lo (x - lo),
                    prevKeys := cacheKeys es lo (x - lo) } (entryOffset es (x + 1) : Int))
      else prevBuild f
          { it with key := keyAt es x,
                    value := (if lo < x + 1 then some (valueAt es x) else none),
                    prevNode := base ++ cacheNodes es lo (x - lo),
                    prevKeys := cacheKeys es lo (x - lo) } (entryOffset es (x + 1) : Int)) := by
  have hxn : x < es.length := by omega
  have he := layout_entry bh es ris hwf x hxn
  rw [← hb] at he
  have hko : KeyOk es x it.key := by
    by_cases hxs : x = st
    · subst hxs; exact Or.inl hst
    · exact Or.inr ⟨by omega, hkey (by omega)⟩
  obtain ⟨hs1, hs2⟩ := key_step es ris hwf x hxn it.key hko
  have hlen := encodeEntry_length_ge (entryAt es x)
  have hsucc := entryOffset_succ es x hxn
  have hsuccI : (entryOffset es x : Int) + ((encodeEntry (entryAt es x)).length : Int) =
      (entryOffset es (x + 1) : Int) := by
    rw [hsucc]; push_cast; ring
  have hcmp : (entryOffset es (x + 1) : Int) ≥ (entryOffset es t : Int) ↔ x + 1 = t := by
    constructor
    · intro hge
      by_contra hne
      have := entryOffset_lt es (x + 1) t (by omega) ht
      omega
    · intro heq; rw [heq]
  have hcmp2 : ¬ ((entryOffset es (x + 1) : Int) ≠ (entryOffset es (x + 1) : Int)) := by simp
  simp only [prevBuild]
  rw [he]
  simp only
  by_cases hxa : a ≤ x
  · have hge : (entryOffset es x : Int) ≥ it.offsetRealStart := by
      rw [hra]
      have := entryOffset_mono es a x hxa
      omega
    rw [if_pos hge]
    have hlox : lo ≤ x := by rw [hlo]; exact max_le hsx hxa
    by_cases hlt : lo < x
    · rw [if_pos hlt] at hval
      rw [if_pos (by omega : lo < x + 1)]
      rw [hval]
      simp only
      rw [hs1]
      simp only
      rw [hs2, hsuccI, hoff]
      have hk1 : keyAt es (lo + (x - 1 - lo)) = keyAt es (x - 1) := by
        congr 1; omega
      have hxl : x - lo = (x - 1 - lo) + 1 := by omega
      have hN : it.prevNode ++ [((it.prevKeys.length : Nat) : Int),
          (entryOffset es x : Int) - (((valueAt es (x - 1)).length : Nat) : Int),
          (((valueAt es (x - 1)).length : Nat) : Int)] = base ++ cacheNodes es lo (x - lo) := by
        rw [hxl, cacheNodes_succ, hpn, hpk, List.append_assoc]
        have h1 : lo + (x - 1 - lo) = x - 1 := by omega
        have h3 : x - 1 + 1 = x := by omega
        rw [h1, h3]
      have hK : it.prevKeys ++ it.key = cacheKeys es lo (x - lo) := by
        rw [hxl, cacheKeys_succ, hpk, hk1, hkey (by omega)]
      rw [hN, hK]
      by_cases hdone : x + 1 = t
      · rw [if_pos (hcmp.mpr hdone), if_pos hdone]
        subst hdone
        rw [if_neg hcmp2]
        rfl
      · rw [if_neg (fun h => hdone (hcmp.mp h)), if_neg hdone]
        rfl
    · rw [if_neg hlt] at hval
      have hxe : x = lo := by omega
      rw [if_pos (by omega : lo < x + 1)]
      rw [hval]
      simp only
      rw [hs1]
      simp only
      rw [hs2, hsuccI, hoff]
      have hx0 : x - lo = 0 := by omega
      have hx1 : x - 1 - lo = 0 := by omega
      rw [hx0]
      rw [hx1] at hpn hpk
      rw [← hpn, ← hpk]
      by_cases hdone : x + 1 = t
      · rw [if_pos (hcmp.mpr hdone), if_pos hdone]
        subst hdone
        rw [if_neg hcmp2]
        rfl
      · rw [if_neg (fun h => hdone (hcmp.mp h)), if_neg hdone]
        rfl
  · have hlt : ¬ ((entryOffset es x : Int) ≥ it.offsetRealStart) := by
      rw [hra]
      have := entryOffset_lt es x a (by omega) (by omega)
      omega
    rw [if_neg hlt]
    have hlo2 : ¬ lo < x + 1 := by
      rw [hlo]
      have := le_max_right st a
      omega
    have hlo3 : ¬ lo < x := by omega
    rw [if_neg hlo3] at hval
    rw [if_neg hlo2]
    rw [hs1]
    simp only
    rw [hs2, hsuccI, hoff]
    have hx0 : x - lo = 0 := by omega
    have hx1 : x - 1 - lo = 0 := by omega
    rw [hx0]
    rw [hx1] at hpn hpk
    rw [← hpn, ← hpk, ← hval]
    by_cases hdone : x + 1 = t
    · rw [if_pos (hcmp.mpr hdone), if_pos hdone]
      subst hdone
      rw [if_neg hcmp2]
    · rw [if_neg (fun h => hdone (hcmp.mp h)), if_neg hdone]


theorem prevBuild_layout (bh : blockHandle) (es : List RawEntry) (ris : List Nat)
    (hwf : WellFormed es ris) (a st t lo : Nat) (hlo : lo = max st a) (ht : t ≤ es.length)
    (han : a ≤ es.length) (hst : (entryAt es st).shared = 0) (base : List Int) :
    ∀ (fuel : Nat) (it : blockIter) (x : Nat), it.block = blockOf bh es ris →
      it.offset = (entryOffset es t : Int) → it.offsetRealStart = (entryOffset es a : Int) →
      st ≤ x → x < t → t - x ≤ fuel →
      (st < x → it.key = keyAt es (x - 1)) →
      it.value = (if lo < x then some (valueAt es (x - 1)) else none) →
      it.prevNode = base ++ cacheNodes es lo (x - 1 - lo) →
      it.prevKeys = cacheKeys es lo (x - 1 - lo) →
      prevBuild fuel it (entryOffset es x : Int) =
        some (BuildFlow.done
          { it with key := keyAt es (t - 1),
                    value := (if lo < t then some (valueAt es (t - 1)) else none),
                    prevNode := base ++ cacheNodes es lo (t - 1 - lo),
                    prevKeys := cacheKeys es lo (t - 1 - lo) } (entryOffset es t : Int)) := by
  intro fuel
  induction fuel with
  | zero =>
    intro it x _ _ _ _ hxt hf
    omega
  | succ f ih =>
    intro it x hb hoff hra hsx hxt hf hkey hval hpn hpk
    rw [prevBuild_step bh es ris hwf a st t lo hlo ht han hst base f it x hb hoff hra hsx hxt
      hkey hval hpn hpk]
    by_cases hdone : x + 1 = t
    · rw [if_pos hdone]
      subst hdone
      simp only [Nat.add_sub_cancel]
    · rw [if_neg hdone]
      have := ih
        { it with key := keyAt es x,
                  value := (if lo < x + 1 then some (valueAt es x) else none),
                  prevNode := base ++ cacheNodes es lo (x - lo),
                  prevKeys := cacheKeys es lo (x - lo) } (x + 1) hb hoff hra (by omega)
        (by omega) (by omega) (fun _ => by simp only [Nat.add_sub_cancel])
        (by simp only [Nat.add_sub_cancel]) (by simp only [Nat.add_sub_cancel])
        (by simp only [Nat.add_sub_cancel])
      rw [this]

theorem entryOffset_le_iff (es : List RawEntry) (i j : Nat) (hi : i ≤ es.length)
    (_hj : j ≤ es.length) : entryOffset es i ≤ entryOffset es j ↔ i ≤ j := by
  constructor
  · intro h
    by_contra hcon
    have := entryOffset_lt es j i (by omega) hi
    omega
  · exact entryOffset_mono es i j

theorem rebuild_run (r : Reader) (bh : blockHandle) (es : List RawEntry) (ris : List Nat)
    (hwf : WellFormed es ris) (w : Win) (hw : WinOk es ris w) (i : blockIter) (s t : Nat)
    (hf : Framed r (blockOf bh es ris) es w i) (hd : i.dir = dir.dirBackward)
    (hpn : i.prevNode = []) (hpk : i.prevKeys = []) (_hk : i.key = []) (hv : i.value = none)
    (hoff : i.offset = (entryOffset es t : Int)) (hat : w.a < t) (htc : t ≤ w.c)
    (hs : s < ris.length) (hsS : w.sS ≤ s) (hrs : rAt ris s < t)
    (hbeyond : ∀ u, s < u → u < ris.length → t ≤ rAt ris u) :
    ∃ it, (match prevBuild (i.block.data.length + 1)
        { i with prevNode := i.prevNode ++ [(entryOffset es (rAt ris s) : Int)] }
        (entryOffset es (rAt ris s) : Int) with
      | none => none
      | some (BuildFlow.fail i4) => some (false, i4)
      | some (BuildFlow.done i4 offset4) =>
        some (true, { i4 with restartIndex := (s : Int), offset := offset4 })) =
        some (true, it) ∧
      BwdAt r (blockOf bh es ris) es ris w it (t - 1) := by
  have hcn := hw.cn
  have hne : es ≠ [] := by
    intro h0; subst h0; simp at hcn; omega
  have hst := (wf_restart_lt es ris hwf hne s hs).2
  have htot := length_le_encodeEntries es
  have hfuel : t - rAt ris s ≤ i.block.data.length + 1 := by
    rw [hf.block]
    have h2 := encodeBlock_length es ris
    show t - rAt ris s ≤ (encodeBlock es ris).length + 1
    omega
  have hB := prevBuild_layout bh es ris hwf w.a (rAt ris s) t (max (rAt ris s) w.a) rfl
    (by omega) (by omega) hst [(entryOffset es (rAt ris s) : Int)] (i.block.data.length + 1)
    { i with prevNode := i.prevNode ++ [(entryOffset es (rAt ris s) : Int)] } (rAt ris s)
    hf.block hoff hf.offsetRealStart (le_refl _) hrs hfuel (fun h => absurd h (lt_irrefl _))
    (by
      show i.value = _
      rw [if_neg (by have := le_max_left (rAt ris s) w.a; omega), hv])
    (by
      show i.prevNode ++ _ = _
      have : rAt ris s - 1 - max (rAt ris s) w.a = 0 := by
        have := le_max_left (rAt ris s) w.a; omega
      rw [this, hpn]
      rfl)
    (by
      show i.prevKeys = _
      have : rAt ris s - 1 - max (rAt ris s) w.a = 0 := by
        have := le_max_left (rAt ris s) w.a; omega
      rw [this, hpk]
      rfl)
  rw [hB]
  refine ⟨_, rfl, ?_⟩
  have hlo : max (rAt ris s) w.a < t := max_lt hrs hat
  refine ⟨⟨hf.tr, hf.block, hf.err, hf.riStart, hf.riLimit, hf.offsetStart,
    hf.offsetRealStart, hf.offsetLimit⟩, hd, by omega, by omega, ?_, rfl, ?_, ?_⟩
  · show (entryOffset es t : Int) = (entryOffset es (t - 1 + 1) : Int)
    have : t - 1 + 1 = t := by omega
    rw [this]
  · show (if max (rAt ris s) w.a < t then some (valueAt es (t - 1)) else none) = _
    rw [if_pos hlo]
  · refine ⟨s, rfl, hsS, hs, by omega, ?_, rfl, rfl⟩
    intro u hu1 hu2
    have := hbeyond u hu1 hu2
    omega

theorem prevRebuild_layout (r : Reader) (bh : blockHandle) (es : List RawEntry)
    (ris : List Nat) (hwf : WellFormed es ris) (w : Win) (hw : WinOk es ris w)
    (i : blockIter) (s t : Nat)
    (hf : Framed r (blockOf bh es ris) es w i) (hd : i.dir = dir.dirBackward)
    (hpn : i.prevNode = []) (hpk : i.prevKeys = [])
    (hoff : i.offset = (entryOffset es t : Int)) (hat : w.a < t) (htc : t ≤ w.c)
    (hs : s < ris.length) (hsS : w.sS ≤ s) (hrs : rAt ris s ≤ t)
    (hbeyond : ∀ u, s < u → u < ris.length → t ≤ rAt ris u) :
    ∃ it, prevRebuild i (s : Int) = some (true, it) ∧
      BwdAt r (blockOf bh es ris) es ris w it (t - 1) := by
  have hcn := hw.cn
  have hne : es ≠ [] := by
    intro h0; subst h0; simp at hcn; omega
  have hro : i.block.restartOffset (s : Int) = some (entryOffset es (rAt ris s) : Int) := by
    rw [hf.block]; exact layout_restartOffset bh es ris hwf s hs
  have hf1 : Framed r (blockOf bh es ris) es w { i with key := [], value := none } :=
    ⟨hf.tr, hf.block, hf.err, hf.riStart, hf.riLimit, hf.offsetStart,
      hf.offsetRealStart, hf.offsetLimit⟩
  have hrn := (wf_restart_lt es ris hwf hne s hs).1
  unfold prevRebuild
  simp only
  rw [hro]
  simp only
  by_cases heq : rAt ris s = t
  · have hsgt : w.sS < s := by
      by_contra hcon
      have hse : s = w.sS := by omega
      rcases hw.start with ⟨_, h2, _, _⟩ | ⟨h1, _, _⟩
      · rw [hse] at heq; omega
      · omega
    obtain ⟨s1, hs1⟩ : ∃ s1, s = s1 + 1 := ⟨s - 1, by omega⟩
    subst hs1
    have hro1 : i.block.restartOffset (((s1 + 1 : Nat) : Int) - 1) =
        some (entryOffset es (rAt ris s1) : Int) := by
      have : ((s1 + 1 : Nat) : Int) - 1 = (s1 : Int) := by push_cast; ring
      rw [this, hf.block]
      exact layout_restartOffset bh es ris hwf s1 (by omega)
    have hlt := rAt_lt_of_lt ris hwf.incr s1 (s1 + 1) (by omega) hs
    rw [if_pos (by rw [hoff, heq]), if_neg (by push_cast; omega), hro1]
    simp only
    have hcast : ((s1 + 1 : Nat) : Int) - 1 = (s1 : Int) := by push_cast; ring
    rw [hcast]
    exact rebuild_run r bh es ris hwf w hw { i with key := [], value := none } s1 t hf1 hd hpn
      hpk rfl rfl hoff hat htc (by omega) (by omega) (by omega)
      (fun u hu1 hu2 => by
        by_cases hu : u = s1 + 1
        · subst hu; omega
        · exact hbeyond u (by omega) hu2)
  · have hne2 : ¬ ((entryOffset es (rAt ris s) : Int) = i.offset) := by
      rw [hoff]
      intro h
      have := entryOffset_inj es (rAt ris s) t (by omega) (by omega) (by exact_mod_cast h)
      exact heq this
    rw [if_neg hne2]
    exact rebuild_run r bh es ris hwf w hw { i with key := [], value := none } s t hf1 hd hpn
      hpk rfl rfl hoff hat htc hs hsS (by omega) hbeyond


theorem Prev_fwd (r : Reader) (bh : blockHandle) (es : List RawEntry) (ris : List Nat)
    (hwf : WellFormed es ris) (w : Win) (hw : WinOk es ris w) (i : blockIter) (j : Nat)
    (h : FwdAt r (blockOf bh es ris) es ris w i j) :
    (w.a < j → ∃ it, i.Prev = some (true, it) ∧
      BwdAt r (blockOf bh es ris) es ris w it (j - 1)) ∧
    (j = w.a → ∃ it, i.Prev = some (false, it) ∧
      AtEnd r (blockOf bh es ris) es w it dir.dirSOI) := by
  have hfr := h.framed
  have hcn := hw.cn
  have hlo := h.lo
  have hhi := h.hi
  have hne : es ≠ [] := by
    intro h0; subst h0; simp at hcn; omega
  have hP : i.Prev =
      (if i.prevOffset = i.offsetRealStart then
        some (false, { i with offset := i.prevOffset, dir := dir.dirSOI })
      else
        match i.block.restartIndex i.restartIndex i.riLimit i.prevOffset with
        | none => none
        | some ri => prevRebuild { i with offset := i.prevOffset, dir := dir.dirBackward } ri) := by
    unfold blockIter.Prev
    rw [if_neg (by simp [hfr.err, h.dir]), if_neg (by simp [h.dir]), if_pos h.dir]
    try rfl
  rw [hP]
  constructor
  · intro hlt
    have hne2 : ¬ (i.prevOffset = i.offsetRealStart) := by
      rw [h.prevOffset, hfr.offsetRealStart]
      intro he
      have := entryOffset_inj es j w.a (by omega) (by omega) (by exact_mod_cast he)
      omega
    rw [if_neg hne2]
    obtain ⟨s0, hs1, hs2, hs3, hs4⟩ := h.ri
    have hs0L : s0 < w.sL := by
      by_contra hcon
      have := hw.limit s0 (by omega) hs3
      omega
    obtain ⟨m, hri, hm1, hm2, hm3⟩ := layout_restartIndex bh es ris hwf s0 w.sL (by omega)
      hw.sLn (entryOffset es j : Int)
    have hmpos : 0 < m := by
      by_contra hcon
      have hm0 : m = 0 := by omega
      subst hm0
      have h1 := hm3 s0 (by omega) hs0L
      have h2 := entryOffset_mono es _ _ hs4
      omega
    have hcast : (s0 : Int) + (m : Int) - 1 = ((s0 + m - 1 : Nat) : Int) := by
      have : 1 ≤ s0 + m := by omega
      push_cast [Nat.cast_sub this]
      ring
    have hri2 : i.block.restartIndex i.restartIndex i.riLimit i.prevOffset =
        some ((s0 + m - 1 : Nat) : Int) := by
      rw [hfr.block, hs1, hfr.riLimit, h.prevOffset, hri, hcast]
    rw [hri2]
    simp only
    have hsl : s0 + m - 1 < ris.length := by have := hw.sLn; omega
    have hrn := (wf_restart_lt es ris hwf hne (s0 + m - 1) hsl).1
    have hrs : rAt ris (s0 + m - 1) ≤ j := by
      have h1 := hm2 (s0 + m - 1) (by omega) (by omega)
      have h2 : entryOffset es (rAt ris (s0 + m - 1)) ≤ entryOffset es j := by
        exact_mod_cast h1
      exact (entryOffset_le_iff es _ _ (by omega) (by omega)).mp h2
    exact prevRebuild_layout r bh es ris hwf w hw
      { i with offset := i.prevOffset, dir := dir.dirBackward } (s0 + m - 1) j
      ⟨hfr.tr, hfr.block, hfr.err, hfr.riStart, hfr.riLimit, hfr.offsetStart,
        hfr.offsetRealStart, hfr.offsetLimit⟩ rfl h.prevNode h.prevKeys h.prevOffset hlt
      (by omega) hsl (by omega) hrs
      (fun u hu1 hu2 => by
        by_cases huL : u < w.sL
        · have h1 := hm3 u (by omega) huL
          have hun := (wf_restart_lt es ris hwf hne u hu2).1
          by_contra hcon
          have h2 := entryOffset_mono es (rAt ris u) j (by omega)
          omega
        · have := hw.limit u (by omega) hu2
          omega)
  · intro heq
    subst heq
    rw [if_pos (by rw [h.prevOffset, hfr.offsetRealStart])]
    exact ⟨_, rfl, ⟨hfr.tr, hfr.block, hfr.err, hfr.riStart, hfr.riLimit, hfr.offsetStart,
      hfr.offsetRealStart, hfr.offsetLimit⟩, rfl, h.prevNode, h.prevKeys⟩

theorem Prev_eoi (r : Reader) (bh : blockHandle) (es : List RawEntry) (ris : List Nat)
    (hwf : WellFormed es ris) (w : Win) (hw : WinOk es ris w) (i : blockIter)
    (h : AtEnd r (blockOf bh es ris) es w i dir.dirEOI) :
    (w.a < w.c → ∃ it, i.Prev = some (true, it) ∧
      BwdAt r (blockOf bh es ris) es ris w it (w.c - 1)) ∧
    (w.a = w.c → ∃ it, i.Prev = some (false, it) ∧
      AtEnd r (blockOf bh es ris) es w it dir.dirSOI) := by
  have hfr := h.framed
  have hcn := hw.cn
  have hP : i.Prev =
      (if i.offsetLimit = i.offsetRealStart then
        some (false, { i with restartIndex := i.riLimit, offset := i.offsetLimit,
                              dir := dir.dirSOI })
      else prevRebuild { i with restartIndex := i.riLimit, offset := i.offsetLimit,
                                dir := dir.dirBackward } (i.riLimit - 1)) := by
    unfold blockIter.Prev
    rw [if_neg (by simp [hfr.err, h.dir]), if_neg (by simp [h.dir]),
      if_neg (by simp [h.dir]), if_pos h.dir]
  rw [hP]
  constructor
  · intro hlt
    have hne2 : ¬ (i.offsetLimit = i.offsetRealStart) := by
      rw [hfr.offsetLimit, hfr.offsetRealStart]
      intro he
      have := entryOffset_inj es w.c w.a (by omega) (by omega) (by exact_mod_cast he)
      omega
    rw [if_neg hne2]
    have hsSL := hw.nonempty hlt
    have hcast : i.riLimit - 1 = ((w.sL - 1 : Nat) : Int) := by
      rw [hfr.riLimit]
      have : 1 ≤ w.sL := by omega
      push_cast [Nat.cast_sub this]
      ring
    rw [hcast]
    have hsLn := hw.sLn
    exact prevRebuild_layout r bh es ris hwf w hw
      { i with restartIndex := i.riLimit, offset := i.offsetLimit, dir := dir.dirBackward }
      (w.sL - 1) w.c
      ⟨hfr.tr, hfr.block, hfr.err, hfr.riStart, hfr.riLimit, hfr.offsetStart,
        hfr.offsetRealStart, hfr.offsetLimit⟩ rfl h.prevNode h.prevKeys hfr.offsetLimit hlt
      (le_refl _) (by omega) (by omega) (hw.inside (w.sL - 1) (by omega))
      (fun u hu1 hu2 => hw.limit u (by omega) hu2)
  · intro heq
    rw [if_pos (by rw [hfr.offsetLimit, hfr.offsetRealStart, heq])]
    exact ⟨_, rfl, ⟨hfr.tr, hfr.block, hfr.err, hfr.riStart, hfr.riLimit, hfr.offsetStart,
      hfr.offsetRealStart, hfr.offsetLimit⟩, rfl, h.prevNode, h.prevKeys⟩


theorem Prev_bwd_cross (i : blockIter) (p0 : Int) (herr : i.err = none)
    (hd : i.dir = dir.dirBackward) (hpn : i.prevNode = [p0]) :
    i.Prev = (if i.restartIndex = i.riStart then
        some (false, { i with offset := p0, prevNode := [], dir := dir.dirSOI })
      else prevRebuild { i with offset := p0, prevNode := [],
                                restartIndex := i.restartIndex - 1 } (i.restartIndex - 1)) := by
  unfold blockIter.Prev
  rw [if_neg (by simp [herr, hd]), if_neg (by simp [hd]), if_neg (by simp [hd]),
    if_neg (by simp [hd]), if_pos (by rw [hpn]; rfl), hpn]

theorem Prev_bwd_pop (i : blockIter) (front : List Int) (ko vo vlen : Int)
    (k pk v : List Nat) (herr : i.err = none)
    (hd : i.dir = dir.dirBackward) (hpn : i.prevNode = front ++ [ko, vo, vlen])
    (hfront : front ≠ [])
    (hk : sliceFrom i.prevKeys ko = some k) (hpk : sliceTo i.prevKeys ko = some pk)
    (hv : slice i.block.data vo (vo + vlen) = some v) :
    i.Prev = some (true, { i with prevNode := front, key := k, prevKeys := pk,
                                  value := some v, offset := vo + vlen }) := by
  have hlen : i.prevNode.length = front.length + 3 := by rw [hpn]; simp
  have hfl : 0 < front.length := List.length_pos.mpr hfront
  have hn : ((i.prevNode.length : Int) - 3).toNat = front.length := by
    rw [hlen]; push_cast; omega
  have hdrop : i.prevNode.drop ((i.prevNode.length : Int) - 3).toNat = [ko, vo, vlen] := by
    rw [hn, hpn, List.drop_left]
  have htake : i.prevNode.take ((i.prevNode.length : Int) - 3).toNat = front := by
    rw [hn, hpn, List.take_left]
  unfold blockIter.Prev
  rw [if_neg (by simp [herr, hd]), if_neg (by simp [hd]), if_neg (by simp [hd]),
    if_neg (by simp [hd]), if_neg (by omega)]
  simp only
  rw [if_neg (by rw [hlen]; push_cast; omega), hdrop]
  simp only
  rw [hk, hpk]
  simp only
  rw [hv, htake]


theorem Prev_bwd (r : Reader) (bh : blockHandle) (es : List RawEntry) (ris : List Nat)
    (hwf : WellFormed es ris) (w : Win) (hw : WinOk es ris w) (i : blockIter) (j : Nat)
    (h : BwdAt r (blockOf bh es ris) es ris w i j) :
    (w.a < j → ∃ it, i.Prev = some (true, it) ∧
      BwdAt r (blockOf bh es ris) es ris w it (j - 1)) ∧
    (j = w.a → ∃ it, i.Prev = some (false, it) ∧
      AtEnd r (blockOf bh es ris) es w it dir.dirSOI) := by
  have hfr := h.framed
  have hcn := hw.cn
  have hlo := h.lo
  have hhi := h.hi
  obtain ⟨s, hs1, hs2, hs3, hs4, hs5, hpn, hpk⟩ := h.ri
  have hsS : rAt ris w.sS ≤ w.a ∧ ∀ t, w.sS < t → t < ris.length → w.a < rAt ris t := by
    rcases hw.start with ⟨_, h2, h3, _⟩ | ⟨h1, _, _⟩
    · exact ⟨h2, h3⟩
    · omega
  have hcross : ∀ (hjl : j = max (rAt ris s) w.a),
      i.Prev = (if i.restartIndex = i.riStart then
        some (false, { i with offset := (entryOffset es (rAt ris s) : Int), prevNode := [],
                              dir := dir.dirSOI })
      else prevRebuild { i with offset := (entryOffset es (rAt ris s) : Int), prevNode := [],
                                restartIndex := i.restartIndex - 1 } (i.restartIndex - 1)) ∧
      i.prevKeys = [] := by
    intro hjl
    have h0 : j - max (rAt ris s) w.a = 0 := by omega
    rw [h0] at hpn hpk
    exact ⟨Prev_bwd_cross i _ hfr.err h.dir hpn, hpk⟩
  constructor
  · intro hlt
    by_cases hpop : max (rAt ris s) w.a < j
    · obtain ⟨k, hk⟩ : ∃ k, j - max (rAt ris s) w.a = k + 1 :=
        ⟨j - max (rAt ris s) w.a - 1, by omega⟩
      rw [hk, cacheNodes_succ, ← List.cons_append] at hpn
      rw [hk, cacheKeys_succ] at hpk
      have hj1 : max (rAt ris s) w.a + k = j - 1 := by omega
      rw [hj1] at hpk
      rw [hj1] at hpn
      have hP := Prev_bwd_pop i _ _ _ _ (keyAt es (j - 1))
        (cacheKeys es (max (rAt ris s) w.a) k) (valueAt es (j - 1)) hfr.err h.dir hpn
        (by simp)
        (sliceFrom_eq _ _ _ _ hpk rfl) (sliceTo_eq _ _ _ _ hpk rfl)
        (by rw [hfr.block]; exact layout_value_slice bh es ris (j - 1) (by omega))
      refine ⟨_, hP, ⟨hfr.tr, hfr.block, hfr.err, hfr.riStart, hfr.riLimit, hfr.offsetStart,
        hfr.offsetRealStart, hfr.offsetLimit⟩, h.dir, by omega, by omega, ?_, rfl, rfl, ?_⟩
      · show (entryOffset es (j - 1 + 1) : Int) - ((valueAt es (j - 1)).length : Int) +
          ((valueAt es (j - 1)).length : Int) = (entryOffset es (j - 1 + 1) : Int)
        ring
      · have hle := le_max_left (rAt ris s) w.a
        have hk2 : j - 1 - max (rAt ris s) w.a = k := by omega
        refine ⟨s, hs1, hs2, hs3, by omega, ?_, ?_, ?_⟩
        · intro t ht1 ht2
          have := hs5 t ht1 ht2
          omega
        · show _ :: cacheNodes es (max (rAt ris s) w.a) k = _
          rw [hk2]
        · show cacheKeys es (max (rAt ris s) w.a) k = _
          rw [hk2]
    · have hjl : j = max (rAt ris s) w.a := by
        have := max_le hs4 hlo
        omega
      obtain ⟨hP, hpk0⟩ := hcross hjl
      have hrs : w.a < rAt ris s := by
        by_contra hcon
        have : max (rAt ris s) w.a = w.a := max_eq_right (by omega)
        omega
      have hjr : j = rAt ris s := by
        rw [hjl]; exact max_eq_left (by omega)
      have hsgt : w.sS < s := by
        by_contra hcon
        have : s = w.sS := by omega
        rw [this] at hrs
        omega
      obtain ⟨s1, hs1e⟩ : ∃ s1, s = s1 + 1 := ⟨s - 1, by omega⟩
      subst hs1e
      have hcast : i.restartIndex - 1 = (s1 : Int) := by
        rw [hs1]; push_cast; ring
      rw [hP, if_neg (by rw [hs1, hfr.riStart]; push_cast; omega), hcast]
      have hlt2 := rAt_lt_of_lt ris hwf.incr s1 (s1 + 1) (by omega) hs3
      have := prevRebuild_layout r bh es ris hwf w hw
        { i with offset := (entryOffset es (rAt ris (s1 + 1)) : Int), prevNode := [],
                 restartIndex := (s1 : Int) } s1 (rAt ris (s1 + 1))
        ⟨hfr.tr, hfr.block, hfr.err, hfr.riStart, hfr.riLimit, hfr.offsetStart,
          hfr.offsetRealStart, hfr.offsetLimit⟩ h.dir rfl hpk0 rfl hrs (by omega) (by omega)
        (by omega) (by omega)
        (fun u hu1 hu2 => rAt_mono ris hwf.incr (s1 + 1) u (by omega) hu2)
      have hfin : rAt ris (s1 + 1) - 1 = j - 1 := by rw [hjr]
      rw [hfin] at this
      exact this
  · intro heq
    have hjl : j = max (rAt ris s) w.a := by
      rw [heq]; exact (max_eq_right (by omega)).symm
    obtain ⟨hP, hpk0⟩ := hcross hjl
    have hse : s = w.sS := by
      by_contra hcon
      have := hsS.2 s (by omega) hs3
      omega
    rw [hP, if_pos (by rw [hs1, hfr.riStart, hse])]
    exact ⟨_, rfl, ⟨hfr.tr, hfr.block, hfr.err, hfr.riStart, hfr.riLimit, hfr.offsetStart,
      hfr.offsetRealStart, hfr.offsetLimit⟩, rfl, rfl, hpk0⟩


theorem Last_ready (r : Reader) (bh : blockHandle) (es : List RawEntry) (ris : List Nat)
    (hwf : WellFormed es ris) (w : Win) (hw : WinOk es ris w) (i : blockIter)
    (h : Ready r (blockOf bh es ris) es w i) :
    (w.a < w.c → ∃ it, i.Last = some (true, it) ∧
      BwdAt r (blockOf bh es ris) es ris w it (w.c - 1)) ∧
    (w.a = w.c → ∃ it, i.Last = some (false, it) ∧
      AtEnd r (blockOf bh es ris) es w it dir.dirSOI) := by
  have hfr := h.framed
  have hL : i.Last = blockIter.Prev
      { (if i.dir = dir.dirBackward then { i with prevNode := [], prevKeys := [] } else i)
        with dir := dir.dirEOI } := by
    unfold blockIter.Last
    rw [if_neg (by simp [hfr.err]), if_neg h.live]
  rw [hL]
  apply Prev_eoi r bh es ris hwf w hw
  by_cases hb : i.dir = dir.dirBackward
  · rw [if_pos hb]
    exact ⟨⟨hfr.tr, hfr.block, hfr.err, hfr.riStart, hfr.riLimit, hfr.offsetStart,
      hfr.offsetRealStart, hfr.offsetLimit⟩, rfl, rfl, rfl⟩
  · rw [if_neg hb]
    exact ⟨⟨hfr.tr, hfr.block, hfr.err, hfr.riStart, hfr.riLimit, hfr.offsetStart,
      hfr.offsetRealStart, hfr.offsetLimit⟩, rfl, (h.cache hb).1, (h.cache hb).2⟩

theorem Prev_pos (r : Reader) (bh : blockHandle) (es : List RawEntry) (ris : List Nat)
    (hwf : WellFormed es ris) (w : Win) (hw : WinOk es ris w) (i : blockIter) (j : Nat)
    (h : FwdAt r (blockOf bh es ris) es ris w i j ∨ BwdAt r (blockOf bh es ris) es ris w i j) :
    (w.a < j → ∃ it, i.Prev = some (true, it) ∧
      BwdAt r (blockOf bh es ris) es ris w it (j - 1)) ∧
    (j = w.a → ∃ it, i.Prev = some (false, it) ∧
      AtEnd r (blockOf bh es ris) es w it dir.dirSOI) := by
  rcases h with h | h
  · exact Prev_fwd r bh es ris hwf w hw i j h
  · exact Prev_bwd r bh es ris hwf w hw i j h

theorem windowPairs_snoc (es : List RawEntry) (a j : Nat) (h : a < j) :
    windowPairs es a j = windowPairs es a (j - 1) ++ [entryPair es (j - 1)] := by
  unfold windowPairs
  obtain ⟨k, hk⟩ : ∃ k, j - a = k + 1 := ⟨j - a - 1, by omega⟩
  have h1 : j - 1 - a = k := by omega
  have h2 : a + k = j - 1 := by omega
  rw [hk, h1, List.range'_concat, List.map_append, Nat.one_mul, h2]
  rfl

theorem backwardLoop_layout (r : Reader) (bh : blockHandle) (es : List RawEntry)
    (ris : List Nat) (hwf : WellFormed es ris) (w : Win) (hw : WinOk es ris w) :
    ∀ (fuel : Nat) (i : blockIter) (j : Nat)
      (acc : List (Option (List Nat) × Option (List Nat))),
      (FwdAt r (blockOf bh es ris) es ris w i j ∨ BwdAt r (blockOf bh es ris) es ris w i j) →
      j - w.a < fuel →
      ∃ it, backwardLoop fuel i acc = some (acc ++ (windowPairs es w.a j).reverse, it) ∧
        AtEnd r (blockOf bh es ris) es w it dir.dirSOI := by
  intro fuel
  induction fuel with
  | zero =>
    intro i j acc _ hf
    omega
  | succ f ih =>
    intro i j acc h hf
    have hlo : w.a ≤ j := by
      rcases h with h | h
      · exact h.lo
      · exact h.lo
    obtain ⟨hA, hB⟩ := Prev_pos r bh es ris hwf w hw i j h
    by_cases hfirst : j = w.a
    · obtain ⟨it, hP, hE⟩ := hB hfirst
      refine ⟨it, ?_, hE⟩
      simp only [backwardLoop, hP]
      rw [windowPairs_nil es _ _ (by omega)]
      simp
    · obtain ⟨it, hP, hBw⟩ := hA (by omega)
      obtain ⟨it2, hL, hE⟩ := ih it (j - 1) (acc ++ [(it.Key, it.Value)]) (Or.inr hBw)
        (by omega)
      refine ⟨it2, ?_, hE⟩
      simp only [backwardLoop, hP]
      rw [hL, windowPairs_snoc es w.a j (by omega), BwdAt_pair r _ es ris w it (j - 1) hBw]
      simp

theorem firstNext_layout (r : Reader) (bh : blockHandle) (es : List RawEntry)
    (ris : List Nat) (hwf : WellFormed es ris) (w : Win) (hw : WinOk es ris w)
    (i : blockIter) (h : Ready r (blockOf bh es ris) es w i) :
    ∀ k, w.a + k < w.c → ∃ it, firstNext i k = some (true, it) ∧
      FwdAt r (blockOf bh es ris) es ris w it (w.a + k) := by
  intro k
  induction k with
  | zero =>
    intro hk
    exact (First_ready r bh es ris hwf w hw i h).1 (by omega)
  | succ k ih =>
    intro hk
    obtain ⟨it, hF, hFw⟩ := ih (by omega)
    obtain ⟨it2, hN, hFw2⟩ := (Next_fwd r bh es ris hwf w hw.cn it (w.a + k) hFw).1 (by omega)
    refine ⟨it2, ?_, hFw2⟩
    simp only [firstNext, hF]
    exact hN

theorem cmp_self_ge (cmp : List Nat → List Nat → Int) (hc : IsComparer cmp) (a : List Nat) :
    cmp a a ≥ 0 := by
  by_contra hcon
  have h1 : cmp a a < 0 := by omega
  have h2 := (hc.flip a a).mp h1
  omega

end table
namespace table

/-- C3: for every well-formed block with entries `e_0 .. e_(n-1)`, once the unsliced
iterator stands on `e_j` (after `First()` and `j` calls of `Next()`, after `Last()`
for `j = n - 1`, or, when the keys increase strictly under the comparer, after
`Seek(k_j)`), calling `Prev()` until it returns false returns: the calls yield
`e_(j-1), e_(j-2), ..., e_0` with the stored keys and values, across restart points
as well, and the last call, made on `e_0`, returns false and leaves state SOI with no
error. -/
theorem backward_traversal_reverses (r : Reader) (bh : blockHandle) (es : List RawEntry)
    (ris : List Nat) (incl : Bool) (hwf : WellFormed es ris) :
    ∃ i0, r.newBlockIter (blockOf bh es ris) none incl = some i0 ∧
      (∀ j, j < es.length → ∃ it it2, firstNext i0 j = some (true, it) ∧
        (it.Key, it.Value) = entryPair es j ∧
        backwardLoop (es.length + 1) it [] = some ((windowPairs es 0 j).reverse, it2) ∧
        it2.dir = dir.dirSOI ∧ it2.err = none) ∧
      (es ≠ [] → ∃ it it2, i0.Last = some (true, it) ∧
        (it.Key, it.Value) = entryPair es (es.length - 1) ∧
        backwardLoop (es.length + 1) it [] =
          some ((windowPairs es 0 (es.length - 1)).reverse, it2) ∧
        it2.dir = dir.dirSOI ∧ it2.err = none) ∧
      (IsComparer r.cmp → StrictSorted r.cmp (keysOf es) → ∀ j, j < es.length →
        ∃ it it2, i0.Seek (keyAt es j) = some (true, it) ∧
        (it.Key, it.Value) = entryPair es j ∧
        backwardLoop (es.length + 1) it [] = some ((windowPairs es 0 j).reverse, it2) ∧
        it2.dir = dir.dirSOI ∧ it2.err = none) := by
  obtain ⟨i0, h0, hS⟩ := newBlockIter_none r bh es ris incl
  have hw := winOk_full es ris hwf
  have hR := atEnd_ready hS (by decide : dir.dirSOI ≠ dir.dirReleased)
  refine ⟨i0, h0, ?_, ?_, ?_⟩
  · intro j hj
    obtain ⟨it, hF, hFw⟩ := firstNext_layout r bh es ris hwf _ hw i0 hR j
      (by show 0 + j < es.length; omega)
    have hFw2 : FwdAt r (blockOf bh es ris) es ris (Win.full es ris) it j := by
      have h : (Win.full es ris).a + j = j := by show 0 + j = j; omega
      rw [h] at hFw; exact hFw
    obtain ⟨it2, hB, hE⟩ := backwardLoop_layout r bh es ris hwf _ hw (es.length + 1) it j []
      (Or.inl hFw2) (by show j - 0 < es.length + 1; omega)
    exact ⟨it, it2, hF, FwdAt_pair r _ es ris _ it j hFw2, by simpa using hB, hE.dir,
      hE.framed.err⟩
  · intro hne
    have hpos : 0 < es.length := List.length_pos.mpr hne
    obtain ⟨it, hL, hBw⟩ := (Last_ready r bh es ris hwf _ hw i0 hR).1 hpos
    obtain ⟨it2, hB, hE⟩ := backwardLoop_layout r bh es ris hwf _ hw (es.length + 1) it
      (es.length - 1) [] (Or.inr hBw) (by show es.length - 1 - 0 < es.length + 1; omega)
    exact ⟨it, it2, hL, BwdAt_pair r _ es ris _ it _ hBw, by simpa using hB, hE.dir,
      hE.framed.err⟩
  · intro hc hs j hj
    obtain ⟨it, hSk, hFw⟩ := (Seek_full r bh es ris hwf hc hs i0 hR (keyAt es j)).1 j hj
      (cmp_self_ge r.cmp hc _) (fun y hy => sorted_keyAt r.cmp es hs y j hy hj)
    obtain ⟨it2, hB, hE⟩ := backwardLoop_layout r bh es ris hwf _ hw (es.length + 1) it j []
      (Or.inl hFw) (by show j - 0 < es.length + 1; omega)
    exact ⟨it, it2, hSk, FwdAt_pair r _ es ris _ it j hFw, by simpa using hB, hE.dir,
      hE.framed.err⟩

theorem backward_traversal_reverses_witness :
    WellFormed tenEntries tenRestarts ∧
    ∃ i0, (plainReader bytesCompare).newBlockIter
        (blockOf { offset := 0, length := 82 } tenEntries tenRestarts) none false = some i0 ∧
      (∀ j, j < tenEntries.length → ∃ it it2, firstNext i0 j = some (true, it) ∧
        (it.Key, it.Value) = entryPair tenEntries j ∧
        backwardLoop (tenEntries.length + 1) it [] =
          some ((windowPairs tenEntries 0 j).reverse, it2) ∧
        it2.dir = dir.dirSOI ∧ it2.err = none) ∧
      (tenEntries ≠ [] → ∃ it it2, i0.Last = some (true, it) ∧
        (it.Key, it.Value) = entryPair tenEntries (tenEntries.length - 1) ∧
        backwardLoop (tenEntries.length + 1) it [] =
          some ((windowPairs tenEntries 0 (tenEntries.length - 1)).reverse, it2) ∧
        it2.dir = dir.dirSOI ∧ it2.err = none) ∧
      (IsComparer (plainReader bytesCompare).cmp →
        StrictSorted (plainReader bytesCompare).cmp (keysOf tenEntries) →
        ∀ j, j < tenEntries.length →
        ∃ it it2, i0.Seek (keyAt tenEntries j) = some (true, it) ∧
        (it.Key, it.Value) = entryPair tenEntries j ∧
        backwardLoop (tenEntries.length + 1) it [] =
          some ((windowPairs tenEntries 0 j).reverse, it2) ∧
        it2.dir = dir.dirSOI ∧ it2.err = none) :=
  ⟨ten_wellFormed, backward_traversal_reverses (plainReader bytesCompare)
    { offset := 0, length := 82 } tenEntries tenRestarts false ten_wellFormed⟩

/-- The scenario of the specification: restart interval 4, entries `k0 .. k9`,
`Seek(k7)`, then `Prev()` until it returns false: seven calls yield `k6, ..., k0` and
the eighth ends in state SOI. -/
theorem ten_seek_then_prev :
    (((plainReader bytesCompare).newBlockIter tenBlock none false).bind
      (fun i => (i.Seek [107, 55]).bind
        (fun p => (backwardLoop 11 p.2 []).map
          (fun q => (p.1, p.2.Key, q.1.map (fun kv => kv.1), q.2.dir))))) =
      some (true, some [107, 55],
        [some [107, 54], some [107, 53], some [107, 52], some [107, 51], some [107, 50],
         some [107, 49], some [107, 48]], dir.dirSOI) := by
  decide

end table
namespace table

theorem winOk_oS_le (es : List RawEntry) (ris : List Nat) (w : Win) (hw : WinOk es ris w) :
    (w.oS : Int) ≤ (entryOffset es w.c : Int) := by
  have hac := hw.ac
  have hcn := hw.cn
  rcases hw.start with ⟨_, h2, _, h4⟩ | ⟨_, h2, h3⟩
  · rw [h4]
    have := entryOffset_mono es (rAt ris w.sS) w.c (by omega)
    exact_mod_cast this
  · have hce : w.c = es.length := by omega
    rw [h3, hce, entryOffset_length]

theorem reset_atEnd (r : Reader) (b : block) (es : List RawEntry) (w : Win) (i : blockIter)
    (hf : Framed r b es w i) (hd : i.dir ≠ dir.dirBackward) (hpn : i.prevNode = [])
    (hpk : i.prevKeys = []) : AtEnd r b es w i.reset dir.dirSOI := by
  unfold blockIter.reset
  simp only
  rw [if_neg hd]
  exact ⟨⟨hf.tr, hf.block, hf.err, hf.riStart, hf.riLimit, hf.offsetStart,
    hf.offsetRealStart, hf.offsetLimit⟩, rfl, hpn, hpk⟩

theorem sliceLimit_layout (r : Reader) (bh : blockHandle) (es : List RawEntry)
    (ris : List Nat) (hwf : WellFormed es ris) (hne : es ≠ []) (hc : IsComparer r.cmp)
    (hs : StrictSorted r.cmp (keysOf es)) (w1 : Win) (hw1 : WinOk es ris w1)
    (hfull : w1.c = es.length ∧ w1.sL = ris.length) (bi2 : blockIter)
    (hR : Ready r (blockOf bh es ris) es w1 bi2) (limit : List Nat) (c : Nat)
    (hc1 : w1.a ≤ c) (hc2 : c ≤ w1.c)
    (hc3 : ∀ y, w1.a ≤ y → y < c → r.cmp (keyAt es y) limit < 0)
    (hc4 : c < w1.c → r.cmp (keyAt es c) limit ≥ 0) :
    ∃ it w, (match
        (match bi2.Seek limit with
          | none => none
          | some (false, bi3) => some bi3
          | some (true, bi3) =>
            if false then
              match bi3.Next with
              | none => none
              | some (false, bi4) => some bi4
              | some (true, bi4) =>
                some { bi4 with offsetLimit := bi4.prevOffset,
                                riLimit := bi4.restartIndex + 1 }
            else
              some { bi3 with offsetLimit := bi3.prevOffset, riLimit := bi3.restartIndex + 1 })
        with
        | none => none
        | some bi5 =>
          if bi5.reset.offsetStart > bi5.reset.offsetLimit then
            some (bi5.reset.sErr (Err.other "leveldb/table: invalid slice range"))
          else some bi5.reset) = some it ∧
      WinOk es ris w ∧ w.a = w1.a ∧ w.c = c ∧
      AtEnd r (blockOf bh es ris) es w it dir.dirSOI := by
  obtain ⟨hA, hB⟩ := Seek_layout r bh es ris hwf hne hc hs w1 hw1 bi2 hR limit
  by_cases hcl : c < w1.c
  · obtain ⟨bi3, hSk, hF, idx, hri, hbey⟩ := hA c hc1 hcl (hc4 hcl) hc3
    obtain ⟨s, hs1, hs2, hs3, hs4⟩ := hF.ri
    have hsi : s = idx := by
      have : (s : Int) = (idx : Int) := by rw [← hs1, hri]
      exact_mod_cast this
    subst hsi
    have hw2 : WinOk es ris { a := w1.a, c := c, sS := w1.sS, sL := s + 1, oS := w1.oS } := by
      refine ⟨hc1, by show c ≤ es.length; have := hw1.cn; omega, by show w1.sS ≤ s + 1; omega,
        by show s + 1 ≤ ris.length; omega, hw1.start, ?_, ?_, ?_⟩
      · intro t ht1 ht2
        show c ≤ rAt ris t
        have ht1' : s + 1 ≤ t := ht1
        have hgt := hbey t (by omega) (by rw [hfull.2]; exact ht2)
        have hat : w1.a < rAt ris t := by
          rcases hw1.start with ⟨_, _, h3, _⟩ | ⟨h1, _, _⟩
          · exact h3 t (by omega) ht2
          · omega
        by_contra hcon
        have := hc3 (rAt ris t) (by omega) (by omega)
        omega
      · intro t ht
        show rAt ris t ≤ c
        have ht' : t < s + 1 := ht
        have := rAt_mono ris hwf.incr t s (by omega) hs3
        omega
      · intro _
        show w1.sS < s + 1
        omega
    have hfr := hF.framed
    have hf2 : Framed r (blockOf bh es ris) es
        { a := w1.a, c := c, sS := w1.sS, sL := s + 1, oS := w1.oS }
        { bi3 with offsetLimit := bi3.prevOffset, riLimit := bi3.restartIndex + 1 } :=
      ⟨hfr.tr, hfr.block, hfr.err, hfr.riStart, by
        show bi3.restartIndex + 1 = ((s + 1 : Nat) : Int)
        rw [hs1]; push_cast; ring, hfr.offsetStart, hfr.offsetRealStart, hF.prevOffset⟩
    have hE := reset_atEnd r _ es _ _ hf2 (by show bi3.dir ≠ _; rw [hF.dir]; decide)
      hF.prevNode hF.prevKeys
    have hle := winOk_oS_le es ris _ hw2
    refine ⟨_, _, ?_, hw2, rfl, rfl, hE⟩
    rw [hSk]
    simp only [Bool.false_eq_true, if_false]
    rw [if_neg]
    rw [hE.framed.offsetStart, hE.framed.offsetLimit]
    exact not_lt.mpr hle
  · have hce : c = w1.c := by omega
    subst hce
    obtain ⟨bi3, hSk, hEOI⟩ := hB hc3
    have hE := reset_atEnd r _ es _ _ hEOI.framed (by rw [hEOI.dir]; decide)
      hEOI.prevNode hEOI.prevKeys
    have hle := winOk_oS_le es ris _ hw1
    refine ⟨_, w1, ?_, hw1, rfl, rfl, hE⟩
    rw [hSk]
    simp only
    rw [if_neg]
    rw [hE.framed.offsetStart, hE.framed.offsetLimit]
    exact not_lt.mpr hle


theorem newBlockIter_sliced (r : Reader) (bh : blockHandle) (es : List RawEntry)
    (ris : List Nat) (hwf : WellFormed es ris) (hne : es ≠ []) (hc : IsComparer r.cmp)
    (hs : StrictSorted r.cmp (keysOf es)) (start limit : List Nat) (a c : Nat)
    (ha0 : a ≤ es.length) (ha1 : ∀ y, y < a → r.cmp (keyAt es y) start < 0)
    (ha2 : a < es.length → r.cmp (keyAt es a) start ≥ 0)
    (hc1 : a ≤ c) (hc2 : c ≤ es.length)
    (hc3 : ∀ y, a ≤ y → y < c → r.cmp (keyAt es y) limit < 0)
    (hc4 : c < es.length → r.cmp (keyAt es c) limit ≥ 0) :
    ∃ it w, r.newBlockIter (blockOf bh es ris)
        (some { Start := some start, Limit := some limit }) false = some it ∧
      WinOk es ris w ∧ w.a = a ∧ w.c = c ∧
      AtEnd r (blockOf bh es ris) es w it dir.dirSOI := by
  have hw0 := winOk_full es ris hwf
  unfold Reader.newBlockIter
  simp only
  set bi : blockIter :=
    { tr := r, block := blockOf bh es ris, key := [], value := none, offset := 0,
      prevOffset := 0, prevNode := [], prevKeys := [], restartIndex := 0, dir := dir.dirSOI,
      riStart := 0, riLimit := (blockOf bh es ris).restartsLen, offsetStart := 0,
      offsetRealStart := 0, offsetLimit := (blockOf bh es ris).restartsOffset, err := none }
    with hbi
  have hbiS : AtEnd r (blockOf bh es ris) es (Win.full es ris) bi dir.dirSOI := by
    refine ⟨⟨rfl, rfl, rfl, rfl, rfl, rfl, ?_, ?_⟩, rfl, rfl, rfl⟩
    · show (0 : Int) = ((entryOffset es 0 : Nat) : Int)
      rw [entryOffset_zero]
      rfl
    · show ((encodeEntries es).length : Int) = ((entryOffset es es.length : Nat) : Int)
      rw [entryOffset_length]
  obtain ⟨hA, hB⟩ := Seek_layout r bh es ris hwf hne hc hs (Win.full es ris) hw0 bi
    (atEnd_ready hbiS (by decide)) start
  by_cases hal : a < es.length
  · obtain ⟨bi1, hSk1, hF1, _⟩ := hA a (Nat.zero_le _) hal (ha2 hal) (fun y _ hy => ha1 y hy)
    obtain ⟨s0, hs1, hs2, hs3, hs4⟩ := hF1.ri
    have hfr := hF1.framed
    obtain ⟨m, hri, hm1, hm2, hm3⟩ := layout_restartIndex bh es ris hwf s0 ris.length
      (by omega) (le_refl _) (entryOffset es a : Int)
    have hmpos : 0 < m := by
      by_contra hcon
      have hm0 : m = 0 := by omega
      subst hm0
      have h1 := hm3 s0 (by omega) hs3
      have h2 := entryOffset_mono es _ _ hs4
      omega
    have hcast : (s0 : Int) + (m : Int) - 1 = ((s0 + m - 1 : Nat) : Int) := by
      have : 1 ≤ s0 + m := by omega
      push_cast [Nat.cast_sub this]
      ring
    have hri2 : (blockOf bh es ris).restartIndex bi1.restartIndex
        (blockOf bh es ris).restartsLen bi1.prevOffset = some ((s0 + m - 1 : Nat) : Int) := by
      rw [hs1, hF1.prevOffset, ← hcast]
      exact hri
    have hsl : s0 + m - 1 < ris.length := by omega
    have hrn := (wf_restart_lt es ris hwf hne (s0 + m - 1) hsl).1
    have hrs : rAt ris (s0 + m - 1) ≤ a := by
      have h1 := hm2 (s0 + m - 1) (by omega) (by omega)
      have h2 : entryOffset es (rAt ris (s0 + m - 1)) ≤ entryOffset es a := by
        exact_mod_cast h1
      exact (entryOffset_le_iff es _ _ (by omega) (by omega)).mp h2
    have hw1 : WinOk es ris (Win.mk a es.length (s0 + m - 1) ris.length
        (entryOffset es (rAt ris (s0 + m - 1)))) := by
      refine ⟨ha0, le_refl _, by show s0 + m - 1 ≤ ris.length; omega, le_refl _,
        Or.inl ⟨hsl, hrs, ?_, rfl⟩, ?_, ?_, ?_⟩
      · intro t ht1 ht2
        show a < rAt ris t
        have ht1' : s0 + m - 1 < t := ht1
        have h1 := hm3 t (by omega) ht2
        have hun := (wf_restart_lt es ris hwf hne t ht2).1
        by_contra hcon
        have h2 := entryOffset_mono es (rAt ris t) a (by omega)
        omega
      · intro t ht1 ht2
        have ht1' : ris.length ≤ t := ht1
        omega
      · intro t ht
        have ht' : t < ris.length := ht
        exact le_of_lt (wf_restart_lt es ris hwf hne t ht').1
      · intro _
        exact hsl
    rw [hSk1]
    simp only
    rw [hri2]
    simp only
    rw [layout_restartOffset bh es ris hwf (s0 + m - 1) hsl]
    simp only
    refine sliceLimit_layout r bh es ris hwf hne hc hs _ hw1 ⟨rfl, rfl⟩ _ ?_ limit c hc1 hc2
      hc3 hc4
    exact ⟨⟨hfr.tr, hfr.block, hfr.err, rfl, hfr.riLimit, rfl, hF1.prevOffset,
        hfr.offsetLimit⟩,
      by show bi1.dir ≠ _; rw [hF1.dir]; decide,
      fun _ => ⟨hF1.prevNode, hF1.prevKeys⟩⟩
  · have hae : a = es.length := by omega
    have hce : c = es.length := by omega
    subst hae
    obtain ⟨bi1, hSk1, hE1⟩ := hB (fun y _ hy => ha1 y hy)
    have hfr := hE1.framed
    have hw1 : WinOk es ris (Win.mk es.length es.length ris.length ris.length
        (encodeEntries es).length) := by
      refine ⟨le_refl _, le_refl _, le_refl _, le_refl _, Or.inr ⟨rfl, rfl, rfl⟩, ?_, ?_, ?_⟩
      · intro t ht1 ht2
        have ht1' : ris.length ≤ t := ht1
        omega
      · intro t ht
        have ht' : t < ris.length := ht
        exact le_of_lt (wf_restart_lt es ris hwf hne t ht').1
      · intro hlt
        exact absurd hlt (lt_irrefl _)
    rw [hSk1]
    simp only
    refine sliceLimit_layout r bh es ris hwf hne hc hs _ hw1 ⟨rfl, rfl⟩ _ ?_ limit c hc1 hc2
      hc3 hc4
    exact ⟨⟨hfr.tr, hfr.block, hfr.err, rfl, hfr.riLimit, rfl, by
        show ((encodeEntries es).length : Int) = ((entryOffset es es.length : Nat) : Int)
        rw [entryOffset_length], hfr.offsetLimit⟩,
      by show bi1.dir ≠ _; rw [hE1.dir]; decide,
      fun _ => ⟨hE1.prevNode, hE1.prevKeys⟩⟩


theorem backwardAll_layout (r : Reader) (bh : blockHandle) (es : List RawEntry)
    (ris : List Nat) (hwf : WellFormed es ris) (w : Win) (hw : WinOk es ris w)
    (i : blockIter) (h : Ready r (blockOf bh es ris) es w i) :
    ∃ it, backwardAll i = some ((windowPairs es w.a w.c).reverse, it) ∧
      AtEnd r (blockOf bh es ris) es w it dir.dirSOI := by
  obtain ⟨hA, hB⟩ := Last_ready r bh es ris hwf w hw i h
  have hac := hw.ac
  have hcn := hw.cn
  by_cases he : w.a = w.c
  · obtain ⟨it, hL, hE⟩ := hB he
    refine ⟨it, ?_, hE⟩
    simp only [backwardAll, hL]
    rw [windowPairs_nil es _ _ (by omega)]
    rfl
  · obtain ⟨it, hL, hBw⟩ := hA (by omega)
    have hlen : w.c - 1 - w.a < i.block.data.length + 1 := by
      rw [h.framed.block]
      have h1 := length_le_encodeEntries es
      have h2 := encodeBlock_length es ris
      show w.c - 1 - w.a < (encodeBlock es ris).length + 1
      omega
    obtain ⟨it2, hLp, hE⟩ := backwardLoop_layout r bh es ris hwf w hw _ it (w.c - 1)
      [(it.Key, it.Value)] (Or.inr hBw) hlen
    refine ⟨it2, ?_, hE⟩
    simp only [backwardAll, hL]
    rw [hLp, windowPairs_snoc es w.a w.c (by omega), BwdAt_pair r _ es ris w it _ hBw]
    simp

theorem forwardAll_err (i : blockIter) (h : i.err ≠ none) : forwardAll i = some ([], i) := by
  unfold forwardAll blockIter.First
  rw [if_pos h]

theorem backwardAll_err (i : blockIter) (h : i.err ≠ none) : backwardAll i = some ([], i) := by
  unfold backwardAll blockIter.Last
  rw [if_pos h]

theorem exists_first_ge (cmp : List Nat → List Nat → Int) (es : List RawEntry)
    (key : List Nat) : ∀ (k lo : Nat), lo + k = es.length →
    ∃ a, lo ≤ a ∧ a ≤ es.length ∧ (∀ y, lo ≤ y → y < a → cmp (keyAt es y) key < 0) ∧
      (a < es.length → cmp (keyAt es a) key ≥ 0) := by
  intro k
  induction k with
  | zero =>
    intro lo hlo
    exact ⟨lo, le_refl _, by omega, fun y h1 h2 => by omega, fun h => by omega⟩
  | succ k ih =>
    intro lo hlo
    by_cases hge : cmp (keyAt es lo) key ≥ 0
    · exact ⟨lo, le_refl _, by omega, fun y h1 h2 => by omega, fun _ => hge⟩
    · obtain ⟨a, h1, h2, h3, h4⟩ := ih (lo + 1) (by omega)
      refine ⟨a, by omega, h2, ?_, h4⟩
      intro y hy1 hy2
      by_cases hy : y = lo
      · subst hy; omega
      · exact h3 y (by omega) hy2

theorem filter_range_window (q : Nat → Bool) : ∀ (n a c : Nat), a ≤ c → c ≤ n →
    (∀ y, y < n → (q y = true ↔ a ≤ y ∧ y < c)) →
    (List.range n).filter q = List.range' a (c - a) := by
  intro n
  induction n with
  | zero =>
    intro a c hac hcn _
    have : c - a = 0 := by omega
    rw [this]
    rfl
  | succ n ih =>
    intro a c hac hcn h
    rw [List.range_succ, List.filter_append]
    by_cases hc : c ≤ n
    · have hq : q n = false := by
        have := h n (by omega)
        cases hqn : q n
        · rfl
        · have := this.mp hqn; omega
      rw [ih a c hac hc (fun y hy => h y (by omega))]
      simp [hq]
    · have hce : c = n + 1 := by omega
      subst hce
      by_cases han : a ≤ n
      · have hq : q n = true := (h n (by omega)).mpr ⟨han, by omega⟩
        rw [ih a n han (le_refl _) (fun y hy => by
          have := h y (by omega)
          constructor
          · intro hh; have := this.mp hh; omega
          · intro hh; exact this.mpr ⟨hh.1, by omega⟩)]
        have h1 : n + 1 - a = (n - a) + 1 := by omega
        rw [h1, List.range'_concat, Nat.one_mul]
        have h2 : a + (n - a) = n := by omega
        simp [hq, h2]
      · have hae : a = n + 1 := by omega
        subst hae
        have hq : q n = false := by
          have := h n (by omega)
          cases hqn : q n
          · rfl
          · have := this.mp hqn; omega
        rw [ih n n (le_refl _) (le_refl _) (fun y hy => by
          have := h y (by omega)
          constructor
          · intro hh; have := this.mp hh; omega
          · intro hh; omega)]
        simp [hq]

theorem pairsOf_eq_range (es : List RawEntry) :
    pairsOf es = (List.range es.length).map (fun x => (keyAt es x, valueAt es x)) := by
  unfold pairsOf valuesOf
  rw [keysOf_eq_map]
  have hv : es.map (fun e => e.value) = (List.range es.length).map (valueAt es) := by
    apply List.ext_getElem
    · simp
    · intro n h1 h2
      simp only [List.getElem_map, List.getElem_range, valueAt, entryAt]
      rw [List.getD_eq_getElem _ _ (by simpa using h1)]
  rw [hv, List.zip_map']

theorem cmp_ge_of_le (cmp : List Nat → List Nat → Int) (hc : IsComparer cmp)
    (es : List RawEntry) (hs : StrictSorted cmp (keysOf es)) (key : List Nat) (a y : Nat)
    (hay : a ≤ y) (hy : y < es.length) (h : cmp (keyAt es a) key ≥ 0) :
    cmp (keyAt es y) key ≥ 0 := by
  by_cases he : a = y
  · subst he; exact h
  · by_contra hcon
    have h1 := sorted_keyAt cmp es hs a y (by omega) hy
    have := cmp_lt_trans cmp hc _ _ _ h1 (by omega : cmp (keyAt es y) key < 0)
    omega

theorem inRange_eq_window (cmp : List Nat → List Nat → Int) (hc : IsComparer cmp)
    (es : List RawEntry) (hs : StrictSorted cmp (keysOf es)) (start limit : List Nat)
    (a c : Nat) (ha1 : ∀ y, y < a → cmp (keyAt es y) start < 0)
    (ha2 : a < es.length → cmp (keyAt es a) start ≥ 0)
    (hc1 : a ≤ c) (hc2 : c ≤ es.length)
    (hc3 : ∀ y, a ≤ y → y < c → cmp (keyAt es y) limit < 0)
    (hc4 : c < es.length → cmp (keyAt es c) limit ≥ 0) :
    ((pairsOf es).filter (fun p => decide (cmp p.1 start ≥ 0 ∧ cmp p.1 limit < 0))).map
      (fun p => (some p.1, some p.2)) = windowPairs es a c := by
  rw [pairsOf_eq_range, List.filter_map, List.map_map]
  rw [filter_range_window _ es.length a c hc1 hc2]
  · rfl
  · intro y hy
    simp only [Function.comp, decide_eq_true_eq]
    constructor
    · intro ⟨h1, h2⟩
      constructor
      · by_contra hcon
        have := ha1 y (by omega)
        omega
      · by_contra hcon
        have hcy : c ≤ y := by omega
        have := cmp_ge_of_le cmp hc es hs limit c y hcy hy (hc4 (by omega))
        omega
    · intro ⟨h1, h2⟩
      exact ⟨cmp_ge_of_le cmp hc es hs start a y h1 hy (ha2 (by omega)), hc3 y h1 h2⟩


theorem seek_nil_end_aux (b : block) (cmp : List Nat → List Nat → Int) (key : List Nat)
    (hd : b.data = [0, 0, 0, 0, 1, 0, 0, 0]) (hr : b.restartsOffset = 0) :
    b.seek cmp 1 1 key = some (1, 1, none) := by
  have hs : sortSearch (b.restartsLen - 1 - (b.restartsLen - 1)) (b.seekGreater cmp 1 key) =
      some 0 := by
    have h1 : b.restartsLen - 1 - (b.restartsLen - 1) = 0 := by omega
    rw [h1]
    rfl
  rw [seek_eq_search _ _ _ _ _ _ hs]
  have hro : b.restartOffset 1 = some 1 := by
    unfold block.restartOffset
    rw [hd, hr]
    decide
  rw [if_pos (by decide), hro]
  rfl

theorem Next_misaligned (i : blockIter) (hd : i.dir = dir.dirForward) (herr : i.err = none)
    (h1 : i.offsetRealStart ≤ i.offset) (h2 : i.offsetLimit < i.offset) :
    ∃ it, i.Next = some (false, it) ∧ it.err ≠ none ∧ it.offsetStart = i.offsetStart ∧
      it.offsetLimit = i.offsetLimit := by
  unfold blockIter.Next
  rw [if_neg (by simp [hd, herr]), if_neg (by simp [hd])]
  simp only [hd]
  rw [if_neg (by decide), if_neg (by decide), nextSkip_done _ _ h1]
  simp only
  rw [if_pos (by omega), if_pos (by omega)]
  exact ⟨_, rfl, by simp [blockIter.sErr], rfl, rfl⟩

theorem Seek_latch (i : blockIter) (key : List Nat) (ri off : Int) (herr : i.err = none)
    (hd : i.dir = dir.dirEOI)
    (hseek : i.block.seek i.tr.cmp i.riStart i.riLimit key = some (ri, off, none))
    (h1 : i.offsetRealStart ≤ max i.offsetStart off)
    (h2 : i.offsetLimit < max i.offsetStart off) :
    ∃ it, i.Seek key = some (false, it) ∧ it.err ≠ none ∧ it.offsetStart = i.offsetStart ∧
      it.offsetLimit = i.offsetLimit := by
  obtain ⟨it, hN, hE⟩ := Next_misaligned
    { i with restartIndex := ri, offset := max i.offsetStart off, dir := dir.dirForward }
    rfl herr h1 h2
  refine ⟨it, ?_, hE⟩
  unfold blockIter.Seek
  rw [if_neg (by simp [herr]), if_neg (by simp [hd]), hseek]
  simp only [hd]
  rw [if_pos (by simp)]
  simp only [seekLoop, hN]

theorem reset_keeps (i : blockIter) :
    i.reset.offsetStart = i.offsetStart ∧ i.reset.offsetLimit = i.offsetLimit ∧
      i.reset.err = i.err := by
  unfold blockIter.reset
  simp only
  split_ifs <;> exact ⟨rfl, rfl, rfl⟩

theorem sliced_nil (r : Reader) (bh : blockHandle) (es : List RawEntry) (ris : List Nat)
    (hes : es = []) (hris : ris = [0]) (hwf : WellFormed es ris) (hc : IsComparer r.cmp)
    (hs : StrictSorted r.cmp (keysOf es)) (start limit : List Nat) :
    ∃ it, r.newBlockIter (blockOf bh es ris)
        (some { Start := some start, Limit := some limit }) false = some it ∧
      it.err ≠ none := by
  have hw0 := winOk_full es ris hwf
  have hlen : es.length = 0 := by rw [hes]; rfl
  have hro : (blockOf bh es ris).restartsOffset = 0 := by rw [hes]; rfl
  have hrl : (blockOf bh es ris).restartsLen = 1 := by rw [hris]; rfl
  have hsL : (((Win.full es ris).sL : Nat) : Int) = 1 := by rw [hris]; rfl
  have hoc : ((entryOffset es (Win.full es ris).c : Nat) : Int) = 0 := by rw [hes]; rfl
  have hseekE : (blockOf bh es ris).seek r.cmp 1 1 limit = some (1, 1, none) :=
    seek_nil_end_aux _ _ _ (by rw [hes, hris]; rfl) hro
  unfold Reader.newBlockIter
  simp only
  set bi : blockIter :=
    { tr := r, block := blockOf bh es ris, key := [], value := none, offset := 0,
      prevOffset := 0, prevNode := [], prevKeys := [], restartIndex := 0, dir := dir.dirSOI,
      riStart := 0, riLimit := (blockOf bh es ris).restartsLen, offsetStart := 0,
      offsetRealStart := 0, offsetLimit := (blockOf bh es ris).restartsOffset, err := none }
    with hbi
  have hbiS : AtEnd r (blockOf bh es ris) es (Win.full es ris) bi dir.dirSOI := by
    refine ⟨⟨rfl, rfl, rfl, rfl, rfl, rfl, ?_, ?_⟩, rfl, rfl, rfl⟩
    · show (0 : Int) = ((entryOffset es 0 : Nat) : Int)
      rw [entryOffset_zero]
      rfl
    · show ((encodeEntries es).length : Int) = ((entryOffset es es.length : Nat) : Int)
      rw [entryOffset_length]
  obtain ⟨_, hB⟩ := Seek_full r bh es ris hwf hc hs bi (atEnd_ready hbiS (by decide)) start
  obtain ⟨bi1, hSk1, hE1⟩ := hB (fun y hy => by omega)
  have hfr := hE1.framed
  rw [hSk1]
  simp only
  obtain ⟨bi3, hSk2, hErr, hoS, hoL⟩ := Seek_latch
    { bi1 with riStart := (blockOf bh es ris).restartsLen,
               offsetStart := (blockOf bh es ris).restartsOffset,
               offsetRealStart := (blockOf bh es ris).restartsOffset } limit 1 1 hfr.err
    hE1.dir
    (by
      show bi1.block.seek bi1.tr.cmp (blockOf bh es ris).restartsLen bi1.riLimit limit = _
      rw [hfr.block, hfr.tr, hfr.riLimit, hrl, hsL]
      exact hseekE)
    (by
      show (blockOf bh es ris).restartsOffset ≤ max (blockOf bh es ris).restartsOffset 1
      exact le_max_left _ _)
    (by
      show bi1.offsetLimit < max (blockOf bh es ris).restartsOffset 1
      rw [hfr.offsetLimit, hoc, hro]
      decide)
  obtain ⟨h3, h4, h5⟩ := reset_keeps bi3
  refine ⟨bi3.reset, ?_, ?_⟩
  · rw [hSk2]
    simp only
    rw [if_neg]
    rw [h3, h4, hoS, hoL]
    show ¬ ((blockOf bh es ris).restartsOffset > bi1.offsetLimit)
    rw [hfr.offsetLimit, hoc, hro]
    decide
  · rw [h5]
    exact hErr


/-- C16: for every well-formed block, the empty one included, whose keys increase
strictly under the comparer, and every slice with non-nil `Start` and `Limit`, the
iterator that `newBlockIter` builds with `inclLimit = false` is returned, its forward
traversal (`First()`, then `Next()` until false) returns and yields exactly the stored
entries with `Start ≤ key < Limit` in stored order, and its backward traversal
(`Last()`, then `Prev()` until false) returns and yields the same entries reversed. -/
theorem sliced_iteration_in_range (r : Reader) (bh : blockHandle) (es : List RawEntry)
    (ris : List Nat) (start limit : List Nat) (hwf : WellFormed es ris)
    (hc : IsComparer r.cmp) (hs : StrictSorted r.cmp (keysOf es)) :
    ∃ it itF itB, r.newBlockIter (blockOf bh es ris)
        (some { Start := some start, Limit := some limit }) false = some it ∧
      forwardAll it = some (((pairsOf es).filter
        (fun p => decide (r.cmp p.1 start ≥ 0 ∧ r.cmp p.1 limit < 0))).map
          (fun p => (some p.1, some p.2)), itF) ∧
      backwardAll it = some ((((pairsOf es).filter
        (fun p => decide (r.cmp p.1 start ≥ 0 ∧ r.cmp p.1 limit < 0))).map
          (fun p => (some p.1, some p.2))).reverse, itB) := by
  by_cases hne : es = []
  · have hris : ris = [0] := by subst hne; exact wf_nil_ris ris hwf
    obtain ⟨it, hN, hErr⟩ := sliced_nil r bh es ris hne hris hwf hc hs start limit
    refine ⟨it, it, it, hN, ?_, ?_⟩
    · rw [forwardAll_err it hErr, hne]
      rfl
    · rw [backwardAll_err it hErr, hne]
      rfl
  · obtain ⟨a, _, ha0, ha1, ha2⟩ := exists_first_ge r.cmp es start es.length 0 (by omega)
    obtain ⟨c, hc1, hc2, hc3, hc4⟩ := exists_first_ge r.cmp es limit (es.length - a) a
      (by omega)
    obtain ⟨it, w, hN, hw, hwa, hwc, hS⟩ := newBlockIter_sliced r bh es ris hwf hne hc hs
      start limit a c ha0 (fun y hy => ha1 y (Nat.zero_le _) hy) ha2 hc1 hc2 hc3 hc4
    have hR := atEnd_ready hS (by decide : dir.dirSOI ≠ dir.dirReleased)
    obtain ⟨itF, hF, _⟩ := forwardAll_layout r bh es ris hwf w hw it hR
    obtain ⟨itB, hB, _⟩ := backwardAll_layout r bh es ris hwf w hw it hR
    have hL := inRange_eq_window r.cmp hc es hs start limit a c
      (fun y hy => ha1 y (Nat.zero_le _) hy) ha2 hc1 hc2 hc3 hc4
    rw [hwa, hwc] at hF hB
    exact ⟨it, itF, itB, hN, by rw [hF, hL], by rw [hB, hL]⟩

theorem sliced_iteration_in_range_witness :
    ∃ it itF itB, (plainReader bytesCompare).newBlockIter
        (blockOf { offset := 0, length := 82 } tenEntries tenRestarts)
        (some { Start := some [107, 50], Limit := some [107, 55] }) false = some it ∧
      forwardAll it = some (((pairsOf tenEntries).filter
        (fun p => decide ((plainReader bytesCompare).cmp p.1 [107, 50] ≥ 0 ∧
          (plainReader bytesCompare).cmp p.1 [107, 55] < 0))).map
          (fun p => (some p.1, some p.2)), itF) ∧
      backwardAll it = some ((((pairsOf tenEntries).filter
        (fun p => decide ((plainReader bytesCompare).cmp p.1 [107, 50] ≥ 0 ∧
          (plainReader bytesCompare).cmp p.1 [107, 55] < 0))).map
          (fun p => (some p.1, some p.2))).reverse, itB) :=
  sliced_iteration_in_range (plainReader bytesCompare) { offset := 0, length := 82 }
    tenEntries tenRestarts [107, 50] [107, 55] ten_wellFormed bytesCompare_isComparer
    ten_sorted

end table

namespace table

theorem find_latched (r : Reader) (e : Err) (h : r.err = some e) (key : List Nat)
    (filtered noValue : Bool) :
    r.find key filtered noValue = some ({ rkey := none, value := none, err := some e }, r) := by
  unfold Reader.find
  rw [h]

theorem get_latched (r : Reader) (e : Err) (h : r.err = some e) (key : List Nat) :
    r.Get key = some ((none, some e), r) := by
  unfold Reader.Get
  rw [h]

/-- C24: once the reader's `err` is some error `e`, however it got there, `Get`,
`Find`, `FindKey` and `OffsetOf` return exactly `e` (with a nil key and value, offset 0)
and leave the reader as it was, and `NewIterator` returns the empty iterator that
carries `e`; this holds for every file behind the reader, so no block is read.
`Release` puts a reader into that state with `e = ErrReaderReleased`. -/
theorem reader_error_latched (r : Reader) (e : Err) (h : r.err = some e) (key : List Nat)
    (filtered : Bool) (slice : Option Range) :
    r.Get key = some ((none, some e), r) ∧
    r.Find key filtered = some ({ rkey := none, value := none, err := some e }, r) ∧
    r.FindKey key filtered = some ((none, some e), r) ∧
    r.OffsetOf key = some ((0, some e), r) ∧
    r.NewIterator slice = some (tableIter.empty (some e)) ∧
    (r.NewIterator slice).map tableIter.Error = some (some e) ∧
    (∀ r0 : Reader, r0.Release.err = some Err.ErrReaderReleased) := by
  refine ⟨get_latched r e h key, ?_, ?_, ?_, ?_, ?_, fun _ => rfl⟩
  · unfold Reader.Find
    exact find_latched r e h key filtered false
  · unfold Reader.FindKey
    rw [find_latched r e h key filtered true]
  · unfold Reader.OffsetOf
    rw [h]
  · unfold Reader.NewIterator
    rw [h]
  · unfold Reader.NewIterator
    rw [h]
    rfl

theorem reader_error_latched_witness :
    exampleTable.Release.Get [97] = some ((none, some Err.ErrReaderReleased), exampleTable.Release) ∧
    exampleTable.Release.Find [97] true =
      some ({ rkey := none, value := none, err := some Err.ErrReaderReleased },
            exampleTable.Release) ∧
    exampleTable.Release.FindKey [97] true =
      some ((none, some Err.ErrReaderReleased), exampleTable.Release) ∧
    exampleTable.Release.OffsetOf [97] =
      some ((0, some Err.ErrReaderReleased), exampleTable.Release) ∧
    exampleTable.Release.NewIterator none = some (tableIter.empty (some Err.ErrReaderReleased)) ∧
    (exampleTable.Release.NewIterator none).map tableIter.Error =
      some (some Err.ErrReaderReleased) ∧
    (∀ r0 : Reader, r0.Release.err = some Err.ErrReaderReleased) :=
  reader_error_latched exampleTable.Release Err.ErrReaderReleased rfl [97] true none

/-- C23: `NewReader` on a file that is not nil checks the footer before anything else.
With `size < 48` it returns a reader and a nil error, the reader's `err` being
`Corrupted` at position 0 with the file's size, kind `table` and reason `too small`.
With `size ≥ 48`, when the 48 bytes read at `size - 48` do not end in the magic, it
returns a reader and a nil error, the reader's `err` being `Corrupted` at position
`size - 48` with size 48, kind `table-footer` and reason `bad magic number`.  In both
cases every `Get` on the returned reader returns that error and a nil value. -/
theorem newReader_checks_footer (reader : Nat → Int → Except Err (List Nat)) (size : Int)
    (cache bpool : Bool) (o : Options) (crc : List Nat → Nat)
    (snappyDecode : List Nat → Except String (List Nat)) :
    (size < 48 →
      ∃ r, NewReader (some reader) size cache bpool o crc snappyDecode = some (Except.ok r) ∧
        r.err = some (Err.corrupted 0 size "table" "too small") ∧
        ∀ key, r.Get key = some ((none, some (Err.corrupted 0 size "table" "too small")), r)) ∧
    (48 ≤ size → ∀ buf, reader 48 (size - 48) = Except.ok buf →
      ((buf ++ List.replicate 48 0).take 48).drop 40 ≠ magic →
      ∃ r, NewReader (some reader) size cache bpool o crc snappyDecode = some (Except.ok r) ∧
        r.err = some (Err.corrupted (size - 48) 48 "table-footer" "bad magic number") ∧
        ∀ key, r.Get key =
          some ((none, some (Err.corrupted (size - 48) 48 "table-footer" "bad magic number")),
                r)) := by
  constructor
  · intro hsz
    have hlt : size < (footerLen : Int) := by
      show size < ((48 : Nat) : Int)
      omega
    have h1 : NewReader (some reader) size cache bpool o crc snappyDecode =
        some (Except.ok (Reader.mk (some (Err.corrupted 0 size "table" "too small")) o.comparer
          none o.strictBlockChecksum 0 ⟨0, 0⟩ ⟨0, 0⟩ ⟨0, 0⟩ none none bpool reader crc
          snappyDecode)) := by
      unfold NewReader
      simp only [if_pos hlt]
      rfl
    exact ⟨_, h1, rfl, fun key => get_latched _ _ rfl key⟩
  · intro hsz buf hbuf hmagic
    have hlt : ¬ size < (footerLen : Int) := by
      show ¬ size < ((48 : Nat) : Int)
      omega
    have hbuf1 : reader footerLen (size - (footerLen : Int)) = Except.ok buf := hbuf
    have hm : (((buf ++ List.replicate footerLen 0).take footerLen).take footerLen).drop
        (footerLen - magic.length) ≠ magic := by
      rw [List.take_take]
      exact hmagic
    have h1 : NewReader (some reader) size cache bpool o crc snappyDecode =
        some (Except.ok (Reader.mk
          (some (Err.corrupted (size - 48) 48 "table-footer" "bad magic number")) o.comparer
          none o.strictBlockChecksum 0 ⟨0, 0⟩ ⟨0, 0⟩ ⟨0, 0⟩ none none bpool reader crc
          snappyDecode)) := by
      unfold NewReader
      simp only [if_neg hlt, hbuf1, if_pos hm]
      rfl
    exact ⟨_, h1, rfl, fun key => get_latched _ _ rfl key⟩

theorem newReader_checks_footer_witness :
    (∃ r, NewReader (some (fun n _ => Except.ok (List.replicate n 0))) 10 false false
          { comparer := bytesCompare, strictBlockChecksum := false, filter := none,
            altFilters := [] } (fun _ => 0) (fun _ => Except.error "no snappy") =
        some (Except.ok r) ∧
        r.err = some (Err.corrupted 0 10 "table" "too small") ∧
        ∀ key, r.Get key = some ((none, some (Err.corrupted 0 10 "table" "too small")), r)) ∧
    (∃ r, NewReader (some (fun n _ => Except.ok (List.replicate n 0))) 100 false false
          { comparer := bytesCompare, strictBlockChecksum := false, filter := none,
            altFilters := [] } (fun _ => 0) (fun _ => Except.error "no snappy") =
        some (Except.ok r) ∧
        r.err = some (Err.corrupted (100 - 48) 48 "table-footer" "bad magic number") ∧
        ∀ key, r.Get key =
          some ((none, some (Err.corrupted (100 - 48) 48 "table-footer" "bad magic number")),
                r)) :=
  ⟨(newReader_checks_footer (fun n _ => Except.ok (List.replicate n 0)) 10 false false
      { comparer := bytesCompare, strictBlockChecksum := false, filter := none,
        altFilters := [] } (fun _ => 0) (fun _ => Except.error "no snappy")).1 (by decide),
   (newReader_checks_footer (fun n _ => Except.ok (List.replicate n 0)) 100 false false
      { comparer := bytesCompare, strictBlockChecksum := false, filter := none,
        altFilters := [] } (fun _ => 0) (fun _ => Except.error "no snappy")).2 (by decide)
      (List.replicate 48 0) rfl (by decide)⟩

end table

namespace table

theorem readBlock_layout (r : Reader) (bh : blockHandle) (v : Bool) (es : List RawEntry)
    (ris : List Nat) (hsz : (encodeBlock es ris).length < 2 ^ 32)
    (h : r.readRawBlock bh v = some (Except.ok (encodeBlock es ris))) :
    r.readBlock bh v = some (Except.ok (blockOf bh es ris)) := by
  have hlen := encodeBlock_length es ris
  have hsl : sliceFrom (encodeBlock es ris) (((encodeBlock es ris).length : Int) - 4) =
      some (putUint32 ris.length) := by
    apply sliceFrom_eq _ (encodeEntries es ++ encodeRestarts es ris) _ _ rfl
    rw [List.length_append, encodeRestarts_length, hlen]
    push_cast
    omega
  have hle : leUint32 (putUint32 ris.length) = some ris.length := by
    have := leUint32_putUint32 ris.length [] (by omega)
    rwa [List.append_nil] at this
  unfold Reader.readBlock
  rw [h]
  simp only [hsl, hle]
  unfold blockOf
  congr 3
  rw [hlen]
  push_cast
  omega

theorem decodeBlockHandle_put (off len : Nat) (h1 : off < 2 ^ 64) (h2 : len < 2 ^ 64) :
    ∃ n : Int, n ≠ 0 ∧ decodeBlockHandle (putUvarint off ++ putUvarint len) =
      some ({ offset := off, length := len }, n) := by
  have hl1 := (putUvarint_length off).1
  have hl2 := (putUvarint_length len).1
  have hu2 : Uvarint (putUvarint len) = (len, ((putUvarint len).length : Int)) := by
    have := Uvarint_putUvarint len [] h2
    rwa [List.append_nil] at this
  have hsl : sliceFrom (putUvarint off ++ putUvarint len) ((putUvarint off).length : Int) =
      some (putUvarint len) := sliceFrom_eq _ _ _ _ rfl rfl
  refine ⟨((putUvarint off).length : Int) + ((putUvarint len).length : Int), by omega, ?_⟩
  unfold decodeBlockHandle
  simp only [Uvarint_putUvarint off _ h1, hsl, hu2]
  rw [if_neg (by omega)]

theorem offsetOf_core (r : Reader) (es : List RawEntry) (ris : List Nat)
    (hd : Nat → blockHandle) (herr : r.err = none)
    (hraw : r.readRawBlock r.indexBH true = some (Except.ok (encodeBlock es ris)))
    (hwf : WellFormed es ris) (hc : IsComparer r.cmp)
    (hs : StrictSorted r.cmp (keysOf es))
    (hv : ∀ j, j < es.length →
      valueAt es j = putUvarint (hd j).offset ++ putUvarint (hd j).length ∧
        (hd j).offset < 2 ^ 64 ∧ (hd j).length < 2 ^ 64) (key : List Nat) :
    (∀ j, j < es.length → r.cmp (keyAt es j) key ≥ 0 →
      (∀ y, y < j → r.cmp (keyAt es y) key < 0) →
      r.OffsetOf key = some ((toInt64 (hd j).offset, none), r)) ∧
    ((∀ y, y < es.length → r.cmp (keyAt es y) key < 0) →
      r.OffsetOf key = some ((r.dataEnd, none), r)) := by
  have hrb : r.readBlockCached r.indexBH true =
      some (Except.ok (blockOf r.indexBH es ris)) := by
    unfold Reader.readBlockCached
    exact readBlock_layout r r.indexBH true es ris hwf.size hraw
  obtain ⟨i0, h0, hS⟩ := newBlockIter_none r r.indexBH es ris true
  obtain ⟨hA, hB⟩ := Seek_full r r.indexBH es ris hwf hc hs i0 (atEnd_ready hS (by decide)) key
  constructor
  · intro j h1 h2 h3
    obtain ⟨it, hSk, hF⟩ := hA j h1 h2 h3
    have hp := FwdAt_pair r _ es ris _ it j hF
    unfold entryPair at hp
    have hval : it.Value = some (valueAt es j) := (Prod.ext_iff.mp hp).2
    obtain ⟨hv1, hv2, hv3⟩ := hv j h1
    obtain ⟨n, hn, hdec⟩ := decodeBlockHandle_put (hd j).offset (hd j).length hv2 hv3
    unfold Reader.OffsetOf
    simp only [herr, hrb, h0, hSk, hval, Option.getD_some, hv1, hdec, if_neg hn]
  · intro hall
    obtain ⟨it, hSk, hE⟩ := hB hall
    have he : it.Error = none := hE.framed.err
    unfold Reader.OffsetOf
    simp only [herr, hrb, h0, hSk, he]

theorem offset_wellFormed : WellFormed offsetEntries [0] :=
  ⟨by decide, by decide, Or.inr (by decide), by decide, by decide⟩

theorem offset_sorted : StrictSorted bytesCompare (keysOf offsetEntries) := by
  unfold StrictSorted
  decide

theorem offset_values : ∀ j, j < offsetEntries.length →
    valueAt offsetEntries j =
        putUvarint (offsetHandles j).offset ++ putUvarint (offsetHandles j).length ∧
      (offsetHandles j).offset < 2 ^ 64 ∧ (offsetHandles j).length < 2 ^ 64 := by
  intro j hj
  have hj2 : j < 2 := hj
  interval_cases j <;> decide

theorem offset_monotone : ∀ a b, a ≤ b → b < offsetEntries.length →
    (offsetHandles a).offset ≤ (offsetHandles b).offset := by
  intro a b hab hb
  have hb2 : b < 2 := hb
  interval_cases b <;> interval_cases a <;> decide

theorem offset_bounded : ∀ j, j < offsetEntries.length →
    (offsetHandles j).offset < 2 ^ 63 ∧ ((offsetHandles j).offset : Int) ≤ offsetTable.dataEnd := by
  intro j hj
  have hj2 : j < 2 := hj
  interval_cases j <;> decide

/-- OffsetOf over a readable index: for a reader without latched error whose index
block is read from the file as a well-formed block with strictly increasing keys in
which the value of entry `j` is the encoding of a block handle `hd j`, `OffsetOf(K)`
returns for every key `K`, with a nil error and the reader unchanged: the offset of the
handle of the first index entry whose key is not below `K` (as an int64), and `dataEnd`
when every index key is below `K`.  When in addition the handles' offsets are below
2^63, do not decrease along the index and do not exceed `dataEnd`, the result does not
decrease in `K`. -/
theorem offsetOf_valid_index (r : Reader) (es : List RawEntry) (ris : List Nat)
    (hd : Nat → blockHandle) (herr : r.err = none)
    (hraw : r.readRawBlock r.indexBH true = some (Except.ok (encodeBlock es ris)))
    (hwf : WellFormed es ris) (hc : IsComparer r.cmp)
    (hs : StrictSorted r.cmp (keysOf es))
    (hv : ∀ j, j < es.length →
      valueAt es j = putUvarint (hd j).offset ++ putUvarint (hd j).length ∧
        (hd j).offset < 2 ^ 64 ∧ (hd j).length < 2 ^ 64) :
    (∀ key j, j < es.length → r.cmp (keyAt es j) key ≥ 0 →
      (∀ y, y < j → r.cmp (keyAt es y) key < 0) →
      r.OffsetOf key = some ((toInt64 (hd j).offset, none), r)) ∧
    (∀ key, (∀ y, y < es.length → r.cmp (keyAt es y) key < 0) →
      r.OffsetOf key = some ((r.dataEnd, none), r)) ∧
    ((∀ a b, a ≤ b → b < es.length → (hd a).offset ≤ (hd b).offset) →
      (∀ j, j < es.length → (hd j).offset < 2 ^ 63 ∧ ((hd j).offset : Int) ≤ r.dataEnd) →
      ∀ k1 k2, r.cmp k1 k2 ≤ 0 →
        ∃ o1 o2, r.OffsetOf k1 = some ((o1, none), r) ∧
          r.OffsetOf k2 = some ((o2, none), r) ∧ o1 ≤ o2) := by
  refine ⟨fun key => (offsetOf_core r es ris hd herr hraw hwf hc hs hv key).1,
    fun key => (offsetOf_core r es ris hd herr hraw hwf hc hs hv key).2, ?_⟩
  intro hmono hbound k1 k2 h12
  obtain ⟨a1, -, ha1, hlt1, hge1⟩ := exists_first_ge r.cmp es k1 es.length 0 (by omega)
  obtain ⟨a2, -, ha2, hlt2, hge2⟩ := exists_first_ge r.cmp es k2 es.length 0 (by omega)
  have hle : a1 ≤ a2 := by
    by_contra hn
    have h1 : a2 < a1 := by omega
    have h2 := hlt1 a2 (Nat.zero_le _) h1
    have h3 := cmp_lt_of_lt_of_le r.cmp hc _ _ _ h2 h12
    have h4 := hge2 (by omega)
    omega
  obtain ⟨c1, c2⟩ := offsetOf_core r es ris hd herr hraw hwf hc hs hv k1
  obtain ⟨d1, d2⟩ := offsetOf_core r es ris hd herr hraw hwf hc hs hv k2
  by_cases hb2 : a2 < es.length
  · have hb1 : a1 < es.length := by omega
    refine ⟨_, _, c1 a1 hb1 (hge1 hb1) (fun y hy => hlt1 y (Nat.zero_le _) hy),
      d1 a2 hb2 (hge2 hb2) (fun y hy => hlt2 y (Nat.zero_le _) hy), ?_⟩
    rw [toInt64_of_small _ (hbound a1 hb1).1, toInt64_of_small _ (hbound a2 hb2).1]
    exact_mod_cast hmono a1 a2 hle hb2
  · have he2 : a2 = es.length := by omega
    by_cases hb1 : a1 < es.length
    · refine ⟨_, _, c1 a1 hb1 (hge1 hb1) (fun y hy => hlt1 y (Nat.zero_le _) hy),
        d2 (fun y hy => hlt2 y (Nat.zero_le _) (by omega)), ?_⟩
      rw [toInt64_of_small _ (hbound a1 hb1).1]
      exact (hbound a1 hb1).2
    · have he1 : a1 = es.length := by omega
      exact ⟨_, _, c2 (fun y hy => hlt1 y (Nat.zero_le _) (by omega)),
        d2 (fun y hy => hlt2 y (Nat.zero_le _) (by omega)), le_refl _⟩

/-- C25 (as amended): for a reader without latched error.  When the index block is
read from the file as a well-formed block with strictly increasing keys in which the
value of entry `j` is the encoding of a block handle `hd j`, `OffsetOf(K)` returns for
every key `K`, with a nil error and the reader unchanged, the offset (as an int64) of
the handle of the first index entry whose key is not below `K`, and `dataEnd` when
every index key is below `K`; when in addition the handles' offsets are below 2^63, do
not decrease along the index and do not exceed `dataEnd`, the result does not decrease
in `K`.  When reading the index block fails with an error `e`, `OffsetOf(K)` returns
offset 0 and the error `e` for every key `K`, and the reader is unchanged. -/
theorem offsetOf_index_contract (r : Reader) (herr : r.err = none) :
    (∀ (es : List RawEntry) (ris : List Nat) (hd : Nat → blockHandle),
      r.readRawBlock r.indexBH true = some (Except.ok (encodeBlock es ris)) →
      WellFormed es ris → IsComparer r.cmp → StrictSorted r.cmp (keysOf es) →
      (∀ j, j < es.length →
        valueAt es j = putUvarint (hd j).offset ++ putUvarint (hd j).length ∧
          (hd j).offset < 2 ^ 64 ∧ (hd j).length < 2 ^ 64) →
      (∀ key j, j < es.length → r.cmp (keyAt es j) key ≥ 0 →
        (∀ y, y < j → r.cmp (keyAt es y) key < 0) →
        r.OffsetOf key = some ((toInt64 (hd j).offset, none), r)) ∧
      (∀ key, (∀ y, y < es.length → r.cmp (keyAt es y) key < 0) →
        r.OffsetOf key = some ((r.dataEnd, none), r)) ∧
      ((∀ a b, a ≤ b → b < es.length → (hd a).offset ≤ (hd b).offset) →
        (∀ j, j < es.length → (hd j).offset < 2 ^ 63 ∧ ((hd j).offset : Int) ≤ r.dataEnd) →
        ∀ k1 k2, r.cmp k1 k2 ≤ 0 →
          ∃ o1 o2, r.OffsetOf k1 = some ((o1, none), r) ∧
            r.OffsetOf k2 = some ((o2, none), r) ∧ o1 ≤ o2)) ∧
    (∀ e, r.readBlockCached r.indexBH true = some (Except.error e) →
      ∀ key, r.OffsetOf key = some ((0, some e), r)) := by
  refine ⟨fun es ris hd hraw hwf hc hs hv =>
    offsetOf_valid_index r es ris hd herr hraw hwf hc hs hv, ?_⟩
  intro e he key
  unfold Reader.OffsetOf
  simp only [herr, he]

theorem offsetOf_index_contract_witness :
    ((∀ key j, j < offsetEntries.length → offsetTable.cmp (keyAt offsetEntries j) key ≥ 0 →
      (∀ y, y < j → offsetTable.cmp (keyAt offsetEntries y) key < 0) →
      offsetTable.OffsetOf key = some ((toInt64 (offsetHandles j).offset, none), offsetTable)) ∧
    (∀ key, (∀ y, y < offsetEntries.length → offsetTable.cmp (keyAt offsetEntries y) key < 0) →
      offsetTable.OffsetOf key = some ((offsetTable.dataEnd, none), offsetTable)) ∧
    (∀ k1 k2, offsetTable.cmp k1 k2 ≤ 0 →
      ∃ o1 o2, offsetTable.OffsetOf k1 = some ((o1, none), offsetTable) ∧
        offsetTable.OffsetOf k2 = some ((o2, none), offsetTable) ∧ o1 ≤ o2)) ∧
    (∀ key, unreadableIndexTable.OffsetOf key =
      some ((0, some (Err.other "input/output error")), unreadableIndexTable)) :=
  ⟨(fun h => ⟨h.1, h.2.1, h.2.2 offset_monotone offset_bounded⟩)
    ((offsetOf_index_contract offsetTable rfl).1 offsetEntries [0] offsetHandles rfl
      offset_wellFormed bytesCompare_isComparer offset_sorted offset_values),
   (offsetOf_index_contract unreadableIndexTable rfl).2 (Err.other "input/output error") rfl⟩

/-- C25 (counterexample): `unreadableIndexTable` has no latched error, but every read
of its file fails.  `OffsetOf(a)` returns offset 0 with the read error instead of an
offset with a nil error, and latches nothing. -/
theorem offsetOf_unreadable_index :
    unreadableIndexTable.err = none ∧
    (unreadableIndexTable.OffsetOf [97]).map (fun p => (p.1, p.2.err)) =
      some ((0, some (Err.other "input/output error")), none) :=
  ⟨rfl, rfl⟩

end table

namespace table

theorem nextUntil_layout (r : Reader) (bh : blockHandle) (es : List RawEntry)
    (ris : List Nat) (hwf : WellFormed es ris) (stop : List Nat → Bool) (c : Nat)
    (hcn : c ≤ es.length) (hlow : ∀ y, y < c → stop (keyAt es y) = false)
    (hat : c < es.length → stop (keyAt es c) = true) :
    ∀ (fuel : Nat) (i : blockIter) (j : Nat)
      (acc : List (Option (List Nat) × Option (List Nat))),
      FwdAt r (blockOf bh es ris) es ris (Win.full es ris) i j → j ≤ c → c - j < fuel →
      nextUntil stop fuel i acc = some (acc ++ windowPairs es j c) := by
  intro fuel
  induction fuel with
  | zero =>
    intro i j acc h hjc hf
    omega
  | succ f ih =>
    intro i j acc h hjc hf
    have hhi : j < es.length := h.hi
    have hp := FwdAt_pair r _ es ris _ i j h
    have hk : i.Key = some (keyAt es j) := by
      unfold entryPair at hp
      exact (Prod.ext_iff.mp hp).1
    obtain ⟨hA, hB⟩ := Next_fwd r bh es ris hwf (Win.full es ris) (le_refl _) i j h
    unfold nextUntil
    rw [hk, Option.getD_some]
    by_cases hj : j = c
    · subst hj
      rw [if_pos (hat hhi), windowPairs_nil es j j (le_refl _), List.append_nil]
    · have hlt : j < c := by omega
      have hst : ¬ (stop (keyAt es j) = true) := by
        rw [hlow j hlt]
        decide
      have hcons : acc ++ entryPair es j :: windowPairs es (j + 1) c =
          (acc ++ [entryPair es j]) ++ windowPairs es (j + 1) c := by simp
      rw [if_neg hst, ← hk, hp, windowPairs_cons es j c hlt, hcons]
      by_cases hn : j + 1 < es.length
      · obtain ⟨it, hN, hF⟩ := hA hn
        rw [hN]
        exact ih it (j + 1) _ hF (by omega) (by omega)
      · have hce : c = j + 1 := by omega
        obtain ⟨it, hN, _⟩ := hB (by show j + 1 = es.length; omega)
        rw [hN, windowPairs_nil es (j + 1) c (by omega), List.append_nil]

theorem seekNextUntil_layout (r : Reader) (bh : blockHandle) (es : List RawEntry)
    (ris : List Nat) (hwf : WellFormed es ris) (hc : IsComparer r.cmp)
    (hs : StrictSorted r.cmp (keysOf es)) (start : List Nat) (stop : List Nat → Bool)
    (a c : Nat) (ha : a < es.length) (ha1 : ∀ y, y < a → r.cmp (keyAt es y) start < 0)
    (ha2 : r.cmp (keyAt es a) start ≥ 0) (hac : a ≤ c) (hcn : c ≤ es.length)
    (hlow : ∀ y, y < c → stop (keyAt es y) = false)
    (hat : c < es.length → stop (keyAt es c) = true) :
    seekNextUntil r (blockOf bh es ris) start stop = some (windowPairs es a c) := by
  obtain ⟨i0, h0, hS⟩ := newBlockIter_none r bh es ris false
  obtain ⟨hA, -⟩ := Seek_full r bh es ris hwf hc hs i0 (atEnd_ready hS (by decide)) start
  obtain ⟨it, hSk, hF⟩ := hA a ha ha2 ha1
  have hlen : c - a < (blockOf bh es ris).data.length + 1 := by
    have h1 := length_le_encodeEntries es
    have h2 := encodeBlock_length es ris
    show c - a < (encodeBlock es ris).length + 1
    omega
  unfold seekNextUntil
  rw [h0]
  simp only [hSk]
  rw [nextUntil_layout r bh es ris hwf stop c hcn hlow hat _ it a [] hF hac hlen]
  rfl

/-- C17 (as amended): for every well-formed block with strictly increasing keys and
all `i ≤ j < n`, the iterator that `getDataIter` builds (`newBlockIter` with
`inclLimit = false`) for the slice `Start = k_i`, `Limit = k_j` is returned and its
forward traversal yields the entries `i`, ..., `j - 1`: the same entries as the
unsliced iterator driven by `Seek(k_i)` and `Next()` until the key is `k_j` or above.
The driver of the claim, which goes on until the key exceeds `k_j`, yields the entries
`i`, ..., `j`: one more, the entry of `k_j`. -/
theorem slice_equals_seek_next (r : Reader) (bh : blockHandle) (es : List RawEntry)
    (ris : List Nat) (i j : Nat) (hwf : WellFormed es ris) (hc : IsComparer r.cmp)
    (hs : StrictSorted r.cmp (keysOf es)) (hij : i ≤ j) (hj : j < es.length) :
    ∃ it itF, r.newBlockIter (blockOf bh es ris)
        (some { Start := some (keyAt es i), Limit := some (keyAt es j) }) false = some it ∧
      forwardAll it = some (windowPairs es i j, itF) ∧
      seekNextUntil r (blockOf bh es ris) (keyAt es i)
        (fun k => decide (r.cmp k (keyAt es j) ≥ 0)) = some (windowPairs es i j) ∧
      seekNextUntil r (blockOf bh es ris) (keyAt es i)
        (fun k => decide (r.cmp k (keyAt es j) > 0)) = some (windowPairs es i (j + 1)) := by
  have hne : es ≠ [] := by
    intro h
    rw [h] at hj
    simp at hj
  have hi : i < es.length := by omega
  have hbelow : ∀ (t : Nat), t < es.length → ∀ y, y < t →
      r.cmp (keyAt es y) (keyAt es t) < 0 :=
    fun t ht y hy => sorted_keyAt r.cmp es hs y t hy ht
  have hself : ∀ t, r.cmp (keyAt es t) (keyAt es t) ≥ 0 := fun t => cmp_self_ge r.cmp hc _
  have hself0 : ∀ t, ¬ r.cmp (keyAt es t) (keyAt es t) > 0 := by
    intro t hgt
    have := (hc.flip _ _).2 hgt
    omega
  obtain ⟨it, w, hN, hw, hwa, hwc, hS⟩ := newBlockIter_sliced r bh es ris hwf hne hc hs
    (keyAt es i) (keyAt es j) i j (by omega) (hbelow i hi) (fun _ => hself i) hij (by omega)
    (fun y _ hy => hbelow j hj y hy) (fun _ => hself j)
  have hR := atEnd_ready hS (by decide : dir.dirSOI ≠ dir.dirReleased)
  obtain ⟨itF, hF, _⟩ := forwardAll_layout r bh es ris hwf w hw it hR
  rw [hwa, hwc] at hF
  refine ⟨it, itF, hN, hF, ?_, ?_⟩
  · apply seekNextUntil_layout r bh es ris hwf hc hs (keyAt es i) _ i j hi (hbelow i hi)
      (hself i) hij (by omega)
    · intro y hy
      have := hbelow j hj y hy
      simp only [decide_eq_false_iff_not]
      omega
    · intro _
      simp only [decide_eq_true_eq]
      exact hself j
  · apply seekNextUntil_layout r bh es ris hwf hc hs (keyAt es i) _ i (j + 1) hi
      (hbelow i hi) (hself i) (by omega) (by omega)
    · intro y hy
      simp only [decide_eq_false_iff_not]
      by_cases hyj : y = j
      · rw [hyj]
        exact hself0 j
      · have := hbelow j hj y (by omega)
        omega
    · intro hlt
      simp only [decide_eq_true_eq]
      exact (hc.flip _ _).1 (hbelow (j + 1) hlt j (by omega))

theorem slice_equals_seek_next_witness :
    ∃ it itF, (plainReader bytesCompare).newBlockIter
        (blockOf { offset := 0, length := 82 } tenEntries tenRestarts)
        (some { Start := some (keyAt tenEntries 2), Limit := some (keyAt tenEntries 5) })
        false = some it ∧
      forwardAll it = some (windowPairs tenEntries 2 5, itF) ∧
      seekNextUntil (plainReader bytesCompare)
        (blockOf { offset := 0, length := 82 } tenEntries tenRestarts) (keyAt tenEntries 2)
        (fun k => decide ((plainReader bytesCompare).cmp k (keyAt tenEntries 5) ≥ 0)) =
          some (windowPairs tenEntries 2 5) ∧
      seekNextUntil (plainReader bytesCompare)
        (blockOf { offset := 0, length := 82 } tenEntries tenRestarts) (keyAt tenEntries 2)
        (fun k => decide ((plainReader bytesCompare).cmp k (keyAt tenEntries 5) > 0)) =
          some (windowPairs tenEntries 2 (5 + 1)) :=
  slice_equals_seek_next (plainReader bytesCompare) { offset := 0, length := 82 }
    tenEntries tenRestarts 2 5 ten_wellFormed bytesCompare_isComparer ten_sorted
    (by decide) (by decide)

/-- C17 (counterexample): on the block with the keys `k0`, ..., `k9` (restart interval
4), sorted strictly, the iterator sliced with `Start = k2`, `Limit = k5` yields the
three entries of `k2`, `k3`, `k4`, while the unsliced iterator driven by `Seek(k2)` and
`Next()` until the key exceeds `k5` yields four entries, `k5` included. -/
theorem slice_excludes_limit_key :
    WellFormed tenEntries tenRestarts ∧
    (((plainReader bytesCompare).newBlockIter tenBlock
        (some { Start := some [107, 50], Limit := some [107, 53] }) false).bind
      forwardAll).map Prod.fst =
      some [(some [107, 50], some [118, 50]), (some [107, 51], some [118, 51]),
            (some [107, 52], some [118, 52])] ∧
    seekNextUntil (plainReader bytesCompare) tenBlock [107, 50]
        (fun k => decide (bytesCompare k [107, 53] > 0)) =
      some [(some [107, 50], some [118, 50]), (some [107, 51], some [118, 51]),
            (some [107, 52], some [118, 52]), (some [107, 53], some [118, 53])] :=
  ⟨ten_wellFormed, by decide, by decide⟩

end table

namespace table

theorem cmp_self_eq (cmp : List Nat → List Nat → Int) (hc : IsComparer cmp) (a : List Nat) :
    cmp a a = 0 := by
  have h1 := cmp_self_ge cmp hc a
  have h2 : ¬ cmp a a > 0 := by
    intro h
    have := (hc.flip a a).2 h
    omega
  omega

theorem key_le_last (cmp : List Nat → List Nat → Int) (hc : IsComparer cmp)
    (es : List RawEntry) (hs : StrictSorted cmp (keysOf es)) (e : Nat) (he : e < es.length) :
    cmp (keyAt es e) (keyAt es (es.length - 1)) ≤ 0 := by
  by_cases h : e = es.length - 1
  · rw [← h]
    exact le_of_eq (cmp_self_eq cmp hc _)
  · have := sorted_keyAt cmp es hs e (es.length - 1) (by omega) (by omega)
    omega

theorem first_le_key (cmp : List Nat → List Nat → Int) (hc : IsComparer cmp)
    (es : List RawEntry) (hs : StrictSorted cmp (keysOf es)) (e : Nat) (he : e < es.length) :
    cmp (keyAt es 0) (keyAt es e) ≤ 0 := by
  by_cases h : e = 0
  · rw [h]
    exact le_of_eq (cmp_self_eq cmp hc _)
  · have := sorted_keyAt cmp es hs 0 e (by omega) he
    omega

theorem keyAt_mono (cmp : List Nat → List Nat → Int) (hc : IsComparer cmp)
    (es : List RawEntry) (hs : StrictSorted cmp (keysOf es)) (a b : Nat) (hab : a ≤ b)
    (hb : b < es.length) : cmp (keyAt es a) (keyAt es b) ≤ 0 := by
  by_cases h : a = b
  · rw [h]
    exact le_of_eq (cmp_self_eq cmp hc _)
  · have := sorted_keyAt cmp es hs a b (by omega) hb
    omega

theorem table_below_index (r : Reader) (ies : List RawEntry) (iris : List Nat)
    (hd : Nat → blockHandle) (des : Nat → List RawEntry) (dris : Nat → List Nat)
    (hv : ValidTable r ies iris hd des dris) (hc : IsComparer r.cmp) (m e : Nat)
    (hm : m < ies.length) (he : e < (des m).length) :
    r.cmp (keyAt (des m) e) (keyAt ies m) ≤ 0 :=
  hc.trans _ _ _ (key_le_last r.cmp hc (des m) (hv.dataSorted m hm) e he) (hv.lastLe m hm)

theorem table_above_index (r : Reader) (ies : List RawEntry) (iris : List Nat)
    (hd : Nat → blockHandle) (des : Nat → List RawEntry) (dris : Nat → List Nat)
    (hv : ValidTable r ies iris hd des dris) (hc : IsComparer r.cmp) (m1 m e : Nat)
    (hm1 : m1 < m) (hm : m < ies.length) (he : e < (des m).length) :
    r.cmp (keyAt ies m1) (keyAt (des m) e) < 0 := by
  obtain ⟨p, hp⟩ : ∃ p, m = p + 1 := ⟨m - 1, by omega⟩
  subst hp
  have h1 := keyAt_mono r.cmp hc ies hv.indexSorted m1 p (by omega) (by omega)
  have h2 := hv.nextGt p hm
  have h3 := first_le_key r.cmp hc (des (p + 1)) (hv.dataSorted _ hm) e he
  exact cmp_lt_of_lt_of_le r.cmp hc _ _ _ (cmp_lt_of_le_of_lt r.cmp hc _ _ _ h1 h2) h3

theorem table_sorted (r : Reader) (ies : List RawEntry) (iris : List Nat)
    (hd : Nat → blockHandle) (des : Nat → List RawEntry) (dris : Nat → List Nat)
    (hv : ValidTable r ies iris hd des dris) (hc : IsComparer r.cmp) (m1 e1 m e : Nat)
    (hm1 : m1 < ies.length) (he1 : e1 < (des m1).length)
    (hm : m < ies.length) (he : e < (des m).length)
    (hb : m1 < m ∨ (m1 = m ∧ e1 < e)) :
    r.cmp (keyAt (des m1) e1) (keyAt (des m) e) < 0 := by
  rcases hb with hlt | ⟨heq, hlt⟩
  · exact cmp_lt_of_le_of_lt r.cmp hc _ _ _
      (table_below_index r ies iris hd des dris hv hc m1 e1 hm1 he1)
      (table_above_index r ies iris hd des dris hv hc m1 m e hlt hm he)
  · subst heq
    exact sorted_keyAt r.cmp (des m1) (hv.dataSorted m1 hm1) e1 e hlt he

theorem find_index_end (r : Reader) (key : List Nat) (noValue : Bool) (ib : block)
    (index0 index : blockIter) (herr : r.err = none)
    (hib : r.getIndexBlock = some (Except.ok ib))
    (hni : r.newBlockIter ib none true = some index0)
    (hsk : index0.Seek key = some (false, index)) (he : index.Error = none) :
    r.find key false noValue = some (notFoundResult, r) := by
  unfold Reader.find
  simp only [herr, hib, hni, hsk, he]
  rfl

theorem find_data_hit (r : Reader) (key : List Nat) (noValue : Bool) (ib : block)
    (index0 index : blockIter) (v : List Nat) (bh : blockHandle) (n : Int)
    (d0 d : blockIter) (herr : r.err = none)
    (hib : r.getIndexBlock = some (Except.ok ib))
    (hni : r.newBlockIter ib none true = some index0)
    (hsk : index0.Seek key = some (true, index)) (hval : index.Value = some v)
    (hdec : decodeBlockHandle v = some (bh, n)) (hn : n ≠ 0)
    (hdi : r.getDataIter bh r.verifyChecksum = some (dataIter.blk d0))
    (hds : d0.Seek key = some (true, d)) :
    r.find key false noValue = some (r.findTail (dataIter.blk d) noValue, r) := by
  unfold Reader.find
  simp only [herr, hib, hni, hsk, hval, Option.getD_some, hdec, if_neg hn, hdi,
    dataIter.Seek, hds]

theorem find_fall_hit (r : Reader) (key : List Nat) (noValue : Bool) (ib : block)
    (index0 index index1 : blockIter) (v v1 : List Nat) (bh bh1 : blockHandle) (n n1 : Int)
    (d0 d d1 d2 : blockIter) (herr : r.err = none)
    (hib : r.getIndexBlock = some (Except.ok ib))
    (hni : r.newBlockIter ib none true = some index0)
    (hsk : index0.Seek key = some (true, index)) (hval : index.Value = some v)
    (hdec : decodeBlockHandle v = some (bh, n)) (hn : n ≠ 0)
    (hdi : r.getDataIter bh r.verifyChecksum = some (dataIter.blk d0))
    (hds : d0.Seek key = some (false, d)) (hde : d.Error = none)
    (hnx : index.Next = some (true, index1)) (hval1 : index1.Value = some v1)
    (hdec1 : decodeBlockHandle v1 = some (bh1, n1)) (hn1 : n1 ≠ 0)
    (hdi1 : r.getDataIter bh1 r.verifyChecksum = some (dataIter.blk d1))
    (hdn : d1.Next = some (true, d2)) :
    r.find key false noValue = some (r.findTail (dataIter.blk d2) noValue, r) := by
  unfold Reader.find
  simp only [herr, hib, hni, hsk, hval, Option.getD_some, hdec, if_neg hn, hdi,
    dataIter.Seek, hds, dataIter.Error, hde, hnx, hval1, hdec1, if_neg hn1, hdi1,
    dataIter.Next, hdn]

theorem find_fall_end (r : Reader) (key : List Nat) (noValue : Bool) (ib : block)
    (index0 index index1 : blockIter) (v : List Nat) (bh : blockHandle) (n : Int)
    (d0 d : blockIter) (herr : r.err = none)
    (hib : r.getIndexBlock = some (Except.ok ib))
    (hni : r.newBlockIter ib none true = some index0)
    (hsk : index0.Seek key = some (true, index)) (hval : index.Value = some v)
    (hdec : decodeBlockHandle v = some (bh, n)) (hn : n ≠ 0)
    (hdi : r.getDataIter bh r.verifyChecksum = some (dataIter.blk d0))
    (hds : d0.Seek key = some (false, d)) (hde : d.Error = none)
    (hnx : index.Next = some (false, index1)) (he1 : index1.Error = none) :
    r.find key false noValue = some (notFoundResult, r) := by
  unfold Reader.find
  simp only [herr, hib, hni, hsk, hval, Option.getD_some, hdec, if_neg hn, hdi,
    dataIter.Seek, hds, dataIter.Error, hde, hnx, he1]
  rfl

theorem getDataIter_layout (r : Reader) (bh : blockHandle) (v : Bool) (es : List RawEntry)
    (ris : List Nat)
    (h : r.readBlockCached bh v = some (Except.ok (blockOf bh es ris))) :
    ∃ i0, r.getDataIter bh v = some (dataIter.blk i0) ∧
      AtEnd r (blockOf bh es ris) es (Win.full es ris) i0 dir.dirSOI := by
  obtain ⟨i0, h0, hS⟩ := newBlockIter_none r bh es ris false
  refine ⟨i0, ?_, hS⟩
  unfold Reader.getDataIter
  simp only [h, h0]

theorem findTail_fwd (r : Reader) (b : block) (es : List RawEntry) (ris : List Nat) (w : Win)
    (d : blockIter) (e : Nat) (noValue : Bool) (h : FwdAt r b es ris w d e) :
    r.findTail (dataIter.blk d) noValue = foundResult r (keyAt es e) (valueAt es e) noValue := by
  have hp := FwdAt_pair r b es ris w d e h
  unfold entryPair at hp
  have hk : d.Key = some (keyAt es e) := (Prod.ext_iff.mp hp).1
  have hvl : d.Value = some (valueAt es e) := (Prod.ext_iff.mp hp).2
  unfold Reader.findTail foundResult dataIter.Key dataIter.Value
  simp only [hk, hvl]

theorem index_handle (r : Reader) (ies : List RawEntry) (iris : List Nat)
    (hd : Nat → blockHandle) (des : Nat → List RawEntry) (dris : Nat → List Nat)
    (hv : ValidTable r ies iris hd des dris) (b : block) (w : Win) (it : blockIter) (a : Nat)
    (ha : a < ies.length) (hF : FwdAt r b ies iris w it a) :
    ∃ n : Int, n ≠ 0 ∧ it.Value = some (valueAt ies a) ∧
      decodeBlockHandle (valueAt ies a) = some (hd a, n) := by
  have hp := FwdAt_pair r b ies iris w it a hF
  unfold entryPair at hp
  have hval : it.Value = some (valueAt ies a) := (Prod.ext_iff.mp hp).2
  obtain ⟨hv1, hv2, hv3⟩ := hv.handle a ha
  obtain ⟨n, hn, hdec⟩ := decodeBlockHandle_put (hd a).offset (hd a).length hv2 hv3
  rw [← hv1] at hdec
  exact ⟨n, hn, hval, hdec⟩

theorem find_path (r : Reader) (ies : List RawEntry) (iris : List Nat)
    (hd : Nat → blockHandle) (des : Nat → List RawEntry) (dris : Nat → List Nat)
    (hv : ValidTable r ies iris hd des dris) (hc : IsComparer r.cmp) (key : List Nat)
    (noValue : Bool) :
    ∃ a, a ≤ ies.length ∧ (∀ y, y < a → r.cmp (keyAt ies y) key < 0) ∧
      (a < ies.length → r.cmp (keyAt ies a) key ≥ 0) ∧
      (a = ies.length → r.find key false noValue = some (notFoundResult, r)) ∧
      (a < ies.length → ∃ e, e ≤ (des a).length ∧
        (∀ y, y < e → r.cmp (keyAt (des a) y) key < 0) ∧
        (e < (des a).length → r.cmp (keyAt (des a) e) key ≥ 0) ∧
        (e < (des a).length → r.find key false noValue =
          some (foundResult r (keyAt (des a) e) (valueAt (des a) e) noValue, r)) ∧
        (e = (des a).length → a + 1 < ies.length → r.find key false noValue =
          some (foundResult r (keyAt (des (a + 1)) 0) (valueAt (des (a + 1)) 0) noValue, r)) ∧
        (e = (des a).length → a + 1 = ies.length →
          r.find key false noValue = some (notFoundResult, r))) := by
  obtain ⟨ibh, hib⟩ := hv.index
  obtain ⟨a, -, ha0, ha1, ha2⟩ := exists_first_ge r.cmp ies key ies.length 0 (by omega)
  have ha1b : ∀ y, y < a → r.cmp (keyAt ies y) key < 0 := fun y hy => ha1 y (Nat.zero_le _) hy
  obtain ⟨i0, h0, hS⟩ := newBlockIter_none r ibh ies iris true
  obtain ⟨hA, hB⟩ := Seek_full r ibh ies iris hv.indexWf hc hv.indexSorted i0
    (atEnd_ready hS (by decide)) key
  refine ⟨a, ha0, ha1b, ha2, ?_, ?_⟩
  · intro hae
    obtain ⟨it, hSk, hE⟩ := hB (fun y hy => ha1b y (by omega))
    exact find_index_end r key noValue _ i0 it hv.noErr hib h0 hSk hE.framed.err
  · intro hlt
    obtain ⟨it, hSk, hF⟩ := hA a hlt (ha2 hlt) ha1b
    obtain ⟨n, hn, hval, hdec⟩ := index_handle r ies iris hd des dris hv _ _ it a hlt hF
    obtain ⟨d0, hdi, hD⟩ := getDataIter_layout r (hd a) r.verifyChecksum (des a) (dris a)
      (hv.data a hlt)
    obtain ⟨e, -, he0, he1, he2⟩ := exists_first_ge r.cmp (des a) key (des a).length 0
      (by omega)
    have he1b : ∀ y, y < e → r.cmp (keyAt (des a) y) key < 0 :=
      fun y hy => he1 y (Nat.zero_le _) hy
    obtain ⟨hA2, hB2⟩ := Seek_full r (hd a) (des a) (dris a) (hv.dataWf a hlt) hc
      (hv.dataSorted a hlt) d0 (atEnd_ready hD (by decide)) key
    refine ⟨e, he0, he1b, he2, ?_, ?_, ?_⟩
    · intro hel
      obtain ⟨d, hds, hFd⟩ := hA2 e hel (he2 hel) he1b
      rw [find_data_hit r key noValue _ i0 it _ (hd a) n d0 d hv.noErr hib h0 hSk hval hdec
        hn hdi hds, findTail_fwd r _ (des a) (dris a) _ d e noValue hFd]
    · intro hee hnext
      obtain ⟨d, hds, hEd⟩ := hB2 (fun y hy => he1b y (by omega))
      obtain ⟨hNa, -⟩ := Next_fwd r ibh ies iris hv.indexWf (Win.full ies iris) (le_refl _)
        it a hF
      obtain ⟨it1, hnx, hF1⟩ := hNa hnext
      obtain ⟨n1, hn1, hval1, hdec1⟩ :=
        index_handle r ies iris hd des dris hv _ _ it1 (a + 1) hnext hF1
      obtain ⟨d1, hdi1, hD1⟩ := getDataIter_layout r (hd (a + 1)) r.verifyChecksum
        (des (a + 1)) (dris (a + 1)) (hv.data (a + 1) hnext)
      have hw1 := winOk_full (des (a + 1)) (dris (a + 1)) (hv.dataWf (a + 1) hnext)
      obtain ⟨hN1, -⟩ := Next_soi r (hd (a + 1)) (des (a + 1)) (dris (a + 1))
        (hv.dataWf (a + 1) hnext) (Win.full _ _) hw1 d1 hD1
      have hpos : 0 < (des (a + 1)).length := List.length_pos.2 (hv.dataNonempty (a + 1) hnext)
      obtain ⟨d2, hdn, hF2⟩ := hN1 hpos
      have hF3 : FwdAt r (blockOf (hd (a + 1)) (des (a + 1)) (dris (a + 1))) (des (a + 1))
          (dris (a + 1)) (Win.full (des (a + 1)) (dris (a + 1))) d2 0 := hF2
      rw [find_fall_hit r key noValue _ i0 it it1 _ _ (hd a) (hd (a + 1)) n n1 d0 d d1 d2
        hv.noErr hib h0 hSk hval hdec hn hdi hds hEd.framed.err hnx hval1 hdec1 hn1 hdi1 hdn,
        findTail_fwd r _ (des (a + 1)) (dris (a + 1)) _ d2 0 noValue hF3]
    · intro hee hlast
      obtain ⟨d, hds, hEd⟩ := hB2 (fun y hy => he1b y (by omega))
      obtain ⟨-, hNb⟩ := Next_fwd r ibh ies iris hv.indexWf (Win.full ies iris) (le_refl _)
        it a hF
      obtain ⟨it1, hnx, hE1⟩ := hNb hlast
      exact find_fall_end r key noValue _ i0 it it1 _ (hd a) n d0 d hv.noErr hib h0 hSk hval
        hdec hn hdi hds hEd.framed.err hnx hE1.framed.err

theorem find_verdict (r : Reader) (ies : List RawEntry) (iris : List Nat)
    (hd : Nat → blockHandle) (des : Nat → List RawEntry) (dris : Nat → List Nat)
    (hv : ValidTable r ies iris hd des dris) (hc : IsComparer r.cmp) (key : List Nat)
    (noValue : Bool) :
    (∃ m e, m < ies.length ∧ e < (des m).length ∧ r.cmp (keyAt (des m) e) key ≥ 0 ∧
      (∀ m1 e1, m1 < ies.length → e1 < (des m1).length → (m1 < m ∨ (m1 = m ∧ e1 < e)) →
        r.cmp (keyAt (des m1) e1) key < 0) ∧
      r.find key false noValue =
        some (foundResult r (keyAt (des m) e) (valueAt (des m) e) noValue, r)) ∨
    ((∀ m e, m < ies.length → e < (des m).length → r.cmp (keyAt (des m) e) key < 0) ∧
      r.find key false noValue = some (notFoundResult, r)) := by
  obtain ⟨a, ha0, ha1, ha2, hEnd, hIn⟩ := find_path r ies iris hd des dris hv hc key noValue
  have hbelow : ∀ m e, m < a → m < ies.length → e < (des m).length →
      r.cmp (keyAt (des m) e) key < 0 := fun m e hma hm he =>
    cmp_lt_of_le_of_lt r.cmp hc _ _ _ (table_below_index r ies iris hd des dris hv hc m e hm he)
      (ha1 m hma)
  by_cases hae : a = ies.length
  · exact Or.inr ⟨fun m e hm he => hbelow m e (by omega) hm he, hEnd hae⟩
  · have hlt : a < ies.length := by omega
    obtain ⟨e, he0, he1, he2, hHit, hFall, hLast⟩ := hIn hlt
    by_cases hel : e < (des a).length
    · refine Or.inl ⟨a, e, hlt, hel, he2 hel, ?_, hHit hel⟩
      intro m1 e1 hm1 he1l hb
      rcases hb with hb | ⟨hb1, hb2⟩
      · exact hbelow m1 e1 hb hm1 he1l
      · subst hb1
        exact he1 e1 hb2
    · have hee : e = (des a).length := by omega
      by_cases hnext : a + 1 < ies.length
      · have hpos : 0 < (des (a + 1)).length :=
          List.length_pos.2 (hv.dataNonempty (a + 1) hnext)
        refine Or.inl ⟨a + 1, 0, hnext, hpos, ?_, ?_, hFall hee hnext⟩
        · by_contra hcon
          have h1 : r.cmp (keyAt (des (a + 1)) 0) key < 0 := by omega
          have h2 := cmp_lt_trans r.cmp hc _ _ _ (hv.nextGt a hnext) h1
          have h3 := ha2 hlt
          omega
        · intro m1 e1 hm1 he1l hb
          rcases hb with hb | ⟨_, hb2⟩
          · by_cases hma : m1 < a
            · exact hbelow m1 e1 hma hm1 he1l
            · have hm : m1 = a := by omega
              subst hm
              exact he1 e1 (by omega)
          · omega
      · refine Or.inr ⟨?_, hLast hee (by omega)⟩
        intro m e1 hm he1l
        by_cases hma : m < a
        · exact hbelow m e1 hma hm he1l
        · have hm2 : m = a := by omega
          subst hm2
          exact he1 e1 (by omega)

theorem find_spec (r : Reader) (ies : List RawEntry) (iris : List Nat)
    (hd : Nat → blockHandle) (des : Nat → List RawEntry) (dris : Nat → List Nat)
    (hv : ValidTable r ies iris hd des dris) (hc : IsComparer r.cmp) (key : List Nat)
    (noValue : Bool) :
    (∀ m e, m < ies.length → e < (des m).length → r.cmp (keyAt (des m) e) key ≥ 0 →
      (∀ m1 e1, m1 < ies.length → e1 < (des m1).length →
        r.cmp (keyAt (des m1) e1) key ≥ 0 →
        r.cmp (keyAt (des m) e) (keyAt (des m1) e1) ≤ 0) →
      r.find key false noValue =
        some (foundResult r (keyAt (des m) e) (valueAt (des m) e) noValue, r)) ∧
    ((∀ m e, m < ies.length → e < (des m).length → r.cmp (keyAt (des m) e) key < 0) →
      r.find key false noValue = some (notFoundResult, r)) ∧
    (∃ res, r.find key false noValue = some (res, r) ∧
      (res.err = some Err.ErrNotFound ↔
        ∀ m e, m < ies.length → e < (des m).length → r.cmp (keyAt (des m) e) key < 0)) := by
  rcases find_verdict r ies iris hd des dris hv hc key noValue with
    ⟨m0, e0, hm0, he0, hge0, hbefore, hfind⟩ | ⟨hall, hfind⟩
  · refine ⟨?_, ?_, ?_⟩
    · intro m e hm he hge hmin
      have hnb : ¬ (m < m0 ∨ (m = m0 ∧ e < e0)) := by
        intro hb
        have := hbefore m e hm he hb
        omega
      have hna : ¬ (m0 < m ∨ (m0 = m ∧ e0 < e)) := by
        intro hb
        have h1 := table_sorted r ies iris hd des dris hv hc m0 e0 m e hm0 he0 hm he hb
        have h2 := hmin m0 e0 hm0 he0 hge0
        have h3 := (hc.flip _ _).1 h1
        omega
      have hmm : m = m0 := by omega
      subst hmm
      have hee : e = e0 := by omega
      subst hee
      exact hfind
    · intro hall
      have := hall m0 e0 hm0 he0
      omega
    · refine ⟨_, hfind, ?_⟩
      constructor
      · intro h
        exact absurd h (by unfold foundResult; simp)
      · intro hall
        have := hall m0 e0 hm0 he0
        omega
  · refine ⟨?_, fun _ => hfind, ⟨_, hfind, fun _ => hall, fun _ => rfl⟩⟩
    intro m e hm he hge _
    have := hall m e hm he
    omega

end table

namespace table

theorem twoBlock_valid :
    ValidTable twoBlockTable twoBlockIndex [0] twoBlockHandles twoBlockData (fun _ => [0]) where
  noErr := rfl
  index := ⟨_, rfl⟩
  indexWf := ⟨by decide, by decide, Or.inr (by decide), by decide, by decide⟩
  indexSorted := by
    show StrictSorted bytesCompare _
    unfold StrictSorted
    decide
  handle := by
    intro m hm
    have hm2 : m < 2 := hm
    interval_cases m <;> decide
  data := by
    intro m hm
    have hm2 : m < 2 := hm
    interval_cases m <;> rfl
  dataWf := by
    intro m hm
    have hm2 : m < 2 := hm
    interval_cases m <;>
      exact ⟨by decide, by decide, Or.inr (by decide), by decide, by decide⟩
  dataSorted := by
    intro m hm
    have hm2 : m < 2 := hm
    interval_cases m <;> (show StrictSorted bytesCompare _; unfold StrictSorted; decide)
  dataNonempty := by
    intro m hm
    have hm2 : m < 2 := hm
    interval_cases m <;> decide
  lastLe := by
    intro m hm
    have hm2 : m < 2 := hm
    interval_cases m <;> decide
  nextGt := by
    intro m hm
    have hm2 : m + 1 < 2 := hm
    have hm0 : m = 0 := by omega
    subst hm0
    decide

theorem twoBlock_smallest : ∀ m1 e1, m1 < twoBlockIndex.length →
    e1 < (twoBlockData m1).length →
    twoBlockTable.cmp (keyAt (twoBlockData m1) e1) [100] ≥ 0 →
    twoBlockTable.cmp (keyAt (twoBlockData 1) 0) (keyAt (twoBlockData m1) e1) ≤ 0 := by
  intro m1 e1 hm he
  have hm2 : m1 < 2 := hm
  interval_cases m1
  · have he2 : e1 < 2 := he
    interval_cases e1 <;> decide
  · have he2 : e1 < 2 := he
    interval_cases e1 <;> decide

theorem twoBlock_no_d : ∀ m e, m < twoBlockIndex.length → e < (twoBlockData m).length →
    twoBlockTable.cmp (keyAt (twoBlockData m) e) [100] ≠ 0 := by
  intro m e hm he
  have hm2 : m < 2 := hm
  interval_cases m
  · have he2 : e < 2 := he
    interval_cases e <;> decide
  · have he2 : e < 2 := he
    interval_cases e <;> decide

/-- C7: for a valid table (well-formed index and data blocks with strictly increasing
keys, every index key not below the last key of its data block and below the first key
of the next one, no data block empty) and every key `K`, `Find(K, filtered = false)`
returns, with the reader unchanged: the entry with the smallest key not below `K` in
the whole table, with its key, its value and a nil error; that is the first entry of
the next data block when all keys of the block that the index seek locates are below
`K`; and it returns `ErrNotFound` exactly when every key of the table is below `K`. -/
theorem find_smallest_not_below (r : Reader) (ies : List RawEntry) (iris : List Nat)
    (hd : Nat → blockHandle) (des : Nat → List RawEntry) (dris : Nat → List Nat)
    (key : List Nat) (hv : ValidTable r ies iris hd des dris) (hc : IsComparer r.cmp) :
    (∀ m e, m < ies.length → e < (des m).length → r.cmp (keyAt (des m) e) key ≥ 0 →
      (∀ m1 e1, m1 < ies.length → e1 < (des m1).length →
        r.cmp (keyAt (des m1) e1) key ≥ 0 →
        r.cmp (keyAt (des m) e) (keyAt (des m1) e1) ≤ 0) →
      r.Find key false =
        some (foundResult r (keyAt (des m) e) (valueAt (des m) e) false, r)) ∧
    (∀ a, a + 1 < ies.length → r.cmp (keyAt ies a) key ≥ 0 →
      (∀ y, y < a → r.cmp (keyAt ies y) key < 0) →
      (∀ e, e < (des a).length → r.cmp (keyAt (des a) e) key < 0) →
      r.Find key false =
        some (foundResult r (keyAt (des (a + 1)) 0) (valueAt (des (a + 1)) 0) false, r)) ∧
    ((∀ m e, m < ies.length → e < (des m).length → r.cmp (keyAt (des m) e) key < 0) →
      r.Find key false = some (notFoundResult, r)) ∧
    (∃ res, r.Find key false = some (res, r) ∧
      (res.err = some Err.ErrNotFound ↔
        ∀ m e, m < ies.length → e < (des m).length → r.cmp (keyAt (des m) e) key < 0)) := by
  obtain ⟨h1, h2, h3⟩ := find_spec r ies iris hd des dris hv hc key false
  refine ⟨h1, ?_, h2, h3⟩
  intro a ha hka hbelow hblock
  have hpos : 0 < (des (a + 1)).length := List.length_pos.2 (hv.dataNonempty (a + 1) ha)
  apply h1 (a + 1) 0 ha hpos
  · by_contra hcon
    have h4 : r.cmp (keyAt (des (a + 1)) 0) key < 0 := by omega
    have h5 := cmp_lt_trans r.cmp hc _ _ _ (hv.nextGt a ha) h4
    omega
  · intro m1 e1 hm1 he1 hge
    by_cases hm : m1 < a
    · have h4 := cmp_lt_of_le_of_lt r.cmp hc _ _ _
        (table_below_index r ies iris hd des dris hv hc m1 e1 hm1 he1) (hbelow m1 hm)
      omega
    · by_cases hm2 : m1 = a
      · subst hm2
        have := hblock e1 he1
        omega
      · by_cases hpe : m1 = a + 1 ∧ e1 = 0
        · rw [hpe.1, hpe.2]
          exact le_of_eq (cmp_self_eq r.cmp hc _)
        · have := table_sorted r ies iris hd des dris hv hc (a + 1) 0 m1 e1 ha hpos hm1 he1
            (by omega)
          omega

theorem find_smallest_not_below_witness :
    twoBlockTable.Find [100] false =
      some ({ rkey := some [101], value := some [53], err := none }, twoBlockTable) ∧
    (∃ res, twoBlockTable.Find [100] false = some (res, twoBlockTable) ∧
      (res.err = some Err.ErrNotFound ↔
        ∀ m e, m < twoBlockIndex.length → e < (twoBlockData m).length →
          twoBlockTable.cmp (keyAt (twoBlockData m) e) [100] < 0)) :=
  ⟨(find_smallest_not_below twoBlockTable twoBlockIndex [0] twoBlockHandles twoBlockData
      (fun _ => [0]) [100] twoBlock_valid bytesCompare_isComparer).1 1 0 (by decide)
      (by decide) (by decide) twoBlock_smallest,
   (find_smallest_not_below twoBlockTable twoBlockIndex [0] twoBlockHandles twoBlockData
      (fun _ => [0]) [100] twoBlock_valid bytesCompare_isComparer).2.2.2⟩

/-- C8: for a valid table and every key `K`, `Get(K)` returns with the reader
unchanged: the stored value (copied when a buffer pool is set) and a nil error when
the table has an entry whose key compares equal to `K` under the reader's comparer,
and a nil value with `ErrNotFound` when no key of the table compares equal to `K`,
be it that `find` lands on a greater key or that it finds nothing. -/
theorem get_exact_match (r : Reader) (ies : List RawEntry) (iris : List Nat)
    (hd : Nat → blockHandle) (des : Nat → List RawEntry) (dris : Nat → List Nat)
    (key : List Nat) (hv : ValidTable r ies iris hd des dris) (hc : IsComparer r.cmp) :
    (∀ m e, m < ies.length → e < (des m).length → r.cmp (keyAt (des m) e) key = 0 →
      r.Get key = some ((if r.bpool then copyBytes (some (valueAt (des m) e))
        else some (valueAt (des m) e), none), r)) ∧
    ((∀ m e, m < ies.length → e < (des m).length → r.cmp (keyAt (des m) e) key ≠ 0) →
      r.Get key = some ((none, some Err.ErrNotFound), r)) := by
  rcases find_verdict r ies iris hd des dris hv hc key false with
    ⟨m0, e0, hm0, he0, hge0, hbefore, hfind⟩ | ⟨hall, hfind⟩
  · constructor
    · intro m e hm he heq
      have hnb : ¬ (m < m0 ∨ (m = m0 ∧ e < e0)) := by
        intro hb
        have := hbefore m e hm he hb
        omega
      have hna : ¬ (m0 < m ∨ (m0 = m ∧ e0 < e)) := by
        intro hb
        have h1 := table_sorted r ies iris hd des dris hv hc m0 e0 m e hm0 he0 hm he hb
        have h2 := cmp_lt_of_lt_of_le r.cmp hc _ _ _ h1 (le_of_eq heq)
        omega
      have hmm : m = m0 := by omega
      subst hmm
      have hee : e = e0 := by omega
      subst hee
      unfold Reader.Get
      simp only [hv.noErr, hfind]
      rw [if_neg]
      · rfl
      · intro hcon
        exact hcon.2 heq
    · intro hne
      unfold Reader.Get
      simp only [hv.noErr, hfind]
      rw [if_pos]
      exact ⟨rfl, hne m0 e0 hm0 he0⟩
  · constructor
    · intro m e hm he heq
      have := hall m e hm he
      omega
    · intro _
      unfold Reader.Get
      simp only [hv.noErr, hfind]
      rw [if_neg]
      · rfl
      · intro hcon
        exact absurd hcon.1 (by unfold notFoundResult; simp)

theorem get_exact_match_witness :
    twoBlockTable.Get [101] = some ((some [53], none), twoBlockTable) ∧
    twoBlockTable.Get [100] = some ((none, some Err.ErrNotFound), twoBlockTable) :=
  ⟨(get_exact_match twoBlockTable twoBlockIndex [0] twoBlockHandles twoBlockData
      (fun _ => [0]) [101] twoBlock_valid bytesCompare_isComparer).1 1 0 (by decide)
      (by decide) (by decide),
   (get_exact_match twoBlockTable twoBlockIndex [0] twoBlockHandles twoBlockData
      (fun _ => [0]) [100] twoBlock_valid bytesCompare_isComparer).2 twoBlock_no_d⟩

end table

namespace table

/-- C36, failing input: `badHandleTable`, whose index block holds the single key `c`
with an empty value, and the key `b`.  The seek of `OffsetOf` lands on that entry,
whose value does not decode as a block handle (`decodeBlockHandle` returns `n = 0`);
`find` on the same reader and key returns the corruption error `bad data block handle`
and latches it, while `OffsetOf` returns offset 0 with a nil error and only latches
the error in the reader. -/
theorem offsetOf_bad_handle_nil_error :
    badHandleTable.err = none ∧
    (decodeBlockHandle (valueAt badHandleEntries 0)).map Prod.snd = some 0 ∧
    (badHandleTable.find [98] false false).map (fun p => (p.1.err, p.2.err)) =
      some (some (Err.corrupted 100 12 "index-block" "bad data block handle"),
            some (Err.corrupted 100 12 "index-block" "bad data block handle")) ∧
    (badHandleTable.OffsetOf [98]).map (fun p => p.1) = some (0, none) ∧
    (badHandleTable.OffsetOf [98]).map (fun p => p.2.err) =
      some (some (Err.corrupted 100 12 "index-block" "bad data block handle")) :=
  ⟨rfl, by decide, by decide, by decide, by decide⟩

end table

namespace table

/-- C35, failing inputs.  In `overflowBlock` (`0 ≤ restartsOffset = 10 ≤ len(data) = 18`)
the shared-length varint at offset 0 overflows 64 bits, `Uvarint` returns the byte count
`-10`, and `entry(0)` slices `data[0 + -10:]`, which is out of range: the call panics
before the check `n0 <= 0` is reached.  In `wrapLengthBlock` (`restartsOffset = 12`,
`len(data) = 20`) the three varints are read with positive byte counts, the key length
`2^64 - 1` converts to the int `-1`, the total `n = 12` passes the bound check, and
`entry(0)` slices `data[12:11]`, which panics. -/
theorem entry_panics_on_arbitrary_bytes :
    (0 ≤ overflowBlock.restartsOffset ∧
      overflowBlock.restartsOffset ≤ (overflowBlock.data.length : Int)) ∧
    Uvarint overflowBlock.data = (0, -10) ∧
    sliceFrom overflowBlock.data (0 + -10) = none ∧
    overflowBlock.entry 0 = none ∧
    (0 ≤ wrapLengthBlock.restartsOffset ∧
      wrapLengthBlock.restartsOffset ≤ (wrapLengthBlock.data.length : Int)) ∧
    Uvarint (wrapLengthBlock.data.drop 1) = (2 ^ 64 - 1, 10) ∧
    toInt64 (2 ^ 64 - 1) = -1 ∧
    slice wrapLengthBlock.data 12 11 = none ∧
    wrapLengthBlock.entry 0 = none := by
  decide

end table

namespace table

theorem searchLoop_any (f : Int → Option Bool) (p : Int → Bool) (n : Int)
    (hf : ∀ h, 0 ≤ h → h < n → f h = some (p h)) :
    ∀ (fuel : Nat) (i j : Int), 0 ≤ i → i ≤ j → j ≤ n → (j - i).toNat ≤ fuel →
      (0 < i → p (i - 1) = false) → (j < n → p j = true) →
      ∃ m, searchLoop f fuel i j = some m ∧ i ≤ m ∧ m ≤ j ∧
        (0 < m → p (m - 1) = false) ∧ (m < n → p m = true) := by
  intro fuel
  induction fuel with
  | zero =>
    intro i j hi hij hjn hfu hlo hhi
    have : i = j := by omega
    subst this
    exact ⟨i, rfl, le_refl _, le_refl _, hlo, hhi⟩
  | succ fuel ih =>
    intro i j hi hij hjn hfu hlo hhi
    simp only [searchLoop]
    by_cases hlt : i < j
    · rw [if_pos hlt]
      have hh0 : 0 ≤ (i + j) / 2 := by omega
      have hh1 : i ≤ (i + j) / 2 := by omega
      have hh2 : (i + j) / 2 < j := by omega
      rw [hf ((i + j) / 2) hh0 (by omega)]
      cases hp : p ((i + j) / 2) with
      | false =>
        simp only
        obtain ⟨m, hm, h1, h2, h3, h4⟩ := ih ((i + j) / 2 + 1) j (by omega) (by omega) hjn
          (by omega)
          (by
            intro _
            have e : (i + j) / 2 + 1 - 1 = (i + j) / 2 := by omega
            rw [e]
            exact hp)
          hhi
        exact ⟨m, hm, by omega, h2, h3, h4⟩
      | true =>
        simp only
        obtain ⟨m, hm, h1, h2, h3, h4⟩ := ih i ((i + j) / 2) hi hh1 (by omega) (by omega) hlo
          (fun _ => hp)
        exact ⟨m, hm, h1, by omega, h3, h4⟩
    · rw [if_neg hlt]
      have : i = j := by omega
      subst this
      exact ⟨i, rfl, le_refl _, le_refl _, hlo, hhi⟩

theorem sortSearch_any (f : Int → Option Bool) (p : Int → Bool) (n : Int) (hn : 0 ≤ n)
    (hf : ∀ h, 0 ≤ h → h < n → f h = some (p h)) :
    ∃ m, sortSearch n f = some m ∧ 0 ≤ m ∧ m ≤ n ∧
      (0 < m → p (m - 1) = false) ∧ (m < n → p m = true) := by
  unfold sortSearch
  exact searchLoop_any f p n hf n.toNat 0 n (le_refl _) hn (le_refl _) (by omega)
    (by intro h; omega) (by intro h; omega)

theorem layout_seek_any (bh : blockHandle) (es : List RawEntry) (ris : List Nat)
    (hwf : WellFormed es ris) (hne : es ≠ []) (cmp : List Nat → List Nat → Int)
    (sS sL : Nat) (h1 : sS ≤ sL) (h2 : sL ≤ ris.length) (key : List Nat) :
    ∃ m idx : Nat, (blockOf bh es ris).seek cmp (sS : Int) (sL : Int) key =
        some ((idx : Int), (if idx < ris.length then (entryOffset es (rAt ris idx) : Int)
          else (ris.length : Int)), none) ∧
      SeekPick cmp es ris key sS sL m idx := by
  have hf : ∀ h : Int, 0 ≤ h →
      h < ((ris.length : Int) - (sS : Int) - ((ris.length : Int) - (sL : Int))) →
      (blockOf bh es ris).seekGreater cmp (sS : Int) key h =
        some (decide (cmp (keyAt es (rAt ris (sS + h.toNat))) key > 0)) := by
    intro h h0 hn
    exact layout_seekGreater bh es ris hwf hne cmp key _ _ (sS + h.toNat) (by omega) (by omega)
  obtain ⟨m, hm, hm0, hmn, hlo, hhi⟩ := sortSearch_any _ _ _ (by omega) hf
  have hrl : (blockOf bh es ris).restartsLen = (ris.length : Int) := rfl
  rw [seek_eq_search _ _ _ _ _ m (by rw [hrl]; exact hm)]
  by_cases hz : m = 0
  · subst hz
    refine ⟨0, sS, ?_, by omega, by simp, by omega, ?_⟩
    · rw [if_pos (by omega)]
      by_cases hl : sS < ris.length
      · rw [layout_restartOffset bh es ris hwf sS hl, if_pos hl]
        rfl
      · have : sS = ris.length := by omega
        subst this
        rw [layout_restartOffset_end bh es ris hwf, if_neg hl]
        rfl
    · intro hlt
      have := hhi (by omega)
      simp only [decide_eq_true_eq] at this
      simpa using this
  · have hidx : m + (sS : Int) - 1 = ((sS + m.toNat - 1 : Nat) : Int) := by omega
    refine ⟨m.toNat, sS + m.toNat - 1, ?_, by omega, ?_, ?_, ?_⟩
    · rw [if_neg (by omega), hidx]
      have hl : sS + m.toNat - 1 < ris.length := by omega
      rw [layout_restartOffset bh es ris hwf _ hl, if_pos hl]
      rfl
    · rw [if_neg (by omega)]
    · intro _
      have := hlo (by omega)
      simp only [decide_eq_false_iff_not] at this
      have e : sS + (m - 1).toNat = sS + m.toNat - 1 := by omega
      rw [e] at this
      exact this
    · intro hlt
      have := hhi (by omega)
      simp only [decide_eq_true_eq] at this
      have e : sS + m.toNat = sS + m.toNat := rfl
      exact this

theorem winBounds_oS_le (es : List RawEntry) (ris : List Nat) (w : Win)
    (hw : WinBounds es ris w) : (w.oS : Int) ≤ (entryOffset es w.c : Int) := by
  have hac := hw.ac
  have hcn := hw.cn
  rcases hw.start with ⟨_, h2, _, h4⟩ | ⟨_, h2, h3⟩
  · rw [h4]
    have := entryOffset_mono es (rAt ris w.sS) w.c (by omega)
    exact_mod_cast this
  · have hce : w.c = es.length := by omega
    rw [h3, hce, entryOffset_length]

theorem firstNotBelow_unique (cmp : List Nat → List Nat → Int) (es : List RawEntry)
    (key : List Nat) (lo x y : Nat) (hx : FirstNotBelow cmp es key lo x)
    (hy : FirstNotBelow cmp es key lo y) : x = y := by
  obtain ⟨x1, x2, x3, x4⟩ := hx
  obtain ⟨y1, y2, y3, y4⟩ := hy
  by_contra hne
  rcases Nat.lt_or_gt_of_ne hne with h | h
  · have h1 := y3 x x1 h
    have h2 := x4 (by omega)
    omega
  · have h1 := x3 y y1 h
    have h2 := y4 (by omega)
    omega

theorem encodeEntries_length_ge (es : List RawEntry) :
    3 * es.length ≤ (encodeEntries es).length := by
  induction es with
  | nil => simp
  | cons e rest ih =>
    have h := encodeEntry_length_ge e
    simp only [encodeEntries, List.length_append, List.length_cons]
    omega

theorem framed_bounds (r : Reader) (bh : blockHandle) (es : List RawEntry) (ris : List Nat)
    (hwf : WellFormed es ris) (hne : es ≠ []) (w : Win) (it : blockIter)
    (hF : Framed r (blockOf bh es ris) es w it) (hW : WinBounds es ris w) :
    it.err = none ∧
    0 ≤ it.offsetStart ∧ it.offsetStart ≤ it.offsetRealStart ∧
    it.offsetRealStart ≤ it.offsetLimit ∧
    it.offsetLimit ≤ (blockOf bh es ris).restartsOffset ∧
    0 ≤ it.riStart ∧ it.riStart ≤ it.riLimit ∧
    it.riLimit ≤ (blockOf bh es ris).restartsLen ∧
    ((it.riStart < (blockOf bh es ris).restartsLen ∧
        (blockOf bh es ris).restartOffset it.riStart = some it.offsetStart) ∨
      (it.riStart = (blockOf bh es ris).restartsLen ∧
        it.offsetStart = (blockOf bh es ris).restartsOffset ∧
        (blockOf bh es ris).restartOffset it.riStart ≠ some it.offsetStart ∧
        w.a = es.length)) := by
  have hac := hW.ac
  have hcn := hW.cn
  have hsSL := hW.sSL
  have hsLn := hW.sLn
  have hrO : (blockOf bh es ris).restartsOffset = ((encodeEntries es).length : Int) := rfl
  have hrL : (blockOf bh es ris).restartsLen = (ris.length : Int) := rfl
  have h1 : (entryOffset es w.a : Int) ≤ (entryOffset es w.c : Int) := by
    exact_mod_cast entryOffset_mono es w.a w.c hac
  have h2 : (entryOffset es w.c : Int) ≤ ((encodeEntries es).length : Int) := by
    exact_mod_cast entryOffset_le_total es w.c
  have h3 : (w.oS : Int) ≤ (entryOffset es w.a : Int) := by
    rcases hW.start with ⟨_, s2, _, s4⟩ | ⟨_, s2, s3⟩
    · rw [s4]
      exact_mod_cast entryOffset_mono es (rAt ris w.sS) w.a s2
    · rw [s3, s2, entryOffset_length]
  rw [hF.offsetStart, hF.offsetRealStart, hF.offsetLimit, hF.riStart, hF.riLimit, hrO, hrL]
  refine ⟨hF.err, by omega, h3, h1, h2, by omega, by exact_mod_cast hsSL,
    by exact_mod_cast hsLn, ?_⟩
  rcases hW.start with ⟨s1, _, _, s4⟩ | ⟨s1, s2, s3⟩
  · left
    refine ⟨by exact_mod_cast s1, ?_⟩
    rw [layout_restartOffset bh es ris hwf w.sS s1, s4]
  · right
    refine ⟨by rw [s1], by rw [s3], ?_, s2⟩
    rw [s1, layout_restartOffset_end bh es ris hwf, s3]
    intro heq
    have h5 : (ris.length : Int) = ((encodeEntries es).length : Int) := Option.some.inj heq
    have h6 := ris_length_le es ris hwf hne
    have h7 := encodeEntries_length_ge es
    have h8 : 0 < es.length := List.length_pos.mpr hne
    omega

theorem Seek_any (r : Reader) (bh : blockHandle) (es : List RawEntry) (ris : List Nat)
    (hwf : WellFormed es ris) (hne : es ≠ []) (w : Win) (hw : WinBounds es ris w)
    (hfull : w.c = es.length) (i : blockIter)
    (h : Ready r (blockOf bh es ris) es w i) (key : List Nat) :
    ∃ m idx : Nat, SeekPick r.cmp es ris key w.sS w.sL m idx ∧
      (∀ j2, scanFrom es ris idx w.a ≤ j2 → j2 < es.length →
        r.cmp (keyAt es j2) key ≥ 0 →
        (∀ y, scanFrom es ris idx w.a ≤ y → y < j2 → r.cmp (keyAt es y) key < 0) →
        ∃ it, i.Seek key = some (true, it) ∧ FwdAt r (blockOf bh es ris) es ris w it j2 ∧
          it.restartIndex = (idx : Int)) ∧
      ((∀ y, scanFrom es ris idx w.a ≤ y → y < es.length → r.cmp (keyAt es y) key < 0) →
        ∃ it, i.Seek key = some (false, it) ∧
          AtEnd r (blockOf bh es ris) es w it dir.dirEOI) := by
  have hac := hw.ac
  have hcn := hw.cn
  have hsSL := hw.sSL
  have hsLn := hw.sLn
  obtain ⟨m, idx, hseek, hp⟩ := layout_seek_any bh es ris hwf hne r.cmp w.sS w.sL hsSL hsLn key
  have hp0 := hp
  obtain ⟨hm, hidx, _, _⟩ := hp0
  have hi1 : w.sS ≤ idx := by
    rw [hidx]
    split <;> omega
  have htot := length_le_encodeEntries es
  have hrl := ris_length_le es ris hwf hne
  refine ⟨m, idx, hp, ?_⟩
  unfold scanFrom
  by_cases hil : idx < ris.length
  · simp only [if_pos hil] at hseek ⊢
    have hrn := wf_restart_lt es ris hwf hne idx hil
    rcases hw.start with ⟨_, h2, _, h4⟩ | ⟨h1, _, _⟩
    · have hmo := entryOffset_mono es _ _ (rAt_mono ris hwf.incr w.sS idx hi1 hil)
      have := Seek_core_any r bh es ris hwf w hac hcn i h key idx _ (rAt ris idx) hseek hi1
        (by rw [h4]; omega) (by omega) (fun _ => Or.inl hrn.2)
        (fun _ => ⟨hil, le_max_left _ _⟩)
      rw [hfull] at this
      exact this
    · omega
  · simp only [if_neg hil] at hseek ⊢
    have hsS : w.sS = ris.length := by
      rw [hidx] at hil
      split at hil <;> omega
    rcases hw.start with ⟨h1, _, _, _⟩ | ⟨_, h2, h3⟩
    · omega
    · have := Seek_core_any r bh es ris hwf w hac hcn i h key idx _ es.length hseek hi1
        (by rw [h3, entryOffset_length]; omega) (by omega) (fun hlt => by omega)
        (fun hlt => by
          rw [max_eq_left (by omega)] at hlt
          omega)
      rw [hfull] at this
      exact this

theorem sliceStart_any (r : Reader) (bh : blockHandle) (es : List RawEntry)
    (ris : List Nat) (hwf : WellFormed es ris) (hne : es ≠ []) (bi : blockIter)
    (hbiS : AtEnd r (blockOf bh es ris) es (Win.full es ris) bi dir.dirSOI)
    (start : List Nat) :
    ∃ (m idx : Nat) (w1 : Win), SeekPick r.cmp es ris start 0 ris.length m idx ∧
      FirstNotBelow r.cmp es start (rAt ris idx) w1.a ∧
      WinBounds es ris w1 ∧ w1.c = es.length ∧ w1.sL = ris.length ∧ idx ≤ w1.sS ∧
      (w1.a < es.length ↔ w1.sS < ris.length) ∧
      ((∃ bi1 ri off, bi.Seek start = some (true, bi1) ∧
          (blockOf bh es ris).restartIndex bi1.restartIndex (blockOf bh es ris).restartsLen
            bi1.prevOffset = some ri ∧
          (blockOf bh es ris).restartOffset ri = some off ∧
          Ready r (blockOf bh es ris) es w1
            { bi1 with riStart := ri, offsetStart := off, offsetRealStart := bi1.prevOffset } ∧
          bi1.dir = dir.dirForward) ∨
        (∃ bi1, bi.Seek start = some (false, bi1) ∧
          Ready r (blockOf bh es ris) es w1
            { bi1 with riStart := (blockOf bh es ris).restartsLen,
                       offsetStart := (blockOf bh es ris).restartsOffset,
                       offsetRealStart := (blockOf bh es ris).restartsOffset } ∧
          bi1.dir = dir.dirEOI)) := by
  have hw0 := winOk_bounds (winOk_full es ris hwf)
  have hpos := wf_ris_pos es ris hwf
  obtain ⟨m, idx, hp, hA, hB⟩ := Seek_any r bh es ris hwf hne (Win.full es ris) hw0 rfl bi
    (atEnd_ready hbiS (by decide)) start
  have hp1 : SeekPick r.cmp es ris start 0 ris.length m idx := hp
  have hil : idx < ris.length := by
    obtain ⟨h1, h2, _, _⟩ := hp1
    rw [h2]
    split <;> omega
  have hmax : max (rAt ris idx) (Win.full es ris).a = rAt ris idx :=
    max_eq_left (Nat.zero_le _)
  unfold scanFrom at hA hB
  simp only [if_pos hil] at hA hB
  rw [hmax] at hA hB
  have hrn := wf_restart_lt es ris hwf hne idx hil
  obtain ⟨a, h1, h2, h3, h4⟩ := exists_first_ge r.cmp es start (es.length - rAt ris idx)
    (rAt ris idx) (by omega)
  by_cases hal : a < es.length
  · obtain ⟨bi1, hSk1, hF1, hri1⟩ := hA a h1 hal (h4 hal) h3
    obtain ⟨s0, hs1, hs2, hs3, hs4⟩ := hF1.ri
    have hs0 : s0 = idx := by
      rw [hri1] at hs1
      exact_mod_cast hs1.symm
    have hfr := hF1.framed
    obtain ⟨m1, hri, hm1, hm2, hm3⟩ := layout_restartIndex bh es ris hwf s0 ris.length
      (by omega) (le_refl _) (entryOffset es a : Int)
    have hmpos : 0 < m1 := by
      by_contra hcon
      have hm0 : m1 = 0 := by omega
      subst hm0
      have h1 := hm3 s0 (by omega) hs3
      have h2 := entryOffset_mono es _ _ hs4
      omega
    have hcast : (s0 : Int) + (m1 : Int) - 1 = ((s0 + m1 - 1 : Nat) : Int) := by
      have : 1 ≤ s0 + m1 := by omega
      push_cast [Nat.cast_sub this]
      ring
    have hri2 : (blockOf bh es ris).restartIndex bi1.restartIndex
        (blockOf bh es ris).restartsLen bi1.prevOffset = some ((s0 + m1 - 1 : Nat) : Int) := by
      rw [hs1, hF1.prevOffset, ← hcast]
      exact hri
    have hsl : s0 + m1 - 1 < ris.length := by omega
    have hrs : rAt ris (s0 + m1 - 1) ≤ a := by
      have h1 := hm2 (s0 + m1 - 1) (by omega) (by omega)
      have h2 : entryOffset es (rAt ris (s0 + m1 - 1)) ≤ entryOffset es a := by
        exact_mod_cast h1
      have hrn2 := (wf_restart_lt es ris hwf hne (s0 + m1 - 1) hsl).1
      exact (entryOffset_le_iff es _ _ (by omega) (by omega)).mp h2
    have hw1 : WinBounds es ris (Win.mk a es.length (s0 + m1 - 1) ris.length
        (entryOffset es (rAt ris (s0 + m1 - 1)))) := by
      refine ⟨by show a ≤ es.length; omega, le_refl _,
        by show s0 + m1 - 1 ≤ ris.length; omega, le_refl _, Or.inl ⟨hsl, hrs, ?_, rfl⟩⟩
      intro t ht1 ht2
      show a < rAt ris t
      have ht1' : s0 + m1 - 1 < t := ht1
      have h1 := hm3 t (by omega) ht2
      have hun := (wf_restart_lt es ris hwf hne t ht2).1
      by_contra hcon
      have h2 := entryOffset_mono es (rAt ris t) a (by omega)
      omega
    refine ⟨m, idx, _, hp1, ⟨h1, h2, h3, h4⟩, hw1, rfl, rfl, ?_, ?_, Or.inl ?_⟩
    · show idx ≤ s0 + m1 - 1
      omega
    · exact ⟨fun _ => hsl, fun _ => hal⟩
    · refine ⟨bi1, _, _, hSk1, hri2, layout_restartOffset bh es ris hwf (s0 + m1 - 1) hsl, ?_,
        hF1.dir⟩
      exact ⟨⟨hfr.tr, hfr.block, hfr.err, rfl, hfr.riLimit, rfl, hF1.prevOffset,
          hfr.offsetLimit⟩,
        by show bi1.dir ≠ _; rw [hF1.dir]; decide,
        fun _ => ⟨hF1.prevNode, hF1.prevKeys⟩⟩
  · have hae : a = es.length := by omega
    subst hae
    obtain ⟨bi1, hSk1, hE1⟩ := hB h3
    have hfr := hE1.framed
    have hw1 : WinBounds es ris (Win.mk es.length es.length ris.length ris.length
        (encodeEntries es).length) :=
      ⟨le_refl _, le_refl _, le_refl _, le_refl _, Or.inr ⟨rfl, rfl, rfl⟩⟩
    refine ⟨m, idx, _, hp1, ⟨h1, h2, h3, h4⟩, hw1, rfl, rfl, ?_, ?_, Or.inr ?_⟩
    · show idx ≤ ris.length
      omega
    · constructor
      · intro hlt
        exact absurd hlt (lt_irrefl _)
      · intro hlt
        exact absurd hlt (lt_irrefl _)
    · refine ⟨bi1, hSk1, ?_, hE1.dir⟩
      exact ⟨⟨hfr.tr, hfr.block, hfr.err, rfl, hfr.riLimit, rfl, by
          show ((encodeEntries es).length : Int) = ((entryOffset es es.length : Nat) : Int)
          rw [entryOffset_length], hfr.offsetLimit⟩,
        by show bi1.dir ≠ _; rw [hE1.dir]; decide,
        fun _ => ⟨hE1.prevNode, hE1.prevKeys⟩⟩

theorem sliceLimit_any (r : Reader) (bh : blockHandle) (es : List RawEntry)
    (ris : List Nat) (hwf : WellFormed es ris) (hne : es ≠ []) (w1 : Win)
    (hw1 : WinBounds es ris w1) (hfull : w1.c = es.length ∧ w1.sL = ris.length)
    (bi2 : blockIter) (hR : Ready r (blockOf bh es ris) es w1 bi2)
    (hd : bi2.dir ≠ dir.dirBackward) (lim : Option (List Nat)) (inclLimit : Bool) :
    ∃ it w, (match
        (match lim with
          | none => some bi2
          | some limit =>
            match bi2.Seek limit with
            | none => none
            | some (false, bi3) => some bi3
            | some (true, bi3) =>
              if inclLimit then
                match bi3.Next with
                | none => none
                | some (false, bi4) => some bi4
                | some (true, bi4) =>
                  some { bi4 with offsetLimit := bi4.prevOffset,
                                  riLimit := bi4.restartIndex + 1 }
              else
                some { bi3 with offsetLimit := bi3.prevOffset,
                                riLimit := bi3.restartIndex + 1 })
        with
        | none => none
        | some bi5 =>
          if bi5.reset.offsetStart > bi5.reset.offsetLimit then
            some (bi5.reset.sErr (Err.other "leveldb/table: invalid slice range"))
          else some bi5.reset) = some it ∧
      AtEnd r (blockOf bh es ris) es w it dir.dirSOI ∧
      WinBounds es ris w ∧ w.a = w1.a ∧ w.sS = w1.sS ∧
      (lim = none → w.c = es.length) ∧
      (∀ l, lim = some l → ∃ m idx q, SeekPick r.cmp es ris l w1.sS ris.length m idx ∧
        FirstNotBelow r.cmp es l (scanFrom es ris idx w1.a) q ∧
        w.c = (if inclLimit then min (q + 1) es.length else q)) := by
  have hkeep : ∀ (w : Win) (bi5 : blockIter), WinBounds es ris w →
      Framed r (blockOf bh es ris) es w bi5 →
      bi5.dir ≠ dir.dirBackward → bi5.prevNode = [] → bi5.prevKeys = [] →
      (if bi5.reset.offsetStart > bi5.reset.offsetLimit then
          some (bi5.reset.sErr (Err.other "leveldb/table: invalid slice range"))
        else some bi5.reset) = some bi5.reset ∧
      AtEnd r (blockOf bh es ris) es w bi5.reset dir.dirSOI := by
    intro w bi5 hw hf hdir hpn hpk
    have hE := reset_atEnd r _ es _ _ hf hdir hpn hpk
    have hle := winBounds_oS_le es ris _ hw
    refine ⟨?_, hE⟩
    rw [if_neg]
    rw [hE.framed.offsetStart, hE.framed.offsetLimit]
    exact not_lt.mpr hle
  have hcn1 := hw1.cn
  have hac1 := hw1.ac
  have hrl := ris_length_le es ris hwf hne
  cases lim with
  | none =>
    obtain ⟨h1, h2⟩ := hkeep w1 bi2 hw1 hR.framed hd (hR.cache hd).1 (hR.cache hd).2
    exact ⟨_, w1, h1, h2, hw1, rfl, rfl, fun _ => hfull.1, fun l hl => by simp at hl⟩
  | some limit =>
    obtain ⟨m, idx, hp, hA, hB⟩ := Seek_any r bh es ris hwf hne w1 hw1 hfull.1 bi2 hR limit
    rw [hfull.2] at hp
    have hlo : scanFrom es ris idx w1.a ≤ es.length := by
      unfold scanFrom
      apply max_le
      · split
        · rename_i hil
          exact le_of_lt (wf_restart_lt es ris hwf hne idx hil).1
        · exact le_refl _
      · omega
    obtain ⟨q, hq2, hq3, hq4, hq5⟩ := exists_first_ge r.cmp es limit
      (es.length - scanFrom es ris idx w1.a) (scanFrom es ris idx w1.a) (by omega)
    have hfacts : ∀ l, some limit = some l →
        FirstNotBelow r.cmp es l (scanFrom es ris idx w1.a) q := by
      intro l hl
      have hll : limit = l := Option.some.inj hl
      subst hll
      exact ⟨hq2, hq3, hq4, hq5⟩
    simp only
    by_cases hql : q < es.length
    · obtain ⟨bi3, hSk, hF, hri⟩ := hA q hq2 hql (hq5 hql) hq4
      obtain ⟨s, hs1, hs2, hs3, hs4⟩ := hF.ri
      have hlo1 := hF.lo
      rw [hSk]
      simp only
      cases inclLimit with
      | false =>
        simp only [Bool.false_eq_true, if_false]
        have hfr := hF.framed
        have hwb : WinBounds es ris
            { a := w1.a, c := q, sS := w1.sS, sL := s + 1, oS := w1.oS } :=
          ⟨hlo1, by show q ≤ es.length; omega,
            by show w1.sS ≤ s + 1; omega, by show s + 1 ≤ ris.length; omega, hw1.start⟩
        have hf2 : Framed r (blockOf bh es ris) es
            { a := w1.a, c := q, sS := w1.sS, sL := s + 1, oS := w1.oS }
            { bi3 with offsetLimit := bi3.prevOffset, riLimit := bi3.restartIndex + 1 } :=
          ⟨hfr.tr, hfr.block, hfr.err, hfr.riStart, by
            show bi3.restartIndex + 1 = ((s + 1 : Nat) : Int)
            rw [hs1]; push_cast; ring, hfr.offsetStart, hfr.offsetRealStart,
            hF.prevOffset⟩
        obtain ⟨h1, h2⟩ := hkeep _ _ hwb hf2 (by show bi3.dir ≠ _; rw [hF.dir]; decide)
          hF.prevNode hF.prevKeys
        refine ⟨_, _, h1, h2, hwb, rfl, rfl, fun h => by simp at h, fun l hl => ?_⟩
        exact ⟨m, idx, q, by rw [← Option.some.inj hl]; exact hp, hfacts l hl, rfl⟩
      | true =>
        simp only [if_true]
        by_cases hq1n : q + 1 < es.length
        · obtain ⟨bi4, hNx, hF4, hri4⟩ := Next_fwd_ri r bh es ris hwf w1 hcn1 bi3 q hF
            (by rw [hfull.1]; exact hq1n)
          rw [hNx]
          simp only
          have hfr := hF4.framed
          have hwb : WinBounds es ris
              { a := w1.a, c := q + 1, sS := w1.sS, sL := s + 1, oS := w1.oS } :=
            ⟨by show w1.a ≤ q + 1; omega, by show q + 1 ≤ es.length; omega,
              by show w1.sS ≤ s + 1; omega, by show s + 1 ≤ ris.length; omega, hw1.start⟩
          have hf2 : Framed r (blockOf bh es ris) es
              { a := w1.a, c := q + 1, sS := w1.sS, sL := s + 1, oS := w1.oS }
              { bi4 with offsetLimit := bi4.prevOffset, riLimit := bi4.restartIndex + 1 } :=
            ⟨hfr.tr, hfr.block, hfr.err, hfr.riStart, by
              show bi4.restartIndex + 1 = ((s + 1 : Nat) : Int)
              rw [hri4, hs1]; push_cast; ring, hfr.offsetStart, hfr.offsetRealStart,
              hF4.prevOffset⟩
          obtain ⟨h1, h2⟩ := hkeep _ _ hwb hf2 (by show bi4.dir ≠ _; rw [hF4.dir]; decide)
            hF4.prevNode hF4.prevKeys
          refine ⟨_, _, h1, h2, hwb, rfl, rfl, fun h => by simp at h, fun l hl => ?_⟩
          refine ⟨m, idx, q, by rw [← Option.some.inj hl]; exact hp, hfacts l hl, ?_⟩
          show q + 1 = min (q + 1) es.length
          omega
        · obtain ⟨bi4, hNx, hE4⟩ := (Next_fwd r bh es ris hwf w1 hcn1 bi3 q hF).2
            (by rw [hfull.1]; omega)
          rw [hNx]
          simp only
          obtain ⟨h1, h2⟩ := hkeep w1 bi4 hw1 hE4.framed (by rw [hE4.dir]; decide)
            hE4.prevNode hE4.prevKeys
          refine ⟨_, w1, h1, h2, hw1, rfl, rfl, fun h => by simp at h, fun l hl => ?_⟩
          refine ⟨m, idx, q, by rw [← Option.some.inj hl]; exact hp, hfacts l hl, ?_⟩
          rw [hfull.1]
          show es.length = min (q + 1) es.length
          omega
    · have hqe : q = es.length := by omega
      obtain ⟨bi3, hSk, hE3⟩ := hB (fun y h1 h2 => hq4 y h1 (by omega))
      rw [hSk]
      simp only
      obtain ⟨h1, h2⟩ := hkeep w1 bi3 hw1 hE3.framed (by rw [hE3.dir]; decide)
        hE3.prevNode hE3.prevKeys
      refine ⟨_, w1, h1, h2, hw1, rfl, rfl, fun h => by simp at h, fun l hl => ?_⟩
      refine ⟨m, idx, q, by rw [← Option.some.inj hl]; exact hp, hfacts l hl, ?_⟩
      rw [hfull.1]
      split <;> omega

theorem newBlockIter_any (r : Reader) (bh : blockHandle) (es : List RawEntry)
    (ris : List Nat) (hwf : WellFormed es ris) (hne : es ≠ []) (st lim : Option (List Nat))
    (inclLimit : Bool) :
    ∃ it w, r.newBlockIter (blockOf bh es ris) (some { Start := st, Limit := lim })
        inclLimit = some it ∧
      AtEnd r (blockOf bh es ris) es w it dir.dirSOI ∧ WinBounds es ris w ∧
      (w.a < es.length ↔ w.sS < ris.length) ∧
      (st = none → w.a = 0) ∧
      (∀ k, st = some k → ∃ m idx, SeekPick r.cmp es ris k 0 ris.length m idx ∧
        FirstNotBelow r.cmp es k (rAt ris idx) w.a ∧ idx ≤ w.sS) ∧
      (lim = none → w.c = es.length) ∧
      (∀ l, lim = some l → ∃ m idx q, SeekPick r.cmp es ris l w.sS ris.length m idx ∧
        FirstNotBelow r.cmp es l (scanFrom es ris idx w.a) q ∧
        w.c = (if inclLimit then min (q + 1) es.length else q)) := by
  have hpos : 0 < es.length := List.length_pos.mpr hne
  have hrpos := wf_ris_pos es ris hwf
  unfold Reader.newBlockIter
  simp only
  set bi : blockIter :=
    { tr := r, block := blockOf bh es ris, key := [], value := none, offset := 0,
      prevOffset := 0, prevNode := [], prevKeys := [], restartIndex := 0, dir := dir.dirSOI,
      riStart := 0, riLimit := (blockOf bh es ris).restartsLen, offsetStart := 0,
      offsetRealStart := 0, offsetLimit := (blockOf bh es ris).restartsOffset, err := none }
    with hbi
  have hbiS : AtEnd r (blockOf bh es ris) es (Win.full es ris) bi dir.dirSOI := by
    refine ⟨⟨rfl, rfl, rfl, rfl, rfl, rfl, ?_, ?_⟩, rfl, rfl, rfl⟩
    · show (0 : Int) = ((entryOffset es 0 : Nat) : Int)
      rw [entryOffset_zero]
      rfl
    · show ((encodeEntries es).length : Int) = ((entryOffset es es.length : Nat) : Int)
      rw [entryOffset_length]
  cases st with
  | none =>
    simp only
    obtain ⟨it, w, hN, hE, hW, hwa, hws, hc0, hc1⟩ := sliceLimit_any r bh es ris hwf hne
      (Win.full es ris) (winOk_bounds (winOk_full es ris hwf)) ⟨rfl, rfl⟩ bi
      (atEnd_ready hbiS (by decide)) (by rw [hbiS.dir]; decide) lim inclLimit
    have hwa0 : w.a = 0 := hwa
    have hws0 : w.sS = 0 := hws
    refine ⟨it, w, hN, hE, hW, ?_, fun _ => hwa0, fun k hk => by simp at hk, hc0, ?_⟩
    · rw [hwa0, hws0]
      exact ⟨fun _ => hrpos, fun _ => hpos⟩
    · intro l hl
      obtain ⟨m, idx, q, h1, h2, h3⟩ := hc1 l hl
      refine ⟨m, idx, q, ?_, ?_, h3⟩
      · rw [hws]; exact h1
      · rw [hwa]; exact h2
  | some k =>
    simp only
    obtain ⟨m0, idx0, w1, hp0, hfn0, hw1, hwc1, hwl1, hidx0, hiff, hcase⟩ :=
      sliceStart_any r bh es ris hwf hne bi hbiS k
    have hfin : ∀ bi2, Ready r (blockOf bh es ris) es w1 bi2 → bi2.dir ≠ dir.dirBackward →
        ∃ it w, (match
          (match lim with
            | none => some bi2
            | some limit =>
              match bi2.Seek limit with
              | none => none
              | some (false, bi3) => some bi3
              | some (true, bi3) =>
                if inclLimit then
                  match bi3.Next with
                  | none => none
                  | some (false, bi4) => some bi4
                  | some (true, bi4) =>
                    some { bi4 with offsetLimit := bi4.prevOffset,
                                    riLimit := bi4.restartIndex + 1 }
                else
                  some { bi3 with offsetLimit := bi3.prevOffset,
                                  riLimit := bi3.restartIndex + 1 })
          with
          | none => none
          | some bi5 =>
            if bi5.reset.offsetStart > bi5.reset.offsetLimit then
              some (bi5.reset.sErr (Err.other "leveldb/table: invalid slice range"))
            else some bi5.reset) = some it ∧
        AtEnd r (blockOf bh es ris) es w it dir.dirSOI ∧ WinBounds es ris w ∧
        (w.a < es.length ↔ w.sS < ris.length) ∧
        ((some k : Option (List Nat)) = none → w.a = 0) ∧
        (∀ k1, some k = some k1 → ∃ m idx, SeekPick r.cmp es ris k1 0 ris.length m idx ∧
          FirstNotBelow r.cmp es k1 (rAt ris idx) w.a ∧ idx ≤ w.sS) ∧
        (lim = none → w.c = es.length) ∧
        (∀ l, lim = some l → ∃ m idx q, SeekPick r.cmp es ris l w.sS ris.length m idx ∧
          FirstNotBelow r.cmp es l (scanFrom es ris idx w.a) q ∧
          w.c = (if inclLimit then min (q + 1) es.length else q)) := by
      intro bi2 hR hd
      obtain ⟨it, w, hN, hE, hW, hwa, hws, hc0, hc1⟩ := sliceLimit_any r bh es ris hwf hne w1
        hw1 ⟨hwc1, hwl1⟩ bi2 hR hd lim inclLimit
      refine ⟨it, w, hN, hE, hW, ?_, fun h => by simp at h, ?_, hc0, ?_⟩
      · rw [hwa, hws]; exact hiff
      · intro k1 hk1
        have hkk : k = k1 := Option.some.inj hk1
        subst hkk
        exact ⟨m0, idx0, hp0, by rw [hwa]; exact hfn0, by rw [hws]; exact hidx0⟩
      · intro l hl
        obtain ⟨m, idx, q, h1, h2, h3⟩ := hc1 l hl
        refine ⟨m, idx, q, ?_, ?_, h3⟩
        · rw [hws]; exact h1
        · rw [hwa]; exact h2
    rcases hcase with ⟨bi1, ri, off, hSk, hri, hoff, hR, hdir⟩ | ⟨bi1, hSk, hR, hdir⟩
    · rw [hSk]
      simp only
      rw [hri]
      simp only
      rw [hoff]
      simp only
      exact hfin _ hR (by show bi1.dir ≠ _; rw [hdir]; decide)
    · rw [hSk]
      simp only
      exact hfin _ hR (by show bi1.dir ≠ _; rw [hdir]; decide)

end table

namespace table

theorem nondecr_keyAt (cmp : List Nat → List Nat → Int) (hc : IsComparer cmp)
    (es : List RawEntry) (hs : NonDecreasing cmp (keysOf es)) (i j : Nat) (hij : i ≤ j)
    (hj : j < es.length) : cmp (keyAt es i) (keyAt es j) ≤ 0 := by
  by_cases he : i = j
  · subst he
    exact le_of_eq (cmp_self_eq cmp hc _)
  · unfold NonDecreasing at hs
    rw [keysOf_eq_map, List.pairwise_map] at hs
    have h := List.pairwise_iff_getElem.1 hs i j (by simp; omega) (by simp; omega) (by omega)
    simpa using h

theorem slice_beyond_sorted (cmp : List Nat → List Nat → Int) (hc : IsComparer cmp)
    (es : List RawEntry) (ris : List Nat) (hwf : WellFormed es ris) (hne : es ≠ [])
    (hs : NonDecreasing cmp (keysOf es)) (k : List Nat) (m idx : Nat)
    (hp : SeekPick cmp es ris k 0 ris.length m idx)
    (hf : FirstNotBelow cmp es k (rAt ris idx) es.length) :
    ∀ y, y < es.length → cmp (keyAt es y) k < 0 := by
  have hpos := wf_ris_pos es ris hwf
  obtain ⟨h1, h2, _, _⟩ := hp
  have hil : idx < ris.length := by
    rw [h2]
    split <;> omega
  have hrn := (wf_restart_lt es ris hwf hne idx hil).1
  obtain ⟨_, _, f3, _⟩ := hf
  intro y hy
  by_cases hge : rAt ris idx ≤ y
  · exact f3 y hge hy
  · exact cmp_lt_of_le_of_lt cmp hc _ _ _
      (nondecr_keyAt cmp hc es hs y (rAt ris idx) (by omega) hrn)
      (f3 (rAt ris idx) (le_refl _) hrn)

theorem slice_empty_sorted (cmp : List Nat → List Nat → Int) (hc : IsComparer cmp)
    (es : List RawEntry) (ris : List Nat) (hwf : WellFormed es ris) (hne : es ≠ [])
    (hs : NonDecreasing cmp (keysOf es)) (w : Win) (hW : WinBounds es ris w)
    (hiff : w.a < es.length ↔ w.sS < ris.length) (k l : List Nat) (hkl : cmp k l ≥ 0)
    (m idx : Nat) (hp : SeekPick cmp es ris k 0 ris.length m idx)
    (hf : FirstNotBelow cmp es k (rAt ris idx) w.a) (hidx : idx ≤ w.sS)
    (mL idxL q : Nat) (hpL : SeekPick cmp es ris l w.sS ris.length mL idxL)
    (hfL : FirstNotBelow cmp es l (scanFrom es ris idxL w.a) q) : q = w.a := by
  have hac := hW.ac
  have hcn := hW.cn
  have hlk : cmp l k ≤ 0 := cmp_ge_flip cmp hc k l hkl
  by_cases hal : w.a < es.length
  · have hsS : w.sS < ris.length := hiff.mp hal
    rcases hW.start with ⟨_, s2, s3, _⟩ | ⟨s1, _, _⟩
    · obtain ⟨hm1, hm2, hm3, hm4⟩ := hp
      obtain ⟨hl1, hl2, hl3, hl4⟩ := hpL
      have hmL : mL ≤ 1 := by
        by_contra hcon
        have ht1 : w.sS < w.sS + mL - 1 := by omega
        have ht2 : w.sS + mL - 1 < ris.length := by omega
        have hno := hl3 (by omega)
        have hmt : 0 + m ≤ w.sS + mL - 1 := by
          rw [hm2] at hidx
          split at hidx <;> omega
        have hgt := hm4 (by omega)
        have hrt := (wf_restart_lt es ris hwf hne (w.sS + mL - 1) ht2).1
        have hle := nondecr_keyAt cmp hc es hs (rAt ris (0 + m)) (rAt ris (w.sS + mL - 1))
          (rAt_mono ris hwf.incr (0 + m) (w.sS + mL - 1) hmt ht2) hrt
        have h1 : cmp (keyAt es (rAt ris (w.sS + mL - 1))) l ≤ 0 := by omega
        have h2 := hc.trans _ _ _ h1 hlk
        have h3 := hc.trans _ _ _ hle h2
        omega
      have hidxL : idxL = w.sS := by
        rw [hl2]
        split <;> omega
      have hsc : scanFrom es ris idxL w.a = w.a := by
        unfold scanFrom
        rw [hidxL, if_pos hsS]
        exact max_eq_right s2
      rw [hsc] at hfL
      obtain ⟨q1, q2, q3, q4⟩ := hfL
      by_contra hne2
      have h1 := q3 w.a (le_refl _) (by omega)
      have h2 := hf.2.2.2 hal
      have h3 := cmp_lt_of_lt_of_le cmp hc _ _ _ h1 hlk
      omega
    · omega
  · have hae : w.a = es.length := by omega
    obtain ⟨q1, q2, _, _⟩ := hfL
    have : w.a ≤ scanFrom es ris idxL w.a := le_max_right _ _
    omega

theorem dup_nondecr : NonDecreasing bytesCompare (keysOf dupEntries) := by
  unfold NonDecreasing
  decide

theorem unsorted_wellFormed : WellFormed unsortedEntries unsortedRestarts :=
  ⟨by decide, by decide, Or.inr (by decide), by decide, by decide⟩

/-- C37 (as amended): for every well-formed block that is not empty, whatever the order
of its keys, every slice (nil, or with each bound nil or not, in any order) and both
values of `inclLimit`, `newBlockIter` returns an iterator with no error latched, with
`0 ≤ offsetStart ≤ offsetRealStart ≤ offsetLimit ≤ restartsOffset` and
`0 ≤ riStart ≤ riLimit ≤ restartsLen`.  When `riStart < restartsLen`, `offsetStart` is
the offset of restart point `riStart`; otherwise `riStart = restartsLen` and
`offsetStart = restartsOffset`, which is not what the restart array holds at index
`riStart`.  `riStart = restartsLen` whenever `Start` lies beyond every key and, when the
keys do not decrease under the comparer, only then.  When the keys do not decrease and
`Start ≥ Limit`: with `inclLimit = false`, or with `riStart = restartsLen`, the bounds
are `offsetRealStart = offsetLimit` and `First` returns false without an error; with
`inclLimit = true` and `riStart < restartsLen` the bounds enclose exactly one entry, an
entry whose key is not below `Start`: `First` returns true on it and `Next` then
returns false without an error. -/
theorem newBlockIter_slice_bounds (r : Reader) (bh : blockHandle) (es : List RawEntry)
    (ris : List Nat) (hwf : WellFormed es ris) (hne : es ≠ []) (slice : Option Range)
    (inclLimit : Bool) :
    ∃ it, r.newBlockIter (blockOf bh es ris) slice inclLimit = some it ∧
      it.err = none ∧
      0 ≤ it.offsetStart ∧ it.offsetStart ≤ it.offsetRealStart ∧
      it.offsetRealStart ≤ it.offsetLimit ∧
      it.offsetLimit ≤ (blockOf bh es ris).restartsOffset ∧
      0 ≤ it.riStart ∧ it.riStart ≤ it.riLimit ∧
      it.riLimit ≤ (blockOf bh es ris).restartsLen ∧
      ((it.riStart < (blockOf bh es ris).restartsLen ∧
          (blockOf bh es ris).restartOffset it.riStart = some it.offsetStart) ∨
        (it.riStart = (blockOf bh es ris).restartsLen ∧
          it.offsetStart = (blockOf bh es ris).restartsOffset ∧
          (blockOf bh es ris).restartOffset it.riStart ≠ some it.offsetStart)) ∧
      (∀ k, slice.bind Range.Start = some k →
        (∀ y, y < es.length → r.cmp (keyAt es y) k < 0) →
        it.riStart = (blockOf bh es ris).restartsLen) ∧
      (IsComparer r.cmp → NonDecreasing r.cmp (keysOf es) →
        (it.riStart = (blockOf bh es ris).restartsLen →
          ∃ k, slice.bind Range.Start = some k ∧
            ∀ y, y < es.length → r.cmp (keyAt es y) k < 0) ∧
        (∀ k l, slice = some { Start := some k, Limit := some l } → r.cmp k l ≥ 0 →
          ((inclLimit = false ∨ it.riStart = (blockOf bh es ris).restartsLen) →
            it.offsetRealStart = it.offsetLimit ∧
            ∃ it1, it.First = some (false, it1) ∧ it1.err = none ∧
              it1.dir = dir.dirEOI) ∧
          (inclLimit = true → it.riStart < (blockOf bh es ris).restartsLen →
            ∃ a it1 it2, a < es.length ∧ r.cmp (keyAt es a) k ≥ 0 ∧
              it.offsetRealStart = (entryOffset es a : Int) ∧
              it.offsetLimit = (entryOffset es (a + 1) : Int) ∧
              it.First = some (true, it1) ∧ (it1.Key, it1.Value) = entryPair es a ∧
              it1.Next = some (false, it2) ∧ it2.err = none ∧
              it2.dir = dir.dirEOI))) := by
  have hpos : 0 < es.length := List.length_pos.mpr hne
  have hrpos := wf_ris_pos es ris hwf
  have hrL : (blockOf bh es ris).restartsLen = (ris.length : Int) := rfl
  cases slice with
  | none =>
    obtain ⟨it, hN, hE⟩ := newBlockIter_none r bh es ris inclLimit
    obtain ⟨b1, b2, b3, b4, b5, b6, b7, b8, b9⟩ := framed_bounds r bh es ris hwf hne _ it
      hE.framed (winOk_bounds (winOk_full es ris hwf))
    have hri0 : it.riStart = 0 := hE.framed.riStart
    refine ⟨it, hN, b1, b2, b3, b4, b5, b6, b7, b8, ?_, ?_, ?_⟩
    · rcases b9 with h | ⟨h1, h2, h3, _⟩
      · exact Or.inl h
      · exact Or.inr ⟨h1, h2, h3⟩
    · intro k hk
      simp at hk
    · intro _ _
      refine ⟨?_, ?_⟩
      · intro h
        rw [hri0, hrL] at h
        omega
      · intro k l hsl
        simp at hsl
  | some s =>
    obtain ⟨st, lim⟩ := s
    obtain ⟨it, w, hN, hE, hW, hiff, hs0, hs1, hc0, hc1⟩ :=
      newBlockIter_any r bh es ris hwf hne st lim inclLimit
    have hF := hE.framed
    obtain ⟨b1, b2, b3, b4, b5, b6, b7, b8, b9⟩ := framed_bounds r bh es ris hwf hne w it hF hW
    have hac := hW.ac
    have hcn := hW.cn
    have hsSL := hW.sSL
    have hsLn := hW.sLn
    have hri : it.riStart = (w.sS : Int) := hF.riStart
    refine ⟨it, hN, b1, b2, b3, b4, b5, b6, b7, b8, ?_, ?_, ?_⟩
    · rcases b9 with h | ⟨h1, h2, h3, _⟩
      · exact Or.inl h
      · exact Or.inr ⟨h1, h2, h3⟩
    · intro k hk hall
      have hst : st = some k := hk
      obtain ⟨m, idx, _, hf, _⟩ := hs1 k hst
      have hae : ¬ w.a < es.length := by
        intro hlt
        have h1 := hf.2.2.2 hlt
        have h2 := hall w.a hlt
        omega
      have hsS : ¬ w.sS < ris.length := fun h => hae (hiff.mpr h)
      rw [hri, hrL]
      have : w.sS = ris.length := by omega
      rw [this]
    · intro hc hs
      refine ⟨?_, ?_⟩
      · intro h
        rw [hri, hrL] at h
        have hsS : w.sS = ris.length := by exact_mod_cast h
        have hae : w.a = es.length := by
          have : ¬ w.a < es.length := fun hlt => by
            have := hiff.mp hlt
            omega
          omega
        cases st with
        | none =>
          have := hs0 rfl
          omega
        | some k =>
          obtain ⟨m, idx, hp, hf, _⟩ := hs1 k rfl
          rw [hae] at hf
          exact ⟨k, rfl, slice_beyond_sorted r.cmp hc es ris hwf hne hs k m idx hp hf⟩
      · intro k l hsl hkl
        have hst : st = some k := by
          have := Option.some.inj hsl
          exact congrArg Range.Start this
        have hlim : lim = some l := by
          have := Option.some.inj hsl
          exact congrArg Range.Limit this
        obtain ⟨m, idx, hp, hf, hidx⟩ := hs1 k hst
        obtain ⟨mL, idxL, q, hpL, hfL, hwc⟩ := hc1 l hlim
        have hq : q = w.a := slice_empty_sorted r.cmp hc es ris hwf hne hs w hW hiff k l hkl
          m idx hp hf hidx mL idxL q hpL hfL
        rw [hq] at hwc
        refine ⟨?_, ?_⟩
        · intro hor
          have hca : w.a = w.c := by
            rcases hor with hi | hr
            · rw [hi] at hwc
              simpa using hwc.symm
            · rw [hri, hrL] at hr
              have hsS : w.sS = ris.length := by exact_mod_cast hr
              have : ¬ w.a < es.length := fun hlt => by
                have := hiff.mp hlt
                omega
              omega
          obtain ⟨it1, hFi, hE1⟩ := (First_bounds r bh es ris hwf w hW it
            (atEnd_ready hE (by decide))).2 hca
          refine ⟨?_, it1, hFi, hE1.framed.err, hE1.dir⟩
          rw [hF.offsetRealStart, hF.offsetLimit, hca]
        · intro hi hlt
          rw [hri, hrL] at hlt
          have hsS : w.sS < ris.length := by exact_mod_cast hlt
          have hal : w.a < es.length := hiff.mpr hsS
          have hwc1 : w.c = w.a + 1 := by
            rw [hi] at hwc
            simp only [if_true] at hwc
            omega
          obtain ⟨it1, hFi, hF1⟩ := (First_bounds r bh es ris hwf w hW it
            (atEnd_ready hE (by decide))).1 (by omega)
          obtain ⟨it2, hNx, hE2⟩ := (Next_fwd r bh es ris hwf w hcn it1 w.a hF1).2 hwc1.symm
          refine ⟨w.a, it1, it2, hal, hf.2.2.2 hal, hF.offsetRealStart, ?_, hFi,
            FwdAt_pair r _ es ris w it1 w.a hF1, hNx, hE2.framed.err, hE2.dir⟩
          rw [hF.offsetLimit, hwc1]

theorem newBlockIter_slice_bounds_witness :
    ∃ it, (plainReader bytesCompare).newBlockIter
        (blockOf { offset := 0, length := 27 } dupEntries dupRestarts)
        (some { Start := some [98], Limit := some [98] }) false = some it ∧
      it.err = none ∧
      0 ≤ it.offsetStart ∧ it.offsetStart ≤ it.offsetRealStart ∧
      it.offsetRealStart ≤ it.offsetLimit ∧
      it.offsetLimit ≤ (blockOf { offset := 0, length := 27 } dupEntries
        dupRestarts).restartsOffset ∧
      0 ≤ it.riStart ∧ it.riStart ≤ it.riLimit ∧
      it.riLimit ≤ (blockOf { offset := 0, length := 27 } dupEntries dupRestarts).restartsLen ∧
      it.offsetRealStart = it.offsetLimit ∧
      ∃ it1, it.First = some (false, it1) ∧ it1.err = none ∧ it1.dir = dir.dirEOI := by
  obtain ⟨it, h1, h2, h3, h4, h5, h6, h7, h8, h9, _, _, h12⟩ :=
    newBlockIter_slice_bounds (plainReader bytesCompare) { offset := 0, length := 27 }
      dupEntries dupRestarts dup_wellFormed (by decide)
      (some { Start := some [98], Limit := some [98] }) false
  have h13 := ((h12 bytesCompare_isComparer dup_nondecr).2 [98] [98] rfl (by decide)).1
    (Or.inl rfl)
  exact ⟨it, h1, h2, h3, h4, h5, h6, h7, h8, h9, h13.1, h13.2⟩

/-- C37 (counterexample): on the block with the keys `k0`..`k9` and restart interval 4,
the slice `Start = Limit = k5` with `inclLimit = true` gives an iterator that yields the
entry `k5`, and the slice `Start = k7`, `Limit = k2` with `inclLimit = true` gives one
that yields the entry `k7`: neither is empty.  With `Start = l`, beyond every key, the
iterator has `riStart = restartsLen = 3` and `offsetStart = restartsOffset = 63`, while
the restart array read at index 3 gives 3.  On the well-formed block with the keys `z`,
`a`, `z`, `a`, `a`, which are not in order, the slice `Start = Limit = m` with
`inclLimit = false` yields three entries, and `Start = z` gives
`riStart = restartsLen = 5` although entry 0 has the key `z`. -/
theorem inclusive_slice_not_empty :
    (((plainReader bytesCompare).newBlockIter tenBlock
        (some { Start := some [107, 53], Limit := some [107, 53] }) true).bind
          forwardAll).map Prod.fst = some [(some [107, 53], some [118, 53])] ∧
    (((plainReader bytesCompare).newBlockIter tenBlock
        (some { Start := some [107, 55], Limit := some [107, 50] }) true).bind
          forwardAll).map Prod.fst = some [(some [107, 55], some [118, 55])] ∧
    bytesCompare [107, 55] [107, 50] ≥ 0 ∧
    ((plainReader bytesCompare).newBlockIter tenBlock
        (some { Start := some [108], Limit := none }) false).map
          (fun it => (it.riStart, it.offsetStart, it.err)) = some (3, 63, none) ∧
    (tenBlock.restartsLen, tenBlock.restartsOffset) = (3, 63) ∧
    tenBlock.restartOffset 3 = some 3 ∧
    WellFormed unsortedEntries unsortedRestarts ∧
    (((plainReader bytesCompare).newBlockIter unsortedBlock
        (some { Start := some [109], Limit := some [109] }) false).bind
          forwardAll).map Prod.fst =
      some [(some [122], some [3]), (some [97], some [4]), (some [97], some [5])] ∧
    ((plainReader bytesCompare).newBlockIter unsortedBlock
        (some { Start := some [122], Limit := none }) false).map
          (fun it => (it.riStart, it.err)) = some (5, none) ∧
    unsortedBlock.restartsLen = 5 ∧
    bytesCompare (keyAt unsortedEntries 0) [122] = 0 := by
  refine ⟨by decide, by decide, by decide, by decide, by decide, by decide,
    unsorted_wellFormed, by decide, by decide, by decide, by decide⟩

end table

namespace leveldb

theorem snaps_back_none (p : snaps) : p.Back = none ↔ p.list = [] := by
  unfold snaps.Back
  exact List.getLast?_eq_none_iff

theorem seqs_set_ref (heap : List snapEntry) (list : List Nat) (e : Nat) (ent : snapEntry)
    (r : Int) (h : heap.get? e = some ent) :
    snaps.seqs { heap := heap.set e { ent with ref := r }, list := list } =
      snaps.seqs { heap := heap, list := list } := by
  unfold snaps.seqs
  apply List.filterMap_congr
  intro x _
  simp only [List.get?_eq_getElem?] at h ⊢
  by_cases hx : e = x
  · subst hx
    simp [List.getElem?_set, h]
    have := List.getElem?_eq_some_iff.1 h
    obtain ⟨hlt, _⟩ := this
    simp [hlt]
  · simp [List.getElem?_set, hx]

theorem seqs_append_heap (heap : List snapEntry) (list : List Nat) (extra : List snapEntry)
    (hv : ∀ e ∈ list, e < heap.length) :
    snaps.seqs { heap := heap ++ extra, list := list } =
      snaps.seqs { heap := heap, list := list } := by
  unfold snaps.seqs
  apply List.filterMap_congr
  intro x hx
  simp only [List.get?_eq_getElem?]
  rw [List.getElem?_append_left (hv x hx)]

theorem seqs_valid_length (p : snaps) (hv : p.Valid) : p.seqs.length = p.list.length := by
  unfold snaps.seqs
  unfold snaps.Valid at hv
  generalize p.list = l at hv
  induction l with
  | nil => rfl
  | cons a rest ih =>
    have ha : a < p.heap.length := hv a (by simp)
    have : p.heap.get? a = some (p.heap.get ⟨a, ha⟩) := by
      simp [List.getElem?_eq_getElem ha]
    simp only [List.filterMap_cons, this, Option.map_some']
    simp only [List.length_cons]
    rw [ih (fun e he => hv e (by simp [he]))]

theorem seqs_getLast (p : snaps) (b : Nat) (ent : snapEntry)
    (hb : p.Back = some b) (he : p.heap.get? b = some ent) :
    ∃ init, p.seqs = init ++ [ent.seq] := by
  unfold snaps.Back at hb
  obtain ⟨init, hl⟩ : ∃ init, p.list = init ++ [b] := by
    rcases List.getLast?_eq_some_iff.1 hb with ⟨ys, hys⟩
    exact ⟨ys, hys⟩
  refine ⟨init.filterMap (fun e => (p.heap.get? e).map (fun ent => ent.seq)), ?_⟩
  unfold snaps.seqs
  rw [hl, List.filterMap_append]
  simp only [List.get?_eq_getElem?] at he
  simp [he]

theorem acquire_inv (p : snaps) (seq bound : Nat) (hv : p.Valid)
    (hs : p.seqs.Pairwise (fun a b => a < b)) (hb : ∀ s ∈ p.seqs, s ≤ bound) (hle : bound ≤ seq) :
    (p.acquire seq).2.Valid ∧ (p.acquire seq).2.seqs.Pairwise (fun a b => a < b) ∧
      ∀ s ∈ (p.acquire seq).2.seqs, s ≤ seq := by
  unfold snaps.acquire
  cases hback : p.Back with
  | none =>
    have hl : p.list = [] := (snaps_back_none p).1 hback
    simp [snaps.Valid, snaps.seqs, hl]
  | some b =>
    have hbl : b ∈ p.list := by
      unfold snaps.Back at hback
      exact List.mem_of_getLast?_eq_some hback
    have hblt : b < p.heap.length := hv b hbl
    have hget : p.heap.get? b = some (p.heap.get ⟨b, hblt⟩) := by
      simp [List.getElem?_eq_getElem hblt]
    obtain ⟨init, hinit⟩ := seqs_getLast p b _ hback hget
    by_cases hsame : (p.heap.get ⟨b, hblt⟩).seq = seq
    · subst hsame
      simp only [hget, decide_True, if_true, Option.getD_some]
      refine ⟨?_, ?_, ?_⟩
      · intro e he
        simp only [List.length_set]
        exact hv e he
      · have := seqs_set_ref p.heap p.list b _ ((p.heap.get ⟨b, hblt⟩).ref + 1) hget
        simp only at this ⊢
        rw [this]
        exact hs
      · have := seqs_set_ref p.heap p.list b _ ((p.heap.get ⟨b, hblt⟩).ref + 1) hget
        simp only at this ⊢
        rw [this]
        intro s hsm
        exact le_trans (hb s hsm) hle
    · simp only [hget, hsame, decide_False, if_false, Bool.false_eq_true]
      have hnew : (p.heap ++ [({ seq := seq, ref := 0 } : snapEntry)]).get? p.heap.length =
          some { seq := seq, ref := 0 } := by
        simp
      simp only [hnew]
      have hseqs : snaps.seqs ⟨(p.heap ++ [({ seq := seq, ref := 0 } : snapEntry)]).set p.heap.length ⟨seq, 0 + 1⟩, p.list ++ [p.heap.length]⟩ =
          p.seqs ++ [seq] := by
        have h1 := seqs_set_ref (p.heap ++ [({ seq := seq, ref := 0 } : snapEntry)])
          (p.list ++ [p.heap.length]) p.heap.length { seq := seq, ref := 0 } (0 + 1) hnew
        simp only at h1
        rw [h1]
        unfold snaps.seqs
        rw [List.filterMap_append]
        congr 1
        · apply List.filterMap_congr
          intro x hx
          simp only [List.get?_eq_getElem?]
          rw [List.getElem?_append_left (hv x hx)]
        · simp
      refine ⟨?_, ?_, ?_⟩
      · intro e he
        simp only [List.length_set, List.length_append, List.length_singleton]
        simp only [List.mem_append, List.mem_singleton] at he
        rcases he with he | he
        · have := hv e he
          omega
        · omega
      · rw [hseqs]
        rw [List.pairwise_append]
        refine ⟨hs, by simp, ?_⟩
        intro a ha c hc
        simp only [List.mem_singleton] at hc
        subst hc
        have hale : a ≤ bound := hb a ha
        rw [hinit] at ha hs
        rw [List.pairwise_append] at hs
        simp only [List.mem_append, List.mem_singleton] at ha
        rcases ha with ha | ha
        · have := hs.2.2 a ha (p.heap.get ⟨b, hblt⟩).seq (by simp)
          have h2 : (p.heap.get ⟨b, hblt⟩).seq ≤ bound := hb _ (by rw [hinit]; simp)
          omega
        · subst ha
          omega
      · rw [hseqs]
        intro s hsm
        simp only [List.mem_append, List.mem_singleton] at hsm
        rcases hsm with hsm | hsm
        · exact le_trans (hb s hsm) hle
        · omega

theorem release_inv (p : snaps) (e bound : Nat) (hv : p.Valid)
    (hs : p.seqs.Pairwise (fun a b => a < b)) (hb : ∀ s ∈ p.seqs, s ≤ bound) :
    (p.release e).Valid ∧ (p.release e).seqs.Pairwise (fun a b => a < b) ∧
      ∀ s ∈ (p.release e).seqs, s ≤ bound := by
  unfold snaps.release
  cases hget : p.heap.get? e with
  | none => exact ⟨hv, hs, hb⟩
  | some ent =>
    simp only
    have hset := seqs_set_ref p.heap p.list e ent (ent.ref - 1) hget
    have hsub : (snaps.seqs ⟨p.heap.set e ⟨ent.seq, ent.ref - 1⟩, p.list.erase e⟩).Sublist p.seqs := by
      have h2 := seqs_set_ref p.heap (p.list.erase e) e ent (ent.ref - 1) hget
      simp only at h2
      rw [h2]
      unfold snaps.seqs
      exact List.Sublist.filterMap _ (List.erase_sublist e p.list)
    split
    · refine ⟨?_, hs.sublist hsub, fun s hsm => hb s (hsub.subset hsm)⟩
      intro x hx
      simp only [List.length_set]
      exact hv x (List.mem_of_mem_erase hx)
    · simp only at hset
      refine ⟨?_, ?_, ?_⟩
      · intro x hx
        simp only [List.length_set]
        exact hv x hx
      · rw [hset]; exact hs
      · rw [hset]; exact hb

theorem runOps_inv : ∀ (ops : List snapOp) (p : snaps) (bound : Nat), p.Valid →
    p.seqs.Pairwise (fun a b => a < b) → (∀ s ∈ p.seqs, s ≤ bound) →
    (∀ s ∈ acquiredSeqs ops, bound ≤ s) → (acquiredSeqs ops).Pairwise (fun a b => a ≤ b) →
    (runOps p ops).Valid ∧ (runOps p ops).seqs.Pairwise (fun a b => a < b) := by
  intro ops
  induction ops with
  | nil => intro p bound hv hs _ _ _; exact ⟨hv, hs⟩
  | cons op rest ih =>
    intro p bound hv hs hb hge hmono
    cases op with
    | acquire seq =>
      simp only [acquiredSeqs, List.mem_cons, forall_eq_or_imp, List.pairwise_cons] at hge hmono
      obtain ⟨h1, h2, h3⟩ := acquire_inv p seq bound hv hs hb hge.1
      simp only [runOps]
      exact ih _ seq h1 h2 h3 hmono.1 hmono.2
    | release e =>
      simp only [acquiredSeqs] at hge hmono
      obtain ⟨h1, h2, h3⟩ := release_inv p e bound hv hs hb
      simp only [runOps]
      exact ih _ bound h1 h2 h3 hge hmono

theorem acquiredSeqs_take_sublist (ops : List snapOp) (k : Nat) :
    (acquiredSeqs (ops.take k)).Sublist (acquiredSeqs ops) := by
  induction ops generalizing k with
  | nil => simp [acquiredSeqs]
  | cons op rest ih =>
    cases k with
    | zero => simp [acquiredSeqs]
    | succ k =>
      cases op with
      | acquire seq =>
        simp only [List.take_succ_cons, acquiredSeqs]
        exact (ih k).cons₂ seq
      | release e =>
        simp only [List.take_succ_cons, acquiredSeqs]
        exact ih k


/-- C11: `snaps.acquire(seq)`: when the registry is non-empty and its back entry has
sequence `seq`, that entry is returned, its refcount grows by one and the list and
all other entries stay as they are; otherwise a new entry `(seq, 1)` is appended at
the back and returned, and the existing entries and their order stay as they are. -/
theorem snaps_acquire_behaviour (p : snaps) (seq : Nat) :
    (∀ b ent, p.Back = some b → p.heap.get? b = some ent → ent.seq = seq →
      (p.acquire seq).1 = b ∧ (p.acquire seq).2.list = p.list ∧
      (p.acquire seq).2.heap = p.heap.set b { seq := ent.seq, ref := ent.ref + 1 }) ∧
    ((p.Back = none ∨ ∃ b ent, p.Back = some b ∧ p.heap.get? b = some ent ∧ ent.seq ≠ seq) →
      (p.acquire seq).1 = p.heap.length ∧
      (p.acquire seq).2.list = p.list ++ [p.heap.length] ∧
      (p.acquire seq).2.heap = p.heap ++ [{ seq := seq, ref := 1 }]) := by
  constructor
  · intro b ent hb hget hseq
    unfold snaps.acquire
    simp only [hb, hget, hseq, decide_True, if_true, Option.getD_some]
    exact ⟨trivial, trivial, trivial⟩
  · intro h
    have hnew : (p.heap ++ [({ seq := seq, ref := 0 } : snapEntry)]).get? p.heap.length =
        some { seq := seq, ref := 0 } := by
      simp
    have hset : (p.heap ++ [({ seq := seq, ref := 0 } : snapEntry)]).set p.heap.length
        { seq := seq, ref := 0 + 1 } = p.heap ++ [{ seq := seq, ref := 1 }] := by
      rw [List.set_append_right _ _ (le_refl _)]
      simp
    unfold snaps.acquire
    rcases h with h | ⟨b, ent, hb, hget, hne⟩
    · simp only [h, Bool.false_eq_true, if_false, hnew, hset]
      simp
    · simp only [hb, hget, hne, decide_False, Bool.false_eq_true, if_false, hnew, hset]
      simp

theorem snaps_acquire_behaviour_witness :
    ((newSnaps.acquire 7).2.acquire 7).1 = 0 ∧
    ((newSnaps.acquire 7).2.acquire 7).2 = { heap := [{ seq := 7, ref := 2 }], list := [0] } ∧
    ((newSnaps.acquire 7).2.acquire 9).1 = 1 ∧
    ((newSnaps.acquire 7).2.acquire 9).2 =
      { heap := [{ seq := 7, ref := 1 }, { seq := 9, ref := 1 }], list := [0, 1] } :=
  ⟨((snaps_acquire_behaviour (newSnaps.acquire 7).2 7).1 0 { seq := 7, ref := 1 }
      (by decide) (by decide) (by decide)).1,
   by decide,
   ((snaps_acquire_behaviour (newSnaps.acquire 7).2 9).2
      (Or.inr ⟨0, { seq := 7, ref := 1 }, by decide, by decide, by decide⟩)).1,
   by decide⟩

/-- C12: `snaps.release(e)` lowers the refcount of `e` by exactly one and leaves every
other entry as it is; `e` is taken out of the list exactly when the refcount reaches
zero, the other elements keeping their order, and otherwise the list is unchanged. -/
theorem snaps_release_behaviour (p : snaps) (e : Nat) (ent : snapEntry)
    (hget : p.heap.get? e = some ent) (hnd : p.list.Nodup) :
    (p.release e).heap = p.heap.set e { seq := ent.seq, ref := ent.ref - 1 } ∧
    (ent.ref - 1 = 0 →
      (p.release e).list = p.list.filter (fun x => decide (x ≠ e)) ∧ e ∉ (p.release e).list) ∧
    (ent.ref - 1 ≠ 0 → (p.release e).list = p.list) := by
  unfold snaps.release
  simp only [hget]
  refine ⟨?_, ?_, ?_⟩
  · split <;> rfl
  · intro h0
    simp only [h0, if_true]
    refine ⟨?_, ?_⟩
    · rw [List.Nodup.erase_eq_filter hnd]
      apply List.filter_congr
      intro x _
      by_cases hx : x = e <;> simp [hx]
    · exact List.Nodup.not_mem_erase hnd
  · intro h0
    simp only [h0, if_false]

theorem snaps_release_behaviour_witness :
    ((newSnaps.acquire 7).2.release 0).heap = [{ seq := 7, ref := 0 }] ∧
    ((newSnaps.acquire 7).2.release 0).list = [] :=
  ⟨(snaps_release_behaviour (newSnaps.acquire 7).2 0 { seq := 7, ref := 1 }
      (by decide) (by decide)).1,
   by decide⟩

/-- C13: `snaps.seq(fallback)` is the sequence of the back entry of a non-empty
registry and `fallback` for an empty one; it reads the registry only. -/
theorem snaps_seq_is_back (p : snaps) (fallback : Nat) :
    (p.list = [] → p.seq fallback = fallback) ∧
    (∀ b ent, p.list.getLast? = some b → p.heap.get? b = some ent →
      p.seq fallback = ent.seq) := by
  constructor
  · intro h
    unfold snaps.seq
    rw [(snaps_back_none p).2 h]
  · intro b ent hb hget
    unfold snaps.seq snaps.Back
    simp only [hb, hget]

theorem snaps_seq_is_back_witness :
    newSnaps.seq 5 = 5 ∧ ((newSnaps.acquire 3).2.acquire 4).2.seq 5 = 4 :=
  ⟨(snaps_seq_is_back newSnaps 5).1 (by decide),
   (snaps_seq_is_back ((newSnaps.acquire 3).2.acquire 4).2 5).2 1 { seq := 4, ref := 1 }
     (by decide) (by decide)⟩

/-- C14 at the input acquire(1), acquire(2): the registry then holds the sequences
1 and 2, its smallest sequence is 1, and `snaps.seq` returns 2, the back entry. -/
theorem snaps_seq_not_smallest :
    (runOps newSnaps [snapOp.acquire 1, snapOp.acquire 2]).seqs = [1, 2] ∧
    (runOps newSnaps [snapOp.acquire 1, snapOp.acquire 2]).seq 0 = 2 ∧
    (runOps newSnaps [snapOp.acquire 1, snapOp.acquire 2]).seq 0 ≠
      ((runOps newSnaps [snapOp.acquire 1, snapOp.acquire 2]).seqs.foldl min 2) := by
  decide

/-- C15: after every call of a sequence of `acquire` and `release` calls on a new
registry in which the acquired sequences never decrease, every list element is an
allocated entry and the sequences of the list increase strictly from front to back:
the list is in order and no two entries carry the same sequence. -/
theorem snaps_list_sorted (ops : List snapOp)
    (hmono : (acquiredSeqs ops).Pairwise (fun a b => a ≤ b)) (k : Nat) :
    (runOps newSnaps (ops.take k)).Valid ∧
    (runOps newSnaps (ops.take k)).seqs.Pairwise (fun a b => a < b) := by
  apply runOps_inv (ops.take k) newSnaps 0
  · intro e he
    simp [newSnaps] at he
  · simp [newSnaps, snaps.seqs]
  · simp [newSnaps, snaps.seqs]
  · intro s _
    exact Nat.zero_le s
  · exact hmono.sublist (acquiredSeqs_take_sublist ops k)

theorem snaps_list_sorted_witness :
    (acquiredSeqs [snapOp.acquire 1, snapOp.acquire 2, snapOp.release 0, snapOp.acquire 2,
      snapOp.acquire 5]).Pairwise (fun a b => a ≤ b) ∧
    (runOps newSnaps ([snapOp.acquire 1, snapOp.acquire 2, snapOp.release 0, snapOp.acquire 2,
      snapOp.acquire 5].take 5)).Valid ∧
    (runOps newSnaps ([snapOp.acquire 1, snapOp.acquire 2, snapOp.release 0, snapOp.acquire 2,
      snapOp.acquire 5].take 5)).seqs.Pairwise (fun a b => a < b) :=
  ⟨by decide,
   snaps_list_sorted [snapOp.acquire 1, snapOp.acquire 2, snapOp.release 0, snapOp.acquire 2,
      snapOp.acquire 5] (by decide) 5⟩

end leveldb
namespace leveldb

theorem releaseTimes_released (n : Nat) (p : Snapshot) (db : snaps) (h : p.released ≠ 0) :
    releaseTimes n p db = some (p, db) := by
  induction n with
  | zero => rfl
  | succ n ih =>
    have h1 : p.Release db = some (p, db) := by
      unfold Snapshot.Release
      rw [if_neg h]
    simp only [releaseTimes, h1]
    exact ih

/-- C30: `Snapshot.Release` on a snapshot that holds registry entry `e` and has not
been released calls `snaps.release(e)` once (the refcount of `e` goes down by one
and `e` leaves the list when it reaches zero), clears `d` and `entry` and sets the
released flag; every call on a released snapshot returns without a panic and changes
neither the registry nor the snapshot, so `n + 1` calls in a row have the effect of
the first one. -/
theorem snapshot_release_idempotent (p : Snapshot) (db : snaps) (e : Nat) (n : Nat)
    (hr : p.released = 0) (hd : p.d = true) (he : p.entry = some e) :
    p.Release db = some ({ d := false, entry := none, released := 1 }, db.release e) ∧
    (∀ ent, db.heap.get? e = some ent →
      (db.release e).heap = db.heap.set e { seq := ent.seq, ref := ent.ref - 1 } ∧
      (db.release e).list = if ent.ref - 1 = 0 then db.list.erase e else db.list) ∧
    (∀ (q : Snapshot) (db1 : snaps), q.released ≠ 0 → q.Release db1 = some (q, db1)) ∧
    releaseTimes (n + 1) p db =
      some ({ d := false, entry := none, released := 1 }, db.release e) := by
  have h1 : p.Release db =
      some ({ d := false, entry := none, released := 1 }, db.release e) := by
    unfold Snapshot.Release
    rw [if_pos hr, hd, he]
  refine ⟨h1, ?_, ?_, ?_⟩
  · intro ent hget
    unfold snaps.release
    simp only [hget]
    split <;> exact ⟨rfl, rfl⟩
  · intro q db1 hq
    unfold Snapshot.Release
    rw [if_neg hq]
  · simp only [releaseTimes, h1]
    exact releaseTimes_released n _ _ (by decide)

theorem snapshot_release_idempotent_witness :
    (newSnapshot newSnaps 7).1.Release (newSnapshot newSnaps 7).2 =
      some ({ d := false, entry := none, released := 1 },
        (newSnapshot newSnaps 7).2.release 0) ∧
    (∀ ent, (newSnapshot newSnaps 7).2.heap.get? 0 = some ent →
      ((newSnapshot newSnaps 7).2.release 0).heap =
        (newSnapshot newSnaps 7).2.heap.set 0 { seq := ent.seq, ref := ent.ref - 1 } ∧
      ((newSnapshot newSnaps 7).2.release 0).list =
        if ent.ref - 1 = 0 then (newSnapshot newSnaps 7).2.list.erase 0
        else (newSnapshot newSnaps 7).2.list) ∧
    (∀ (q : Snapshot) (db1 : snaps), q.released ≠ 0 → q.Release db1 = some (q, db1)) ∧
    releaseTimes (2 + 1) (newSnapshot newSnaps 7).1 (newSnapshot newSnaps 7).2 =
      some ({ d := false, entry := none, released := 1 },
        (newSnapshot newSnaps 7).2.release 0) :=
  snapshot_release_idempotent (newSnapshot newSnaps 7).1 (newSnapshot newSnaps 7).2 0 2
    (by decide) (by decide) (by decide)

end leveldb

namespace leveldb

theorem intField_unset (env : Env) (key : String) (d : Int) (h : env.getenv key = "") :
    intFieldFromEnv env key d = (d, false) := by
  simp [intFieldFromEnv, setIntFromEnv, h]

theorem intField_parsed (env : Env) (key : String) (d val : Int) (h : env.getenv key ≠ "")
    (hp : env.atoi (env.getenv key) = some val) :
    intFieldFromEnv env key d = (val, decide (d ≠ val)) := by
  simp [intFieldFromEnv, setIntFromEnv, h, hp]

theorem read_table_size (env : Env) (o : Options) :
    (readOptionsFromEnv env o).CompactionTableSize =
      (intFieldFromEnv env "LDB_COMPACTION_TABLE_SIZE" o.CompactionTableSize).1 := by
  unfold readOptionsFromEnv
  simp only []
  split <;> split <;> rfl

theorem read_total_size (env : Env) (o : Options) :
    (readOptionsFromEnv env o).CompactionTotalSize =
      if (intFieldFromEnv env "LDB_COMPACTION_TABLE_SIZE" o.CompactionTableSize).2 &&
          !(intFieldFromEnv env "LDB_COMPACTION_TOTAL_SIZE" o.CompactionTotalSize).2 then
        wrapInt ((intFieldFromEnv env "LDB_COMPACTION_TABLE_SIZE" o.CompactionTableSize).1 * 5)
      else (intFieldFromEnv env "LDB_COMPACTION_TOTAL_SIZE" o.CompactionTotalSize).1 := by
  unfold readOptionsFromEnv
  simp only []
  split <;> split <;> rfl

theorem wrapInt_of_small (x : Int) (h0 : -(2 ^ 63 : Int) ≤ x) (h1 : x < 2 ^ 63) : wrapInt x = x := by
  unfold wrapInt
  omega

/-- C33: for each of `setIntFromEnv`, `setFloatFromEnv` and `setBoolFromEnv` called with
a destination that is not nil: when the variable is empty (not set) or its value does not
parse, the destination keeps its value and the result is false; when the variable is not
empty and parses to `val`, the destination becomes `val` and the result is whether `val`
differs from the previous value under Go's `!=` (for a `float64` a value that is not a
NaN does not differ from itself).  With a nil destination the result is false. -/
theorem setFromEnv_contract (env : Env) (key : String) :
    (∀ d : Int,
      ((env.getenv key = "" ∨ env.atoi (env.getenv key) = none) →
        setIntFromEnv env key (some d) = (some d, false)) ∧
      (∀ val, env.getenv key ≠ "" → env.atoi (env.getenv key) = some val →
        setIntFromEnv env key (some d) = (some val, decide (val ≠ d)))) ∧
    (∀ d : Nat,
      ((env.getenv key = "" ∨ env.parseFloat (env.getenv key) = none) →
        setFloatFromEnv env key (some d) = (some d, false)) ∧
      (∀ val, env.getenv key ≠ "" → env.parseFloat (env.getenv key) = some val →
        setFloatFromEnv env key (some d) = (some val, float64Ne d val)) ∧
      (float64IsNaN d = false → float64Ne d d = false)) ∧
    (∀ d : Bool,
      ((env.getenv key = "" ∨ env.parseBool (env.getenv key) = none) →
        setBoolFromEnv env key (some d) = (some d, false)) ∧
      (∀ val, env.getenv key ≠ "" → env.parseBool (env.getenv key) = some val →
        setBoolFromEnv env key (some d) = (some val, decide (val ≠ d)))) ∧
    setIntFromEnv env key none = (none, false) ∧
    setFloatFromEnv env key none = (none, false) ∧
    setBoolFromEnv env key none = (none, false) := by
  refine ⟨fun d => ⟨?_, ?_⟩, fun d => ⟨?_, ?_, ?_⟩, fun d => ⟨?_, ?_⟩, ?_, ?_, ?_⟩
  · intro h
    unfold setIntFromEnv
    by_cases he : env.getenv key = ""
    · simp [he]
    · rcases h with h | h
      · exact absurd h he
      · simp [he, h]
  · intro val he hp
    unfold setIntFromEnv
    simp only [he, if_false, hp]
    congr 1
    simp only [ne_eq, decide_not, Bool.not_eq_eq_eq_not, Bool.not_not, decide_eq_decide]
    exact eq_comm
  · intro h
    unfold setFloatFromEnv
    by_cases he : env.getenv key = ""
    · simp [he]
    · rcases h with h | h
      · exact absurd h he
      · simp [he, h]
  · intro val he hp
    unfold setFloatFromEnv
    simp only [he, if_false, hp]
  · intro hn
    unfold float64Ne
    simp [hn]
  · intro h
    unfold setBoolFromEnv
    by_cases he : env.getenv key = ""
    · simp [he]
    · rcases h with h | h
      · exact absurd h he
      · simp [he, h]
  · intro val he hp
    unfold setBoolFromEnv
    simp only [he, if_false, hp]
    congr 1
    simp only [ne_eq, decide_not, Bool.not_eq_eq_eq_not, Bool.not_not, decide_eq_decide]
    exact eq_comm
  · simp [setIntFromEnv]
  · simp [setFloatFromEnv]
  · simp [setBoolFromEnv]

theorem setFromEnv_contract_witness :
    setIntFromEnv (listEnv [("LDB_BLOCK_SIZE", "8192"), ("LDB_NO_SYNC", "maybe")])
        "LDB_BLOCK_SIZE" (some 4096) = (some 8192, true) ∧
    setBoolFromEnv (listEnv [("LDB_BLOCK_SIZE", "8192"), ("LDB_NO_SYNC", "maybe")])
        "LDB_NO_SYNC" (some true) = (some true, false) ∧
    setIntFromEnv (listEnv [("LDB_BLOCK_SIZE", "8192"), ("LDB_NO_SYNC", "maybe")])
        "LDB_WRITE_BUFFER" (some 7) = (some 7, false) :=
  ⟨((setFromEnv_contract (listEnv [("LDB_BLOCK_SIZE", "8192"), ("LDB_NO_SYNC", "maybe")])
      "LDB_BLOCK_SIZE").1 4096).2 8192 (by decide) (by decide),
   ((setFromEnv_contract (listEnv [("LDB_BLOCK_SIZE", "8192"), ("LDB_NO_SYNC", "maybe")])
      "LDB_NO_SYNC").2.2.1 true).1 (Or.inr (by decide)),
   ((setFromEnv_contract (listEnv [("LDB_BLOCK_SIZE", "8192"), ("LDB_NO_SYNC", "maybe")])
      "LDB_WRITE_BUFFER").1 7).1 (Or.inl (by decide))⟩

/-- C31 (as amended): when `LDB_COMPACTION_TABLE_SIZE` is not empty and parses to `v`
and `LDB_COMPACTION_TOTAL_SIZE` is empty (not set), `readOptionsFromEnv` leaves
`CompactionTableSize = v`; when `v` differs from the table size the options had,
`CompactionTotalSize` becomes the 64-bit product `v * 5`, which is `5 * v` when that
fits in an `int`; when `v` equals the table size the options had, `CompactionTotalSize`
keeps its value. -/
theorem table_size_sets_total (env : Env) (o : Options) (v : Int)
    (hne : env.getenv "LDB_COMPACTION_TABLE_SIZE" ≠ "")
    (hv : env.atoi (env.getenv "LDB_COMPACTION_TABLE_SIZE") = some v)
    (ht : env.getenv "LDB_COMPACTION_TOTAL_SIZE" = "") :
    (readOptionsFromEnv env o).CompactionTableSize = v ∧
    (v ≠ o.CompactionTableSize →
      (readOptionsFromEnv env o).CompactionTotalSize = wrapInt (v * 5)) ∧
    (v ≠ o.CompactionTableSize → -(2 ^ 63 : Int) ≤ 5 * v → 5 * v < 2 ^ 63 →
      (readOptionsFromEnv env o).CompactionTotalSize = 5 * v) ∧
    (v = o.CompactionTableSize →
      (readOptionsFromEnv env o).CompactionTotalSize = o.CompactionTotalSize) := by
  have h1 := intField_parsed env "LDB_COMPACTION_TABLE_SIZE" o.CompactionTableSize v hne hv
  have h2 := intField_unset env "LDB_COMPACTION_TOTAL_SIZE" o.CompactionTotalSize ht
  have hA : v ≠ o.CompactionTableSize →
      (readOptionsFromEnv env o).CompactionTotalSize = wrapInt (v * 5) := by
    intro hd
    rw [read_total_size, h1, h2]
    have : decide (o.CompactionTableSize ≠ v) = true := decide_eq_true (Ne.symm hd)
    simp only [this, Bool.not_false, Bool.and_self, if_true]
  refine ⟨?_, hA, ?_, ?_⟩
  · rw [read_table_size, h1]
  · intro hd h0 h3
    rw [hA hd, wrapInt_of_small _ (by omega) (by omega)]
    omega
  · intro he
    rw [read_total_size, h1, h2]
    have : decide (o.CompactionTableSize ≠ v) = false := decide_eq_false (by simp [he])
    simp only [this, Bool.false_and, if_false]
    simp

theorem table_size_sets_total_witness :
    (readOptionsFromEnv (listEnv [("LDB_COMPACTION_TABLE_SIZE", "4194304")])
        zeroOptions).CompactionTableSize = 4194304 ∧
    (readOptionsFromEnv (listEnv [("LDB_COMPACTION_TABLE_SIZE", "4194304")])
        zeroOptions).CompactionTotalSize = 5 * 4194304 :=
  ⟨(table_size_sets_total (listEnv [("LDB_COMPACTION_TABLE_SIZE", "4194304")]) zeroOptions
      4194304 (by decide) (by decide) (by decide)).1,
   (table_size_sets_total (listEnv [("LDB_COMPACTION_TABLE_SIZE", "4194304")]) zeroOptions
      4194304 (by decide) (by decide) (by decide)).2.2.1 (by decide) (by decide) (by decide)⟩

/-- C31, counterexample: with options whose `CompactionTableSize` is already 4194304 and
whose `CompactionTotalSize` is 10485760, and `LDB_COMPACTION_TABLE_SIZE=4194304` as the
only variable, the total size stays 10485760 and is not `5 * 4194304`; and with zero
options and `LDB_COMPACTION_TABLE_SIZE=4611686018427387904` the product wraps to
`4611686018427387904`, which is not five times the table size. -/
theorem table_size_same_keeps_total :
    decimalAtoi "4194304" = some 4194304 ∧
    (readOptionsFromEnv (listEnv [("LDB_COMPACTION_TABLE_SIZE", "4194304")])
        { zeroOptions with CompactionTableSize := 4194304,
                           CompactionTotalSize := 10485760 }).CompactionTableSize = 4194304 ∧
    (readOptionsFromEnv (listEnv [("LDB_COMPACTION_TABLE_SIZE", "4194304")])
        { zeroOptions with CompactionTableSize := 4194304,
                           CompactionTotalSize := 10485760 }).CompactionTotalSize = 10485760 ∧
    (10485760 : Int) ≠ 5 * 4194304 ∧
    decimalAtoi "4611686018427387904" = some 4611686018427387904 ∧
    (readOptionsFromEnv (listEnv [("LDB_COMPACTION_TABLE_SIZE", "4611686018427387904")])
        zeroOptions).CompactionTotalSize = 4611686018427387904 := by
  decide

/-- C32, failing input: the options hold `CompactionTableSize = 2097152` and
`CompactionTotalSize = 10485760`, and the environment sets both
`LDB_COMPACTION_TABLE_SIZE=4194304` and `LDB_COMPACTION_TOTAL_SIZE=10485760`.  The total
size is given and parses to 10485760, yet `readOptionsFromEnv` leaves
`CompactionTotalSize = 20971520`, five times the new table size. -/
theorem total_size_set_overridden :
    (listEnv [("LDB_COMPACTION_TABLE_SIZE", "4194304"),
              ("LDB_COMPACTION_TOTAL_SIZE", "10485760")]).getenv "LDB_COMPACTION_TOTAL_SIZE" =
      "10485760" ∧
    decimalAtoi "10485760" = some 10485760 ∧
    (readOptionsFromEnv (listEnv [("LDB_COMPACTION_TABLE_SIZE", "4194304"),
                                  ("LDB_COMPACTION_TOTAL_SIZE", "10485760")])
        { zeroOptions with CompactionTableSize := 2097152,
                           CompactionTotalSize := 10485760 }).CompactionTotalSize = 20971520 ∧
    (readOptionsFromEnv (listEnv [("LDB_COMPACTION_TABLE_SIZE", "4194304"),
                                  ("LDB_COMPACTION_TOTAL_SIZE", "10485760")])
        { zeroOptions with CompactionTableSize := 2097152,
                           CompactionTotalSize := 10485760 }).CompactionTableSize = 4194304 := by
  decide

end leveldb

namespace table
/-- The filter check is the only point where the two kinds of find differ: for every
reader without a filter, or whose filter block can be read and answers true for the key
at the data block that the index seek locates, `find(K, filtered=true)` returns the
same as `find(K, filtered=false)`. -/
theorem find_filter_agree (r : Reader) (key : List Nat) (noValue : Bool)
    (hf : r.filter = none ∨ ∃ flt fb, r.filter = some flt ∧ r.getFilterBlock = some (Except.ok fb) ∧
      ∀ ib index0 index dataBH n, r.getIndexBlock = some (Except.ok ib) →
        r.newBlockIter ib none true = some index0 → index0.Seek key = some (true, index) →
        decodeBlockHandle (index.Value.getD []) = some (dataBH, n) →
        fb.contains flt dataBH.offset key = some true) :
    r.find key true noValue = r.find key false noValue := by
  unfold Reader.find
  cases herr : r.err with
  | some e => rfl
  | none =>
    simp only
    cases hib : r.getIndexBlock with
    | none => rfl
    | some rib =>
      cases rib with
      | error e => rfl
      | ok ib =>
        simp only
        cases hni : r.newBlockIter ib none true with
        | none => rfl
        | some index0 =>
          simp only
          cases hseek : index0.Seek key with
          | none => rfl
          | some res =>
            obtain ⟨ok, index⟩ := res
            cases ok with
            | false => rfl
            | true =>
              simp only
              cases hdec : decodeBlockHandle (index.Value.getD []) with
              | none => rfl
              | some dn =>
                obtain ⟨dataBH, n⟩ := dn
                simp only
                by_cases hn : n = 0
                · simp only [hn, if_true]
                · simp only [hn, if_false]
                  rcases hf with hf | ⟨flt, fb, hflt, hfb, hadmit⟩
                  · simp only [hf]
                  · have hc := hadmit ib index0 index dataBH n hib hni hseek hdec
                    simp only [hflt, hfb, hc]


theorem find_filter_agree_witness :
    exampleTable.find [99] true false = exampleTable.find [99] false false :=
  find_filter_agree exampleTable [99] false
    (Or.inr ⟨firstBytePolicy, exampleFilterBlock, rfl, rfl, by
      intro ib index0 index dataBH n h1 h2 h3 h4
      have e1 : ib = exampleIndexBlock := by
        have h := h1
        simp only [Reader.getIndexBlock, exampleTable, Option.some.injEq, Except.ok.injEq] at h
        exact h.symm
      subst e1
      have h5 : (exampleTable.newBlockIter exampleIndexBlock none true).bind
          (fun i => i.Seek [99]) = some (true, index) := by
        rw [h2]
        exact h3
      have hv := congrArg (Option.map (fun p => (p.2.Value.getD []))) h5
      have hc : Option.map (fun p : Bool × blockIter => (p.2.Value.getD []))
          ((exampleTable.newBlockIter exampleIndexBlock none true).bind
            (fun i => i.Seek [99])) = some [0, 18] := by
        decide
      rw [hc] at hv
      simp only [Option.map_some', Option.some.injEq] at hv
      rw [← hv] at h4
      have hd : decodeBlockHandle [0, 18] = some ({ offset := 0, length := 18 }, 2) := by decide
      rw [hd] at h4
      simp only [Option.some.injEq, Prod.mk.injEq] at h4
      rw [← h4.1]
      decide⟩)

/-- C9 (counterexample): the claim as stated fails on the example table (keys `a` and
`c`, filter built from both keys by a policy without false negatives): for `K = b`,
between the smallest and the largest key and not stored, the filtered find answers
ErrNotFound and the unfiltered find returns the entry of `c`. -/
theorem find_filtered_differs :
    bytesCompare [97] [98] < 0 ∧ bytesCompare [98] [99] < 0 ∧
    exampleFilterBlock.contains firstBytePolicy 0 [97] = some true ∧
    exampleFilterBlock.contains firstBytePolicy 0 [99] = some true ∧
    (exampleTable.find [98] true false).map Prod.fst =
      some { rkey := none, value := none, err := some Err.ErrNotFound } ∧
    (exampleTable.find [98] false false).map Prod.fst =
      some { rkey := some [99], value := some [51], err := none } := by
  decide

/-- C10 at the filter block read from nine zero bytes (one empty filter, `baseLg` 0)
and offset `2^63`: `int(offset >> baseLg)` is negative, so the code reads the offsets
pair of filter 0 and answers false, where the reference definition answers true
because the index is not below `filtersNum`. -/
theorem filter_contains_wraps :
    (zeroReader.readFilterBlock { offset := 0, length := 9 }).map Except.toOption =
      some (some zeroFilterBlock) ∧
    zeroFilterBlock.contains firstBytePolicy (2 ^ 63) [1] = some false ∧
    zeroFilterBlock.containsRef firstBytePolicy (2 ^ 63) [1] = some true := by
  decide

/-- C18 at the empty block (no entries, restart array `[0]`) with a slice that has a
Limit: the block is well formed and the Start lies above every key, yet the iterator
that `newBlockIter` returns has the error "entries offset not aligned" latched; with
a nil Limit no error is latched. -/
theorem newBlockIter_empty_block_latches :
    WellFormed [] [0] ∧
    ((plainReader bytesCompare).newBlockIter emptyBlock
        (some { Start := some [1], Limit := some [2] }) false).map
      (fun i => (i.err, i.offsetStart, i.offsetRealStart, i.offsetLimit)) =
      some (some (Err.corrupted 64 8 "data-block" "entries offset not aligned"), 0, 0, 0) ∧
    ((plainReader bytesCompare).newBlockIter emptyBlock
        (some { Start := some [1], Limit := none }) false).map
      (fun i => (i.err, i.offsetStart, i.offsetRealStart, i.offsetLimit)) =
      some (none, 0, 0, 0) :=
  ⟨⟨rfl, by simp, Or.inl ⟨rfl, rfl⟩, rfl, by decide⟩, by decide, by decide⟩

end table
namespace table

/-- C26 (as amended): for every filter block, offset with `int(offset >> baseLg)`
below `filtersNum`, and key, when the offset pair `(n, m)` read for that index has
`m > oOffset` or `n > m`, `filterBlock.contains` returns without consulting the filter
policy: true (possibly present) when `n ≠ m`, and false when `n = m` (an equal pair
means "no filter", also beyond `oOffset`). -/
theorem filter_contains_mismatch (b : filterBlock) (filter : List Nat → List Nat → Bool)
    (offset : Nat) (key o o4 : List Nat) (n m : Nat)
    (hi : toInt64 (offset >>> b.baseLg) < b.filtersNum)
    (ho : sliceFrom b.data (wrap64 (b.oOffset + wrap64 (toInt64 (offset >>> b.baseLg) * 4))) =
      some o)
    (hn : leUint32 o = some n) (ho4 : sliceFrom o 4 = some o4) (hm : leUint32 o4 = some m)
    (hbad : (m : Int) > b.oOffset ∨ n > m) :
    b.contains filter offset key = some (decide (n ≠ m)) := by
  unfold filterBlock.contains
  simp only
  rw [if_pos hi, ho]
  simp only
  rw [hn]
  simp only
  rw [ho4]
  simp only
  rw [hm]
  simp only
  have h1 : ¬ (n < m ∧ (m : Int) ≤ b.oOffset) := by
    rcases hbad with h | h
    · intro hc; omega
    · intro hc; omega
  rw [if_neg h1]
  by_cases he : n = m
  · rw [if_pos he]; simp [he]
  · rw [if_neg he]; simp [he]

theorem filter_contains_mismatch_witness :
    beyondPairFilterBlock.contains firstBytePolicy 0 [1] = some (decide (1 ≠ 5)) :=
  filter_contains_mismatch beyondPairFilterBlock firstBytePolicy 0 [1]
    [1, 0, 0, 0, 5, 0, 0, 0, 0, 0, 0, 0, 0] [5, 0, 0, 0, 0, 0, 0, 0, 0] 1 5
    (by decide) (by decide) (by decide) (by decide) (by decide) (by decide)

/-- C26 (counterexample): in the filter block with the thirteen bytes
05 00 00 00 05 00 00 00 00 00 00 00 00 (`oOffset` 0, two offsets, `baseLg` 0) the
pair read for offset 0 is (5, 5), so `m = 5 > oOffset = 0`, and `contains` returns
false, not true. -/
theorem filter_contains_equal_pair_false :
    (leUint32 equalPairFilterBlock.data, leUint32 (equalPairFilterBlock.data.drop 4)) =
      (some 5, some 5) ∧
    ((5 : Nat) : Int) > equalPairFilterBlock.oOffset ∧
    toInt64 (0 >>> equalPairFilterBlock.baseLg) < equalPairFilterBlock.filtersNum ∧
    equalPairFilterBlock.contains firstBytePolicy 0 [1] = some false := by
  decide

end table

namespace table

theorem readFilterBlock_accept (r : Reader) (bh : blockHandle) (fb : filterBlock)
    (h : r.readFilterBlock bh = some (Except.ok fb)) :
    (5 : Int) ≤ fb.data.length ∧ 0 ≤ fb.oOffset ∧ fb.oOffset ≤ (fb.data.length : Int) - 5 ∧
      fb.filtersNum = ((fb.data.length : Int) - 5 - fb.oOffset) / 4 ∧
      r.readRawBlock bh true = some (Except.ok fb.data) := by
  unfold Reader.readFilterBlock at h
  cases hraw : r.readRawBlock bh true with
  | none => rw [hraw] at h; simp at h
  | some res =>
    cases res with
    | error e => rw [hraw] at h; simp at h
    | ok data =>
      rw [hraw] at h
      simp only [] at h
      by_cases h5 : (data.length : Int) < 5
      · rw [if_pos h5] at h
        simp at h
      · rw [if_neg h5] at h
        cases hs : sliceFrom data ((data.length : Int) - 5) with
        | none => rw [hs] at h; simp at h
        | some tail =>
          rw [hs] at h
          simp only [] at h
          cases hu : leUint32 tail with
          | none => rw [hu] at h; simp at h
          | some u =>
            rw [hu] at h
            simp only [] at h
            by_cases ho : (u : Int) > (data.length : Int) - 5
            · rw [if_pos ho] at h
              simp at h
            · rw [if_neg ho] at h
              cases hg : data.get? ((data.length : Int) - 1).toNat with
              | none => rw [hg] at h; simp at h
              | some lg =>
                rw [hg] at h
                simp only [Option.some.injEq, Except.ok.injEq] at h
                subst h
                refine ⟨?_, ?_, ?_, rfl, rfl⟩
                all_goals (dsimp only; omega)

theorem leUint32_of_length (o : List Nat) (h : 4 ≤ o.length) : ∃ n, leUint32 o = some n := by
  match o, h with
  | b0 :: b1 :: b2 :: b3 :: _, _ => exact ⟨_, rfl⟩

/-- C38: for every filter block `fb` that `readFilterBlock` returns (so `len(data) ≥ 5`,
`0 ≤ oOffset ≤ len(data) - 5` and `filtersNum = (len(data) - 5 - oOffset) / 4`), whose
data is shorter than `2^63` bytes as every Go slice is, and every offset whose index
`i = int(offset >> baseLg)` satisfies `0 ≤ i < filtersNum`: the slice
`data[oOffset + 4 i:]` is in range and holds at least 8 bytes, so both offsets `n` and
`m` are read inside `data`; `contains` returns, with the policy's answer on
`data[n:m]` when `n < m ≤ oOffset`, false when `n = m`, and true otherwise; and
whenever `data[n:m]` is sliced, `n < m ≤ oOffset ≤ len(data)` and the slice is in
range. -/
theorem filter_contains_in_range (r : Reader) (bh : blockHandle) (fb : filterBlock)
    (h : r.readFilterBlock bh = some (Except.ok fb)) (hlen : fb.data.length < 2 ^ 63)
    (filter : List Nat → List Nat → Bool) (offset : Nat) (key : List Nat)
    (hi0 : 0 ≤ toInt64 (offset >>> fb.baseLg))
    (hi1 : toInt64 (offset >>> fb.baseLg) < fb.filtersNum) :
    ∃ o o4 n m,
      sliceFrom fb.data (fb.oOffset + toInt64 (offset >>> fb.baseLg) * 4) = some o ∧
      8 ≤ o.length ∧ leUint32 o = some n ∧ sliceFrom o 4 = some o4 ∧ leUint32 o4 = some m ∧
      fb.contains filter offset key =
        some (if n < m ∧ (m : Int) ≤ fb.oOffset then filter ((fb.data.take m).drop n) key
              else if n = m then false else true) ∧
      (n < m ∧ (m : Int) ≤ fb.oOffset →
        fb.oOffset ≤ (fb.data.length : Int) ∧
          slice fb.data n m = some ((fb.data.take m).drop n)) := by
  obtain ⟨h5, ho0, ho1, hfn, -⟩ := readFilterBlock_accept r bh fb h
  generalize hi : toInt64 (offset >>> fb.baseLg) = i at hi0 hi1
  have hq : i * 4 + 4 ≤ (fb.data.length : Int) - 5 - fb.oOffset := by
    rw [hfn] at hi1
    omega
  have hw1 : wrap64 (i * 4) = i * 4 := wrap64_of_small _ (by omega) (by omega)
  have hw2 : wrap64 (fb.oOffset + i * 4) = fb.oOffset + i * 4 :=
    wrap64_of_small _ (by omega) (by omega)
  have hs : sliceFrom fb.data (fb.oOffset + i * 4) =
      some (fb.data.drop (fb.oOffset + i * 4).toNat) := by
    unfold sliceFrom
    rw [if_pos ⟨by omega, by omega⟩]
  have hol : 8 ≤ (fb.data.drop (fb.oOffset + i * 4).toNat).length := by
    rw [List.length_drop]
    omega
  obtain ⟨n, hn⟩ := leUint32_of_length (fb.data.drop (fb.oOffset + i * 4).toNat) (by omega)
  have hs4 : sliceFrom (fb.data.drop (fb.oOffset + i * 4).toNat) 4 =
      some ((fb.data.drop (fb.oOffset + i * 4).toNat).drop 4) := by
    unfold sliceFrom
    rw [if_pos ⟨by omega, by omega⟩]
    rfl
  obtain ⟨m, hm⟩ := leUint32_of_length ((fb.data.drop (fb.oOffset + i * 4).toNat).drop 4)
    (by rw [List.length_drop]; omega)
  have hsl : n < m ∧ (m : Int) ≤ fb.oOffset →
      slice fb.data n m = some ((fb.data.take m).drop n) := by
    intro hc
    unfold slice
    rw [if_pos ⟨by omega, by omega, by omega⟩]
    rfl
  refine ⟨_, _, n, m, hs, hol, hn, hs4, hm, ?_, fun hc => ⟨by omega, hsl hc⟩⟩
  unfold filterBlock.contains
  simp only [hi, if_pos hi1, hw1, hw2, hs, hn, hs4, hm]
  by_cases hc : n < m ∧ (m : Int) ≤ fb.oOffset
  · rw [if_pos hc, if_pos hc, hsl hc]
  · rw [if_neg hc, if_neg hc]
    by_cases he : n = m
    · rw [if_pos he, if_pos he]
    · rw [if_neg he, if_neg he]

theorem filter_contains_in_range_witness :
    ∃ o o4 n m,
      sliceFrom exampleFilterBlock.data
        (exampleFilterBlock.oOffset + toInt64 (0 >>> exampleFilterBlock.baseLg) * 4) = some o ∧
      8 ≤ o.length ∧ leUint32 o = some n ∧ sliceFrom o 4 = some o4 ∧ leUint32 o4 = some m ∧
      exampleFilterBlock.contains firstBytePolicy 0 [97] =
        some (if n < m ∧ (m : Int) ≤ exampleFilterBlock.oOffset then
                firstBytePolicy ((exampleFilterBlock.data.take m).drop n) [97]
              else if n = m then false else true) ∧
      (n < m ∧ (m : Int) ≤ exampleFilterBlock.oOffset →
        exampleFilterBlock.oOffset ≤ (exampleFilterBlock.data.length : Int) ∧
          slice exampleFilterBlock.data n m = some ((exampleFilterBlock.data.take m).drop n)) :=
  filter_contains_in_range filterFileReader { offset := 0, length := 11 } exampleFilterBlock
    rfl (by decide) firstBytePolicy 0 [97] (by decide) (by decide)

end table

namespace table

theorem contains_layout (fb : filterBlock) (hsize : fb.data.length < 2 ^ 63)
    (hlay : (5 : Int) ≤ fb.data.length ∧ 0 ≤ fb.oOffset ∧
      fb.oOffset ≤ (fb.data.length : Int) - 5 ∧
      fb.filtersNum = ((fb.data.length : Int) - 5 - fb.oOffset) / 4)
    (filter : List Nat → List Nat → Bool) (offset : Nat) (key : List Nat)
    (hoff : offset < 2 ^ 63) :
    ((((offset >>> fb.baseLg : Nat) : Int) < fb.filtersNum) →
      ∃ n m, fb.offsetsPair (offset >>> fb.baseLg) = some (n, m) ∧
        fb.contains filter offset key =
          some (if n < m ∧ (m : Int) ≤ fb.oOffset then filter ((fb.data.take m).drop n) key
                else if n = m then false else true)) ∧
    (¬ (((offset >>> fb.baseLg : Nat) : Int) < fb.filtersNum) →
      fb.contains filter offset key = some true) := by
  obtain ⟨h5, ho0, ho1, hfn⟩ := hlay
  have hsh : offset >>> fb.baseLg < 2 ^ 63 := by
    rw [Nat.shiftRight_eq_div_pow]
    exact lt_of_le_of_lt (Nat.div_le_self _ _) hoff
  have hi : toInt64 (offset >>> fb.baseLg) = ((offset >>> fb.baseLg : Nat) : Int) :=
    toInt64_of_small _ hsh
  obtain ⟨i, hidef⟩ : ∃ i, i = offset >>> fb.baseLg := ⟨_, rfl⟩
  rw [← hidef] at hi hsh ⊢
  constructor
  · intro hi1
    have hq : (i : Int) * 4 + 4 ≤ (fb.data.length : Int) - 5 - fb.oOffset := by
      rw [hfn] at hi1
      omega
    have hw1 : wrap64 ((i : Int) * 4) = (i : Int) * 4 := wrap64_of_small _ (by omega) (by omega)
    have hw2 : wrap64 (fb.oOffset + (i : Int) * 4) = fb.oOffset + (i : Int) * 4 :=
      wrap64_of_small _ (by omega) (by omega)
    have hk : (fb.oOffset + (i : Int) * 4).toNat = fb.oOffset.toNat + 4 * i := by omega
    have hs : sliceFrom fb.data (fb.oOffset + (i : Int) * 4) =
        some (fb.data.drop (fb.oOffset.toNat + 4 * i)) := by
      unfold sliceFrom
      rw [if_pos ⟨by omega, by omega⟩, hk]
    have hol : 8 ≤ (fb.data.drop (fb.oOffset.toNat + 4 * i)).length := by
      rw [List.length_drop]
      omega
    obtain ⟨n, hn⟩ := leUint32_of_length (fb.data.drop (fb.oOffset.toNat + 4 * i)) (by omega)
    have hs4 : sliceFrom (fb.data.drop (fb.oOffset.toNat + 4 * i)) 4 =
        some (fb.data.drop (fb.oOffset.toNat + 4 * i + 4)) := by
      unfold sliceFrom
      rw [if_pos ⟨by omega, by omega⟩]
      simp [List.drop_drop, Nat.add_comm]
    obtain ⟨m, hm⟩ := leUint32_of_length (fb.data.drop (fb.oOffset.toNat + 4 * i + 4))
      (by rw [List.length_drop]; omega)
    have hsl : n < m ∧ (m : Int) ≤ fb.oOffset →
        slice fb.data n m = some ((fb.data.take m).drop n) := by
      intro hc
      unfold slice
      rw [if_pos ⟨by omega, by omega, by omega⟩]
      rfl
    refine ⟨n, m, ?_, ?_⟩
    · unfold filterBlock.offsetsPair
      rw [hn, hm]
    · unfold filterBlock.contains
      simp only [← hidef, hi, if_pos hi1, hw1, hw2, hs, hn, hs4, hm]
      by_cases hc : n < m ∧ (m : Int) ≤ fb.oOffset
      · rw [if_pos hc, if_pos hc, hsl hc]
      · rw [if_neg hc, if_neg hc]
        by_cases he : n = m
        · rw [if_pos he, if_pos he]
        · rw [if_neg he, if_neg he]
  · intro hi1
    unfold filterBlock.contains
    simp only [← hidef, hi, if_neg hi1]

theorem contains_built (flt : List Nat → List Nat → Bool) (fb : filterBlock) (blocks : Nat)
    (hd : Nat → blockHandle) (des : Nat → List RawEntry)
    (hb : FilterBuilt flt fb blocks hd des) (m e : Nat) (hm : m < blocks)
    (he : e < (des m).length) :
    fb.contains flt (hd m).offset (keyAt (des m) e) = some true := by
  obtain ⟨hA, hB⟩ := contains_layout fb hb.size hb.layout flt (hd m).offset (keyAt (des m) e)
    (hb.offsets m hm)
  by_cases hi : (((hd m).offset >>> fb.baseLg : Nat) : Int) < fb.filtersNum
  · obtain ⟨n, q, hp, hc⟩ := hA hi
    obtain ⟨p1, q1, hp1, hlt, hle, hall⟩ := hb.covered m hm hi
    rw [hp] at hp1
    have h1 : n = p1 := congrArg Prod.fst (Option.some.inj hp1)
    have h2 : q = q1 := congrArg Prod.snd (Option.some.inj hp1)
    subst h1
    subst h2
    rw [hc, if_pos ⟨hlt, hle⟩, hall e he]
  · exact hB hi

theorem contains_total (flt : List Nat → List Nat → Bool) (fb : filterBlock) (blocks : Nat)
    (hd : Nat → blockHandle) (des : Nat → List RawEntry)
    (hb : FilterBuilt flt fb blocks hd des) (m : Nat) (hm : m < blocks) (key : List Nat) :
    ∃ b, fb.contains flt (hd m).offset key = some b := by
  obtain ⟨hA, hB⟩ := contains_layout fb hb.size hb.layout flt (hd m).offset key
    (hb.offsets m hm)
  by_cases hi : (((hd m).offset >>> fb.baseLg : Nat) : Int) < fb.filtersNum
  · obtain ⟨n, q, _, hc⟩ := hA hi
    exact ⟨_, hc⟩
  · exact ⟨true, hB hi⟩

theorem find_filtered_absent (r : Reader) (key : List Nat) (noValue : Bool) (ib : block)
    (index0 index : blockIter) (v : List Nat) (bh : blockHandle) (n : Int)
    (flt : List Nat → List Nat → Bool) (fb : filterBlock) (herr : r.err = none)
    (hib : r.getIndexBlock = some (Except.ok ib))
    (hni : r.newBlockIter ib none true = some index0)
    (hsk : index0.Seek key = some (true, index)) (hval : index.Value = some v)
    (hdec : decodeBlockHandle v = some (bh, n)) (hn : n ≠ 0)
    (hflt : r.filter = some flt) (hfb : r.getFilterBlock = some (Except.ok fb))
    (hcon : fb.contains flt bh.offset key = some false) :
    r.find key true noValue = some (notFoundResult, r) := by
  unfold Reader.find
  simp only [herr, hib, hni, hsk, hval, Option.getD_some, hdec, if_neg hn, hflt, hfb, hcon]
  rfl

theorem index_seek_stored (r : Reader) (ies : List RawEntry) (iris : List Nat)
    (hd : Nat → blockHandle) (des : Nat → List RawEntry) (dris : Nat → List Nat)
    (hv : ValidTable r ies iris hd des dris) (hc : IsComparer r.cmp) (m e : Nat)
    (hm : m < ies.length) (he : e < (des m).length) :
    r.cmp (keyAt ies m) (keyAt (des m) e) ≥ 0 ∧
      ∀ y, y < m → r.cmp (keyAt ies y) (keyAt (des m) e) < 0 := by
  constructor
  · have h1 := table_below_index r ies iris hd des dris hv hc m e hm he
    by_contra hcon
    have h2 : r.cmp (keyAt ies m) (keyAt (des m) e) < 0 := by omega
    have h3 := (hc.flip _ _).1 h2
    omega
  · intro y hy
    exact table_above_index r ies iris hd des dris hv hc y m e hy hm he

/-- C9 (as amended): for every valid table whose reader has a filter policy and a
filter block that was built from the keys of its data blocks by that policy without
false negatives.  For every key `K` stored in the table, `find(K, filtered = true)`
returns the same as `find(K, filtered = false)`, which is the stored entry of `K` with
a nil error.  For every other key `K`, `find(K, filtered = true)` returns either the
same as `find(K, filtered = false)` or `ErrNotFound` with the reader unchanged. -/
theorem find_filter_stored_agree (r : Reader) (ies : List RawEntry) (iris : List Nat)
    (hd : Nat → blockHandle) (des : Nat → List RawEntry) (dris : Nat → List Nat)
    (hv : ValidTable r ies iris hd des dris) (hc : IsComparer r.cmp)
    (flt : List Nat → List Nat → Bool) (fb : filterBlock) (hflt : r.filter = some flt)
    (hfb : r.getFilterBlock = some (Except.ok fb))
    (hb : FilterBuilt flt fb ies.length hd des) (noValue : Bool) :
    (∀ m e, m < ies.length → e < (des m).length →
      r.find (keyAt (des m) e) true noValue = r.find (keyAt (des m) e) false noValue ∧
      r.find (keyAt (des m) e) true noValue =
        some (foundResult r (keyAt (des m) e) (valueAt (des m) e) noValue, r)) ∧
    (∀ key, r.find key true noValue = r.find key false noValue ∨
      r.find key true noValue = some (notFoundResult, r)) := by
  obtain ⟨ibh, hib⟩ := hv.index
  obtain ⟨i0, h0, hS⟩ := newBlockIter_none r ibh ies iris true
  have hpath : ∀ (key : List Nat) (a : Nat), a < ies.length → r.cmp (keyAt ies a) key ≥ 0 →
      (∀ y, y < a → r.cmp (keyAt ies y) key < 0) →
      ∀ b, fb.contains flt (hd a).offset key = some b →
        (b = true → r.find key true noValue = r.find key false noValue) ∧
        (b = false → r.find key true noValue = some (notFoundResult, r)) := by
    intro key a ha hge hlt b hcon
    obtain ⟨hA, _⟩ := Seek_full r ibh ies iris hv.indexWf hc hv.indexSorted i0
      (atEnd_ready hS (by decide)) key
    obtain ⟨it, hSk, hF⟩ := hA a ha hge hlt
    obtain ⟨n, hn, hval, hdec⟩ := index_handle r ies iris hd des dris hv _ _ it a ha hF
    constructor
    · intro hbt
      subst hbt
      apply find_filter_agree r key noValue
      refine Or.inr ⟨flt, fb, hflt, hfb, ?_⟩
      intro ib index0 index dataBH n1 e1 e2 e3 e4
      rw [hib] at e1
      have hibe : blockOf ibh ies iris = ib := Except.ok.inj (Option.some.inj e1)
      subst hibe
      rw [h0] at e2
      have hi0 : i0 = index0 := Option.some.inj e2
      subst hi0
      rw [hSk] at e3
      have hit : it = index := congrArg Prod.snd (Option.some.inj e3)
      subst hit
      rw [hval, Option.getD_some, hdec] at e4
      have hbh : hd a = dataBH := congrArg Prod.fst (Option.some.inj e4)
      rw [← hbh]
      exact hcon
    · intro hbf
      subst hbf
      exact find_filtered_absent r key noValue _ i0 it _ (hd a) n flt fb hv.noErr hib h0 hSk
        hval hdec hn hflt hfb hcon
  constructor
  · intro m e hm he
    obtain ⟨hge, hlt⟩ := index_seek_stored r ies iris hd des dris hv hc m e hm he
    have hcon := contains_built flt fb ies.length hd des hb m e hm he
    have heq := (hpath (keyAt (des m) e) m hm hge hlt true hcon).1 rfl
    refine ⟨heq, ?_⟩
    rw [heq]
    apply (find_spec r ies iris hd des dris hv hc (keyAt (des m) e) noValue).1 m e hm he
    · exact cmp_self_ge r.cmp hc _
    · intro m1 e1 _ _ hge1
      exact cmp_ge_flip r.cmp hc _ _ hge1
  · intro key
    obtain ⟨a, -, ha0, ha1, ha2⟩ := exists_first_ge r.cmp ies key ies.length 0 (by omega)
    by_cases hal : a < ies.length
    · obtain ⟨b, hcon⟩ := contains_total flt fb ies.length hd des hb a hal key
      obtain ⟨hT, hF⟩ := hpath key a hal (ha2 hal) (fun y hy => ha1 y (Nat.zero_le _) hy) b hcon
      cases b with
      | true => exact Or.inl (hT rfl)
      | false => exact Or.inr (hF rfl)
    · left
      obtain ⟨_, hB⟩ := Seek_full r ibh ies iris hv.indexWf hc hv.indexSorted i0
        (atEnd_ready hS (by decide)) key
      obtain ⟨it, hSk, _⟩ := hB (fun y hy => ha1 y (Nat.zero_le _) (by omega))
      apply find_filter_agree r key noValue
      refine Or.inr ⟨flt, fb, hflt, hfb, ?_⟩
      intro ib index0 index dataBH n1 e1 e2 e3 e4
      rw [hib] at e1
      have hibe : blockOf ibh ies iris = ib := Except.ok.inj (Option.some.inj e1)
      subst hibe
      rw [h0] at e2
      have hi0 : i0 = index0 := Option.some.inj e2
      subst hi0
      rw [hSk] at e3
      have := congrArg Prod.fst (Option.some.inj e3)
      simp at this

theorem filtered_valid :
    ValidTable filteredTable twoBlockIndex [0] twoBlockHandles twoBlockData (fun _ => [0]) where
  noErr := rfl
  index := ⟨_, rfl⟩
  indexWf := ⟨by decide, by decide, Or.inr (by decide), by decide, by decide⟩
  indexSorted := by
    show StrictSorted bytesCompare _
    unfold StrictSorted
    decide
  handle := by
    intro m hm
    have hm2 : m < 2 := hm
    interval_cases m <;> decide
  data := by
    intro m hm
    have hm2 : m < 2 := hm
    interval_cases m <;> rfl
  dataWf := by
    intro m hm
    have hm2 : m < 2 := hm
    interval_cases m <;>
      exact ⟨by decide, by decide, Or.inr (by decide), by decide, by decide⟩
  dataSorted := by
    intro m hm
    have hm2 : m < 2 := hm
    interval_cases m <;> (show StrictSorted bytesCompare _; unfold StrictSorted; decide)
  dataNonempty := by
    intro m hm
    have hm2 : m < 2 := hm
    interval_cases m <;> decide
  lastLe := by
    intro m hm
    have hm2 : m < 2 := hm
    interval_cases m <;> decide
  nextGt := by
    intro m hm
    have hm2 : m + 1 < 2 := hm
    have hm0 : m = 0 := by omega
    subst hm0
    decide

theorem filtered_built :
    FilterBuilt firstBytePolicy twoBlockFilter twoBlockIndex.length twoBlockHandles
      twoBlockData where
  size := by decide
  layout := by decide
  offsets := by
    intro m hm
    have hm2 : m < 2 := hm
    interval_cases m <;> decide
  covered := by
    intro m hm _
    have hm2 : m < 2 := hm
    interval_cases m
    · refine ⟨0, 4, by decide, by decide, by decide, ?_⟩
      intro e he
      have he2 : e < 2 := he
      interval_cases e <;> decide
    · refine ⟨0, 4, by decide, by decide, by decide, ?_⟩
      intro e he
      have he2 : e < 2 := he
      interval_cases e <;> decide

theorem find_filter_stored_agree_witness :
    (∀ m e, m < twoBlockIndex.length → e < (twoBlockData m).length →
      filteredTable.find (keyAt (twoBlockData m) e) true false =
        filteredTable.find (keyAt (twoBlockData m) e) false false ∧
      filteredTable.find (keyAt (twoBlockData m) e) true false =
        some (foundResult filteredTable (keyAt (twoBlockData m) e)
          (valueAt (twoBlockData m) e) false, filteredTable)) ∧
    (∀ key, filteredTable.find key true false = filteredTable.find key false false ∨
      filteredTable.find key true false = some (notFoundResult, filteredTable)) :=
  find_filter_stored_agree filteredTable twoBlockIndex [0] twoBlockHandles twoBlockData
    (fun _ => [0]) filtered_valid bytesCompare_isComparer firstBytePolicy twoBlockFilter rfl
    rfl filtered_built false

end table
